import Mathlib

/-!
# gomemcache: the LRU cache engine, the header codec and the session loop

A shallow embedding of `src/memcached/lru.go`, `src/memcached/lru_cache.go`,
`src/memcached/protocol_binary.go` and `src/memcached/request_handler.go`.

* Go pointers `*Item` are addresses into an explicit heap `List Item`;
  `nil` is `none`.  Every `NewItem` allocates the next free address.
* `uint64` arithmetic is arithmetic on `Nat` modulo `U64 = 2 ^ 64`.
* A Go run-time panic (nil dereference) is the result `none`; so is the read
  of an address outside the heap, which Go's memory safety rules out.
* The loop of `evictOverflow` runs on fuel; `evictLoop_spec` shows that the
  fuel given is enough on every represented state.
* The resident entries, least recently used first, are read off the linked
  queue by `Cache.entries`; the claims are stated on the source's operations
  and observed through it.
* The mutex of `Cache` is not modelled: every operation runs atomically.
* A connection is the list of bytes still to be read, after which the stream
  ends, and the list of bytes written.  Writes succeed; logging, flushing and
  closing are not modelled.
* `encoding/binary` and `io.ReadFull` are modelled from Go's library.
-/

namespace Memcached

/-! ## Data model -/

/-- One byte of a Go byte slice or string. -/
abbrev Byte := Fin 256

/-- Modulus of Go's `uint64` arithmetic. -/
def U64 : Nat := 2 ^ 64

/-- Go's `a - b` on `uint64` (wraps around below zero). -/
def sub64 (a b : Nat) : Nat := (a + (U64 - b % U64)) % U64

/-- Go's `a + b` on `uint64` (wraps around at `2 ^ 64`). -/
def add64 (a b : Nat) : Nat := (a + b) % U64

/-- Memcache status response codes (`type Status uint16`). -/
abbrev Status := Nat

/-- The code of `STATUS_OK`. -/
def STATUS_OK : Status := 0x00

/-- The code of `STATUS_KEY_NOT_FOUND`. -/
def STATUS_KEY_NOT_FOUND : Status := 0x01

/-- The code of `STATUS_KEY_EXISTS`. -/
def STATUS_KEY_EXISTS : Status := 0x02

/-- The links of an element of the LRU queue (`type LRUElem`). -/
structure LRUElem where
  next : Option Nat
  prev : Option Nat
deriving DecidableEq, Repr

/-- A value stored in the cache (`type Item`). -/
structure Item where
  flags : List Byte
  key : List Byte
  value : List Byte
  version : Nat
  lru : LRUElem
deriving DecidableEq, Repr

/-- The LRU queue (`type LRU`): `head` is the next item to evict, `tail` the
most recently used one. -/
structure LRU where
  head : Option Nat
  tail : Option Nat
deriving DecidableEq, Repr

/-- The cache (`type Cache`), together with the heap its pointers live in.
The Go map is an association list with `List.lookup` as the map read. -/
structure Cache where
  maxBytes : Nat
  curBytes : Nat
  hashmap : List (List Byte × Nat)
  version : Nat
  lru : LRU
  heap : List Item
deriving DecidableEq, Repr

/-- The client-visible part of an item: everything but its queue links. -/
structure Entry where
  flags : List Byte
  key : List Byte
  value : List Byte
  version : Nat
deriving DecidableEq, Repr

/-- The client-visible part of an item. -/
def Item.entry (item : Item) : Entry :=
  { flags := item.flags, key := item.key, value := item.value, version := item.version }

/-! ## Heap access -/

/-- Write `item.lru.next = v` for the item at address `p`. -/
def setNext (h : List Item) (p : Nat) (v : Option Nat) : Option (List Item) :=
  match h[p]? with
  | some it => some (h.set p { it with lru := { it.lru with next := v } })
  | none => none

/-- Write `item.lru.prev = v` for the item at address `p`. -/
def setPrev (h : List Item) (p : Nat) (v : Option Nat) : Option (List Item) :=
  match h[p]? with
  | some it => some (h.set p { it with lru := { it.lru with prev := v } })
  | none => none

/-- Read `item.lru.next` at address `p`. -/
def nextOf (h : List Item) (p : Nat) : Option Nat :=
  (h[p]?).bind fun it => it.lru.next

/-- Read `item.lru.prev` at address `p`. -/
def prevOf (h : List Item) (p : Nat) : Option Nat :=
  (h[p]?).bind fun it => it.lru.prev

/-- The last two writes of `LRU.Erase`: `ix.next = nil; ix.prev = nil`. -/
def clearLinks (h : List Item) (item : Nat) : Option (List Item) :=
  (setNext h item none).bind fun h1 => setPrev h1 item none

/-! ## lru.go -/

/-- `LRU.Erase`: removes the specified item from the LRU queue.  The four
branches of the source in order; no write of a branch changes the link fields
of `item` itself, so they are read once. -/
def LRU.Erase (lru : LRU) (h : List Item) (item : Nat) : Option (LRU × List Item) :=
  match h[item]? with
  | none => none
  | some it =>
    let ix := it.lru
    let branch : Option (LRU × List Item) :=
      match ix.prev, ix.next with
      | none, none => some ({ head := none, tail := none }, h)
      | none, some n => (setPrev h n none).map fun h1 => ({ lru with tail := some n }, h1)
      | some p, none => (setNext h p none).map fun h1 => ({ lru with head := some p }, h1)
      | some p, some n =>
        ((setNext h p (some n)).bind fun h1 => setPrev h1 n (some p)).map fun h2 => (lru, h2)
    branch.bind fun r => (clearLinks r.2 item).map fun h4 => (r.1, h4)

/-- `LRU.PushBack`: pushes the specified item onto the end of the LRU queue. -/
def LRU.PushBack (lru : LRU) (h : List Item) (item : Nat) : Option (LRU × List Item) :=
  (setPrev h item none).bind fun h1 =>
  (setNext h1 item lru.tail).bind fun h2 =>
  let h3 : Option (List Item) :=
    match lru.tail with
    | some t => setPrev h2 t (some item)
    | none => some h2
  h3.map fun h4 =>
    let lru1 : LRU := { lru with tail := some item }
    (if lru1.head = none then { lru1 with head := some item } else lru1, h4)

/-- `LRU.PopFront`: removes the first item (if one exists) from the LRU queue.
The last component is the returned pointer. -/
def LRU.PopFront (lru : LRU) (h : List Item) : Option (LRU × List Item × Option Nat) :=
  match lru.head with
  | none => some (lru, h, none)
  | some item => (lru.Erase h item).map fun r => (r.1, r.2, some item)

/-! ## lru_cache.go -/

/-- `NewCache`: a new cache with the specified storage limit. -/
def NewCache (maxBytes : Nat) : Cache :=
  { maxBytes := maxBytes, curBytes := 0, hashmap := [], version := 0,
    lru := { head := none, tail := none }, heap := [] }

/-- Go's `copy(item.flags[:], flags)` into a zeroed `[4]byte`. -/
def copyFlags (flags : List Byte) : List Byte :=
  flags.take 4 ++ List.replicate (4 - flags.length) 0

/-- `NewItem`: a new item for storage in the cache. -/
def NewItem (key value flags : List Byte) (cas : Nat) : Item :=
  { flags := copyFlags flags, key := key, value := value, version := cas,
    lru := { next := none, prev := none } }

/-- The byte count `len(flags) + len(key) + len(value)` of an entry; `flags`
is a `[4]byte`, whose `len` is the constant 4. -/
def entrySize (key value : List Byte) : Nat := 4 + key.length + value.length

/-- `Item.Size`: the total size in bytes of the item, as a `uint64`. -/
def Item.Size (item : Item) : Nat := entrySize item.key item.value % U64

/-- Go's `delete(m, key)` on the map. -/
def mapDelete (key : List Byte) (m : List (List Byte × Nat)) : List (List Byte × Nat) :=
  m.filter fun e => !(e.1 == key)

/-- Go's `m[key] = p` on the map. -/
def mapSet (key : List Byte) (p : Nat) (m : List (List Byte × Nat)) : List (List Byte × Nat) :=
  (key, p) :: mapDelete key m

/-- `Cache.Get`: retrieves the specified key from the cache.  The second
component is the returned `*Item`. -/
def Cache.Get (cache : Cache) (key : List Byte) : Option (Cache × Option Nat) :=
  match cache.hashmap.lookup key with
  | some i =>
    (cache.lru.Erase cache.heap i).bind fun r1 =>
    (r1.1.PushBack r1.2 i).map fun r2 =>
      ({ cache with lru := r2.1, heap := r2.2 }, some i)
  | none => some (cache, none)

/-- The loop of `Cache.evictOverflow`, with the number of iterations bounded by
`fuel`; `none` when an iteration dereferences the nil pointer returned by
`PopFront`, or when the fuel runs out. -/
def Cache.evictLoop : Nat → Cache → Option Cache
  | 0, _ => none
  | fuel + 1, cache =>
    if cache.curBytes > cache.maxBytes then
      match cache.lru.PopFront cache.heap with
      | some (lru1, h1, some i) =>
        match h1[i]? with
        | some it =>
          Cache.evictLoop fuel
            { cache with
              lru := lru1, heap := h1,
              curBytes := sub64 cache.curBytes it.Size,
              hashmap := mapDelete it.key cache.hashmap }
        | none => none
      | _ => none
    else some cache

/-- `Cache.evictOverflow`: evicts key-value pairs in LRU order until the cache
is within the specified resource constraints.  The queue never holds more
items than the heap, so one iteration per heap cell and a final test of the
loop condition suffice. -/
def Cache.evictOverflow (cache : Cache) : Option Cache :=
  cache.evictLoop (cache.heap.length + 1)

/-- Lines 91 to 99 of `Cache.Set`: allocate the next version, store the new
item and evict. -/
def Cache.store (cache : Cache) (key value flags : List Byte) : Option (Cache × Nat × Status) :=
  let version := add64 cache.version 1
  let cas := version
  let item := cache.heap.length
  let h1 := cache.heap ++ [NewItem key value flags cas]
  let curBytes := add64 cache.curBytes (NewItem key value flags cas).Size
  (cache.lru.PushBack h1 item).bind fun r =>
    (Cache.evictOverflow
      { cache with
        version := version, curBytes := curBytes, lru := r.1, heap := r.2,
        hashmap := mapSet key item cache.hashmap }).map fun c => (c, cas, STATUS_OK)

/-- `Cache.Set`: stores the specified key in the cache. -/
def Cache.Set (cache : Cache) (key value flags : List Byte) (cas : Nat) :
    Option (Cache × Nat × Status) :=
  match cache.hashmap.lookup key with
  | some i =>
    match cache.heap[i]? with
    | none => none
    | some it =>
      if cas > 0 ∧ it.version ≠ cas then some (cache, 0, STATUS_KEY_EXISTS)
      else
        (cache.lru.Erase cache.heap i).bind fun r =>
        match r.2[i]? with
        | none => none
        | some it1 =>
          Cache.store { cache with lru := r.1, heap := r.2, curBytes := sub64 cache.curBytes it1.Size }
            key value flags
  | none =>
    if cas > 0 then some (cache, 0, STATUS_KEY_NOT_FOUND)
    else cache.store key value flags

/-- `Cache.Delete`: removes the specified key from the cache. -/
def Cache.Delete (cache : Cache) (key : List Byte) (cas : Nat) : Option (Cache × Status) :=
  match cache.hashmap.lookup key with
  | none => some (cache, STATUS_KEY_NOT_FOUND)
  | some i =>
    match cache.heap[i]? with
    | none => none
    | some it =>
      if cas > 0 ∧ it.version ≠ cas then some (cache, STATUS_KEY_EXISTS)
      else
        (cache.lru.Erase cache.heap i).map fun r =>
          ({ cache with
              curBytes := sub64 cache.curBytes it.Size, lru := r.1, heap := r.2,
              hashmap := mapDelete key cache.hashmap }, STATUS_OK)

/-! ## Observations and the representation invariant -/

/-- The client-visible part of the item at address `p`, if allocated. -/
def entryAt (h : List Item) (p : Nat) : Option Entry :=
  (h[p]?).map Item.entry

/-- The byte count of an entry, before conversion to `uint64`. -/
def Entry.size (e : Entry) : Nat := entrySize e.key e.value

/-- The byte count of the item at address `p` (0 if not allocated). -/
def sizeAt (h : List Item) (p : Nat) : Nat :=
  ((entryAt h p).map Entry.size).getD 0

/-- The key of the item at address `p`, if allocated. -/
def keyAt (h : List Item) (p : Nat) : Option (List Byte) :=
  (entryAt h p).map Entry.key

/-- The total byte count of the items at the addresses `l`. -/
def sumSizes (h : List Item) (l : List Nat) : Nat :=
  (l.map (sizeAt h)).sum

/-- Follow the `prev` links from `start` for at most `fuel` steps. -/
def walk (h : List Item) : Nat → Option Nat → List Nat
  | 0, _ => []
  | _ + 1, none => []
  | fuel + 1, some p => p :: walk h fuel (prevOf h p)

/-- The recency order of the cache: the addresses on the LRU queue from
`lru.head` (least recently used, next to evict) to `lru.tail` (most recently
used). -/
def Cache.recency (c : Cache) : List Nat :=
  walk c.heap c.heap.length c.lru.head

/-- The resident entries in recency order, least recently used first. -/
def Cache.entries (c : Cache) : List Entry :=
  c.recency.filterMap (entryAt c.heap)

/-- The pointers `l` (next to evict first) are laid out in the heap `h` as the
doubly linked queue `lru`: `next` points towards `head`, `prev` towards
`tail`. -/
structure Linked (lru : LRU) (h : List Item) (l : List Nat) : Prop where
  nodup : l.Nodup
  alloc : ∀ p ∈ l, p < h.length
  head_eq : lru.head = l.head?
  tail_eq : lru.tail = l.getLast?
  next_eq : ∀ i p, l[i]? = some p → nextOf h p = if i = 0 then none else l[i - 1]?
  prev_eq : ∀ i p, l[i]? = some p → prevOf h p = l[i + 1]?

/-- The representation invariant of the cache with queue `l`: the queue is
well linked, the map holds exactly the queued items under their own keys, and
`curBytes` is the exact byte count of the queue. -/
structure Cache.Rep (c : Cache) (l : List Nat) : Prop where
  linked : Linked c.lru c.heap l
  map_iff : ∀ k p, c.hashmap.lookup k = some p ↔ p ∈ l ∧ keyAt c.heap p = some k
  keys_nodup : (c.hashmap.map Prod.fst).Nodup
  bytes_eq : c.curBytes = sumSizes c.heap l
  bytes_lt : c.curBytes < U64
  max_lt : c.maxBytes < U64

/-- What `evictOverflow` does to a queue: drop items from the front while the
byte count of what is left exceeds `max`. -/
def evictList (size : Nat → Nat) (max : Nat) : List Nat → List Nat
  | [] => []
  | p :: l => if ((p :: l).map size).sum > max then evictList size max l else p :: l

/-- A `Set` whose byte accounting stays below `2 ^ 64`: the bytes resident
plus the bytes of the new entry. -/
def Cache.SetFits (c : Cache) (key value : List Byte) : Prop :=
  c.curBytes + entrySize key value < U64

/-- The cache states reachable from `NewCache` in `n` operations `Get`, `Set`
and `Delete`, every `Set` with `SetFits`. -/
inductive ReachableIn : Nat → Cache → Prop
  | init (m : Nat) (hm : m < U64) : ReachableIn 0 (NewCache m)
  | get {n : Nat} {c c1 : Cache} {r : Option Nat} (key : List Byte) :
      ReachableIn n c → c.Get key = some (c1, r) → ReachableIn (n + 1) c1
  | set {n : Nat} {c c1 : Cache} {r : Nat × Status} (key value flags : List Byte) (cas : Nat) :
      ReachableIn n c → c.SetFits key value → c.Set key value flags cas = some (c1, r) →
      ReachableIn (n + 1) c1
  | delete {n : Nat} {c c1 : Cache} {r : Status} (key : List Byte) (cas : Nat) :
      ReachableIn n c → c.Delete key cas = some (c1, r) → ReachableIn (n + 1) c1

/-- The cache states reachable from `NewCache`. -/
def Reachable (c : Cache) : Prop := ∃ n, ReachableIn n c

/-- The queue of `Cache.Set key` just before `evictOverflow` runs: the old
queue without the item stored under `key`, then the new item, whose address is
the next free heap cell. -/
def Cache.pending (c : Cache) (l : List Nat) (key : List Byte) : List Nat :=
  l.filter (fun q => decide (keyAt c.heap q ≠ some key)) ++ [c.heap.length]

/-- The invariant of the reachable states: a represented state within its
byte budget. -/
def Cache.Inv (c : Cache) : Prop :=
  c.Rep c.recency ∧ c.curBytes ≤ c.maxBytes

/-- What `evictOverflow` does to the resident entries: drop entries from the
least recently used end while the byte count of what is left exceeds `max`. -/
def evictEntries (max : Nat) : List Entry → List Entry
  | [] => []
  | e :: es =>
    if ((e :: es).map Entry.size).sum > max then evictEntries max es else e :: es

/-- The entries other than the one stored under `key`, in their order. -/
def dropKey (key : List Byte) (es : List Entry) : List Entry :=
  es.filter fun e => decide (e.key ≠ key)

/-! ## Runs of operations -/

/-- An operation on the cache. -/
inductive Op where
  | get (key : List Byte)
  | set (key value flags : List Byte) (cas : Nat)
  | delete (key : List Byte) (cas : Nat)
deriving DecidableEq, Repr

/-- What an operation returns to its caller. -/
inductive Reply where
  | item (p : Option Nat)
  | stored (version : Nat) (status : Status)
  | deleted (status : Status)
deriving DecidableEq, Repr

/-- Run one operation. -/
def Cache.apply (c : Cache) : Op → Option (Cache × Reply)
  | Op.get key => (c.Get key).map fun r => (r.1, Reply.item r.2)
  | Op.set key value flags cas =>
    (c.Set key value flags cas).map fun r => (r.1, Reply.stored r.2.1 r.2.2)
  | Op.delete key cas => (c.Delete key cas).map fun r => (r.1, Reply.deleted r.2)

/-- Run a sequence of operations, collecting what they return. -/
def Cache.run (c : Cache) : List Op → Option (Cache × List Reply)
  | [] => some (c, [])
  | op :: ops =>
    (c.apply op).bind fun r => (r.1.run ops).map fun rs => (rs.1, r.2 :: rs.2)

/-- An operation whose byte accounting stays below `2 ^ 64` in a cache of
budget `m`: for a `Set`, the budget plus the bytes of the new entry. -/
def Op.Fits (m : Nat) : Op → Prop
  | Op.set key value _ _ => m + entrySize key value < U64
  | _ => True

/-- Whether an operation fits is decidable. -/
instance Op.decFits (m : Nat) : DecidablePred (Op.Fits m) := fun op =>
  match op with
  | Op.get _ => isTrue trivial
  | Op.set key value _ _ => inferInstanceAs (Decidable (m + entrySize key value < U64))
  | Op.delete _ _ => isTrue trivial

/-- The versions returned by the successful `Set`s of a run, in order. -/
def okVersions : List Reply → List Nat
  | [] => []
  | Reply.stored version status :: rs =>
    if status = STATUS_OK then version :: okVersions rs else okVersions rs
  | _ :: rs => okVersions rs

/-- A sequence of `Set`s with CAS 0, as `StoreKey` in the tests, of
`(key, value, flags)` triples. -/
def Cache.setAll (c : Cache) : List (List Byte × List Byte × List Byte) → Option Cache
  | [] => some c
  | kv :: kvs => (c.Set kv.1 kv.2.1 kv.2.2 0).bind fun r => r.1.setAll kvs

/-- Whether a `Set` fits is decidable. -/
instance Cache.decSetFits (c : Cache) (key value : List Byte) : Decidable (c.SetFits key value) :=
  inferInstanceAs (Decidable (c.curBytes + entrySize key value < U64))

/-- The state of a new cache of budget `m` after the operations `ops`. -/
def stateAfter (m : Nat) (ops : List Op) : Cache :=
  (((NewCache m).run ops).map Prod.fst).getD (NewCache m)

/-! ## The data of `lru_cache_test.go` -/

/-- The bytes of `"value"`. -/
def value : List Byte := [118, 97, 108, 117, 101]

/-- The bytes of `"flag"`. -/
def flag : List Byte := [102, 108, 97, 103]

/-- The bytes of `"key1"`. -/
def key1 : List Byte := [107, 101, 121, 49]

/-- The bytes of `"key2"`. -/
def key2 : List Byte := [107, 101, 121, 50]

/-- The bytes of `"key3"`. -/
def key3 : List Byte := [107, 101, 121, 51]

/-- The bytes of `"key4"`. -/
def key4 : List Byte := [107, 101, 121, 52]

/-- The bytes of `"key5"`. -/
def key5 : List Byte := [107, 101, 121, 53]

/-- The test helper `StoreKey(c, key, value)` as an operation. -/
def StoreKey (key : List Byte) : Op := Op.set key value flag 0

/-! ## Byte accounting without wrap-around -/

/-- The byte count of the entries in the map: the sum over the map of
`4 + len(key) + len(value)` of the item each key points to. -/
def Cache.mapBytes (c : Cache) : Nat :=
  (c.hashmap.map fun e =>
    match c.heap[e.2]? with
    | some it => 4 + it.key.length + it.value.length
    | none => 0).sum

/-- Go's `a - b` on `uint64` where it does not go below zero; `none` where it
would wrap around. -/
def sub64Exact (a b : Nat) : Option Nat :=
  if b ≤ a then some (a - b) else none

/-- The loop of `Cache.evictOverflow` as `Cache.evictLoop`, with
`cache.curBytes -= i.Size()` a fault when it would wrap around. -/
def Cache.evictLoopExact : Nat → Cache → Option Cache
  | 0, _ => none
  | fuel + 1, cache =>
    if cache.curBytes > cache.maxBytes then
      match cache.lru.PopFront cache.heap with
      | some (lru1, h1, some i) =>
        match h1[i]? with
        | some it =>
          (sub64Exact cache.curBytes it.Size).bind fun curBytes =>
            Cache.evictLoopExact fuel
              { cache with
                lru := lru1, heap := h1,
                curBytes := curBytes,
                hashmap := mapDelete it.key cache.hashmap }
        | none => none
      | _ => none
    else some cache

/-- Lines 91 to 99 of `Cache.Set` as `Cache.store`, with the subtractions of
the eviction loop a fault when they would wrap around. -/
def Cache.storeExact (cache : Cache) (key value flags : List Byte) :
    Option (Cache × Nat × Status) :=
  let version := add64 cache.version 1
  let cas := version
  let item := cache.heap.length
  let h1 := cache.heap ++ [NewItem key value flags cas]
  let curBytes := add64 cache.curBytes (NewItem key value flags cas).Size
  (cache.lru.PushBack h1 item).bind fun r =>
    (Cache.evictLoopExact (r.2.length + 1)
      { cache with
        version := version, curBytes := curBytes, lru := r.1, heap := r.2,
        hashmap := mapSet key item cache.hashmap }).map fun c => (c, cas, STATUS_OK)

/-- `Cache.Set` with every `curBytes -= i.Size()` a fault when it would wrap
around. -/
def Cache.SetExact (cache : Cache) (key value flags : List Byte) (cas : Nat) :
    Option (Cache × Nat × Status) :=
  match cache.hashmap.lookup key with
  | some i =>
    match cache.heap[i]? with
    | none => none
    | some it =>
      if cas > 0 ∧ it.version ≠ cas then some (cache, 0, STATUS_KEY_EXISTS)
      else
        (cache.lru.Erase cache.heap i).bind fun r =>
        match r.2[i]? with
        | none => none
        | some it1 =>
          (sub64Exact cache.curBytes it1.Size).bind fun curBytes =>
            Cache.storeExact { cache with lru := r.1, heap := r.2, curBytes := curBytes }
              key value flags
  | none =>
    if cas > 0 then some (cache, 0, STATUS_KEY_NOT_FOUND)
    else cache.storeExact key value flags

/-- `Cache.Delete` with `curBytes -= i.Size()` a fault when it would wrap
around. -/
def Cache.DeleteExact (cache : Cache) (key : List Byte) (cas : Nat) : Option (Cache × Status) :=
  match cache.hashmap.lookup key with
  | none => some (cache, STATUS_KEY_NOT_FOUND)
  | some i =>
    match cache.heap[i]? with
    | none => none
    | some it =>
      if cas > 0 ∧ it.version ≠ cas then some (cache, STATUS_KEY_EXISTS)
      else
        (sub64Exact cache.curBytes it.Size).bind fun curBytes =>
          (cache.lru.Erase cache.heap i).map fun r =>
            ({ cache with
                curBytes := curBytes, lru := r.1, heap := r.2,
                hashmap := mapDelete key cache.hashmap }, STATUS_OK)

/-! ## protocol_binary.go -/

/-- `MAX_VALUE_SIZE`: the largest key-value pair we will store. -/
def MAX_VALUE_SIZE : Nat := 1024 * 1024

/-- The command `CMD_GET`. -/
def CMD_GET : Nat := 0x00

/-- The command `CMD_SET`. -/
def CMD_SET : Nat := 0x01

/-- The command `CMD_DELETE`. -/
def CMD_DELETE : Nat := 0x04

/-- The code of `STATUS_VALUE_TOO_LARGE`. -/
def STATUS_VALUE_TOO_LARGE : Status := 0x03

/-- The code of `STATUS_INVALID_ARGUMENT`. -/
def STATUS_INVALID_ARGUMENT : Status := 0x04

/-- The code of `STATUS_UNKNOWN_COMMAND`. -/
def STATUS_UNKNOWN_COMMAND : Status := 0x81

/-- `MSG_REQUEST`: the magic code for memcache request type. -/
def MSG_REQUEST : Nat := 0x80

/-- `MSG_RESPONSE`: the magic code for memcache response type. -/
def MSG_RESPONSE : Nat := 0x81

/-- `HEADER_SIZE`: the size in bytes of a memcache header. -/
def HEADER_SIZE : Nat := 24

/-- A memcache request/response header (`type Header`).  The fields are the
values of Go's `uint8`, `uint16`, `uint32` and `uint64`; see
`Header.InRange`. -/
structure Header where
  Magic : Nat
  Opcode : Nat
  KeyLength : Nat
  ExtrasLength : Nat
  DataType : Nat
  Status : Nat
  TotalLength : Nat
  Opaque : Nat
  Cas : Nat
deriving DecidableEq, Repr

/-- The fields of a header are within their Go types: `uint8` for `Magic`,
`Opcode`, `ExtrasLength` and `DataType`, `uint16` for `KeyLength` and
`Status`, `uint32` for `TotalLength` and `Opaque`, `uint64` for `Cas`. -/
def Header.InRange (hdr : Header) : Prop :=
  hdr.Magic < 2 ^ 8 ∧ hdr.Opcode < 2 ^ 8 ∧ hdr.KeyLength < 2 ^ 16 ∧ hdr.ExtrasLength < 2 ^ 8 ∧
    hdr.DataType < 2 ^ 8 ∧ hdr.Status < 2 ^ 16 ∧ hdr.TotalLength < 2 ^ 32 ∧
    hdr.Opaque < 2 ^ 32 ∧ hdr.Cas < 2 ^ 64

/-- Whether a header is in range is decidable. -/
instance Header.decInRange (hdr : Header) : Decidable hdr.InRange :=
  inferInstanceAs (Decidable
    (hdr.Magic < 2 ^ 8 ∧ hdr.Opcode < 2 ^ 8 ∧ hdr.KeyLength < 2 ^ 16 ∧ hdr.ExtrasLength < 2 ^ 8 ∧
      hdr.DataType < 2 ^ 8 ∧ hdr.Status < 2 ^ 16 ∧ hdr.TotalLength < 2 ^ 32 ∧
      hdr.Opaque < 2 ^ 32 ∧ hdr.Cas < 2 ^ 64))

/-- The errors a header read returns: `io.EOF`, `io.ErrUnexpectedEOF` and the
repository's `HeaderParseError`. -/
inductive GoError where
  | EOF
  | ErrUnexpectedEOF
  | HeaderParseError
deriving DecidableEq, Repr

/-- Go's conversion `byte(v)` (or `uint8(v)`): the low eight bits. -/
def toByte (v : Nat) : Byte := ⟨v % 256, Nat.mod_lt v (by decide)⟩

/-- Go's `buf[off] = b0; buf[off+1] = b1; ...`: a run-time panic (`none`) when
the bytes do not fit the buffer. -/
def writeAt (buf : List Byte) (off : Nat) (bytes : List Byte) : Option (List Byte) :=
  if off + bytes.length ≤ buf.length then
    some (buf.take off ++ bytes ++ buf.drop (off + bytes.length))
  else none

/-- The bytes `binary.BigEndian.PutUint16` writes:
`b[0] = byte(v >> 8); b[1] = byte(v)`. -/
def PutUint16 (v : Nat) : List Byte :=
  [toByte (v / 2 ^ 8), toByte v]

/-- The bytes `binary.BigEndian.PutUint32` writes:
`b[0] = byte(v >> 24)`, ..., `b[3] = byte(v)`. -/
def PutUint32 (v : Nat) : List Byte :=
  [toByte (v / 2 ^ 24), toByte (v / 2 ^ 16), toByte (v / 2 ^ 8), toByte v]

/-- The bytes `binary.BigEndian.PutUint64` writes:
`b[0] = byte(v >> 56)`, ..., `b[7] = byte(v)`. -/
def PutUint64 (v : Nat) : List Byte :=
  [toByte (v / 2 ^ 56), toByte (v / 2 ^ 48), toByte (v / 2 ^ 40), toByte (v / 2 ^ 32),
    toByte (v / 2 ^ 24), toByte (v / 2 ^ 16), toByte (v / 2 ^ 8), toByte v]

/-- Go's `buf[i]` as a number: a run-time panic (`none`) out of range. -/
def byteAt (buf : List Byte) (i : Nat) : Option Nat :=
  (buf[i]?).map fun b => b.val

/-- `binary.BigEndian.Uint16`: `uint16(b[1]) | uint16(b[0])<<8`. -/
def Uint16 (b : List Byte) : Option Nat :=
  match b with
  | b0 :: b1 :: _ => some (b1.val + b0.val * 2 ^ 8)
  | _ => none

/-- `binary.BigEndian.Uint32`:
`uint32(b[3]) | uint32(b[2])<<8 | uint32(b[1])<<16 | uint32(b[0])<<24`. -/
def Uint32 (b : List Byte) : Option Nat :=
  match b with
  | b0 :: b1 :: b2 :: b3 :: _ =>
    some (b3.val + b2.val * 2 ^ 8 + b1.val * 2 ^ 16 + b0.val * 2 ^ 24)
  | _ => none

/-- `binary.BigEndian.Uint64`: `uint64(b[7]) | uint64(b[6])<<8 | ... |
uint64(b[0])<<56`. -/
def Uint64 (b : List Byte) : Option Nat :=
  match b with
  | b0 :: b1 :: b2 :: b3 :: b4 :: b5 :: b6 :: b7 :: _ =>
    some (b7.val + b6.val * 2 ^ 8 + b5.val * 2 ^ 16 + b4.val * 2 ^ 24 + b3.val * 2 ^ 32 +
      b2.val * 2 ^ 40 + b1.val * 2 ^ 48 + b0.val * 2 ^ 56)
  | _ => none

/-- Go's `io.ReadFull(conn, buf)` with `len(buf) = n` on a stream that ends
after the bytes `conn`: the bytes read, the bytes left on the stream and the
error, which is `io.EOF` if no byte was read and `io.ErrUnexpectedEOF` if the
stream ended after some but not all of the `n` bytes. -/
def ReadFull (conn : List Byte) (n : Nat) : List Byte × List Byte × Option GoError :=
  if n ≤ conn.length then (conn.take n, conn.drop n, none)
  else if conn = [] then ([], [], some GoError.EOF)
  else (conn, [], some GoError.ErrUnexpectedEOF)

/-- `Header.CheckValidRequest`: checks a memcache header is a valid request
header.  The sum is a sum of `uint32`. -/
def Header.CheckValidRequest (hdr : Header) : Option GoError :=
  if hdr.Magic ≠ MSG_REQUEST then some GoError.HeaderParseError
  else if (hdr.KeyLength % 2 ^ 32 + hdr.ExtrasLength % 2 ^ 32) % 2 ^ 32 > hdr.TotalLength then
    some GoError.HeaderParseError
  else none

/-- Go's `a - b` on `uint32` (wraps around below zero). -/
def sub32 (a b : Nat) : Nat := (a + (2 ^ 32 - b % 2 ^ 32)) % 2 ^ 32

/-- `Header.BodyLength`: the expected body length of a memcache request,
`hdr.TotalLength - (uint32)(hdr.ExtrasLength) - (uint32)(hdr.KeyLength)`. -/
def Header.BodyLength (hdr : Header) : Nat :=
  sub32 (sub32 hdr.TotalLength (hdr.ExtrasLength % 2 ^ 32)) (hdr.KeyLength % 2 ^ 32)

/-- `Header.ReadRequest`: reads a memcache request header from a stream.  The
result is the receiving header after the call, the bytes left on the stream
and the error returned. -/
def Header.ReadRequest (hdr : Header) (conn : List Byte) :
    Option (Header × List Byte × Option GoError) :=
  let r := ReadFull conn HEADER_SIZE
  match r.2.2 with
  | some err => some (hdr, r.2.1, some err)
  | none =>
    let buf := r.1
    (byteAt buf 0).bind fun magic =>
    (byteAt buf 1).bind fun opcode =>
    (Uint16 (buf.drop 2)).bind fun keyLength =>
    (byteAt buf 4).bind fun extrasLength =>
    (byteAt buf 5).bind fun dataType =>
    (Uint16 (buf.drop 6)).bind fun status =>
    (Uint32 (buf.drop 8)).bind fun totalLength =>
    (Uint32 (buf.drop 12)).bind fun opaq =>
    (Uint64 (buf.drop 16)).map fun cas =>
      let hdr1 : Header :=
        { hdr with
          Magic := magic, Opcode := opcode, KeyLength := keyLength,
          ExtrasLength := extrasLength, DataType := dataType, Status := status,
          TotalLength := totalLength, Opaque := opaq, Cas := cas }
      (hdr1, r.2.1, hdr1.CheckValidRequest)

/-- `NewResponse`: creates a Memcache response message header.  The lengths
are converted to `uint16`, `uint8` and `uint32`, the status to `uint16`. -/
def NewResponse (command : Nat) (status : Status) (key value extras : List Byte)
    (opaq : Nat) (version : Nat) : Header :=
  { Magic := MSG_RESPONSE,
    Opcode := command,
    KeyLength := key.length % 2 ^ 16,
    ExtrasLength := extras.length % 2 ^ 8,
    DataType := 0,
    Status := status % 2 ^ 16,
    TotalLength := (value.length + extras.length + key.length) % 2 ^ 32,
    Opaque := opaq,
    Cas := version }

/-- `Header.Serialize`: writes the header out to the buffer provided. -/
def Header.Serialize (hdr : Header) (buf : List Byte) : Option (List Byte) :=
  (writeAt buf 0 [toByte hdr.Magic]).bind fun b1 =>
  (writeAt b1 1 [toByte hdr.Opcode]).bind fun b2 =>
  (writeAt b2 2 (PutUint16 hdr.KeyLength)).bind fun b3 =>
  (writeAt b3 4 [toByte hdr.ExtrasLength]).bind fun b4 =>
  (writeAt b4 5 [toByte hdr.DataType]).bind fun b5 =>
  (writeAt b5 6 (PutUint16 hdr.Status)).bind fun b6 =>
  (writeAt b6 8 (PutUint32 hdr.TotalLength)).bind fun b7 =>
  (writeAt b7 12 (PutUint32 hdr.Opaque)).bind fun b8 =>
  writeAt b8 16 (PutUint64 hdr.Cas)

/-- `Header.WriteTo`: writes out a memcache header; `conn` is what has been
written to the connection so far.  Writes to the connection succeed. -/
def Header.WriteTo (hdr : Header) (conn : List Byte) : Option (List Byte) :=
  (hdr.Serialize (List.replicate HEADER_SIZE 0)).map fun buf => conn ++ buf

/-- `WriteResponse`: writes out a complete memcache response: the header, then
the extras, the key and the value that are not nil.  A nil slice is the empty
list: writing an empty slice writes nothing.  Writes to the connection succeed,
so the error returned is nil and is left out. -/
def WriteResponse (conn : List Byte) (hdr : Header) (extras key value : List Byte) :
    Option (List Byte) :=
  (hdr.WriteTo conn).map fun c1 => c1 ++ extras ++ key ++ value

/-! ## request_handler.go -/

/-- A connection with a single memcache client (`type ClientConn`): the cache,
the bytes the client has sent that the session has not read yet (the stream
ends after them), and the bytes the session has written. -/
structure ClientConn where
  cache : Cache
  input : List Byte
  output : List Byte
deriving DecidableEq, Repr

/-- Go's `b[:n]`: a run-time panic (`none`) when `n` exceeds the length. -/
def sliceTo (b : List Byte) (n : Nat) : Option (List Byte) :=
  if n ≤ b.length then some (b.take n) else none

/-- Go's `b[n:]`: a run-time panic (`none`) when `n` exceeds the length. -/
def sliceFrom (b : List Byte) (n : Nat) : Option (List Byte) :=
  if n ≤ b.length then some (b.drop n) else none

/-- Write the response with an empty payload and CAS 0 that the handlers send
on an error: `NewResponse(req.Opcode, status, nil, nil, nil, req.Opaque, 0)`
and `WriteResponse(client.bio, &resp, nil, nil, nil)`. -/
def ClientConn.respond (client : ClientConn) (req : Header) (status : Status) (version : Nat) :
    Option ClientConn :=
  (WriteResponse client.output (NewResponse req.Opcode status [] [] [] req.Opaque version)
    [] [] []).map fun out => { client with output := out }

/-- `ClientConn.handleGet`: handles the memcache get command. -/
def ClientConn.handleGet (client : ClientConn) (req : Header) (extras key value : List Byte) :
    Option ClientConn :=
  if extras.length ≠ 0 ∨ value.length ≠ 0 then
    client.respond req STATUS_INVALID_ARGUMENT 0
  else
    (client.cache.Get key).bind fun r =>
      match r.2 with
      | none => ClientConn.respond { client with cache := r.1 } req STATUS_KEY_NOT_FOUND 0
      | some item =>
        match r.1.heap[item]? with
        | none => none
        | some it =>
          (WriteResponse client.output
            (NewResponse req.Opcode STATUS_OK [] it.value it.flags req.Opaque it.version)
            it.flags [] it.value).map fun out =>
              { client with cache := r.1, output := out }

/-- `ClientConn.handleSet`: handles the memcache set command. -/
def ClientConn.handleSet (client : ClientConn) (req : Header) (extras key value : List Byte) :
    Option ClientConn :=
  if extras.length ≠ 8 ∨ value.length = 0 then
    client.respond req STATUS_INVALID_ARGUMENT 0
  else
    (client.cache.Set key value (extras.take 4) req.Cas).bind fun r =>
      ClientConn.respond { client with cache := r.1 } req r.2.2 r.2.1

/-- `ClientConn.handleDelete`: handles the memcache delete command. -/
def ClientConn.handleDelete (client : ClientConn) (req : Header) (extras key value : List Byte) :
    Option ClientConn :=
  if extras.length ≠ 0 ∨ value.length ≠ 0 then
    client.respond req STATUS_INVALID_ARGUMENT 0
  else
    (client.cache.Delete key req.Cas).bind fun r =>
      ClientConn.respond { client with cache := r.1 } req r.2 0

/-- One pass of the `for` loop of `ClientConn.Run` with the loop variable
`req`: the connection and `req` after the pass, and whether the loop goes on
(`false` where the source returns). -/
def ClientConn.iteration (client : ClientConn) (req : Header) :
    Option (ClientConn × Header × Bool) :=
  (req.ReadRequest client.input).bind fun r =>
    let req1 := r.1
    let client1 : ClientConn := { client with input := r.2.1 }
    match r.2.2 with
    | some _ => some (client1, req1, false)
    | none =>
      if req1.TotalLength > MAX_VALUE_SIZE then
        (client1.respond req1 STATUS_VALUE_TOO_LARGE 0).map fun c => (c, req1, false)
      else
        let b := ReadFull client1.input req1.TotalLength
        let client2 : ClientConn := { client1 with input := b.2.1 }
        match b.2.2 with
        | some _ => some (client2, req1, false)
        | none =>
          let body := b.1
          (sliceTo body req1.ExtrasLength).bind fun extras =>
          ((sliceFrom body req1.ExtrasLength).bind fun t => sliceTo t req1.KeyLength).bind fun key =>
          ((sliceFrom body req1.ExtrasLength).bind fun t =>
              sliceFrom t req1.KeyLength).bind fun value =>
            let handled : Option ClientConn :=
              if req1.Opcode = CMD_GET then client2.handleGet req1 extras key value
              else if req1.Opcode = CMD_SET then client2.handleSet req1 extras key value
              else if req1.Opcode = CMD_DELETE then client2.handleDelete req1 extras key value
              else client2.respond req1 STATUS_UNKNOWN_COMMAND 0
            handled.map fun c => (c, req1, true)

/-- The `for` loop of `ClientConn.Run` on fuel. -/
def ClientConn.loop : Nat → ClientConn → Header → Option ClientConn
  | 0, _, _ => none
  | fuel + 1, client, req =>
    (client.iteration req).bind fun r =>
      if r.2.2 then ClientConn.loop fuel r.1 r.2.1 else some r.1

/-- The zero value of `Header`, the initial value of `var req Header`. -/
def Header.zero : Header :=
  { Magic := 0, Opcode := 0, KeyLength := 0, ExtrasLength := 0, DataType := 0, Status := 0,
    TotalLength := 0, Opaque := 0, Cas := 0 }

/-- `ClientConn.Run`: processes a client connection for incoming requests
until the loop returns.  Every pass that goes on has read a header of 24
bytes, so one pass per byte of input and one more are enough. -/
def ClientConn.Run (client : ClientConn) : Option ClientConn :=
  ClientConn.loop (client.input.length + 1) client Header.zero

/-! ## The header layout of the specification -/

/-- The `n` bytes of `v`, most significant byte first. -/
def beBytes : Nat → Nat → List Byte
  | 0, _ => []
  | n + 1, v => toByte (v / 256 ^ n) :: beBytes n v

/-- The number a run of bytes stands for, most significant byte first. -/
def beValue (bytes : List Byte) : Nat :=
  bytes.foldl (fun acc b => acc * 256 + b.val) 0

/-- The bytes `off` to `off + n - 1` of a buffer. -/
def segment (b : List Byte) (off n : Nat) : List Byte :=
  (b.drop off).take n

/-- The 24-byte big-endian layout of the specification's table: magic at
offset 0, opcode at 1, key length at 2-3, extras length at 4, data type at 5,
status at 6-7, total body length at 8-11, opaque at 12-15, CAS at 16-23. -/
def encodeHeader (h : Header) : List Byte :=
  beBytes 1 h.Magic ++ beBytes 1 h.Opcode ++ beBytes 2 h.KeyLength ++
    beBytes 1 h.ExtrasLength ++ beBytes 1 h.DataType ++ beBytes 2 h.Status ++
    beBytes 4 h.TotalLength ++ beBytes 4 h.Opaque ++ beBytes 8 h.Cas

/-- Reading the layout of the specification's table field by field off 24
bytes. -/
def decodeHeader (b : List Byte) : Option Header :=
  if b.length = 24 then
    some
      { Magic := beValue (segment b 0 1),
        Opcode := beValue (segment b 1 1),
        KeyLength := beValue (segment b 2 2),
        ExtrasLength := beValue (segment b 4 1),
        DataType := beValue (segment b 5 1),
        Status := beValue (segment b 6 2),
        TotalLength := beValue (segment b 8 4),
        Opaque := beValue (segment b 12 4),
        Cas := beValue (segment b 16 8) }
  else none

/-! ## The queue read from its other end, and the steps of `Cache.Set` -/

/-- Follow the `next` links from `start` for at most `fuel` steps. -/
def walkNext (h : List Item) : Nat → Option Nat → List Nat
  | 0, _ => []
  | _ + 1, none => []
  | fuel + 1, some p => p :: walkNext h fuel (nextOf h p)

/-- The addresses on the LRU queue read from `lru.tail` (most recently used)
along the `next` links to `lru.head`. -/
def Cache.recencyFromTail (c : Cache) : List Nat :=
  walkNext c.heap c.heap.length c.lru.tail

/-- The body of the loop of `Cache.evictOverflow`:
`i := cache.lru.PopFront(); cache.curBytes -= i.Size();
delete(cache.hashmap, i.key)`; `none` when `i` is nil. -/
def Cache.evictBody (cache : Cache) : Option Cache :=
  match cache.lru.PopFront cache.heap with
  | some (lru1, h1, some i) =>
    match h1[i]? with
    | some it =>
      some { cache with
        lru := lru1, heap := h1,
        curBytes := sub64 cache.curBytes it.Size,
        hashmap := mapDelete it.key cache.hashmap }
    | none => none
  | _ => none

/-- Lines 91 to 98 of `Cache.Set`, up to the call of `evictOverflow`: the
state in which the eviction loop is entered. -/
def Cache.beforeEvict (cache : Cache) (key value flags : List Byte) : Option Cache :=
  let version := add64 cache.version 1
  let cas := version
  let item := cache.heap.length
  let h1 := cache.heap ++ [NewItem key value flags cas]
  let curBytes := add64 cache.curBytes (NewItem key value flags cas).Size
  (cache.lru.PushBack h1 item).map fun r =>
    { cache with
      version := version, curBytes := curBytes, lru := r.1, heap := r.2,
      hashmap := mapSet key item cache.hashmap }

/-! ## Heap-level behaviour of the queue operations -/

/-- The effect of a successful `setNext` on the heap observations. -/
theorem setNext_spec (h : List Item) (p : Nat) (v : Option Nat) (hp : p < h.length) :
    ∃ h1, setNext h p v = some h1 ∧ h1.length = h.length ∧
      h1.map Item.entry = h.map Item.entry ∧
      (∀ q, nextOf h1 q = if q = p then v else nextOf h q) ∧
      (∀ q, prevOf h1 q = prevOf h q) := by
  have hget : h[p]? = some h[p] := List.getElem?_eq_getElem hp
  refine ⟨h.set p { h[p] with lru := { h[p].lru with next := v } }, ?_, ?_, ?_, ?_, ?_⟩
  · simp [setNext, hget]
  · simp
  · apply List.ext_getElem? 
    intro q
    simp only [List.getElem?_map, List.getElem?_set]
    by_cases hq : p = q
    · subst hq; simp [hp, hget, Item.entry]
    · simp [hq]
  · intro q
    simp only [nextOf, List.getElem?_set]
    by_cases hq : q = p
    · subst hq; simp [hp]
    · have : ¬ p = q := fun e => hq e.symm
      simp [hq, this]
  · intro q
    simp only [prevOf, List.getElem?_set]
    by_cases hq : p = q
    · subst hq; simp [hp, hget]
    · simp [hq]

/-- The effect of a successful `setPrev` on the heap observations. -/
theorem setPrev_spec (h : List Item) (p : Nat) (v : Option Nat) (hp : p < h.length) :
    ∃ h1, setPrev h p v = some h1 ∧ h1.length = h.length ∧
      h1.map Item.entry = h.map Item.entry ∧
      (∀ q, prevOf h1 q = if q = p then v else prevOf h q) ∧
      (∀ q, nextOf h1 q = nextOf h q) := by
  have hget : h[p]? = some h[p] := List.getElem?_eq_getElem hp
  refine ⟨h.set p { h[p] with lru := { h[p].lru with prev := v } }, ?_, ?_, ?_, ?_, ?_⟩
  · simp [setPrev, hget]
  · simp
  · apply List.ext_getElem? 
    intro q
    simp only [List.getElem?_map, List.getElem?_set]
    by_cases hq : p = q
    · subst hq; simp [hp, hget, Item.entry]
    · simp [hq]
  · intro q
    simp only [prevOf, List.getElem?_set]
    by_cases hq : q = p
    · subst hq; simp [hp]
    · have : ¬ p = q := fun e => hq e.symm
      simp [hq, this]
  · intro q
    simp only [nextOf, List.getElem?_set]
    by_cases hq : p = q
    · subst hq; simp [hp, hget]
    · simp [hq]

/-- Clearing both links of an allocated item. -/
theorem clearLinks_spec (h : List Item) (p : Nat) (hp : p < h.length) :
    ∃ h1, clearLinks h p = some h1 ∧
      h1.length = h.length ∧ h1.map Item.entry = h.map Item.entry ∧
      (∀ q, nextOf h1 q = if q = p then none else nextOf h q) ∧
      (∀ q, prevOf h1 q = if q = p then none else prevOf h q) := by
  obtain ⟨h3, e3, l3, d3, n3, p3⟩ := setNext_spec h p none hp
  obtain ⟨h4, e4, l4, d4, p4, n4⟩ := setPrev_spec h3 p none (l3 ▸ hp)
  refine ⟨h4, by simp [clearLinks, e3, e4], by omega, by rw [d4, d3], ?_, ?_⟩
  · intro q; rw [n4, n3]
  · intro q; rw [p4, p3]

/-- `LRU.Erase` on an allocated item whose neighbours are allocated and differ
from it: the new queue ends and the new links of every heap cell. -/
theorem Erase_spec (lru : LRU) (h : List Item) (p : Nat) (hp : p < h.length)
    (hn : ∀ q, nextOf h p = some q → q < h.length ∧ q ≠ p)
    (hv : ∀ q, prevOf h p = some q → q < h.length ∧ q ≠ p) :
    ∃ lru1 h1, lru.Erase h p = some (lru1, h1) ∧ h1.length = h.length ∧
      h1.map Item.entry = h.map Item.entry ∧
      lru1.head = (if nextOf h p = none then prevOf h p else lru.head) ∧
      lru1.tail = (if prevOf h p = none then nextOf h p else lru.tail) ∧
      (∀ q, nextOf h1 q =
        if q = p then none else if prevOf h p = some q then nextOf h p else nextOf h q) ∧
      (∀ q, prevOf h1 q =
        if q = p then none else if nextOf h p = some q then prevOf h p else prevOf h q) := by
  have hget : h[p]? = some h[p] := List.getElem?_eq_getElem hp
  have hnx : nextOf h p = h[p].lru.next := by simp [nextOf, hget]
  have hpv : prevOf h p = h[p].lru.prev := by simp [prevOf, hget]
  rw [hnx] at hn
  rw [hpv] at hv
  simp only [hnx, hpv]
  unfold LRU.Erase
  simp only [hget]
  rcases hb : h[p].lru.prev with _ | a <;> rcases hc : h[p].lru.next with _ | b
  · -- only element in lru
    obtain ⟨h1, e1, l1, d1, n1, p1⟩ := clearLinks_spec h p hp
    refine ⟨⟨none, none⟩, h1, by simp [e1], l1, d1, by simp, by simp, ?_, ?_⟩
    · intro q; rw [n1]; simp
    · intro q; rw [p1]; simp
  · -- end of lru
    obtain ⟨hb1, hb2⟩ := hn b hc
    obtain ⟨h0, e0, l0, d0, p0, n0⟩ := setPrev_spec h b none hb1
    obtain ⟨h1, e1, l1, d1, n1, p1⟩ := clearLinks_spec h0 p (l0 ▸ hp)
    refine ⟨⟨lru.head, some b⟩, h1, by simp [e0, e1], by omega, by rw [d1, d0], by simp, by simp,
      ?_, ?_⟩
    · intro q; rw [n1, n0]; simp
    · intro q; rw [p1, p0]
      by_cases hq : q = p
      · simp [hq]
      · by_cases hq2 : q = b
        · simp [hq, hq2]
        · have : ¬ b = q := fun e => hq2 e.symm
          simp [hq, hq2, this]
  · -- front of lru
    obtain ⟨ha1, ha2⟩ := hv a hb
    obtain ⟨h0, e0, l0, d0, n0, p0⟩ := setNext_spec h a none ha1
    obtain ⟨h1, e1, l1, d1, n1, p1⟩ := clearLinks_spec h0 p (l0 ▸ hp)
    refine ⟨⟨some a, lru.tail⟩, h1, by simp [e0, e1], by omega, by rw [d1, d0], by simp, by simp,
      ?_, ?_⟩
    · intro q; rw [n1, n0]
      by_cases hq : q = p
      · simp [hq]
      · by_cases hq2 : q = a
        · simp [hq, hq2]
        · have : ¬ a = q := fun e => hq2 e.symm
          simp [hq, hq2, this]
    · intro q; rw [p1, p0]; simp
  · -- middle of lru
    obtain ⟨ha1, ha2⟩ := hv a hb
    obtain ⟨hb1, hb2⟩ := hn b hc
    obtain ⟨h0, e0, l0, d0, n0, p0⟩ := setNext_spec h a (some b) ha1
    obtain ⟨h0', e0', l0', d0', p0', n0'⟩ := setPrev_spec h0 b (some a) (l0 ▸ hb1)
    obtain ⟨h1, e1, l1, d1, n1, p1⟩ := clearLinks_spec h0' p (l0' ▸ l0 ▸ hp)
    refine ⟨lru, h1, by simp [e0, e0', e1], by omega, by rw [d1, d0', d0], by simp, by simp,
      ?_, ?_⟩
    · intro q; rw [n1, n0', n0]
      by_cases hq : q = p
      · simp [hq]
      · by_cases hq2 : q = a
        · simp [hq, hq2]
        · have : ¬ a = q := fun e => hq2 e.symm
          simp [hq, hq2, this]
    · intro q; rw [p1, p0', p0]
      by_cases hq : q = p
      · simp [hq]
      · by_cases hq2 : q = b
        · simp [hq, hq2]
        · have : ¬ b = q := fun e => hq2 e.symm
          simp [hq, hq2, this]

/-- `LRU.PushBack` of an allocated item that is not the current tail: the new
queue ends and the new links of every heap cell. -/
theorem PushBack_spec (lru : LRU) (h : List Item) (p : Nat) (hp : p < h.length)
    (ht : ∀ t, lru.tail = some t → t < h.length ∧ t ≠ p) :
    ∃ lru1 h1, lru.PushBack h p = some (lru1, h1) ∧ h1.length = h.length ∧
      h1.map Item.entry = h.map Item.entry ∧
      lru1.head = (if lru.head = none then some p else lru.head) ∧
      lru1.tail = some p ∧
      (∀ q, nextOf h1 q = if q = p then lru.tail else nextOf h q) ∧
      (∀ q, prevOf h1 q =
        if q = p then none else if lru.tail = some q then some p else prevOf h q) := by
  obtain ⟨h1, e1, l1, d1, p1, n1⟩ := setPrev_spec h p none hp
  obtain ⟨h2, e2, l2, d2, n2, p2⟩ := setNext_spec h1 p lru.tail (l1 ▸ hp)
  unfold LRU.PushBack
  simp only [e1, e2, Option.some_bind]
  rcases htl : lru.tail with _ | t
  · refine ⟨if lru.head = none then ⟨some p, some p⟩ else ⟨lru.head, some p⟩, h2, by simp,
      by omega, by rw [d2, d1], ?_, ?_, ?_, ?_⟩
    · by_cases hh : lru.head = none <;> simp [hh]
    · by_cases hh : lru.head = none <;> simp [hh]
    · intro q; rw [n2, n1, htl]
    · intro q; rw [p2, p1]; simp
  · obtain ⟨ht1, ht2⟩ := ht t htl
    obtain ⟨h3, e3, l3, d3, p3, n3⟩ := setPrev_spec h2 t (some p) (l2 ▸ l1 ▸ ht1)
    refine ⟨if lru.head = none then ⟨some p, some p⟩ else ⟨lru.head, some p⟩, h3, by simp [e3],
      by omega, by rw [d3, d2, d1], ?_, ?_, ?_, ?_⟩
    · by_cases hh : lru.head = none <;> simp [hh]
    · by_cases hh : lru.head = none <;> simp [hh]
    · intro q; rw [n3, n2, n1, htl]
    · intro q; rw [p3, p2, p1]
      by_cases hq : q = p
      · subst hq
        have : ¬ q = t := fun e => ht2 e.symm
        simp [this]
      · by_cases hq2 : q = t
        · simp [hq2, ht2]
        · have : ¬ t = q := fun e => hq2 e.symm
          simp [hq, hq2, this]

/-! ## The queue operations on a well-linked queue -/

/-- In a duplicate-free list an element has one position. -/
theorem idx_unique {l : List Nat} (hl : l.Nodup) {i j q : Nat}
    (hi : l[i]? = some q) (hj : l[j]? = some q) : i = j := by
  have hi' : i < l.length := by
    rcases List.getElem?_eq_some.mp hi with ⟨h, -⟩; exact h
  exact List.getElem?_inj hi' hl (hi.trans hj.symm)

/-- A position that holds an element is within the list. -/
theorem getElem?_lt {l : List Nat} {i q : Nat} (hi : l[i]? = some q) : i < l.length := by
  rcases List.getElem?_eq_some.mp hi with ⟨h, -⟩; exact h

/-- An element read at a position is a member. -/
theorem getElem?_mem' {l : List Nat} {i q : Nat} (hi : l[i]? = some q) : q ∈ l :=
  List.mem_iff_getElem?.mpr ⟨i, hi⟩

/-- `LRU.Erase` of a queued item succeeds and yields the queue without it. -/
theorem Linked_erase {lru : LRU} {h : List Item} {l : List Nat} (hl : Linked lru h l)
    {p : Nat} (hp : p ∈ l) :
    ∃ lru1 h1, lru.Erase h p = some (lru1, h1) ∧ h1.length = h.length ∧
      h1.map Item.entry = h.map Item.entry ∧ Linked lru1 h1 (l.erase p) := by
  obtain ⟨j, hj⟩ := List.mem_iff_getElem?.mp hp
  have hjl : j < l.length := getElem?_lt hj
  have hnx := hl.next_eq j p hj
  have hpv := hl.prev_eq j p hj
  have hpj : l[j] = p := by
    rcases List.getElem?_eq_some.mp hj with ⟨_, e⟩; exact e
  have herase : l.erase p = l.eraseIdx j := by
    rw [← hpj]; exact hl.nodup.erase_getElem j hjl
  have hn : ∀ q, nextOf h p = some q → q < h.length ∧ q ≠ p := by
    intro q hq
    rw [hnx] at hq
    by_cases h0 : j = 0
    · simp [h0] at hq
    · simp only [h0, if_false] at hq
      refine ⟨hl.alloc q (getElem?_mem' hq), ?_⟩
      intro e; subst e
      have := idx_unique hl.nodup hq hj
      omega
  have hv : ∀ q, prevOf h p = some q → q < h.length ∧ q ≠ p := by
    intro q hq
    rw [hpv] at hq
    refine ⟨hl.alloc q (getElem?_mem' hq), ?_⟩
    intro e; subst e
    have := idx_unique hl.nodup hq hj
    omega
  obtain ⟨lru1, h1, e1, len1, d1, hd1, tl1, n1, p1⟩ := Erase_spec lru h p (hl.alloc p hp) hn hv
  refine ⟨lru1, h1, e1, len1, d1, ?_⟩
  rw [herase]
  have hget : ∀ i, (l.eraseIdx j)[i]? = if i < j then l[i]? else l[i + 1]? :=
    fun i => List.getElem?_eraseIdx l j i
  have hlen : (l.eraseIdx j).length = l.length - 1 := by
    rw [List.length_eraseIdx]; simp [hjl]
  have hnd : (l.eraseIdx j).Nodup := by
    rw [← herase]; exact hl.nodup.erase p
  have hne : ∀ q, q ∈ l.eraseIdx j → q ≠ p ∧ q ∈ l := by
    intro q hq
    rw [← herase] at hq
    exact (hl.nodup.mem_erase_iff).mp hq
  constructor
  · exact hnd
  · intro q hq
    rw [len1]
    exact hl.alloc q (hne q hq).2
  · -- head
    rw [hd1, List.head?_eq_getElem?, hget 0, hnx, hpv]
    by_cases h0 : j = 0
    · subst h0; simp
    · have hj1 : j - 1 < l.length := by omega
      have : l[j - 1]? ≠ none := by
        rw [List.getElem?_eq_getElem hj1]; simp
      have hpos : 0 < j := by omega
      simp [h0, this, hpos, hl.head_eq, List.head?_eq_getElem?]
  · -- tail
    rw [tl1, List.getLast?_eq_getElem?, hget, hlen, hnx, hpv]
    by_cases hlast : j + 1 < l.length
    · have : l[j + 1]? ≠ none := by
        rw [List.getElem?_eq_getElem hlast]; simp
      have h2 : ¬ (l.length - 1 - 1 < j) := by omega
      have h3 : l.length - 1 - 1 + 1 = l.length - 1 := by omega
      simp [this, h2, h3, hl.tail_eq, List.getLast?_eq_getElem?]
    · have hnone : l[j + 1]? = none := List.getElem?_eq_none (by omega)
      simp only [hnone, if_true]
      by_cases h0 : j = 0
      · subst h0
        have : l.length = 1 := by omega
        simp [this]
      · have h2 : l.length - 1 - 1 < j := by omega
        have h3 : l.length - 1 - 1 = j - 1 := by omega
        have h4 : 0 < j := by omega
        simp [h0, h3, h4]
  · -- next links
    intro i q hq
    have hqp := (hne q (getElem?_mem' hq)).1
    rw [hget] at hq
    rw [n1 q, hpv, hnx]
    simp only [hqp, if_false]
    by_cases hij : i < j
    · simp only [hij, if_true] at hq
      have hneq : l[j + 1]? ≠ some q := by
        intro e
        have := idx_unique hl.nodup e hq
        omega
      simp only [hneq, if_false]
      rw [hl.next_eq i q hq, hget]
      by_cases h0 : i = 0
      · simp [h0]
      · have : i - 1 < j := by omega
        simp [h0, this]
    · simp only [hij, if_false] at hq
      by_cases hij2 : i = j
      · subst hij2
        simp only [hq, if_true]
        by_cases h0 : i = 0
        · simp [h0]
        · have : i - 1 < i := by omega
          simp [h0, hget, this]
      · have hneq : l[j + 1]? ≠ some q := by
          intro e
          have := idx_unique hl.nodup e hq
          omega
        simp only [hneq, if_false]
        rw [hl.next_eq (i + 1) q hq, hget]
        have h1 : ¬ (i - 1 < j) := by omega
        have h2 : i - 1 + 1 = i := by omega
        have h3 : i ≠ 0 := by omega
        simp [h1, h2, h3]
  · -- prev links
    intro i q hq
    have hqp := (hne q (getElem?_mem' hq)).1
    rw [hget] at hq
    rw [p1 q, hpv, hnx]
    simp only [hqp, if_false]
    by_cases hij : i < j
    · simp only [hij, if_true] at hq
      by_cases hij2 : i + 1 = j
      · have h0 : j ≠ 0 := by omega
        have h1 : j - 1 = i := by omega
        have h2 : ¬ (i + 1 < j) := by omega
        simp only [h0, if_false, h1, hq, if_true, hget, h2]
        rw [hij2]
      · have hneq : (if j = 0 then none else l[j - 1]?) ≠ some q := by
          by_cases h0 : j = 0
          · simp [h0]
          · simp only [h0, if_false]
            intro e
            have := idx_unique hl.nodup e hq
            omega
        simp only [hneq, if_false]
        rw [hl.prev_eq i q hq, hget]
        have : i + 1 < j := by omega
        simp [this]
    · simp only [hij, if_false] at hq
      have hneq : (if j = 0 then none else l[j - 1]?) ≠ some q := by
        by_cases h0 : j = 0
        · simp [h0]
        · simp only [h0, if_false]
          intro e
          have := idx_unique hl.nodup e hq
          omega
      simp only [hneq, if_false]
      rw [hl.prev_eq (i + 1) q hq, hget]
      have : ¬ (i + 1 < j) := by omega
      simp [this]

/-- `LRU.PushBack` of an allocated item that is not queued succeeds and yields
the queue with the item at its most recently used end. -/
theorem Linked_pushBack {lru : LRU} {h : List Item} {l : List Nat} (hl : Linked lru h l)
    {p : Nat} (hp : p ∉ l) (hph : p < h.length) :
    ∃ lru1 h1, lru.PushBack h p = some (lru1, h1) ∧ h1.length = h.length ∧
      h1.map Item.entry = h.map Item.entry ∧ Linked lru1 h1 (l ++ [p]) := by
  have ht : ∀ t, lru.tail = some t → t < h.length ∧ t ≠ p := by
    intro t ht
    rw [hl.tail_eq] at ht
    have hm : t ∈ l := by
      rw [List.getLast?_eq_getElem?] at ht
      exact getElem?_mem' ht
    exact ⟨hl.alloc t hm, fun e => hp (e ▸ hm)⟩
  obtain ⟨lru1, h1, e1, len1, d1, hd1, tl1, n1, p1⟩ := PushBack_spec lru h p hph ht
  refine ⟨lru1, h1, e1, len1, d1, ?_⟩
  have hget : ∀ i, (l ++ [p])[i]? = if i < l.length then l[i]? else [p][i - l.length]? :=
    fun i => List.getElem?_append
  constructor
  · rw [List.nodup_append]
    refine ⟨hl.nodup, List.nodup_singleton p, ?_⟩
    intro a ha hb
    simp only [List.mem_singleton] at hb
    exact hp (hb ▸ ha)
  · intro q hq
    rw [len1]
    rcases List.mem_append.mp hq with hq | hq
    · exact hl.alloc q hq
    · simp only [List.mem_singleton] at hq; rw [hq]; exact hph
  · rw [hd1, hl.head_eq]
    cases l <;> simp
  · rw [tl1]; simp
  · intro i q hq
    rw [hget] at hq
    rw [n1 q]
    by_cases hi : i < l.length
    · simp only [hi, if_true] at hq
      have hqp : q ≠ p := fun e => hp (e ▸ getElem?_mem' hq)
      simp only [hqp, if_false]
      rw [hl.next_eq i q hq, hget]
      by_cases h0 : i = 0
      · simp [h0]
      · have : i - 1 < l.length := by omega
        simp [h0, this]
    · simp only [hi, if_false] at hq
      have hi2 : i = l.length := by
        have := getElem?_lt hq
        simp at this
        omega
      subst hi2
      simp at hq
      subst hq
      simp only [if_true]
      rw [hl.tail_eq, List.getLast?_eq_getElem?, hget]
      by_cases h0 : l.length = 0
      · simp [h0]
      · have : l.length - 1 < l.length := by omega
        simp [h0, this]
  · intro i q hq
    rw [hget] at hq
    rw [p1 q, hget]
    by_cases hi : i < l.length
    · simp only [hi, if_true] at hq
      have hqp : q ≠ p := fun e => hp (e ▸ getElem?_mem' hq)
      simp only [hqp, if_false]
      rw [hl.tail_eq, List.getLast?_eq_getElem?]
      by_cases hi2 : i + 1 < l.length
      · have hneq : l[l.length - 1]? ≠ some q := by
          intro e
          have := idx_unique hl.nodup e hq
          omega
        simp only [hneq, if_false, hi2, if_true]
        exact hl.prev_eq i q hq
      · have h3 : l.length - 1 = i := by omega
        simp [h3, hq, hi2]
        have : i + 1 - l.length = 0 := by omega
        simp [this]
    · simp only [hi, if_false] at hq
      have hi2 : i = l.length := by
        have := getElem?_lt hq
        simp at this
        omega
      subst hi2
      simp at hq
      subst hq
      simp

/-- Heaps with the same entries give the same entry at every address. -/
theorem entryAt_congr {h h1 : List Item} (e : h1.map Item.entry = h.map Item.entry) (p : Nat) :
    entryAt h1 p = entryAt h p := by
  have := congrArg (fun l => l[p]?) e
  simpa [entryAt, List.getElem?_map] using this

/-- Heaps with the same entries give the same size at every address. -/
theorem sizeAt_congr {h h1 : List Item} (e : h1.map Item.entry = h.map Item.entry) (p : Nat) :
    sizeAt h1 p = sizeAt h p := by
  simp [sizeAt, entryAt_congr e]

/-- Heaps with the same entries give the same key at every address. -/
theorem keyAt_congr {h h1 : List Item} (e : h1.map Item.entry = h.map Item.entry) (p : Nat) :
    keyAt h1 p = keyAt h p := by
  simp [keyAt, entryAt_congr e]

/-- Heaps with the same entries give the same byte counts. -/
theorem sumSizes_congr {h h1 : List Item} (e : h1.map Item.entry = h.map Item.entry)
    (l : List Nat) : sumSizes h1 l = sumSizes h l := by
  have : sizeAt h1 = sizeAt h := funext (sizeAt_congr e)
  simp [sumSizes, this]

/-- Allocation leaves the entries at the old addresses alone. -/
theorem entryAt_append_lt (h : List Item) (it : Item) {p : Nat} (hp : p < h.length) :
    entryAt (h ++ [it]) p = entryAt h p := by
  simp [entryAt, List.getElem?_append_left hp]

/-- Allocation puts the new item at the next free address. -/
theorem entryAt_append_new (h : List Item) (it : Item) :
    entryAt (h ++ [it]) h.length = some it.entry := by
  simp [entryAt]

/-- Allocation leaves a well-linked queue well linked. -/
theorem Linked_alloc {lru : LRU} {h : List Item} {l : List Nat} (hl : Linked lru h l)
    (it : Item) : Linked lru (h ++ [it]) l := by
  have hlt : ∀ i q, l[i]? = some q → q < h.length :=
    fun i q hq => hl.alloc q (getElem?_mem' hq)
  constructor
  · exact hl.nodup
  · intro p hp
    have := hl.alloc p hp
    simp; omega
  · exact hl.head_eq
  · exact hl.tail_eq
  · intro i q hq
    rw [← hl.next_eq i q hq]
    simp [nextOf, List.getElem?_append_left (hlt i q hq)]
  · intro i q hq
    rw [← hl.prev_eq i q hq]
    simp [prevOf, List.getElem?_append_left (hlt i q hq)]

/-- A well-linked queue has at most as many items as the heap has cells. -/
theorem Linked_length_le {lru : LRU} {h : List Item} {l : List Nat} (hl : Linked lru h l) :
    l.length ≤ h.length := by
  have hsub : l ⊆ List.range h.length := by
    intro p hp
    exact List.mem_range.mpr (hl.alloc p hp)
  have := (List.subperm_of_subset hl.nodup hsub).length_le
  simpa using this

/-- Walking the `prev` links from position `i` of a well-linked queue reads off the rest of the queue. -/
theorem walk_drop {lru : LRU} {h : List Item} {l : List Nat} (hl : Linked lru h l) :
    ∀ fuel i, l.length ≤ fuel + i → walk h fuel l[i]? = l.drop i := by
  intro fuel
  induction fuel with
  | zero =>
    intro i hi
    have : l.drop i = [] := List.drop_eq_nil_of_le (by omega)
    simp [walk, this]
  | succ n ih =>
    intro i hi
    by_cases hil : i < l.length
    · have hget : l[i]? = some l[i] := List.getElem?_eq_getElem hil
      rw [hget]
      simp only [walk]
      rw [hl.prev_eq i l[i] hget, ih (i + 1) (by omega)]
      exact (List.drop_eq_getElem_cons hil).symm
    · have hnone : l[i]? = none := List.getElem?_eq_none (by omega)
      have : l.drop i = [] := List.drop_eq_nil_of_le (by omega)
      simp [hnone, walk, this]

/-- Walking a well-linked queue from its head reads off the whole queue. -/
theorem Linked_walk {lru : LRU} {h : List Item} {l : List Nat} (hl : Linked lru h l) :
    walk h h.length lru.head = l := by
  rw [hl.head_eq, List.head?_eq_getElem?, walk_drop hl h.length 0 (by
    have := Linked_length_le hl; omega)]
  simp

/-- The empty queue is well linked. -/
theorem Linked_nil (h : List Item) : Linked { head := none, tail := none } h [] := by
  constructor <;> simp

/-! ## The map -/

/-- Reading the map after `delete(m, key)`. -/
theorem lookup_mapDelete (key k : List Byte) (m : List (List Byte × Nat)) :
    (mapDelete key m).lookup k = if k = key then none else m.lookup k := by
  induction m with
  | nil => simp [mapDelete]
  | cons e m ih =>
    obtain ⟨a, b⟩ := e
    unfold mapDelete at ih ⊢
    by_cases hk : k = key
    · subst hk
      simp only [if_true] at ih ⊢
      by_cases ha : a = k
      · subst ha; simp [List.filter_cons, ih]
      · have : (k == a) = false := by
          simp only [beq_eq_false_iff_ne]; exact fun e => ha e.symm
        simp [List.filter_cons, ha, ih, List.lookup_cons, this]
    · simp only [hk, if_false] at ih ⊢
      by_cases ha : a = key
      · subst ha
        have : (k == a) = false := by simp [hk]
        simp [List.filter_cons, ih, List.lookup_cons, this]
      · by_cases hka : k = a
        · subst hka; simp [List.filter_cons, ha, List.lookup_cons]
        · have : (k == a) = false := by simp [hka]
          simp [List.filter_cons, ha, List.lookup_cons, this, ih]

/-- Reading the map after `m[key] = p`. -/
theorem lookup_mapSet (key k : List Byte) (p : Nat) (m : List (List Byte × Nat)) :
    (mapSet key p m).lookup k = if k = key then some p else m.lookup k := by
  unfold mapSet
  rw [List.lookup_cons, lookup_mapDelete]
  by_cases hk : k = key
  · simp [hk]
  · have : (k == key) = false := by simp [hk]
    simp [hk, this]

/-- Deleting from the map keeps its keys distinct. -/
theorem keys_mapDelete (key : List Byte) (m : List (List Byte × Nat))
    (hm : (m.map Prod.fst).Nodup) : ((mapDelete key m).map Prod.fst).Nodup := by
  unfold mapDelete
  exact hm.sublist ((List.filter_sublist m).map Prod.fst)

/-- A deleted key is no longer a key of the map. -/
theorem not_mem_keys_mapDelete (key : List Byte) (m : List (List Byte × Nat)) :
    key ∉ (mapDelete key m).map Prod.fst := by
  unfold mapDelete
  simp

/-- Writing to the map keeps its keys distinct. -/
theorem keys_mapSet (key : List Byte) (p : Nat) (m : List (List Byte × Nat))
    (hm : (m.map Prod.fst).Nodup) : ((mapSet key p m).map Prod.fst).Nodup := by
  unfold mapSet
  rw [List.map_cons, List.nodup_cons]
  exact ⟨not_mem_keys_mapDelete key m, keys_mapDelete key m hm⟩

/-- A map read misses exactly when the key is not a key of the map. -/
theorem lookup_eq_none_iff_keys (k : List Byte) (m : List (List Byte × Nat)) :
    m.lookup k = none ↔ k ∉ m.map Prod.fst := by
  induction m with
  | nil => simp
  | cons e m ih =>
    obtain ⟨a, b⟩ := e
    by_cases hk : k = a
    · subst hk; simp [List.lookup_cons]
    · have : (k == a) = false := by simp [hk]
      simp [List.lookup_cons, this, ih, hk]

/-! ## Cache operations on a represented state -/

/-- Subtraction on `uint64` is exact when it does not go below zero. -/
theorem sub64_eq {a b : Nat} (hb : b ≤ a) (ha : a < U64) : sub64 a b = a - b := by
  unfold sub64
  have hb' : b % U64 = b := Nat.mod_eq_of_lt (by omega)
  rw [hb']
  have : a + (U64 - b) = (a - b) + U64 := by omega
  rw [this, Nat.add_mod_right]
  exact Nat.mod_eq_of_lt (by omega)

/-- Addition on `uint64` is exact below `2 ^ 64`. -/
theorem add64_eq {a b : Nat} (h : a + b < U64) : add64 a b = a + b := by
  unfold add64
  exact Nat.mod_eq_of_lt h

/-- An item's byte count is at most the byte count of a queue holding it. -/
theorem sizeAt_le_sum (h : List Item) {l : List Nat} {p : Nat} (hp : p ∈ l) :
    sizeAt h p ≤ sumSizes h l := by
  unfold sumSizes
  have := List.sum_map_erase (sizeAt h) hp
  omega

/-- The byte count of a queue splits into one item and the rest. -/
theorem sumSizes_erase (h : List Item) {l : List Nat} {p : Nat} (hp : p ∈ l) :
    sizeAt h p + sumSizes h (l.erase p) = sumSizes h l := by
  unfold sumSizes
  exact List.sum_map_erase (sizeAt h) hp

/-- The source's `Item.Size` is the exact byte count when that is below `2 ^ 64`. -/
theorem Item_Size_eq {h : List Item} {p : Nat} {it : Item} (hit : h[p]? = some it)
    (hlt : sizeAt h p < U64) : it.Size = sizeAt h p := by
  have hs : sizeAt h p = entrySize it.key it.value := by
    simp [sizeAt, entryAt, hit, Entry.size, Item.entry]
  rw [hs] at hlt
  rw [hs]
  exact Nat.mod_eq_of_lt hlt

/-- The key observed at an allocated address. -/
theorem keyAt_eq {h : List Item} {p : Nat} {it : Item} (hit : h[p]? = some it) :
    keyAt h p = some it.key := by
  simp [keyAt, entryAt, hit, Item.entry]

/-- Removing a queued item from the queue, the byte count and the map keeps
the representation invariant. -/
theorem Rep_remove {c : Cache} {l : List Nat} (hr : c.Rep l) {p : Nat} (hp : p ∈ l)
    {key : List Byte} (hkey : keyAt c.heap p = some key)
    {lru1 : LRU} {h1 : List Item} (hl1 : Linked lru1 h1 (l.erase p))
    (hd : h1.map Item.entry = c.heap.map Item.entry) :
    Cache.Rep { c with
      lru := lru1, heap := h1, curBytes := c.curBytes - sizeAt c.heap p,
      hashmap := mapDelete key c.hashmap } (l.erase p) := by
  have hmem : ∀ q, q ∈ l.erase p ↔ q ≠ p ∧ q ∈ l := fun q => hr.linked.nodup.mem_erase_iff
  constructor
  · exact hl1
  · intro k q
    simp only [lookup_mapDelete, keyAt_congr hd, hmem]
    by_cases hk : k = key
    · subst hk
      simp only [if_true]
      constructor
      · intro e; cases e
      · rintro ⟨⟨hne, hq⟩, hkq⟩
        have h1 := (hr.map_iff k q).mpr ⟨hq, hkq⟩
        have h2 := (hr.map_iff k p).mpr ⟨hp, hkey⟩
        exact absurd (Option.some.inj (h1.symm.trans h2)) hne
    · simp only [hk, if_false]
      rw [hr.map_iff k q]
      constructor
      · rintro ⟨hq, hkq⟩
        refine ⟨⟨?_, hq⟩, hkq⟩
        intro e; subst e
        rw [hkey] at hkq
        exact hk (Option.some.inj hkq).symm
      · rintro ⟨⟨_, hq⟩, hkq⟩
        exact ⟨hq, hkq⟩
  · exact keys_mapDelete key c.hashmap hr.keys_nodup
  · show c.curBytes - sizeAt c.heap p = sumSizes h1 (l.erase p)
    rw [sumSizes_congr hd, hr.bytes_eq]
    have := sumSizes_erase c.heap hp
    omega
  · show c.curBytes - sizeAt c.heap p < U64
    have := hr.bytes_lt
    omega
  · exact hr.max_lt

/-- A `Get` of an absent key returns nil and leaves the cache as it is. -/
theorem Get_miss (c : Cache) (k : List Byte) (hk : c.hashmap.lookup k = none) :
    c.Get k = some (c, none) := by
  simp [Cache.Get, hk]

/-- A `Get` of a present key returns its item and moves it to the most recently
used end of the queue; nothing else changes. -/
theorem Get_hit {c : Cache} {l : List Nat} (hr : c.Rep l) {k : List Byte} {p : Nat}
    (hk : c.hashmap.lookup k = some p) :
    ∃ c1, c.Get k = some (c1, some p) ∧ c1.Rep (l.erase p ++ [p]) ∧
      c1.heap.map Item.entry = c.heap.map Item.entry ∧ c1.hashmap = c.hashmap ∧
      c1.curBytes = c.curBytes ∧ c1.maxBytes = c.maxBytes ∧ c1.version = c.version := by
  have hp : p ∈ l := ((hr.map_iff k p).mp hk).1
  obtain ⟨lru1, h1, e1, len1, d1, hl1⟩ := Linked_erase hr.linked hp
  have hnp : p ∉ l.erase p := fun hm => ((hr.linked.nodup.mem_erase_iff).mp hm).1 rfl
  have hph : p < h1.length := by rw [len1]; exact hr.linked.alloc p hp
  obtain ⟨lru2, h2, e2, len2, d2, hl2⟩ := Linked_pushBack hl1 hnp hph
  have hd : h2.map Item.entry = c.heap.map Item.entry := d2.trans d1
  refine ⟨{ c with lru := lru2, heap := h2 }, ?_, ?_, hd, rfl, rfl, rfl, rfl⟩
  · simp [Cache.Get, hk, e1, e2]
  · have hperm : (l.erase p ++ [p]).Perm l :=
      (List.perm_append_comm.trans (List.perm_cons_erase hp).symm)
    constructor
    · exact hl2
    · intro k' q
      show c.hashmap.lookup k' = some q ↔ q ∈ l.erase p ++ [p] ∧ keyAt h2 q = some k'
      rw [keyAt_congr hd, hr.map_iff k' q, hperm.mem_iff]
    · exact hr.keys_nodup
    · show c.curBytes = sumSizes h2 (l.erase p ++ [p])
      rw [sumSizes_congr hd, hr.bytes_eq]
      unfold sumSizes
      exact ((hperm.map (sizeAt c.heap)).sum_eq).symm
    · exact hr.bytes_lt
    · exact hr.max_lt

/-- A `Delete` of an absent key reports `STATUS_KEY_NOT_FOUND` and changes nothing. -/
theorem Delete_miss (c : Cache) (k : List Byte) (cas : Nat) (hk : c.hashmap.lookup k = none) :
    c.Delete k cas = some (c, STATUS_KEY_NOT_FOUND) := by
  simp [Cache.Delete, hk]

/-- A `Delete` with a non-zero CAS other than the item's version reports
`STATUS_KEY_EXISTS` and changes nothing. -/
theorem Delete_mismatch (c : Cache) (k : List Byte) (cas : Nat) {p : Nat} {it : Item}
    (hk : c.hashmap.lookup k = some p) (hit : c.heap[p]? = some it)
    (hcas : cas > 0 ∧ it.version ≠ cas) :
    c.Delete k cas = some (c, STATUS_KEY_EXISTS) := by
  simp [Cache.Delete, hk, hit, hcas]

/-- A `Delete` that passes the CAS check removes the item from queue, map and
byte count. -/
theorem Delete_hit {c : Cache} {l : List Nat} (hr : c.Rep l) {k : List Byte} {p : Nat}
    {it : Item} (cas : Nat) (hk : c.hashmap.lookup k = some p) (hit : c.heap[p]? = some it)
    (hcas : ¬ (cas > 0 ∧ it.version ≠ cas)) :
    ∃ c1, c.Delete k cas = some (c1, STATUS_OK) ∧ c1.Rep (l.erase p) ∧
      c1.heap.map Item.entry = c.heap.map Item.entry ∧
      c1.hashmap = mapDelete k c.hashmap ∧
      c1.curBytes = c.curBytes - sizeAt c.heap p ∧ sizeAt c.heap p ≤ c.curBytes ∧
      c1.maxBytes = c.maxBytes ∧ c1.version = c.version := by
  have hp : p ∈ l := ((hr.map_iff k p).mp hk).1
  have hkey : keyAt c.heap p = some k := ((hr.map_iff k p).mp hk).2
  obtain ⟨lru1, h1, e1, len1, d1, hl1⟩ := Linked_erase hr.linked hp
  have hle : sizeAt c.heap p ≤ c.curBytes := by
    rw [hr.bytes_eq]; exact sizeAt_le_sum c.heap hp
  have hsz : it.Size = sizeAt c.heap p :=
    Item_Size_eq hit (lt_of_le_of_lt hle hr.bytes_lt)
  have hsub : sub64 c.curBytes it.Size = c.curBytes - sizeAt c.heap p := by
    rw [hsz]; exact sub64_eq hle hr.bytes_lt
  refine ⟨{ c with
      lru := lru1, heap := h1, curBytes := c.curBytes - sizeAt c.heap p,
      hashmap := mapDelete k c.hashmap }, ?_, ?_, d1, rfl, rfl, hle, rfl, rfl⟩
  · simp [Cache.Delete, hk, hit, hcas, e1, hsub]
  · exact Rep_remove hr hp hkey hl1 d1

/-- A queue within the budget is left alone by eviction. -/
theorem evictList_of_le (size : Nat → Nat) (max : Nat) (l : List Nat)
    (h : (l.map size).sum ≤ max) : evictList size max l = l := by
  cases l with
  | nil => rfl
  | cons p r =>
    have : ¬ ((p :: r).map size).sum > max := by omega
    simp only [evictList, this, if_false]

/-- With more fuel than queued items the eviction loop returns, having turned
the queue `l` into `evictList l`; the result is within the budget. -/
theorem evictLoop_spec : ∀ (fuel : Nat) (c : Cache) (l : List Nat), c.Rep l → l.length < fuel →
    ∃ c1, c.evictLoop fuel = some c1 ∧
      c1.Rep (evictList (sizeAt c.heap) c.maxBytes l) ∧ c1.curBytes ≤ c1.maxBytes ∧
      c1.heap.map Item.entry = c.heap.map Item.entry ∧
      c1.maxBytes = c.maxBytes ∧ c1.version = c.version := by
  intro fuel
  induction fuel with
  | zero => intro c l _ hlen; omega
  | succ n ih =>
    intro c l hr hlen
    by_cases hgt : c.curBytes > c.maxBytes
    · cases l with
      | nil =>
        have := hr.bytes_eq
        simp [sumSizes] at this
        omega
      | cons p r =>
        have hp : p ∈ p :: r := List.mem_cons_self p r
        have hhead : c.lru.head = some p := by rw [hr.linked.head_eq]; rfl
        obtain ⟨lru1, h1, e1, len1, d1, hl1⟩ := Linked_erase hr.linked hp
        have hpl : p < h1.length := by rw [len1]; exact hr.linked.alloc p hp
        have hit1 : h1[p]? = some h1[p] := List.getElem?_eq_getElem hpl
        have hle : sizeAt c.heap p ≤ c.curBytes := by
          rw [hr.bytes_eq]; exact sizeAt_le_sum c.heap hp
        have hsz : h1[p].Size = sizeAt c.heap p := by
          rw [← sizeAt_congr d1 p]
          apply Item_Size_eq hit1
          rw [sizeAt_congr d1 p]
          exact lt_of_le_of_lt hle hr.bytes_lt
        have hsub : sub64 c.curBytes h1[p].Size = c.curBytes - sizeAt c.heap p := by
          rw [hsz]; exact sub64_eq hle hr.bytes_lt
        have hkey : keyAt c.heap p = some h1[p].key := by
          rw [← keyAt_congr d1 p]; exact keyAt_eq hit1
        have hr2 := Rep_remove hr hp hkey hl1 d1
        have herase : (p :: r).erase p = r := by simp
        rw [herase] at hr2
        obtain ⟨c1, ec1, hr1, hle1, hd1, hm1, hv1⟩ := ih _ r hr2 (by simpa using hlen)
        refine ⟨c1, ?_, ?_, hle1, hd1.trans d1, hm1, hv1⟩
        · rw [← ec1]
          simp [Cache.evictLoop, hgt, LRU.PopFront, hhead, e1, hit1, hsub]
        · have hsame : sizeAt h1 = sizeAt c.heap := funext (sizeAt_congr d1)
          have hsum : ((p :: r).map (sizeAt c.heap)).sum > c.maxBytes := by
            have := hr.bytes_eq
            unfold sumSizes at this
            omega
          simp only [evictList, hsum, if_true]
          simpa [hsame] using hr1
    · refine ⟨c, by simp [Cache.evictLoop, hgt], ?_, by omega, rfl, rfl, rfl⟩
      rw [evictList_of_le]
      · exact hr
      · have := hr.bytes_eq
        unfold sumSizes at this
        omega

/-- Allocation leaves the byte count of a queue of old addresses alone. -/
theorem sumSizes_alloc (h : List Item) (it : Item) (l : List Nat)
    (hl : ∀ p ∈ l, p < h.length) : sumSizes (h ++ [it]) l = sumSizes h l := by
  unfold sumSizes
  congr 1
  apply List.map_congr_left
  intro p hp
  simp [sizeAt, entryAt_append_lt h it (hl p hp)]

/-- Lines 91 to 99 of `Cache.Set` on a state that is represented by `l` except
that the map may still hold the key being stored: the new item is allocated,
queued last, and the queue is evicted down to the budget. -/
theorem store_spec {c : Cache} {l : List Nat} (k v f : List Byte)
    (hl : Linked c.lru c.heap l)
    (hmap : ∀ k' p, k' ≠ k →
      (c.hashmap.lookup k' = some p ↔ p ∈ l ∧ keyAt c.heap p = some k'))
    (hnokey : ∀ p ∈ l, keyAt c.heap p ≠ some k)
    (hkeys : (c.hashmap.map Prod.fst).Nodup)
    (hbytes : c.curBytes = sumSizes c.heap l)
    (hfits : c.curBytes + entrySize k v < U64)
    (hmax : c.maxBytes < U64) :
    ∃ c1, c.store k v f = some (c1, add64 c.version 1, STATUS_OK) ∧
      c1.Rep (evictList (sizeAt c1.heap) c.maxBytes (l ++ [c.heap.length])) ∧
      c1.curBytes ≤ c1.maxBytes ∧
      c1.heap.map Item.entry =
        c.heap.map Item.entry ++ [(NewItem k v f (add64 c.version 1)).entry] ∧
      c1.maxBytes = c.maxBytes ∧ c1.version = add64 c.version 1 := by
  set it := NewItem k v f (add64 c.version 1) with hitdef
  set new := c.heap.length with hnew
  have hl0 : Linked c.lru (c.heap ++ [it]) l := Linked_alloc hl it
  have hnl : new ∉ l := fun hm => by
    have := hl.alloc new hm
    omega
  have hnlt : new < (c.heap ++ [it]).length := by simp [hnew]
  obtain ⟨lru1, h1, e1, len1, d1, hl1⟩ := Linked_pushBack hl0 hnl hnlt
  have hsize : it.Size = entrySize k v := by
    show entrySize k v % U64 = entrySize k v
    exact Nat.mod_eq_of_lt (by omega)
  have hadd : add64 c.curBytes it.Size = c.curBytes + entrySize k v := by
    rw [hsize]; exact add64_eq hfits
  have hkeyOld : ∀ q ∈ l, keyAt h1 q = keyAt c.heap q := by
    intro q hq
    rw [keyAt_congr d1]
    simp [keyAt, entryAt_append_lt c.heap it (hl.alloc q hq)]
  have hentNew : entryAt h1 new = some it.entry := by
    rw [entryAt_congr d1]; exact entryAt_append_new c.heap it
  have hkeyNew : keyAt h1 new = some k := by
    simp [keyAt, hentNew, hitdef, NewItem, Item.entry]
  have hr0 : Cache.Rep { c with
      version := add64 c.version 1, curBytes := add64 c.curBytes it.Size,
      lru := lru1, heap := h1, hashmap := mapSet k new c.hashmap } (l ++ [new]) := by
    constructor
    · exact hl1
    · intro k' q
      show (mapSet k new c.hashmap).lookup k' = some q ↔ q ∈ l ++ [new] ∧ keyAt h1 q = some k'
      rw [lookup_mapSet, List.mem_append, List.mem_singleton]
      by_cases hk : k' = k
      · subst hk
        simp only [if_true]
        constructor
        · intro e
          have : q = new := (Option.some.inj e).symm
          subst this
          exact ⟨Or.inr rfl, hkeyNew⟩
        · rintro ⟨hq | hq, hkq⟩
          · rw [hkeyOld q hq] at hkq
            exact absurd hkq (hnokey q hq)
          · rw [hq]
      · simp only [hk, if_false]
        rw [hmap k' q hk]
        constructor
        · rintro ⟨hq, hkq⟩
          exact ⟨Or.inl hq, by rw [hkeyOld q hq]; exact hkq⟩
        · rintro ⟨hq | hq, hkq⟩
          · exact ⟨hq, by rw [← hkeyOld q hq]; exact hkq⟩
          · rw [hq, hkeyNew] at hkq
            exact absurd (Option.some.inj hkq).symm hk
    · exact keys_mapSet k new c.hashmap hkeys
    · show add64 c.curBytes it.Size = sumSizes h1 (l ++ [new])
      rw [hadd, sumSizes_congr d1, hbytes]
      have h1' := sumSizes_alloc c.heap it l hl.alloc
      have h2' : sizeAt (c.heap ++ [it]) new = entrySize k v := by
        show sizeAt (c.heap ++ [it]) c.heap.length = entrySize k v
        unfold sizeAt
        rw [entryAt_append_new]
        rfl
      simp only [sumSizes, List.map_append, List.sum_append, List.map_cons, List.map_nil,
        List.sum_cons, List.sum_nil] at h1' ⊢
      omega
    · show add64 c.curBytes it.Size < U64
      rw [hadd]; exact hfits
    · exact hmax
  have hfuel : (l ++ [new]).length < h1.length + 1 := by
    have := Linked_length_le hl1
    omega
  obtain ⟨c1, ec1, hr1, hle1, hd1, hm1, hv1⟩ := evictLoop_spec _ _ _ hr0 hfuel
  have hsame : sizeAt c1.heap = sizeAt h1 := funext (sizeAt_congr hd1)
  refine ⟨c1, ?_, ?_, hle1, ?_, hm1, hv1⟩
  · simp only [Cache.store, Cache.evictOverflow]
    rw [← hitdef, ← hnew, e1]
    simp only [Option.some_bind]
    rw [ec1]
    rfl
  · rw [hsame]; exact hr1
  · rw [hd1]
    show h1.map Item.entry = _
    rw [d1]; simp

/-- A `Set` with a non-zero CAS of an absent key reports `STATUS_KEY_NOT_FOUND`
and changes nothing. -/
theorem Set_not_found (c : Cache) (k v f : List Byte) (cas : Nat)
    (hk : c.hashmap.lookup k = none) (hcas : cas > 0) :
    c.Set k v f cas = some (c, 0, STATUS_KEY_NOT_FOUND) := by
  simp [Cache.Set, hk, hcas]

/-- A `Set` with a non-zero CAS other than the item's version reports
`STATUS_KEY_EXISTS` and changes nothing. -/
theorem Set_mismatch (c : Cache) (k v f : List Byte) (cas : Nat) {p : Nat} {it : Item}
    (hk : c.hashmap.lookup k = some p) (hit : c.heap[p]? = some it)
    (hcas : cas > 0 ∧ it.version ≠ cas) :
    c.Set k v f cas = some (c, 0, STATUS_KEY_EXISTS) := by
  simp [Cache.Set, hk, hit, hcas]

/-- A `Set` with CAS 0 of an absent key queues a new item last and evicts. -/
theorem Set_insert {c : Cache} {l : List Nat} (hr : c.Rep l) (k v f : List Byte)
    (hfits : c.SetFits k v) (hk : c.hashmap.lookup k = none) :
    ∃ c1, c.Set k v f 0 = some (c1, add64 c.version 1, STATUS_OK) ∧
      c1.Rep (evictList (sizeAt c1.heap) c.maxBytes (l ++ [c.heap.length])) ∧
      c1.curBytes ≤ c1.maxBytes ∧
      c1.heap.map Item.entry =
        c.heap.map Item.entry ++ [(NewItem k v f (add64 c.version 1)).entry] ∧
      c1.maxBytes = c.maxBytes ∧ c1.version = add64 c.version 1 := by
  have hnokey : ∀ p ∈ l, keyAt c.heap p ≠ some k := by
    intro p hp hkp
    have := (hr.map_iff k p).mpr ⟨hp, hkp⟩
    rw [hk] at this
    cases this
  obtain ⟨c1, e1, rest⟩ := store_spec k v f hr.linked (fun k' p _ => hr.map_iff k' p) hnokey
    hr.keys_nodup hr.bytes_eq hfits hr.max_lt
  refine ⟨c1, ?_, rest⟩
  simp [Cache.Set, hk, e1]

/-- A `Set` of a present key that passes the CAS check unlinks the old item,
queues a new item last and evicts. -/
theorem Set_replace {c : Cache} {l : List Nat} (hr : c.Rep l) (k v f : List Byte) (cas : Nat)
    (hfits : c.SetFits k v) {p : Nat} {it : Item}
    (hk : c.hashmap.lookup k = some p) (hit : c.heap[p]? = some it)
    (hcas : ¬ (cas > 0 ∧ it.version ≠ cas)) :
    ∃ c1, c.Set k v f cas = some (c1, add64 c.version 1, STATUS_OK) ∧
      c1.Rep (evictList (sizeAt c1.heap) c.maxBytes (l.erase p ++ [c.heap.length])) ∧
      c1.curBytes ≤ c1.maxBytes ∧
      c1.heap.map Item.entry =
        c.heap.map Item.entry ++ [(NewItem k v f (add64 c.version 1)).entry] ∧
      c1.maxBytes = c.maxBytes ∧ c1.version = add64 c.version 1 := by
  have hp : p ∈ l := ((hr.map_iff k p).mp hk).1
  have hkey : keyAt c.heap p = some k := ((hr.map_iff k p).mp hk).2
  have hmem : ∀ q, q ∈ l.erase p ↔ q ≠ p ∧ q ∈ l := fun q => hr.linked.nodup.mem_erase_iff
  obtain ⟨lru1, h1, e1, len1, d1, hl1⟩ := Linked_erase hr.linked hp
  have hpl : p < h1.length := by rw [len1]; exact hr.linked.alloc p hp
  have hit1 : h1[p]? = some h1[p] := List.getElem?_eq_getElem hpl
  have hle : sizeAt c.heap p ≤ c.curBytes := by
    rw [hr.bytes_eq]; exact sizeAt_le_sum c.heap hp
  have hsz : h1[p].Size = sizeAt c.heap p := by
    rw [← sizeAt_congr d1 p]
    apply Item_Size_eq hit1
    rw [sizeAt_congr d1 p]
    exact lt_of_le_of_lt hle hr.bytes_lt
  have hsub : sub64 c.curBytes h1[p].Size = c.curBytes - sizeAt c.heap p := by
    rw [hsz]; exact sub64_eq hle hr.bytes_lt
  have hfits' : c.curBytes - sizeAt c.heap p + entrySize k v < U64 := by
    unfold Cache.SetFits at hfits
    omega
  have hbytes : c.curBytes - sizeAt c.heap p = sumSizes h1 (l.erase p) := by
    rw [sumSizes_congr d1, hr.bytes_eq]
    have := sumSizes_erase c.heap hp
    omega
  obtain ⟨c1, ec1, hr1, hle1, hd1, hm1, hv1⟩ := @store_spec
    { c with lru := lru1, heap := h1, curBytes := c.curBytes - sizeAt c.heap p }
    (l.erase p) k v f hl1
    (by
      intro k' q hk'
      show c.hashmap.lookup k' = some q ↔ q ∈ l.erase p ∧ keyAt h1 q = some k'
      rw [hr.map_iff k' q, keyAt_congr d1, hmem]
      constructor
      · rintro ⟨hq, hkq⟩
        refine ⟨⟨?_, hq⟩, hkq⟩
        intro e; subst e
        rw [hkey] at hkq
        exact hk' (Option.some.inj hkq).symm
      · rintro ⟨⟨_, hq⟩, hkq⟩
        exact ⟨hq, hkq⟩)
    (by
      intro q hq hkq
      show False
      change keyAt h1 q = some k at hkq
      rw [keyAt_congr d1] at hkq
      obtain ⟨hne, hql⟩ := (hmem q).mp hq
      have h1' := (hr.map_iff k q).mpr ⟨hql, hkq⟩
      exact hne (Option.some.inj (h1'.symm.trans hk)))
    hr.keys_nodup hbytes hfits' hr.max_lt
  refine ⟨c1, ?_, ?_, hle1, ?_, hm1, hv1⟩
  · simp only [Cache.Set, hk, hit, hcas, if_false, e1, Option.some_bind, hit1, hsub]
    exact ec1
  · have : h1.length = c.heap.length := len1
    simpa [this] using hr1
  · rw [hd1]
    show h1.map Item.entry ++ _ = _
    rw [d1]

/-- The queue that represents a state is its recency order. -/
theorem Rep_recency {c : Cache} {l : List Nat} (hr : c.Rep l) : c.recency = l :=
  Linked_walk hr.linked

/-- No queued item carries a key that the map misses. -/
theorem filter_key_absent {c : Cache} {l : List Nat} (hr : c.Rep l) {k : List Byte}
    (hk : c.hashmap.lookup k = none) :
    l.filter (fun q => decide (keyAt c.heap q ≠ some k)) = l := by
  rw [List.filter_eq_self]
  intro q hq
  simp only [decide_eq_true_eq]
  intro hkq
  have := (hr.map_iff k q).mpr ⟨hq, hkq⟩
  rw [hk] at this
  cases this

/-- The only queued item that carries a key is the one the map holds for it. -/
theorem filter_key_present {c : Cache} {l : List Nat} (hr : c.Rep l) {k : List Byte} {p : Nat}
    (hk : c.hashmap.lookup k = some p) :
    l.filter (fun q => decide (keyAt c.heap q ≠ some k)) = l.erase p := by
  rw [hr.linked.nodup.erase_eq_filter p]
  apply List.filter_congr
  intro q hq
  have hkey : keyAt c.heap p = some k := ((hr.map_iff k p).mp hk).2
  by_cases hqp : q = p
  · subst hqp; simp [hkey]
  · have : keyAt c.heap q ≠ some k := by
      intro hkq
      have h1 := (hr.map_iff k q).mpr ⟨hq, hkq⟩
      exact hqp (Option.some.inj (h1.symm.trans hk))
    simp [hqp, this]

/-- The three outcomes of `Cache.Set` on a represented state. -/
theorem Set_total {c : Cache} {l : List Nat} (hr : c.Rep l) (k v f : List Byte) (cas : Nat)
    (hfits : c.SetFits k v) :
    ∃ c1 ver st, c.Set k v f cas = some (c1, ver, st) ∧
      ((st = STATUS_KEY_NOT_FOUND ∧ ver = 0 ∧ c1 = c ∧ c.hashmap.lookup k = none ∧ cas > 0) ∨
       (st = STATUS_KEY_EXISTS ∧ ver = 0 ∧ c1 = c ∧
          ∃ p it, c.hashmap.lookup k = some p ∧ c.heap[p]? = some it ∧
            cas > 0 ∧ it.version ≠ cas) ∨
       (st = STATUS_OK ∧ ver = add64 c.version 1 ∧
          c1.Rep (evictList (sizeAt c1.heap) c.maxBytes (c.pending l k)) ∧
          c1.curBytes ≤ c1.maxBytes ∧
          c1.heap.map Item.entry =
            c.heap.map Item.entry ++ [(NewItem k v f (add64 c.version 1)).entry] ∧
          c1.maxBytes = c.maxBytes ∧ c1.version = add64 c.version 1 ∧
          ((c.hashmap.lookup k = none ∧ cas = 0) ∨
            ∃ p it, c.hashmap.lookup k = some p ∧ c.heap[p]? = some it ∧
              (cas = 0 ∨ it.version = cas)))) := by
  rcases hk : c.hashmap.lookup k with _ | p
  · by_cases hcas : cas > 0
    · exact ⟨c, 0, STATUS_KEY_NOT_FOUND, Set_not_found c k v f cas hk hcas,
        Or.inl ⟨rfl, rfl, rfl, rfl, hcas⟩⟩
    · have h0 : cas = 0 := by omega
      subst h0
      obtain ⟨c1, e1, hr1, hle1, hd1, hm1, hv1⟩ := Set_insert hr k v f hfits hk
      refine ⟨c1, _, STATUS_OK, e1, Or.inr (Or.inr ⟨rfl, rfl, ?_, hle1, hd1, hm1, hv1,
        Or.inl ⟨rfl, rfl⟩⟩)⟩
      unfold Cache.pending
      rw [filter_key_absent hr hk]
      exact hr1
  · have hp : p ∈ l := ((hr.map_iff k p).mp hk).1
    have hpl : p < c.heap.length := hr.linked.alloc p hp
    have hit : c.heap[p]? = some c.heap[p] := List.getElem?_eq_getElem hpl
    by_cases hcas : cas > 0 ∧ c.heap[p].version ≠ cas
    · exact ⟨c, 0, STATUS_KEY_EXISTS, Set_mismatch c k v f cas hk hit hcas,
        Or.inr (Or.inl ⟨rfl, rfl, rfl, p, _, rfl, hit, hcas.1, hcas.2⟩)⟩
    · obtain ⟨c1, e1, hr1, hle1, hd1, hm1, hv1⟩ := Set_replace hr k v f cas hfits hk hit hcas
      refine ⟨c1, _, STATUS_OK, e1, Or.inr (Or.inr ⟨rfl, rfl, ?_, hle1, hd1, hm1, hv1,
        Or.inr ⟨p, _, rfl, hit, ?_⟩⟩)⟩
      · unfold Cache.pending
        rw [filter_key_present hr hk]
        exact hr1
      · by_cases h0 : cas = 0
        · exact Or.inl h0
        · right
          by_contra hne
          exact hcas ⟨by omega, hne⟩

/-- The outcomes of `Cache.Get` on a represented state. -/
theorem Get_total {c : Cache} {l : List Nat} (hr : c.Rep l) (k : List Byte) :
    ∃ c1 r, c.Get k = some (c1, r) ∧ r = c.hashmap.lookup k ∧
      c1.heap.map Item.entry = c.heap.map Item.entry ∧ c1.hashmap = c.hashmap ∧
      c1.curBytes = c.curBytes ∧ c1.maxBytes = c.maxBytes ∧ c1.version = c.version ∧
      ((r = none ∧ c1 = c) ∨ (∃ p, r = some p ∧ p ∈ l ∧ c1.Rep (l.erase p ++ [p]))) := by
  rcases hk : c.hashmap.lookup k with _ | p
  · exact ⟨c, none, Get_miss c k hk, rfl, rfl, rfl, rfl, rfl, rfl, Or.inl ⟨rfl, rfl⟩⟩
  · obtain ⟨c1, e1, hr1, hd1, hh1, hb1, hm1, hv1⟩ := Get_hit hr hk
    exact ⟨c1, some p, e1, rfl, hd1, hh1, hb1, hm1, hv1,
      Or.inr ⟨p, rfl, ((hr.map_iff k p).mp hk).1, hr1⟩⟩

/-- The outcomes of `Cache.Delete` on a represented state. -/
theorem Delete_total {c : Cache} {l : List Nat} (hr : c.Rep l) (k : List Byte) (cas : Nat) :
    ∃ c1 st, c.Delete k cas = some (c1, st) ∧
      c1.heap.map Item.entry = c.heap.map Item.entry ∧
      c1.maxBytes = c.maxBytes ∧ c1.version = c.version ∧
      ((st = STATUS_KEY_NOT_FOUND ∧ c1 = c ∧ c.hashmap.lookup k = none) ∨
       (st = STATUS_KEY_EXISTS ∧ c1 = c ∧
          ∃ p it, c.hashmap.lookup k = some p ∧ c.heap[p]? = some it ∧
            cas > 0 ∧ it.version ≠ cas) ∨
       (st = STATUS_OK ∧
          ∃ p it, c.hashmap.lookup k = some p ∧ c.heap[p]? = some it ∧
            (cas = 0 ∨ it.version = cas) ∧ p ∈ l ∧ c1.Rep (l.erase p) ∧
            c1.hashmap = mapDelete k c.hashmap ∧
            c1.curBytes = c.curBytes - sizeAt c.heap p ∧ sizeAt c.heap p ≤ c.curBytes)) := by
  rcases hk : c.hashmap.lookup k with _ | p
  · exact ⟨c, STATUS_KEY_NOT_FOUND, Delete_miss c k cas hk, rfl, rfl, rfl,
      Or.inl ⟨rfl, rfl, rfl⟩⟩
  · have hp : p ∈ l := ((hr.map_iff k p).mp hk).1
    have hpl : p < c.heap.length := hr.linked.alloc p hp
    have hit : c.heap[p]? = some c.heap[p] := List.getElem?_eq_getElem hpl
    by_cases hcas : cas > 0 ∧ c.heap[p].version ≠ cas
    · exact ⟨c, STATUS_KEY_EXISTS, Delete_mismatch c k cas hk hit hcas, rfl, rfl, rfl,
        Or.inr (Or.inl ⟨rfl, rfl, p, _, rfl, hit, hcas.1, hcas.2⟩)⟩
    · obtain ⟨c1, e1, hr1, hd1, hh1, hb1, hle, hm1, hv1⟩ := Delete_hit hr cas hk hit hcas
      refine ⟨c1, STATUS_OK, e1, hd1, hm1, hv1,
        Or.inr (Or.inr ⟨rfl, p, _, rfl, hit, ?_, hp, hr1, hh1, hb1, hle⟩)⟩
      by_cases h0 : cas = 0
      · exact Or.inl h0
      · right
        by_contra hne
        exact hcas ⟨by omega, hne⟩

/-- The empty cache is represented by the empty queue. -/
theorem Rep_NewCache (m : Nat) (hm : m < U64) : (NewCache m).Rep [] := by
  constructor
  · exact Linked_nil _
  · intro k p; simp [NewCache]
  · simp [NewCache]
  · simp [NewCache, sumSizes]
  · simp [NewCache, U64]
  · exact hm

/-- Eviction keeps a suffix of the queue. -/
theorem evictList_suffix (size : Nat → Nat) (max : Nat) (l : List Nat) :
    evictList size max l <:+ l := by
  induction l with
  | nil => exact List.suffix_refl _
  | cons p r ih =>
    simp only [evictList]
    split
    · exact ih.trans (List.suffix_cons p r)
    · exact List.suffix_refl _

/-- Every reachable state is represented by some queue and is within its
budget. -/
theorem ReachableIn_rep {n : Nat} {c : Cache} (h : ReachableIn n c) :
    ∃ l, c.Rep l ∧ c.curBytes ≤ c.maxBytes := by
  induction h with
  | init m hm => exact ⟨[], Rep_NewCache m hm, by simp [NewCache]⟩
  | get key _ hget ih =>
    obtain ⟨l, hr, hle⟩ := ih
    obtain ⟨c1, r, e, _, _, _, hb, hm, _, hcase⟩ := Get_total hr key
    rw [hget] at e
    cases e
    rcases hcase with ⟨_, hc⟩ | ⟨p, _, _, hr1⟩
    · rw [hc]; exact ⟨l, hr, hle⟩
    · exact ⟨_, hr1, by omega⟩
  | set key value flags cas _ hfits hset ih =>
    obtain ⟨l, hr, hle⟩ := ih
    obtain ⟨c1, ver, st, e, hcase⟩ := Set_total hr key value flags cas hfits
    rw [hset] at e
    cases e
    rcases hcase with ⟨_, _, hc, _⟩ | ⟨_, _, hc, _⟩ | ⟨_, _, hr1, hle1, _⟩
    · rw [hc]; exact ⟨l, hr, hle⟩
    · rw [hc]; exact ⟨l, hr, hle⟩
    · exact ⟨_, hr1, hle1⟩
  | delete key cas _ hdel ih =>
    obtain ⟨l, hr, hle⟩ := ih
    obtain ⟨c1, st, e, _, hm, _, hcase⟩ := Delete_total hr key cas
    rw [hdel] at e
    cases e
    rcases hcase with ⟨_, hc, _⟩ | ⟨_, hc, _⟩ | ⟨_, p, it, _, _, _, _, hr1, _, hb, _⟩
    · rw [hc]; exact ⟨l, hr, hle⟩
    · rw [hc]; exact ⟨l, hr, hle⟩
    · exact ⟨_, hr1, by omega⟩

/-- Every reachable state satisfies the invariant. -/
theorem Reachable_inv {c : Cache} (h : Reachable c) : c.Inv := by
  obtain ⟨n, hn⟩ := h
  obtain ⟨l, hr, hle⟩ := ReachableIn_rep hn
  exact ⟨by rw [Rep_recency hr]; exact hr, hle⟩

/-- Eviction never removes a last item that fits the budget on its own: it
evicts the items before it against the budget that is left. -/
theorem evictList_append_fit (size : Nat → Nat) (max : Nat) (x : Nat) (hx : size x ≤ max) :
    ∀ l : List Nat, evictList size max (l ++ [x]) = evictList size (max - size x) l ++ [x] := by
  intro l
  induction l with
  | nil =>
    have : ¬ (size x > max) := by omega
    simp [evictList, this]
  | cons p r ih =>
    rw [List.cons_append, evictList, evictList]
    simp only [List.map_cons, List.map_append, List.sum_cons,
      List.sum_append, List.map_nil, List.sum_nil, add_zero]
    by_cases hgt : size p + (r.map size).sum > max - size x
    · have : size p + ((r.map size).sum + size x) > max := by omega
      simp only [hgt, this, if_true]
      exact ih
    · have : ¬ (size p + ((r.map size).sum + size x) > max) := by omega
      simp only [hgt, this, if_false, List.cons_append]

/-- Eviction empties a queue whose last item alone exceeds the budget. -/
theorem evictList_append_big (size : Nat → Nat) (max : Nat) (x : Nat) (hx : max < size x) :
    ∀ l : List Nat, evictList size max (l ++ [x]) = [] := by
  intro l
  induction l with
  | nil => simp [evictList, hx]
  | cons p r ih =>
    rw [List.cons_append, evictList]
    simp only [List.map_cons, List.map_append, List.sum_cons,
      List.sum_append, List.map_nil, List.sum_nil, add_zero]
    have : size p + ((r.map size).sum + size x) > max := by omega
    simp only [this, if_true]
    exact ih

/-- Reading an entry is reading the list of entries. -/
theorem entryAt_eq_map (h : List Item) (p : Nat) : entryAt h p = (h.map Item.entry)[p]? := by
  simp [entryAt, List.getElem?_map]

/-- Entries after one allocation: the old ones, then the new one. -/
theorem entryAt_of_append {h h1 : List Item} {e : Entry}
    (hd : h1.map Item.entry = h.map Item.entry ++ [e]) :
    (∀ p, p < h.length → entryAt h1 p = entryAt h p) ∧ entryAt h1 h.length = some e := by
  constructor
  · intro p hp
    rw [entryAt_eq_map, entryAt_eq_map, hd, List.getElem?_append_left (by simpa using hp)]
  · rw [entryAt_eq_map, hd]
    simp

/-- `Cache.Get` of a key whose item is on a well-linked queue returns the item
and keeps every entry. -/
theorem Get_linked {c : Cache} {l : List Nat} (hl : Linked c.lru c.heap l) {k : List Byte}
    {p : Nat} (hk : c.hashmap.lookup k = some p) (hp : p ∈ l) :
    ∃ c1, c.Get k = some (c1, some p) ∧ c1.heap.map Item.entry = c.heap.map Item.entry := by
  obtain ⟨lru1, h1, e1, len1, d1, hl1⟩ := Linked_erase hl hp
  have hnp : p ∉ l.erase p := fun hm => ((hl.nodup.mem_erase_iff).mp hm).1 rfl
  have hph : p < h1.length := by rw [len1]; exact hl.alloc p hp
  obtain ⟨lru2, h2, e2, len2, d2, hl2⟩ := Linked_pushBack hl1 hnp hph
  refine ⟨{ c with lru := lru2, heap := h2 }, ?_, d2.trans d1⟩
  simp [Cache.Get, hk, e1, e2]

/-- Lines 91 to 99 of `Cache.Set` for an entry within the budget: the new item
is resident afterwards, whether or not the byte count wrapped. -/
theorem store_resident {c : Cache} {l : List Nat} (k v f : List Byte)
    (hl : Linked c.lru c.heap l)
    (hmap : ∀ k' p, k' ≠ k →
      (c.hashmap.lookup k' = some p ↔ p ∈ l ∧ keyAt c.heap p = some k'))
    (hnokey : ∀ p ∈ l, keyAt c.heap p ≠ some k)
    (hkeys : (c.hashmap.map Prod.fst).Nodup)
    (hbytes : c.curBytes = sumSizes c.heap l)
    (hle : c.curBytes ≤ c.maxBytes)
    (hsize : entrySize k v ≤ c.maxBytes)
    (hmax : c.maxBytes < U64) :
    ∃ c1, c.store k v f = some (c1, add64 c.version 1, STATUS_OK) ∧
      ∃ l1, Linked c1.lru c1.heap l1 ∧ c.heap.length ∈ l1 ∧
        c1.hashmap.lookup k = some c.heap.length ∧
        entryAt c1.heap c.heap.length = some (NewItem k v f (add64 c.version 1)).entry := by
  by_cases hfits : c.curBytes + entrySize k v < U64
  · obtain ⟨c1, e1, hr1, _, hd1, _, _⟩ :=
      store_spec k v f hl hmap hnokey hkeys hbytes hfits hmax
    obtain ⟨hold, hnew⟩ := entryAt_of_append hd1
    have hsz : sizeAt c1.heap c.heap.length ≤ c.maxBytes := by
      simp only [sizeAt, hnew]
      exact hsize
    rw [evictList_append_fit _ _ _ hsz] at hr1
    have hmem : c.heap.length ∈
        evictList (sizeAt c1.heap) (c.maxBytes - sizeAt c1.heap c.heap.length) l ++
          [c.heap.length] := by simp
    refine ⟨c1, e1, _, hr1.linked, hmem, ?_, hnew⟩
    rw [hr1.map_iff]
    exact ⟨hmem, by simp [keyAt, hnew, NewItem, Item.entry]⟩
  · set it := NewItem k v f (add64 c.version 1) with hitdef
    have hl0 : Linked c.lru (c.heap ++ [it]) l := Linked_alloc hl it
    have hnl : c.heap.length ∉ l := fun hm => by
      have := hl.alloc _ hm
      omega
    have hnlt : c.heap.length < (c.heap ++ [it]).length := by simp
    obtain ⟨lru1, h1, e1, len1, d1, hl1⟩ := Linked_pushBack hl0 hnl hnlt
    have hsize' : it.Size = entrySize k v := by
      show entrySize k v % U64 = entrySize k v
      exact Nat.mod_eq_of_lt (by omega)
    have hadd : add64 c.curBytes it.Size ≤ c.maxBytes := by
      rw [hsize']
      unfold add64
      have h2 : c.curBytes + entrySize k v = (c.curBytes + entrySize k v - U64) + U64 := by
        omega
      rw [h2, Nat.add_mod_right, Nat.mod_eq_of_lt (by omega)]
      omega
    have hnot : ¬ (add64 c.curBytes it.Size > c.maxBytes) := by omega
    refine ⟨{ c with
        version := add64 c.version 1, curBytes := add64 c.curBytes it.Size,
        lru := lru1, heap := h1, hashmap := mapSet k c.heap.length c.hashmap }, ?_,
      l ++ [c.heap.length], hl1, by simp, ?_, ?_⟩
    · simp only [Cache.store, Cache.evictOverflow]
      rw [← hitdef, e1]
      simp [Cache.evictLoop, hnot]
    · show (mapSet k c.heap.length c.hashmap).lookup k = some c.heap.length
      rw [lookup_mapSet]; simp
    · show entryAt h1 c.heap.length = some it.entry
      rw [entryAt_congr d1]; exact entryAt_append_new c.heap it

/-- A `Set` that passes the CAS check, of an entry within the budget, returns
the next version with `STATUS_OK`, and the `Get` that follows returns the item
just stored. -/
theorem Set_then_Get {c : Cache} {l : List Nat} (hr : c.Rep l) (hle : c.curBytes ≤ c.maxBytes)
    (k v f : List Byte) (cas : Nat) (hsize : entrySize k v ≤ c.maxBytes)
    (hpass : ∀ p it, c.hashmap.lookup k = some p → c.heap[p]? = some it →
      cas = 0 ∨ it.version = cas)
    (habs : c.hashmap.lookup k = none → cas = 0) :
    ∃ c1, c.Set k v f cas = some (c1, add64 c.version 1, STATUS_OK) ∧
      ∃ c2 p, c1.Get k = some (c2, some p) ∧
        entryAt c2.heap p = some (NewItem k v f (add64 c.version 1)).entry := by
  have key : ∃ c1, c.Set k v f cas = some (c1, add64 c.version 1, STATUS_OK) ∧
      ∃ l1 p, Linked c1.lru c1.heap l1 ∧ p ∈ l1 ∧ c1.hashmap.lookup k = some p ∧
        entryAt c1.heap p = some (NewItem k v f (add64 c.version 1)).entry := by
    rcases hk : c.hashmap.lookup k with _ | p
    · have h0 : cas = 0 := habs hk
      subst h0
      have hnokey : ∀ p ∈ l, keyAt c.heap p ≠ some k := by
        intro p hp hkp
        have := (hr.map_iff k p).mpr ⟨hp, hkp⟩
        rw [hk] at this
        cases this
      obtain ⟨c1, e1, l1, hl1, hm1, hk1, hn1⟩ := store_resident k v f hr.linked
        (fun k' p _ => hr.map_iff k' p) hnokey hr.keys_nodup hr.bytes_eq hle hsize hr.max_lt
      exact ⟨c1, by simp [Cache.Set, hk, e1], l1, _, hl1, hm1, hk1, hn1⟩
    · have hp : p ∈ l := ((hr.map_iff k p).mp hk).1
      have hkey : keyAt c.heap p = some k := ((hr.map_iff k p).mp hk).2
      have hpl : p < c.heap.length := hr.linked.alloc p hp
      have hit : c.heap[p]? = some c.heap[p] := List.getElem?_eq_getElem hpl
      have hcas : ¬ (cas > 0 ∧ c.heap[p].version ≠ cas) := by
        rcases hpass p _ hk hit with h0 | h0
        · omega
        · exact fun h => h.2 h0
      have hmem : ∀ q, q ∈ l.erase p ↔ q ≠ p ∧ q ∈ l := fun q => hr.linked.nodup.mem_erase_iff
      obtain ⟨lru1, h1, e1, len1, d1, hl1⟩ := Linked_erase hr.linked hp
      have hpl1 : p < h1.length := by rw [len1]; exact hpl
      have hit1 : h1[p]? = some h1[p] := List.getElem?_eq_getElem hpl1
      have hle' : sizeAt c.heap p ≤ c.curBytes := by
        rw [hr.bytes_eq]; exact sizeAt_le_sum c.heap hp
      have hsz : h1[p].Size = sizeAt c.heap p := by
        rw [← sizeAt_congr d1 p]
        apply Item_Size_eq hit1
        rw [sizeAt_congr d1 p]
        exact lt_of_le_of_lt hle' hr.bytes_lt
      have hsub : sub64 c.curBytes h1[p].Size = c.curBytes - sizeAt c.heap p := by
        rw [hsz]; exact sub64_eq hle' hr.bytes_lt
      have hbytes : c.curBytes - sizeAt c.heap p = sumSizes h1 (l.erase p) := by
        rw [sumSizes_congr d1, hr.bytes_eq]
        have := sumSizes_erase c.heap hp
        omega
      obtain ⟨c1, ec1, l1, hl1', hm1, hk1, hn1⟩ := @store_resident
        { c with lru := lru1, heap := h1, curBytes := c.curBytes - sizeAt c.heap p }
        (l.erase p) k v f hl1
        (by
          intro k' q hk'
          show c.hashmap.lookup k' = some q ↔ q ∈ l.erase p ∧ keyAt h1 q = some k'
          rw [hr.map_iff k' q, keyAt_congr d1, hmem]
          constructor
          · rintro ⟨hq, hkq⟩
            refine ⟨⟨?_, hq⟩, hkq⟩
            intro e; subst e
            rw [hkey] at hkq
            exact hk' (Option.some.inj hkq).symm
          · rintro ⟨⟨_, hq⟩, hkq⟩
            exact ⟨hq, hkq⟩)
        (by
          intro q hq hkq
          change keyAt h1 q = some k at hkq
          rw [keyAt_congr d1] at hkq
          obtain ⟨hne, hql⟩ := (hmem q).mp hq
          have h1' := (hr.map_iff k q).mpr ⟨hql, hkq⟩
          exact hne (Option.some.inj (h1'.symm.trans hk)))
        hr.keys_nodup hbytes
        (by show c.curBytes - sizeAt c.heap p ≤ c.maxBytes; omega)
        hsize hr.max_lt
      refine ⟨c1, ?_, l1, _, hl1', hm1, hk1, hn1⟩
      simp only [Cache.Set, hk, hit, hcas, if_false, e1, Option.some_bind, hit1, hsub]
      exact ec1
  obtain ⟨c1, e1, l1, p, hl1, hm1, hk1, hn1⟩ := key
  obtain ⟨c2, e2, hd2⟩ := Get_linked hl1 hk1 hm1
  exact ⟨c1, e1, c2, p, e2, by rw [entryAt_congr hd2]; exact hn1⟩

/-- Incrementing a `uint64` gives at most the successor. -/
theorem add64_one_le (v : Nat) : add64 v 1 ≤ v + 1 := by
  unfold add64
  exact Nat.mod_le _ _

/-- The items queued before eviction: old items under other keys, and the new
item. -/
theorem mem_pending {c : Cache} {l : List Nat} {k : List Byte} {p : Nat}
    (hp : p ∈ c.pending l k) : (p ∈ l ∧ keyAt c.heap p ≠ some k) ∨ p = c.heap.length := by
  unfold Cache.pending at hp
  rcases List.mem_append.mp hp with h | h
  · left
    simpa using (List.mem_filter.mp h)
  · right
    simpa using h

/-- Along any run the version counter is at most the number of operations,
and in a run of fewer than `2 ^ 64` operations every resident version is
between 1 and the counter. -/
theorem ReachableIn_versions {n : Nat} {c : Cache} (h : ReachableIn n c) :
    c.version ≤ n ∧
      (n < U64 → ∀ p ∈ c.recency, ∀ e, entryAt c.heap p = some e →
        1 ≤ e.version ∧ e.version ≤ c.version) := by
  induction h with
  | init m hm =>
    refine ⟨by simp [NewCache], ?_⟩
    intro _ p hp
    simp [Cache.recency, NewCache, walk] at hp
  | @get n c c1 r key hreach hget ih =>
    obtain ⟨l, hr, _⟩ := ReachableIn_rep hreach
    obtain ⟨c1', r', e, _, hd, _, _, _, hv, hcase⟩ := Get_total hr key
    rw [hget] at e
    cases e
    refine ⟨by omega, ?_⟩
    intro hn p hp e he
    rw [entryAt_congr hd] at he
    rw [hv]
    have hpl : p ∈ c.recency := by
      rw [Rep_recency hr]
      rcases hcase with ⟨_, hc⟩ | ⟨q, _, hq, hr1⟩
      · rw [hc, Rep_recency hr] at hp; exact hp
      · rw [Rep_recency hr1] at hp
        rcases List.mem_append.mp hp with h | h
        · exact List.mem_of_mem_erase h
        · simp only [List.mem_singleton] at h
          rw [h]; exact hq
    exact ih.2 (by omega) p hpl e he
  | @set n c c1 r key value flags cas hreach hfits hset ih =>
    obtain ⟨l, hr, _⟩ := ReachableIn_rep hreach
    obtain ⟨c1', ver, st, e, hcase⟩ := Set_total hr key value flags cas hfits
    rw [hset] at e
    cases e
    rcases hcase with ⟨_, _, hc, _⟩ | ⟨_, _, hc, _⟩ | ⟨_, _, hr1, _, hd, _, hv, _⟩
    · rw [hc]
      exact ⟨by omega, fun hn => ih.2 (by omega)⟩
    · rw [hc]
      exact ⟨by omega, fun hn => ih.2 (by omega)⟩
    · have hvle := add64_one_le c.version
      refine ⟨by omega, ?_⟩
      intro hn p hp e he
      have hveq : add64 c.version 1 = c.version + 1 := add64_eq (by omega)
      rw [hv, hveq]
      rw [Rep_recency hr1] at hp
      have hp2 := mem_pending ((evictList_suffix _ _ _).subset hp)
      obtain ⟨hold, hnew⟩ := entryAt_of_append hd
      rcases hp2 with ⟨hpl, _⟩ | hpn
      · rw [hold p (hr.linked.alloc p hpl)] at he
        have := ih.2 (by omega) p (by rw [Rep_recency hr]; exact hpl) e he
        omega
      · rw [hpn, hnew] at he
        cases he
        simp only [NewItem, Item.entry, hveq]
        omega
  | @delete n c c1 r key cas hreach hdel ih =>
    obtain ⟨l, hr, _⟩ := ReachableIn_rep hreach
    obtain ⟨c1', st, e, hd, _, hv, hcase⟩ := Delete_total hr key cas
    rw [hdel] at e
    cases e
    refine ⟨by omega, ?_⟩
    intro hn p hp e he
    rw [entryAt_congr hd] at he
    rw [hv]
    have hpl : p ∈ c.recency := by
      rw [Rep_recency hr]
      rcases hcase with ⟨_, hc, _⟩ | ⟨_, hc, _⟩ | ⟨_, q, it, _, _, _, _, hr1, _⟩
      · rw [hc, Rep_recency hr] at hp; exact hp
      · rw [hc, Rep_recency hr] at hp; exact hp
      · rw [Rep_recency hr1] at hp
        exact List.mem_of_mem_erase hp
    exact ih.2 (by omega) p hpl e he

/-! ## The resident entries after each operation -/

/-- Every queued item is allocated. -/
theorem Rep_entry {c : Cache} {l : List Nat} (hr : c.Rep l) {p : Nat} (hp : p ∈ l) :
    ∃ e, entryAt c.heap p = some e := by
  have hpl := hr.linked.alloc p hp
  exact ⟨c.heap[p].entry, by simp [entryAt, List.getElem?_eq_getElem hpl]⟩

/-- The resident entries are the entries of the queue. -/
theorem Rep_entries {c : Cache} {l : List Nat} (hr : c.Rep l) :
    c.entries = l.filterMap (entryAt c.heap) := by
  unfold Cache.entries
  rw [Rep_recency hr]

/-- Dropping the addresses under a key drops the entries under that key. -/
theorem filterMap_dropKey (h : List Item) (k : List Byte) (l : List Nat) :
    (l.filter (fun q => decide (keyAt h q ≠ some k))).filterMap (entryAt h) =
      dropKey k (l.filterMap (entryAt h)) := by
  unfold dropKey
  induction l with
  | nil => rfl
  | cons p r ih =>
    rcases he : entryAt h p with _ | e
    · have hdec : decide (keyAt h p ≠ some k) = true := by simp [keyAt, he]
      rw [List.filter_cons]
      simp only [hdec, if_true, List.filterMap_cons, he]
      exact ih
    · by_cases hk : e.key = k
      · have hdec : decide (keyAt h p ≠ some k) = false := by simp [keyAt, he, hk]
        have hdec2 : decide (e.key ≠ k) = false := by simp [hk]
        rw [List.filter_cons]
        simp only [hdec, List.filterMap_cons, he, List.filter_cons, hdec2]
        exact ih
      · have hdec : decide (keyAt h p ≠ some k) = true := by simp [keyAt, he, hk]
        have hdec2 : decide (e.key ≠ k) = true := by simp [hk]
        rw [List.filter_cons]
        simp only [hdec, if_true, List.filterMap_cons, he, List.filter_cons, hdec2]
        rw [ih]

/-- The byte count of a queue of allocated items is that of its entries. -/
theorem sum_sizes_filterMap (h : List Item) (l : List Nat)
    (hl : ∀ p ∈ l, ∃ e, entryAt h p = some e) :
    ((l.filterMap (entryAt h)).map Entry.size).sum = sumSizes h l := by
  induction l with
  | nil => rfl
  | cons p r ih =>
    obtain ⟨e, he⟩ := hl p (List.mem_cons_self p r)
    have ih' := ih (fun q hq => hl q (List.mem_cons_of_mem p hq))
    simp only [sumSizes] at ih' ⊢
    simp [List.filterMap_cons, he, ih', sizeAt]

/-- Eviction on addresses is eviction on entries. -/
theorem evictList_entries (h : List Item) (max : Nat) (l : List Nat)
    (hl : ∀ p ∈ l, ∃ e, entryAt h p = some e) :
    (evictList (sizeAt h) max l).filterMap (entryAt h) =
      evictEntries max (l.filterMap (entryAt h)) := by
  induction l with
  | nil => rfl
  | cons p r ih =>
    obtain ⟨e, he⟩ := hl p (List.mem_cons_self p r)
    have hl' : ∀ q ∈ r, ∃ e, entryAt h q = some e :=
      fun q hq => hl q (List.mem_cons_of_mem p hq)
    have hsum := sum_sizes_filterMap h r hl'
    have hsz : sizeAt h p = e.size := by simp [sizeAt, he]
    rw [evictList, List.filterMap_cons, he]
    simp only [evictEntries, List.map_cons, List.sum_cons, hsum, hsz]
    unfold sumSizes
    by_cases hgt : e.size + (r.map (sizeAt h)).sum > max
    · simp only [hgt, if_true]
      exact ih hl'
    · simp only [hgt, if_false, List.filterMap_cons, he]

/-- The entries after a `Get` hit: the hit entry moves to the most recently used
end. -/
theorem entries_Get_hit {c c1 : Cache} {l : List Nat} (hr : c.Rep l) {k : List Byte} {p : Nat}
    (hk : c.hashmap.lookup k = some p) (hr1 : c1.Rep (l.erase p ++ [p]))
    (hd : c1.heap.map Item.entry = c.heap.map Item.entry) :
    ∃ e, entryAt c.heap p = some e ∧ e.key = k ∧ c1.entries = dropKey k c.entries ++ [e] := by
  have hp : p ∈ l := ((hr.map_iff k p).mp hk).1
  have hkey : keyAt c.heap p = some k := ((hr.map_iff k p).mp hk).2
  obtain ⟨e, he⟩ := Rep_entry hr hp
  refine ⟨e, he, ?_, ?_⟩
  · simpa [keyAt, he] using hkey
  · have hsame : entryAt c1.heap = entryAt c.heap := funext (entryAt_congr hd)
    rw [Rep_entries hr1, Rep_entries hr, hsame, List.filterMap_append,
      ← filter_key_present hr hk, filterMap_dropKey]
    simp [he]

/-- The entries after a `Delete` that removes the item at `p`. -/
theorem entries_Delete {c c1 : Cache} {l : List Nat} (hr : c.Rep l) {k : List Byte} {p : Nat}
    (hk : c.hashmap.lookup k = some p) (hr1 : c1.Rep (l.erase p))
    (hd : c1.heap.map Item.entry = c.heap.map Item.entry) :
    c1.entries = dropKey k c.entries := by
  have hsame : entryAt c1.heap = entryAt c.heap := funext (entryAt_congr hd)
  rw [Rep_entries hr1, Rep_entries hr, hsame, ← filter_key_present hr hk, filterMap_dropKey]

/-- The entries after a `Set` that stores: the old entry under the key goes,
the new entry is the most recently used, and entries are evicted from the
least recently used end down to the budget. -/
theorem entries_Set {c c1 : Cache} {l : List Nat} (hr : c.Rep l) {k : List Byte} {e : Entry}
    (hr1 : c1.Rep (evictList (sizeAt c1.heap) c.maxBytes (c.pending l k)))
    (hd : c1.heap.map Item.entry = c.heap.map Item.entry ++ [e]) :
    c1.entries = evictEntries c.maxBytes (dropKey k c.entries ++ [e]) := by
  obtain ⟨hold, hnew⟩ := entryAt_of_append hd
  have halloc : ∀ p ∈ c.pending l k, ∃ e', entryAt c1.heap p = some e' := by
    intro p hp
    rcases mem_pending hp with ⟨hpl, _⟩ | hpn
    · rw [hold p (hr.linked.alloc p hpl)]; exact Rep_entry hr hpl
    · rw [hpn]; exact ⟨e, hnew⟩
  rw [Rep_entries hr1, evictList_entries _ _ _ halloc, Rep_entries hr]
  congr 1
  unfold Cache.pending
  rw [List.filterMap_append, ← filterMap_dropKey]
  congr 1
  · apply List.filterMap_congr
    intro p hp
    exact hold p (hr.linked.alloc p (List.mem_filter.mp hp).1)
  · simp [hnew]

/-- Eviction removes the shortest run of least recently used entries that
brings the byte count within the budget. -/
theorem evictEntries_drop (max : Nat) (es : List Entry) :
    ∃ n, n ≤ es.length ∧ evictEntries max es = es.drop n ∧
      ((es.drop n).map Entry.size).sum ≤ max ∧
      ∀ j, j < n → max < ((es.drop j).map Entry.size).sum := by
  induction es with
  | nil => exact ⟨0, by simp, rfl, by simp, fun j hj => by omega⟩
  | cons e es ih =>
    by_cases hgt : ((e :: es).map Entry.size).sum > max
    · obtain ⟨n, hn, h1, h2, h3⟩ := ih
      refine ⟨n + 1, by simp; omega, ?_, by simpa using h2, ?_⟩
      · rw [evictEntries]; simp only [hgt, if_true]; simpa using h1
      · intro j hj
        cases j with
        | zero => simpa using hgt
        | succ j => simpa using h3 j (by omega)
    · refine ⟨0, by simp, ?_, by simpa using (by omega : ((e :: es).map Entry.size).sum ≤ max),
        fun j hj => by omega⟩
      rw [evictEntries]; simp only [hgt, if_false, List.drop_zero]

/-! ## Runs -/

/-- Copying four bytes into the `[4]byte` gives those bytes. -/
theorem copyFlags_four {f : List Byte} (hf : f.length = 4) : copyFlags f = f := by
  unfold copyFlags
  rw [hf]
  simp [List.take_of_length_le (le_of_eq hf)]

/-- On a reachable state every run of fitting operations returns, and ends in
a reachable state. -/
theorem run_reachable : ∀ (ops : List Op) {n : Nat} {c : Cache}, ReachableIn n c →
    (∀ op ∈ ops, op.Fits c.maxBytes) →
    ∃ c1 rs, c.run ops = some (c1, rs) ∧ ReachableIn (n + ops.length) c1 ∧
      c1.maxBytes = c.maxBytes := by
  intro ops
  induction ops with
  | nil => intro n c h _; exact ⟨c, [], rfl, h, rfl⟩
  | cons op ops ih =>
    intro n c h hfit
    obtain ⟨l, hr, hle⟩ := ReachableIn_rep h
    have hrest : ∀ o ∈ ops, o.Fits c.maxBytes := fun o ho => hfit o (List.mem_cons_of_mem op ho)
    have hstep : ∃ c1 r, c.apply op = some (c1, r) ∧ ReachableIn (n + 1) c1 ∧
        c1.maxBytes = c.maxBytes := by
      cases op with
      | get key =>
        obtain ⟨c1, r, e, _, _, _, _, hm, _, _⟩ := Get_total hr key
        exact ⟨c1, Reply.item r, by simp [Cache.apply, e], ReachableIn.get key h e, hm⟩
      | set key value flags cas =>
        have hf : c.SetFits key value := by
          have := hfit _ (List.mem_cons_self _ _)
          simp only [Op.Fits] at this
          unfold Cache.SetFits
          omega
        obtain ⟨c1, ver, st, e, hcase⟩ := Set_total hr key value flags cas hf
        refine ⟨c1, Reply.stored ver st, by simp [Cache.apply, e],
          ReachableIn.set key value flags cas h hf e, ?_⟩
        rcases hcase with ⟨_, _, hc, _⟩ | ⟨_, _, hc, _⟩ | ⟨_, _, _, _, _, hm, _⟩
        · rw [hc]
        · rw [hc]
        · exact hm
      | delete key cas =>
        obtain ⟨c1, st, e, _, hm, _, _⟩ := Delete_total hr key cas
        exact ⟨c1, Reply.deleted st, by simp [Cache.apply, e], ReachableIn.delete key cas h e, hm⟩
    obtain ⟨c1, r, e1, h1, hm1⟩ := hstep
    obtain ⟨c2, rs, e2, h2, hm2⟩ := ih h1 (by rw [hm1]; exact hrest)
    refine ⟨c2, r :: rs, by simp [Cache.run, e1, e2], ?_, by rw [hm2, hm1]⟩
    have : n + (op :: ops).length = n + 1 + ops.length := by simp; omega
    rw [this]; exact h2

/-- The result of a run of fitting operations on a new cache is reachable. -/
theorem reachable_of_run {m : Nat} {ops : List Op} {c : Cache} {rs : List Reply}
    (hm : m < U64) (hfit : ∀ op ∈ ops, op.Fits m)
    (hrun : (NewCache m).run ops = some (c, rs)) : Reachable c := by
  obtain ⟨c1, rs1, e, h, _⟩ := run_reachable ops (ReachableIn.init m hm) hfit
  rw [hrun] at e
  cases e
  exact ⟨_, h⟩

/-- A state represented by the empty queue has an empty map. -/
theorem hashmap_nil_of_Rep_nil {c : Cache} (hr : c.Rep []) : c.hashmap = [] := by
  rcases hm : c.hashmap with _ | ⟨⟨a, b⟩, m⟩
  · rfl
  · have := (hr.map_iff a b).mp (by rw [hm]; simp [List.lookup_cons])
    simp at this

/-- The state after a run of fitting operations on a new cache is reachable in
as many steps as the run has operations. -/
theorem reachableIn_stateAfter (m : Nat) (ops : List Op) (hm : m < U64)
    (hfit : ∀ op ∈ ops, op.Fits m) : ReachableIn ops.length (stateAfter m ops) := by
  obtain ⟨c1, rs1, e, h, _⟩ := run_reachable ops (ReachableIn.init m hm) hfit
  have : stateAfter m ops = c1 := by simp [stateAfter, e]
  rw [this]
  simpa using h

/-- The state after a run of fitting operations on a new cache is reachable. -/
theorem reachable_stateAfter (m : Nat) (ops : List Op) (hm : m < U64)
    (hfit : ∀ op ∈ ops, op.Fits m) : Reachable (stateAfter m ops) :=
  ⟨_, reachableIn_stateAfter m ops hm hfit⟩

/-- One operation on a reachable state: it returns, the version counter does
not decrease, and a stored reply with `STATUS_OK` carries the new counter, one
more than the old. -/
theorem apply_version {n : Nat} {c : Cache} (h : ReachableIn n c) (op : Op)
    (hfit : op.Fits c.maxBytes) :
    ∃ c1 r, c.apply op = some (c1, r) ∧ ReachableIn (n + 1) c1 ∧
      c1.maxBytes = c.maxBytes ∧
      ((c1.version = c.version ∧ okVersions [r] = []) ∨
       (c1.version = add64 c.version 1 ∧ okVersions [r] = [add64 c.version 1])) := by
  obtain ⟨l, hr, hle⟩ := ReachableIn_rep h
  cases op with
  | get key =>
    obtain ⟨c1, r, e, _, _, _, _, hm, hv, _⟩ := Get_total hr key
    exact ⟨c1, Reply.item r, by simp [Cache.apply, e], ReachableIn.get key h e, hm,
      Or.inl ⟨hv, rfl⟩⟩
  | set key value flags cas =>
    have hf : c.SetFits key value := by
      simp only [Op.Fits] at hfit
      unfold Cache.SetFits
      omega
    obtain ⟨c1, ver, st, e, hcase⟩ := Set_total hr key value flags cas hf
    refine ⟨c1, Reply.stored ver st, by simp [Cache.apply, e],
      ReachableIn.set key value flags cas h hf e, ?_⟩
    rcases hcase with ⟨hst, _, hc, _⟩ | ⟨hst, _, hc, _⟩ | ⟨hst, hver, _, _, _, hm, hv, _⟩
    · subst hst; subst hc
      exact ⟨rfl, Or.inl ⟨rfl, by simp [okVersions, STATUS_KEY_NOT_FOUND, STATUS_OK]⟩⟩
    · subst hst; subst hc
      exact ⟨rfl, Or.inl ⟨rfl, by simp [okVersions, STATUS_KEY_EXISTS, STATUS_OK]⟩⟩
    · subst hst; subst hver
      exact ⟨hm, Or.inr ⟨hv, by simp [okVersions]⟩⟩
  | delete key cas =>
    obtain ⟨c1, st, e, _, hm, hv, _⟩ := Delete_total hr key cas
    exact ⟨c1, Reply.deleted st, by simp [Cache.apply, e], ReachableIn.delete key cas h e, hm,
      Or.inl ⟨hv, rfl⟩⟩

/-- The successful versions of a run: those of the first reply, then the rest. -/
theorem okVersions_cons (r : Reply) (rs : List Reply) :
    okVersions (r :: rs) = okVersions [r] ++ okVersions rs := by
  cases r with
  | item p => rfl
  | stored ver st =>
    by_cases h : st = STATUS_OK <;> simp [okVersions, h]
  | deleted st => rfl

/-- A run of fitting operations from a state reached in `n` steps, the whole
staying below `2 ^ 64` steps: the versions of the successful `Set`s are above
the starting counter and strictly increasing. -/
theorem run_versions : ∀ (ops : List Op) {n : Nat} {c : Cache}, ReachableIn n c →
    (∀ op ∈ ops, op.Fits c.maxBytes) → n + ops.length < U64 →
    ∃ c1 rs, c.run ops = some (c1, rs) ∧ (okVersions rs).Pairwise (· < ·) ∧
      ∀ v ∈ okVersions rs, c.version < v := by
  intro ops
  induction ops with
  | nil => intro n c _ _ _; exact ⟨c, [], rfl, by simp [okVersions], by simp [okVersions]⟩
  | cons op ops ih =>
    intro n c h hfit hlen
    have hlen' : n + 1 + ops.length < U64 := by simp at hlen; omega
    obtain ⟨c1, r, e1, h1, hm1, hcase⟩ := apply_version h op (hfit op (List.mem_cons_self _ _))
    obtain ⟨c2, rs, e2, hpw, hgt⟩ := ih h1
      (by rw [hm1]; exact fun o ho => hfit o (List.mem_cons_of_mem op ho)) hlen'
    have hvn := (ReachableIn_versions h).1
    refine ⟨c2, r :: rs, by simp [Cache.run, e1, e2], ?_, ?_⟩
    · rw [okVersions_cons]
      rcases hcase with ⟨_, hnil⟩ | ⟨hv, hone⟩
      · rw [hnil]; simpa using hpw
      · rw [hone, List.singleton_append, List.pairwise_cons]
        refine ⟨?_, hpw⟩
        intro v hv'
        have := hgt v hv'
        rw [hv] at this
        exact this
    · intro v hv'
      rw [okVersions_cons] at hv'
      rcases hcase with ⟨hv, hnil⟩ | ⟨hv, hone⟩
      · rw [hnil] at hv'
        have := hgt v (by simpa using hv')
        omega
      · have hveq : add64 c.version 1 = c.version + 1 := add64_eq (by omega)
        rw [hone, List.singleton_append, List.mem_cons] at hv'
        rcases hv' with hv' | hv'
        · omega
        · have := hgt v hv'
          omega

/-- There are as many resident entries as queued items. -/
theorem Rep_entries_length {c : Cache} {l : List Nat} (hr : c.Rep l) :
    c.entries.length = l.length := by
  rw [Rep_entries hr]
  have : ∀ (r : List Nat), (∀ p ∈ r, ∃ e, entryAt c.heap p = some e) →
      (r.filterMap (entryAt c.heap)).length = r.length := by
    intro r
    induction r with
    | nil => intro _; rfl
    | cons p r ih =>
      intro hall
      obtain ⟨e, he⟩ := hall p (List.mem_cons_self _ _)
      simp [List.filterMap_cons, he, ih (fun q hq => hall q (List.mem_cons_of_mem _ hq))]
  exact this l (fun p hp => Rep_entry hr hp)

/-- The byte count of a represented state is that of its resident entries. -/
theorem Rep_bytes_entries {c : Cache} {l : List Nat} (hr : c.Rep l) :
    c.curBytes = (c.entries.map Entry.size).sum := by
  rw [Rep_entries hr, sum_sizes_filterMap _ _ (fun p hp => Rep_entry hr hp)]
  exact hr.bytes_eq

/-- Entries within the budget are left alone by eviction. -/
theorem evictEntries_of_le (max : Nat) (es : List Entry)
    (h : (es.map Entry.size).sum ≤ max) : evictEntries max es = es := by
  cases es with
  | nil => rfl
  | cons e r =>
    have : ¬ ((e :: r).map Entry.size).sum > max := by omega
    simp only [evictEntries, this, if_false]

/-- The byte count of entries of one size. -/
theorem sum_uniform (s : Nat) (es : List Entry) (h : ∀ e ∈ es, e.size = s) :
    (es.map Entry.size).sum = es.length * s := by
  induction es with
  | nil => simp
  | cons e r ih =>
    have h1 := h e (List.mem_cons_self _ _)
    have h2 := ih (fun x hx => h x (List.mem_cons_of_mem _ hx))
    simp only [List.map_cons, List.sum_cons, List.length_cons, h1, h2]
    rw [Nat.add_mul]
    omega

/-- Eviction among entries of one size `s` against the budget `m * s`, with at
most one entry too many: the last `m` entries stay. -/
theorem evictEntries_uniform (m s : Nat) (hs : 0 < s) (es : List Entry)
    (h : ∀ e ∈ es, e.size = s) (hlen : es.length ≤ m + 1) :
    evictEntries (m * s) es = es.drop (es.length - m) := by
  by_cases hle : es.length ≤ m
  · have h0 : es.length - m = 0 := by omega
    rw [h0, List.drop_zero]
    apply evictEntries_of_le
    rw [sum_uniform s es h]
    exact Nat.mul_le_mul_right s hle
  · cases es with
    | nil => simp at hle
    | cons e r =>
      have hr : r.length = m := by simp at hlen hle; omega
      have hsum := sum_uniform s (e :: r) h
      have hgt : ((e :: r).map Entry.size).sum > m * s := by
        rw [hsum, List.length_cons, hr, Nat.add_mul]
        omega
      have hrest : (r.map Entry.size).sum ≤ m * s := by
        rw [sum_uniform s r (fun x hx => h x (List.mem_cons_of_mem _ hx)), hr]
      have h1 : (e :: r).length - m = 1 := by simp [hr]
      rw [evictEntries, h1]
      simp only [hgt, if_true]
      rw [evictEntries_of_le _ _ hrest]
      rfl

/-- Keeping the last `m` keys, appending, and keeping the last `m` again is keeping the last `m` of the whole. -/
theorem drop_last_append (m : Nat) (xs ys : List (List Byte)) :
    (xs.drop (xs.length - m) ++ ys).drop ((xs.drop (xs.length - m) ++ ys).length - m) =
      (xs ++ ys).drop ((xs ++ ys).length - m) := by
  by_cases h : xs.length ≤ m
  · have : xs.length - m = 0 := by omega
    rw [this, List.drop_zero]
  · have hd : (xs ++ ys).length - m = (xs.length - m) + ys.length := by
      simp only [List.length_append]; omega
    have hd2 : (xs.drop (xs.length - m) ++ ys).length - m = ys.length := by
      simp only [List.length_append, List.length_drop]; omega
    rw [hd, hd2, ← List.drop_drop,
      List.drop_append_of_le_length (by omega : xs.length - m ≤ xs.length)]

/-- The map misses a key exactly when no resident entry carries it. -/
theorem lookup_none_iff_entries {c : Cache} {l : List Nat} (hr : c.Rep l) (k : List Byte) :
    c.hashmap.lookup k = none ↔ k ∉ c.entries.map Entry.key := by
  rw [Rep_entries hr]
  constructor
  · intro hnone hmem
    simp only [List.mem_map, List.mem_filterMap] at hmem
    obtain ⟨e, ⟨p, hp, he⟩, hk⟩ := hmem
    have := (hr.map_iff k p).mpr ⟨hp, by simp [keyAt, he, hk]⟩
    rw [hnone] at this
    cases this
  · intro hnot
    rcases hl : c.hashmap.lookup k with _ | p
    · rfl
    · exfalso
      obtain ⟨hp, hkey⟩ := (hr.map_iff k p).mp hl
      obtain ⟨e, he⟩ := Rep_entry hr hp
      apply hnot
      simp only [List.mem_map, List.mem_filterMap]
      refine ⟨e, ⟨p, hp, he⟩, ?_⟩
      simpa [keyAt, he] using hkey

/-- Dropping a key that no entry carries changes nothing. -/
theorem dropKey_of_not_mem (k : List Byte) (es : List Entry)
    (h : k ∉ es.map Entry.key) : dropKey k es = es := by
  unfold dropKey
  rw [List.filter_eq_self]
  intro e he
  simp only [decide_eq_true_eq]
  intro hk
  exact h (List.mem_map.mpr ⟨e, he, hk⟩)

/-- A sequence of `Set`s with CAS 0 of distinct new keys, all entries of one
size `s`, into a cache of budget `m * s` that holds at most `m` entries of
that size: every `Set` returns, and the resident keys are the last `m` of the
keys resident before followed by the keys set. -/
theorem setAll_spec (m s : Nat) (hs : (m + 1) * s < U64) :
    ∀ (kvs : List (List Byte × List Byte × List Byte)) (c : Cache) (l : List Nat),
      c.Rep l → c.maxBytes = m * s → (∀ e ∈ c.entries, e.size = s) →
      c.entries.length ≤ m →
      (c.entries.map Entry.key ++ kvs.map (fun kv => kv.1)).Nodup →
      (∀ kv ∈ kvs, entrySize kv.1 kv.2.1 = s) →
      ∃ c1 l1, c.setAll kvs = some c1 ∧ c1.Rep l1 ∧ c1.maxBytes = m * s ∧
        c1.entries.map Entry.key =
          (c.entries.map Entry.key ++ kvs.map (fun kv => kv.1)).drop
            ((c.entries.map Entry.key ++ kvs.map (fun kv => kv.1)).length - m) := by
  intro kvs
  induction kvs with
  | nil =>
    intro c l hr hmax hsz hlen hnd _
    refine ⟨c, l, rfl, hr, hmax, ?_⟩
    have : (c.entries.map Entry.key).length - m = 0 := by simp; omega
    simp only [List.map_nil, List.append_nil]
    rw [this, List.drop_zero]
  | cons kv rest ih =>
    intro c l hr hmax hsz hlen hnd hkv
    have hks : entrySize kv.1 kv.2.1 = s := hkv kv (List.mem_cons_self _ _)
    have hspos : 0 < s := by
      rw [← hks]; unfold entrySize; omega
    have hnotin : kv.1 ∉ c.entries.map Entry.key := by
      intro hmem
      rw [List.nodup_append] at hnd
      exact hnd.2.2 hmem (by simp)
    have hnone : c.hashmap.lookup kv.1 = none := (lookup_none_iff_entries hr kv.1).mpr hnotin
    have hbytes : c.curBytes = c.entries.length * s := by
      rw [Rep_bytes_entries hr, sum_uniform s _ hsz]
    have hfits : c.SetFits kv.1 kv.2.1 := by
      unfold Cache.SetFits
      rw [hbytes, hks]
      have : c.entries.length * s ≤ m * s := Nat.mul_le_mul_right s hlen
      rw [Nat.add_mul] at hs
      omega
    obtain ⟨c1, ver, st, e, hcase⟩ := Set_total hr kv.1 kv.2.1 kv.2.2 0 hfits
    rcases hcase with ⟨_, _, _, _, h0⟩ | ⟨_, _, _, _, _, _, _, h0, _⟩ |
      ⟨_, _, hr1, _, hd, hm1, _, _⟩
    · omega
    · omega
    · have hent := entries_Set hr hr1 hd
      rw [dropKey_of_not_mem _ _ hnotin, hmax] at hent
      have huni : ∀ x ∈ c.entries ++ [(NewItem kv.1 kv.2.1 kv.2.2 (add64 c.version 1)).entry],
          x.size = s := by
        intro x hx
        rcases List.mem_append.mp hx with hx | hx
        · exact hsz x hx
        · simp only [List.mem_singleton] at hx
          rw [hx]; exact hks
      rw [evictEntries_uniform m s hspos _ huni (by simp; omega)] at hent
      have hkeys1 : c1.entries.map Entry.key =
          (c.entries.map Entry.key ++ [kv.1]).drop
            ((c.entries.map Entry.key ++ [kv.1]).length - m) := by
        rw [hent, List.map_drop]
        simp [NewItem, Item.entry]
      have hsz1 : ∀ x ∈ c1.entries, x.size = s := by
        intro x hx
        rw [hent] at hx
        exact huni x (List.mem_of_mem_drop hx)
      have hlen1 : c1.entries.length ≤ m := by
        rw [hent, List.length_drop]
        simp only [List.length_append, List.length_singleton]
        omega
      have hnd1 : (c1.entries.map Entry.key ++ rest.map (fun kv => kv.1)).Nodup := by
        rw [hkeys1]
        have hsub : ((c.entries.map Entry.key ++ [kv.1]).drop
            ((c.entries.map Entry.key ++ [kv.1]).length - m) ++ rest.map (fun kv => kv.1)).Sublist
            ((c.entries.map Entry.key ++ [kv.1]) ++ rest.map (fun kv => kv.1)) :=
          List.Sublist.append (List.drop_sublist _ _) (List.Sublist.refl _)
        apply hsub.nodup
        simpa using hnd
      obtain ⟨c2, l2, e2, hr2, hm2, hkeys2⟩ := ih c1 _ hr1 (hm1.trans hmax) hsz1 hlen1 hnd1
        (fun x hx => hkv x (List.mem_cons_of_mem _ hx))
      refine ⟨c2, l2, by simp [Cache.setAll, e, e2], hr2, hm2, ?_⟩
      rw [hkeys2, hkeys1, drop_last_append]
      simp

/-- A subtraction that does not go below zero is the `uint64` subtraction. -/
theorem sub64Exact_eq {a b : Nat} (hb : b ≤ a) (ha : a < U64) :
    sub64Exact a b = some (sub64 a b) := by
  unfold sub64Exact
  rw [if_pos hb, sub64_eq hb ha]

/-- On a represented state the eviction loop never subtracts below zero. -/
theorem evictLoopExact_eq : ∀ (fuel : Nat) (c : Cache) (l : List Nat), c.Rep l →
    c.evictLoopExact fuel = c.evictLoop fuel := by
  intro fuel
  induction fuel with
  | zero => intro c l _; rfl
  | succ n ih =>
    intro c l hr
    by_cases hgt : c.curBytes > c.maxBytes
    · cases l with
      | nil =>
        have := hr.bytes_eq
        simp [sumSizes] at this
        omega
      | cons p r =>
        have hp : p ∈ p :: r := List.mem_cons_self p r
        have hhead : c.lru.head = some p := by rw [hr.linked.head_eq]; rfl
        obtain ⟨lru1, h1, e1, len1, d1, hl1⟩ := Linked_erase hr.linked hp
        have hpl : p < h1.length := by rw [len1]; exact hr.linked.alloc p hp
        have hit1 : h1[p]? = some h1[p] := List.getElem?_eq_getElem hpl
        have hle : sizeAt c.heap p ≤ c.curBytes := by
          rw [hr.bytes_eq]; exact sizeAt_le_sum c.heap hp
        have hsz : h1[p].Size = sizeAt c.heap p := by
          rw [← sizeAt_congr d1 p]
          apply Item_Size_eq hit1
          rw [sizeAt_congr d1 p]
          exact lt_of_le_of_lt hle hr.bytes_lt
        have hsub : sub64 c.curBytes h1[p].Size = c.curBytes - sizeAt c.heap p := by
          rw [hsz]; exact sub64_eq hle hr.bytes_lt
        have hex : sub64Exact c.curBytes h1[p].Size = some (c.curBytes - sizeAt c.heap p) := by
          rw [sub64Exact_eq (by rw [hsz]; exact hle) hr.bytes_lt, hsub]
        have hkey : keyAt c.heap p = some h1[p].key := by
          rw [← keyAt_congr d1 p]; exact keyAt_eq hit1
        have hr2 := Rep_remove hr hp hkey hl1 d1
        have herase : (p :: r).erase p = r := by simp
        rw [herase] at hr2
        have := ih _ r hr2
        simp only [Cache.evictLoopExact, Cache.evictLoop, hgt, if_true, LRU.PopFront, hhead, e1,
          Option.map_some', hit1, hex, hsub, Option.some_bind]
        exact this
    · simp [Cache.evictLoopExact, Cache.evictLoop, hgt]

/-- The state of `Cache.store` before `evictOverflow` runs is represented by
the old queue followed by the new item. -/
theorem store_pending_Rep {c : Cache} {l : List Nat} (k v f : List Byte)
    (hl : Linked c.lru c.heap l)
    (hmap : ∀ k' p, k' ≠ k →
      (c.hashmap.lookup k' = some p ↔ p ∈ l ∧ keyAt c.heap p = some k'))
    (hnokey : ∀ p ∈ l, keyAt c.heap p ≠ some k)
    (hkeys : (c.hashmap.map Prod.fst).Nodup)
    (hbytes : c.curBytes = sumSizes c.heap l)
    (hfits : c.curBytes + entrySize k v < U64)
    (hmax : c.maxBytes < U64) :
    ∃ lru1 h1,
      c.lru.PushBack (c.heap ++ [NewItem k v f (add64 c.version 1)]) c.heap.length =
        some (lru1, h1) ∧
      Cache.Rep { c with
        version := add64 c.version 1,
        curBytes := add64 c.curBytes (NewItem k v f (add64 c.version 1)).Size,
        lru := lru1, heap := h1, hashmap := mapSet k c.heap.length c.hashmap }
        (l ++ [c.heap.length]) := by
  have hl0 : Linked c.lru (c.heap ++ [NewItem k v f (add64 c.version 1)]) l :=
    Linked_alloc hl _
  have hnl : c.heap.length ∉ l := fun hm => by
    have := hl.alloc _ hm
    omega
  have hnlt : c.heap.length < (c.heap ++ [NewItem k v f (add64 c.version 1)]).length := by simp
  obtain ⟨lru1, h1, e1, len1, d1, hl1⟩ := Linked_pushBack hl0 hnl hnlt
  refine ⟨lru1, h1, e1, ?_⟩
  have hsize : (NewItem k v f (add64 c.version 1)).Size = entrySize k v := by
    show entrySize k v % U64 = entrySize k v
    exact Nat.mod_eq_of_lt (by omega)
  have hadd : add64 c.curBytes (NewItem k v f (add64 c.version 1)).Size =
      c.curBytes + entrySize k v := by
    rw [hsize]; exact add64_eq hfits
  have hkeyOld : ∀ q ∈ l, keyAt h1 q = keyAt c.heap q := by
    intro q hq
    rw [keyAt_congr d1]
    simp [keyAt, entryAt_append_lt c.heap _ (hl.alloc q hq)]
  have hentNew : entryAt h1 c.heap.length =
      some (NewItem k v f (add64 c.version 1)).entry := by
    rw [entryAt_congr d1]; exact entryAt_append_new c.heap _
  have hkeyNew : keyAt h1 c.heap.length = some k := by
    simp [keyAt, hentNew, NewItem, Item.entry]
  constructor
  · exact hl1
  · intro k' q
    show (mapSet k c.heap.length c.hashmap).lookup k' = some q ↔
      q ∈ l ++ [c.heap.length] ∧ keyAt h1 q = some k'
    rw [lookup_mapSet, List.mem_append, List.mem_singleton]
    by_cases hk : k' = k
    · subst hk
      simp only [if_true]
      constructor
      · intro e
        have : q = c.heap.length := (Option.some.inj e).symm
        subst this
        exact ⟨Or.inr rfl, hkeyNew⟩
      · rintro ⟨hq | hq, hkq⟩
        · rw [hkeyOld q hq] at hkq
          exact absurd hkq (hnokey q hq)
        · rw [hq]
    · simp only [hk, if_false]
      rw [hmap k' q hk]
      constructor
      · rintro ⟨hq, hkq⟩
        exact ⟨Or.inl hq, by rw [hkeyOld q hq]; exact hkq⟩
      · rintro ⟨hq | hq, hkq⟩
        · exact ⟨hq, by rw [← hkeyOld q hq]; exact hkq⟩
        · rw [hq, hkeyNew] at hkq
          exact absurd (Option.some.inj hkq).symm hk
  · exact keys_mapSet k c.heap.length c.hashmap hkeys
  · show add64 c.curBytes (NewItem k v f (add64 c.version 1)).Size =
      sumSizes h1 (l ++ [c.heap.length])
    rw [hadd, sumSizes_congr d1, hbytes]
    have h1' := sumSizes_alloc c.heap (NewItem k v f (add64 c.version 1)) l hl.alloc
    have h2' : sizeAt (c.heap ++ [NewItem k v f (add64 c.version 1)]) c.heap.length =
        entrySize k v := by
      unfold sizeAt
      rw [entryAt_append_new]
      rfl
    simp only [sumSizes, List.map_append, List.sum_append, List.map_cons, List.map_nil,
      List.sum_cons, List.sum_nil] at h1' ⊢
    omega
  · show add64 c.curBytes (NewItem k v f (add64 c.version 1)).Size < U64
    rw [hadd]; exact hfits
  · exact hmax

/-- Lines 91 to 99 of `Cache.Set` never subtract below zero. -/
theorem storeExact_eq {c : Cache} {l : List Nat} (k v f : List Byte)
    (hl : Linked c.lru c.heap l)
    (hmap : ∀ k' p, k' ≠ k →
      (c.hashmap.lookup k' = some p ↔ p ∈ l ∧ keyAt c.heap p = some k'))
    (hnokey : ∀ p ∈ l, keyAt c.heap p ≠ some k)
    (hkeys : (c.hashmap.map Prod.fst).Nodup)
    (hbytes : c.curBytes = sumSizes c.heap l)
    (hfits : c.curBytes + entrySize k v < U64)
    (hmax : c.maxBytes < U64) :
    c.storeExact k v f = c.store k v f := by
  obtain ⟨lru1, h1, e1, hr0⟩ := store_pending_Rep k v f hl hmap hnokey hkeys hbytes hfits hmax
  simp only [Cache.storeExact, Cache.store, Cache.evictOverflow, e1, Option.some_bind]
  rw [evictLoopExact_eq _ _ _ hr0]

/-- On a represented state `Cache.Delete` never subtracts below zero. -/
theorem DeleteExact_eq {c : Cache} {l : List Nat} (hr : c.Rep l) (k : List Byte) (cas : Nat) :
    c.DeleteExact k cas = c.Delete k cas := by
  rcases hk : c.hashmap.lookup k with _ | p
  · simp [Cache.DeleteExact, Cache.Delete, hk]
  · have hp : p ∈ l := ((hr.map_iff k p).mp hk).1
    have hpl : p < c.heap.length := hr.linked.alloc p hp
    have hit : c.heap[p]? = some c.heap[p] := List.getElem?_eq_getElem hpl
    have hle : sizeAt c.heap p ≤ c.curBytes := by
      rw [hr.bytes_eq]; exact sizeAt_le_sum c.heap hp
    have hsz : c.heap[p].Size = sizeAt c.heap p :=
      Item_Size_eq hit (lt_of_le_of_lt hle hr.bytes_lt)
    have hex := sub64Exact_eq (by rw [hsz]; exact hle : c.heap[p].Size ≤ c.curBytes) hr.bytes_lt
    simp only [Cache.DeleteExact, Cache.Delete, hk, hit, hex, Option.some_bind]

/-- On a represented state `Cache.Set` never subtracts below zero. -/
theorem SetExact_eq {c : Cache} {l : List Nat} (hr : c.Rep l) (k v f : List Byte) (cas : Nat)
    (hfits : c.SetFits k v) : c.SetExact k v f cas = c.Set k v f cas := by
  rcases hk : c.hashmap.lookup k with _ | p
  · have hnokey : ∀ p ∈ l, keyAt c.heap p ≠ some k := by
      intro p hp hkp
      have := (hr.map_iff k p).mpr ⟨hp, hkp⟩
      rw [hk] at this
      cases this
    have := storeExact_eq k v f hr.linked (fun k' p _ => hr.map_iff k' p) hnokey
      hr.keys_nodup hr.bytes_eq hfits hr.max_lt
    simp only [Cache.SetExact, Cache.Set, hk, this]
  · have hp : p ∈ l := ((hr.map_iff k p).mp hk).1
    have hkey : keyAt c.heap p = some k := ((hr.map_iff k p).mp hk).2
    have hpl : p < c.heap.length := hr.linked.alloc p hp
    have hit : c.heap[p]? = some c.heap[p] := List.getElem?_eq_getElem hpl
    have hmem : ∀ q, q ∈ l.erase p ↔ q ≠ p ∧ q ∈ l := fun q => hr.linked.nodup.mem_erase_iff
    obtain ⟨lru1, h1, e1, len1, d1, hl1⟩ := Linked_erase hr.linked hp
    have hpl1 : p < h1.length := by rw [len1]; exact hpl
    have hit1 : h1[p]? = some h1[p] := List.getElem?_eq_getElem hpl1
    have hle : sizeAt c.heap p ≤ c.curBytes := by
      rw [hr.bytes_eq]; exact sizeAt_le_sum c.heap hp
    have hsz : h1[p].Size = sizeAt c.heap p := by
      rw [← sizeAt_congr d1 p]
      apply Item_Size_eq hit1
      rw [sizeAt_congr d1 p]
      exact lt_of_le_of_lt hle hr.bytes_lt
    have hsub : sub64 c.curBytes h1[p].Size = c.curBytes - sizeAt c.heap p := by
      rw [hsz]; exact sub64_eq hle hr.bytes_lt
    have hex : sub64Exact c.curBytes h1[p].Size = some (c.curBytes - sizeAt c.heap p) := by
      rw [sub64Exact_eq (by rw [hsz]; exact hle) hr.bytes_lt, hsub]
    have hfits' : c.curBytes - sizeAt c.heap p + entrySize k v < U64 := by
      unfold Cache.SetFits at hfits
      omega
    have hbytes : c.curBytes - sizeAt c.heap p = sumSizes h1 (l.erase p) := by
      rw [sumSizes_congr d1, hr.bytes_eq]
      have := sumSizes_erase c.heap hp
      omega
    have hst := @storeExact_eq
      { c with lru := lru1, heap := h1, curBytes := c.curBytes - sizeAt c.heap p }
      (l.erase p) k v f hl1
      (by
        intro k' q hk'
        show c.hashmap.lookup k' = some q ↔ q ∈ l.erase p ∧ keyAt h1 q = some k'
        rw [hr.map_iff k' q, keyAt_congr d1, hmem]
        constructor
        · rintro ⟨hq, hkq⟩
          refine ⟨⟨?_, hq⟩, hkq⟩
          intro e; subst e
          rw [hkey] at hkq
          exact hk' (Option.some.inj hkq).symm
        · rintro ⟨⟨_, hq⟩, hkq⟩
          exact ⟨hq, hkq⟩)
      (by
        intro q hq hkq
        change keyAt h1 q = some k at hkq
        rw [keyAt_congr d1] at hkq
        obtain ⟨hne, hql⟩ := (hmem q).mp hq
        have h1' := (hr.map_iff k q).mpr ⟨hql, hkq⟩
        exact hne (Option.some.inj (h1'.symm.trans hk)))
      hr.keys_nodup hbytes hfits' hr.max_lt
    by_cases hcas : cas > 0 ∧ c.heap[p].version ≠ cas
    · simp only [Cache.SetExact, Cache.Set, hk, hit]
      rw [if_pos hcas, if_pos hcas]
    · simp only [Cache.SetExact, Cache.Set, hk, hit, hcas, if_false, e1, Option.some_bind, hit1,
        hex, hsub]
      exact hst

/-- With distinct keys a map read returns exactly the pairs of the map. -/
theorem lookup_eq_some_iff_mem (m : List (List Byte × Nat)) (hm : (m.map Prod.fst).Nodup)
    (k : List Byte) (p : Nat) : m.lookup k = some p ↔ (k, p) ∈ m := by
  induction m with
  | nil => simp
  | cons e m ih =>
    obtain ⟨a, b⟩ := e
    rw [List.map_cons, List.nodup_cons] at hm
    by_cases hk : k = a
    · subst hk
      have hnot : ∀ q, (k, q) ∉ m := fun q hq => hm.1 (List.mem_map.mpr ⟨(k, q), hq, rfl⟩)
      simp only [List.lookup_cons, beq_self_eq_true, List.mem_cons, Prod.mk.injEq, true_and]
      constructor
      · intro h; exact Or.inl (Option.some.inj h).symm
      · rintro (h | h)
        · rw [h]
        · exact absurd h (hnot p)
    · have hb : (k == a) = false := by simp [hk]
      simp only [List.lookup_cons, hb, List.mem_cons, Prod.mk.injEq, hk, false_and, false_or]
      exact ih hm.2

/-- The items the map points to are the queued items, each once. -/
theorem Rep_map_perm {c : Cache} {l : List Nat} (hr : c.Rep l) :
    (c.hashmap.map Prod.snd).Perm l := by
  have hmem : ∀ k p, (k, p) ∈ c.hashmap ↔ p ∈ l ∧ keyAt c.heap p = some k := by
    intro k p
    rw [← lookup_eq_some_iff_mem _ hr.keys_nodup]
    exact hr.map_iff k p
  have hnd : (c.hashmap.map Prod.snd).Nodup := by
    apply List.Nodup.map_on _ (List.Nodup.of_map _ hr.keys_nodup)
    rintro ⟨k1, p1⟩ h1 ⟨k2, p2⟩ h2 heq
    simp only at heq
    subst heq
    have e1 := ((hmem k1 p1).mp h1).2
    have e2 := ((hmem k2 p1).mp h2).2
    rw [e1] at e2
    rw [Option.some.inj e2]
  rw [List.perm_ext_iff_of_nodup hnd hr.linked.nodup]
  intro p
  constructor
  · intro hp
    obtain ⟨⟨k, q⟩, hkq, rfl⟩ := List.mem_map.mp hp
    exact ((hmem k q).mp hkq).1
  · intro hp
    obtain ⟨e, he⟩ := Rep_entry hr hp
    exact List.mem_map.mpr ⟨(e.key, p), (hmem e.key p).mpr ⟨hp, by simp [keyAt, he]⟩, rfl⟩

/-- The byte count of the map is the byte count of the items it points to. -/
theorem mapBytes_eq_sum (c : Cache) :
    c.mapBytes = sumSizes c.heap (c.hashmap.map Prod.snd) := by
  unfold Cache.mapBytes sumSizes
  rw [List.map_map]
  congr 1
  apply List.map_congr_left
  intro e _
  simp only [Function.comp, sizeAt, entryAt]
  rcases c.heap[e.2]? with _ | it
  · rfl
  · rfl

/-- The byte count of a represented state is the byte count of its map. -/
theorem Rep_mapBytes {c : Cache} {l : List Nat} (hr : c.Rep l) : c.curBytes = c.mapBytes := by
  rw [mapBytes_eq_sum, hr.bytes_eq]
  unfold sumSizes
  exact (((Rep_map_perm hr).map (sizeAt c.heap)).sum_eq).symm

/-- A list of positive length is a head and a tail. -/
theorem list_length_succ {l : List Byte} {n : Nat} (h : l.length = n + 1) :
    ∃ a t, l = a :: t ∧ t.length = n := by
  cases l with
  | nil => simp at h
  | cons a t => exact ⟨a, t, rfl, by simpa using h⟩

/-- A buffer of 24 bytes is its 24 bytes. -/
theorem list_length_24 {b : List Byte} (h : b.length = 24) :
    ∃ b0 b1 b2 b3 b4 b5 b6 b7 b8 b9 b10 b11 b12 b13 b14 b15 b16 b17 b18 b19 b20 b21 b22 b23 : Byte,
      b = [b0, b1, b2, b3, b4, b5, b6, b7, b8, b9, b10, b11, b12, b13, b14, b15, b16, b17, b18, b19, b20, b21, b22, b23] := by
  obtain ⟨b0, t0, rfl, g0⟩ := list_length_succ h
  obtain ⟨b1, t1, rfl, g1⟩ := list_length_succ g0
  obtain ⟨b2, t2, rfl, g2⟩ := list_length_succ g1
  obtain ⟨b3, t3, rfl, g3⟩ := list_length_succ g2
  obtain ⟨b4, t4, rfl, g4⟩ := list_length_succ g3
  obtain ⟨b5, t5, rfl, g5⟩ := list_length_succ g4
  obtain ⟨b6, t6, rfl, g6⟩ := list_length_succ g5
  obtain ⟨b7, t7, rfl, g7⟩ := list_length_succ g6
  obtain ⟨b8, t8, rfl, g8⟩ := list_length_succ g7
  obtain ⟨b9, t9, rfl, g9⟩ := list_length_succ g8
  obtain ⟨b10, t10, rfl, g10⟩ := list_length_succ g9
  obtain ⟨b11, t11, rfl, g11⟩ := list_length_succ g10
  obtain ⟨b12, t12, rfl, g12⟩ := list_length_succ g11
  obtain ⟨b13, t13, rfl, g13⟩ := list_length_succ g12
  obtain ⟨b14, t14, rfl, g14⟩ := list_length_succ g13
  obtain ⟨b15, t15, rfl, g15⟩ := list_length_succ g14
  obtain ⟨b16, t16, rfl, g16⟩ := list_length_succ g15
  obtain ⟨b17, t17, rfl, g17⟩ := list_length_succ g16
  obtain ⟨b18, t18, rfl, g18⟩ := list_length_succ g17
  obtain ⟨b19, t19, rfl, g19⟩ := list_length_succ g18
  obtain ⟨b20, t20, rfl, g20⟩ := list_length_succ g19
  obtain ⟨b21, t21, rfl, g21⟩ := list_length_succ g20
  obtain ⟨b22, t22, rfl, g22⟩ := list_length_succ g21
  obtain ⟨b23, t23, rfl, g23⟩ := list_length_succ g22
  have : t23 = [] := List.length_eq_zero.mp g23
  subst this
  exact ⟨b0, b1, b2, b3, b4, b5, b6, b7, b8, b9, b10, b11, b12, b13, b14, b15, b16, b17, b18, b19, b20, b21, b22, b23, rfl⟩

/-- A byte converts to itself. -/
theorem toByte_val (b : Byte) : toByte b.val = b := by
  apply Fin.ext
  show b.val % 256 = b.val
  exact Nat.mod_eq_of_lt b.isLt

/-- `Header.Serialize` overwrites a 24-byte buffer with the layout of the
specification's table. -/
theorem Serialize_eq_encode (h : Header) (buf : List Byte) (hlen : buf.length = 24) :
    h.Serialize buf = some (encodeHeader h) := by
  obtain ⟨b0, b1, b2, b3, b4, b5, b6, b7, b8, b9, b10, b11, b12, b13, b14, b15, b16, b17, b18, b19, b20, b21, b22, b23, rfl⟩ := list_length_24 hlen
  simp [Header.Serialize, writeAt, PutUint16, PutUint32, PutUint64, encodeHeader, beBytes]

/-- The layout of the specification's table is 24 bytes long. -/
theorem encodeHeader_length (h : Header) : (encodeHeader h).length = 24 := by
  simp [encodeHeader, beBytes]

/-- Reading the layout back gives the header, for fields within their types. -/
theorem decode_encode (h : Header) (hr : h.InRange) : decodeHeader (encodeHeader h) = some h := by
  obtain ⟨h1, h2, h3, h4, h5, h6, h7, h8, h9⟩ := hr
  rcases h with ⟨m, o, k, e, d, s, t, q, c⟩
  simp only at h1 h2 h3 h4 h5 h6 h7 h8 h9
  simp only [decodeHeader, encodeHeader_length, if_true, Option.some.injEq, Header.mk.injEq]
  simp only [encodeHeader, beBytes, segment, beValue, toByte, List.cons_append, List.nil_append,
    List.drop, List.take, List.foldl, List.append_nil]
  refine ⟨?_, ?_, ?_, ?_, ?_, ?_, ?_, ?_, ?_⟩ <;> omega

/-- `Header.ReadRequest` on a stream that holds 24 bytes or more reads the
layout of the specification's table off the first 24 and validates it. -/
theorem ReadRequest_eq_decode (hdr : Header) (b rest : List Byte) (hlen : b.length = 24) :
    hdr.ReadRequest (b ++ rest) =
      (decodeHeader b).map fun h => (h, rest, h.CheckValidRequest) := by
  obtain ⟨b0, b1, b2, b3, b4, b5, b6, b7, b8, b9, b10, b11, b12, b13, b14, b15, b16, b17, b18, b19, b20, b21, b22, b23, rfl⟩ := list_length_24 hlen
  simp only [Header.ReadRequest, ReadFull, HEADER_SIZE, decodeHeader, List.length_cons,
    List.length_nil, List.cons_append, List.nil_append, List.length_append]
  have h24 : 24 ≤ rest.length + 1 + 1 + 1 + 1 + 1 + 1 + 1 + 1 + 1 + 1 + 1 + 1 + 1 + 1 + 1 + 1 + 1 +
      1 + 1 + 1 + 1 + 1 + 1 + 1 := by omega
  simp only [h24, if_true, List.take, List.drop, byteAt, Uint16, Uint32, Uint64,
    List.getElem?_cons_zero, List.getElem?_cons_succ, Option.map_some', Option.some_bind,
    Option.bind_some, segment, beValue, List.foldl]
  have e1 : b3.val + b2.val * 2 ^ 8 = (0 * 256 + b2.val) * 256 + b3.val := by omega
  have e2 : b7.val + b6.val * 2 ^ 8 = (0 * 256 + b6.val) * 256 + b7.val := by omega
  have e3 : b11.val + b10.val * 2 ^ 8 + b9.val * 2 ^ 16 + b8.val * 2 ^ 24 =
      (((0 * 256 + b8.val) * 256 + b9.val) * 256 + b10.val) * 256 + b11.val := by omega
  have e4 : b15.val + b14.val * 2 ^ 8 + b13.val * 2 ^ 16 + b12.val * 2 ^ 24 =
      (((0 * 256 + b12.val) * 256 + b13.val) * 256 + b14.val) * 256 + b15.val := by omega
  have e5 : b23.val + b22.val * 2 ^ 8 + b21.val * 2 ^ 16 + b20.val * 2 ^ 24 + b19.val * 2 ^ 32 +
      b18.val * 2 ^ 40 + b17.val * 2 ^ 48 + b16.val * 2 ^ 56 =
      (((((((0 * 256 + b16.val) * 256 + b17.val) * 256 + b18.val) * 256 + b19.val) * 256 +
        b20.val) * 256 + b21.val) * 256 + b22.val) * 256 + b23.val := by omega
  have e0 : ∀ x : Byte, 0 * 256 + x.val = x.val := fun x => by omega
  rw [e1, e2, e3, e4, e5]
  simp only [e0]

/-- The header read off 24 bytes has its fields within their types. -/
theorem decodeHeader_InRange {b : List Byte} {h : Header} (hd : decodeHeader b = some h) :
    h.InRange := by
  unfold decodeHeader at hd
  split at hd
  · rename_i hlen
    obtain ⟨b0, b1, b2, b3, b4, b5, b6, b7, b8, b9, b10, b11, b12, b13, b14, b15, b16, b17, b18, b19, b20, b21, b22, b23, rfl⟩ := list_length_24 hlen
    cases hd
    simp only [Header.InRange, segment, beValue, List.drop, List.take, List.foldl]
    refine ⟨?_, ?_, ?_, ?_, ?_, ?_, ?_, ?_, ?_⟩ <;> omega
  · cases hd

/-- Writing the header read off 24 bytes in the layout gives those bytes. -/
theorem encode_decode {b : List Byte} {h : Header} (hd : decodeHeader b = some h) :
    encodeHeader h = b := by
  unfold decodeHeader at hd
  split at hd
  · rename_i hlen
    obtain ⟨b0, b1, b2, b3, b4, b5, b6, b7, b8, b9, b10, b11, b12, b13, b14, b15, b16, b17, b18, b19, b20, b21, b22, b23, rfl⟩ := list_length_24 hlen
    cases hd
    simp only [encodeHeader, beBytes, segment, beValue, List.drop, List.take, List.foldl,
      List.cons_append, List.nil_append, List.append_nil, List.cons.injEq, and_true]
    refine ⟨?_, ?_, ?_, ?_, ?_, ?_, ?_, ?_, ?_, ?_, ?_, ?_, ?_, ?_, ?_, ?_, ?_, ?_, ?_, ?_, ?_,
      ?_, ?_, ?_⟩ <;> (apply Fin.ext; simp only [toByte]; omega)
  · cases hd

/-- Every 24-byte buffer reads as a header. -/
theorem decodeHeader_isSome {b : List Byte} (hlen : b.length = 24) :
    ∃ h, decodeHeader b = some h := by
  unfold decodeHeader
  rw [if_pos hlen]
  exact ⟨_, rfl⟩

/-- The outcome of `CheckValidRequest` for fields within their types, with the exact sum. -/
theorem CheckValidRequest_iff (h : Header) (hr : h.InRange) :
    (h.CheckValidRequest = some GoError.HeaderParseError ↔
      (h.Magic ≠ 0x80 ∨ h.KeyLength + h.ExtrasLength > h.TotalLength)) ∧
    (h.CheckValidRequest = none ↔
      (h.Magic = 0x80 ∧ h.KeyLength + h.ExtrasLength ≤ h.TotalLength)) := by
  obtain ⟨_, _, h3, h4, _, _, _, _, _⟩ := hr
  have hsum : (h.KeyLength % 2 ^ 32 + h.ExtrasLength % 2 ^ 32) % 2 ^ 32 =
      h.KeyLength + h.ExtrasLength := by omega
  unfold Header.CheckValidRequest
  rw [hsum]
  simp only [MSG_REQUEST]
  by_cases hm : h.Magic = 0x80
  · by_cases hs : h.KeyLength + h.ExtrasLength > h.TotalLength
    · simp [hm, hs]
    · have hs' : h.KeyLength + h.ExtrasLength ≤ h.TotalLength := by omega
      simp [hm, hs, hs']
  · simp [hm]

/-- A full response write appends the 24 header bytes, then extras, key and value. -/
theorem WriteResponse_eq (conn : List Byte) (h : Header) (extras key value : List Byte) :
    WriteResponse conn h extras key value =
      some (conn ++ encodeHeader h ++ extras ++ key ++ value) := by
  have hs := Serialize_eq_encode h (List.replicate 24 0) (by simp)
  simp only [WriteResponse, Header.WriteTo, HEADER_SIZE, hs, Option.map_some']

/-- A response with an empty payload is its 24 header bytes; the cache and the
input are left alone. -/
theorem respond_eq (client : ClientConn) (req : Header) (status : Status) (version : Nat) :
    client.respond req status version =
      some { client with
        output := client.output ++
          encodeHeader (NewResponse req.Opcode status [] [] [] req.Opaque version) } := by
  simp [ClientConn.respond, WriteResponse_eq]

/-- The get handler reads nothing from the stream. -/
theorem handleGet_input {client c : ClientConn} {req : Header} {extras key value : List Byte}
    (h : client.handleGet req extras key value = some c) : c.input = client.input := by
  unfold ClientConn.handleGet at h
  split at h
  · rw [respond_eq] at h; cases h; rfl
  · rcases hg : client.cache.Get key with _ | ⟨c1, r⟩
    · rw [hg] at h; cases h
    · rw [hg] at h
      simp only [Option.some_bind] at h
      rcases r with _ | item
      · simp only [respond_eq] at h; cases h; rfl
      · simp only at h
        rcases hi : c1.heap[item]? with _ | it
        · rw [hi] at h; cases h
        · rw [hi] at h
          simp only [WriteResponse_eq, Option.map_some'] at h
          cases h; rfl

/-- The set handler reads nothing from the stream. -/
theorem handleSet_input {client c : ClientConn} {req : Header} {extras key value : List Byte}
    (h : client.handleSet req extras key value = some c) : c.input = client.input := by
  unfold ClientConn.handleSet at h
  split at h
  · rw [respond_eq] at h; cases h; rfl
  · rcases hg : client.cache.Set key value (extras.take 4) req.Cas with _ | ⟨c1, r⟩
    · rw [hg] at h; cases h
    · rw [hg] at h
      simp only [Option.some_bind, respond_eq] at h
      cases h; rfl

/-- The delete handler reads nothing from the stream. -/
theorem handleDelete_input {client c : ClientConn} {req : Header} {extras key value : List Byte}
    (h : client.handleDelete req extras key value = some c) : c.input = client.input := by
  unfold ClientConn.handleDelete at h
  split at h
  · rw [respond_eq] at h; cases h; rfl
  · rcases hg : client.cache.Delete key req.Cas with _ | ⟨c1, r⟩
    · rw [hg] at h; cases h
    · rw [hg] at h
      simp only [Option.some_bind, respond_eq] at h
      cases h; rfl

/-- A pass of the session loop on a stream that starts with a valid request
header whose body is too large: one response, no body byte read, the loop
ends. -/
theorem iteration_too_large (client : ClientConn) (req0 h : Header) (b rest : List Byte)
    (hin : client.input = b ++ rest) (hd : decodeHeader b = some h)
    (hvalid : h.CheckValidRequest = none) (hbig : MAX_VALUE_SIZE < h.TotalLength) :
    client.iteration req0 =
      some ({ cache := client.cache, input := rest,
              output := client.output ++
                encodeHeader (NewResponse h.Opcode STATUS_VALUE_TOO_LARGE [] [] [] h.Opaque 0) },
            h, false) := by
  have hlen : b.length = 24 := by
    unfold decodeHeader at hd
    split at hd
    · assumption
    · cases hd
  have hread := ReadRequest_eq_decode req0 b rest hlen
  rw [hd] at hread
  simp only [ClientConn.iteration, hin, hread, Option.map_some', Option.some_bind, hvalid, hbig,
    if_true, respond_eq]

/-- A pass of the session loop on a stream that starts with a valid request
header whose body is not too large reads the body: it ends the session with
nothing written if the stream ends before the body does, and otherwise a pass
that returns has read header and body and goes on. -/
theorem iteration_reads_body (client : ClientConn) (req0 h : Header) (b rest : List Byte)
    (hin : client.input = b ++ rest) (hd : decodeHeader b = some h)
    (hvalid : h.CheckValidRequest = none) (hsmall : h.TotalLength ≤ MAX_VALUE_SIZE) :
    (rest.length < h.TotalLength →
      client.iteration req0 =
        some ({ cache := client.cache, input := [], output := client.output }, h, false)) ∧
    (h.TotalLength ≤ rest.length →
      ∀ c1 req1 goes, client.iteration req0 = some (c1, req1, goes) →
        goes = true ∧ req1 = h ∧ c1.input = rest.drop h.TotalLength) := by
  have hlen : b.length = 24 := by
    unfold decodeHeader at hd
    split at hd
    · assumption
    · cases hd
  have hread := ReadRequest_eq_decode req0 b rest hlen
  rw [hd] at hread
  have hnot : ¬ (h.TotalLength > MAX_VALUE_SIZE) := by omega
  constructor
  · intro hshort
    have hn : ¬ (h.TotalLength ≤ rest.length) := by omega
    simp only [ClientConn.iteration, hin, hread, Option.map_some', Option.some_bind, hvalid,
      hnot, if_false, ReadFull, hn]
    by_cases hr : rest = []
    · simp [hr]
    · simp [hr]
  · intro hfull c1 req1 goes hit
    simp only [ClientConn.iteration, hin, hread, Option.map_some', Option.some_bind, hvalid,
      hnot, if_false, ReadFull, hfull, if_true] at hit
    simp only [Option.bind_eq_some, Option.map_eq_some'] at hit
    obtain ⟨extras, _, key, _, value, _, c, hc, heq⟩ := hit
    cases heq
    refine ⟨rfl, rfl, ?_⟩
    split at hc
    · exact handleGet_input hc
    · split at hc
      · exact handleSet_input hc
      · split at hc
        · exact handleDelete_input hc
        · rw [respond_eq] at hc; cases hc; rfl

/-- The three slices of a body for a header whose key and extras fit in it. -/
theorem slices_eq (body : List Byte) (el kl : Nat) (h : kl + el ≤ body.length) :
    sliceTo body el = some (body.take el) ∧
    ((sliceFrom body el).bind fun t => sliceTo t kl) = some ((body.drop el).take kl) ∧
    ((sliceFrom body el).bind fun t => sliceFrom t kl) = some ((body.drop el).drop kl) := by
  have h1 : el ≤ body.length := by omega
  have h2 : kl ≤ body.length - el := by omega
  simp [sliceTo, sliceFrom, h1, h2]

/-- A pass of the session loop on a stream that starts with a valid request
header, of a body that is not too large, and the whole body: the body is
sliced by the lengths of the header and the request is dispatched on its
opcode; the pass goes on. -/
theorem iteration_dispatch (client : ClientConn) (req0 h : Header) (hb body rest : List Byte)
    (hin : client.input = hb ++ (body ++ rest)) (hd : decodeHeader hb = some h)
    (hvalid : h.CheckValidRequest = none) (hsmall : h.TotalLength ≤ MAX_VALUE_SIZE)
    (hbody : body.length = h.TotalLength) :
    client.iteration req0 =
      (if h.Opcode = CMD_GET then
          ClientConn.handleGet { cache := client.cache, input := rest, output := client.output } h
            (body.take h.ExtrasLength) ((body.drop h.ExtrasLength).take h.KeyLength)
            ((body.drop h.ExtrasLength).drop h.KeyLength)
        else if h.Opcode = CMD_SET then
          ClientConn.handleSet { cache := client.cache, input := rest, output := client.output } h
            (body.take h.ExtrasLength) ((body.drop h.ExtrasLength).take h.KeyLength)
            ((body.drop h.ExtrasLength).drop h.KeyLength)
        else if h.Opcode = CMD_DELETE then
          ClientConn.handleDelete { cache := client.cache, input := rest, output := client.output }
            h (body.take h.ExtrasLength) ((body.drop h.ExtrasLength).take h.KeyLength)
            ((body.drop h.ExtrasLength).drop h.KeyLength)
        else
          ClientConn.respond { cache := client.cache, input := rest, output := client.output } h
            STATUS_UNKNOWN_COMMAND 0).map fun c => (c, h, true) := by
  have hlen : hb.length = 24 := by
    unfold decodeHeader at hd
    split at hd
    · assumption
    · cases hd
  have hread := ReadRequest_eq_decode req0 hb (body ++ rest) hlen
  rw [hd] at hread
  have hnot : ¬ (h.TotalLength > MAX_VALUE_SIZE) := by omega
  have hr := decodeHeader_InRange hd
  obtain ⟨_, hle⟩ := (CheckValidRequest_iff h hr).2.mp hvalid
  have hfull : h.TotalLength ≤ (body ++ rest).length := by rw [List.length_append]; omega
  have htake : (body ++ rest).take h.TotalLength = body := by
    rw [← hbody]; exact List.take_left' rfl
  have hdrop : (body ++ rest).drop h.TotalLength = rest := by
    rw [← hbody]; exact List.drop_left' rfl
  obtain ⟨s1, s2, s3⟩ := slices_eq body h.ExtrasLength h.KeyLength (by omega)
  simp only [ClientConn.iteration, hin, hread, Option.map_some', Option.some_bind, hvalid, hnot,
    if_false, ReadFull, hfull, if_true, htake, hdrop, s1, s2, s3]

/-- The copy of the flags into the `[4]byte` of an item has four bytes. -/
theorem copyFlags_length (f : List Byte) : (copyFlags f).length = 4 := by
  unfold copyFlags
  simp only [List.length_append, List.length_take, List.length_replicate]
  omega

/-- Every item ever allocated in a reachable state has four flag bytes and a
version within `uint64`. -/
theorem ReachableIn_items {n : Nat} {c : Cache} (h : ReachableIn n c) :
    ∀ e ∈ c.heap.map Item.entry, e.flags.length = 4 ∧ e.version < U64 := by
  induction h with
  | init m hm => intro e he; simp [NewCache] at he
  | get key hprev hget ih =>
    obtain ⟨l, hr, _⟩ := ReachableIn_rep hprev
    obtain ⟨c1, r, e, _, hd, _⟩ := Get_total hr key
    rw [hget] at e
    cases e
    rw [hd]; exact ih
  | set key value flags cas hprev hfits hset ih =>
    obtain ⟨l, hr, _⟩ := ReachableIn_rep hprev
    obtain ⟨c1, ver, st, e, hcase⟩ := Set_total hr key value flags cas hfits
    rw [hset] at e
    cases e
    rcases hcase with ⟨_, _, hc, _⟩ | ⟨_, _, hc, _⟩ | ⟨_, _, _, _, hd, _⟩
    · rw [hc]; exact ih
    · rw [hc]; exact ih
    · rw [hd]
      intro e he
      rcases List.mem_append.mp he with h1 | h1
      · exact ih e h1
      · rw [List.mem_singleton] at h1
        rw [h1]
        exact ⟨copyFlags_length flags, Nat.mod_lt _ (by decide)⟩
  | delete key cas hprev hdel ih =>
    obtain ⟨l, hr, _⟩ := ReachableIn_rep hprev
    obtain ⟨c1, st, e, hd, _⟩ := Delete_total hr key cas
    rw [hdel] at e
    cases e
    rw [hd]; exact ih

/-- In a reachable state every allocated item has four flag bytes and a
version within `uint64`. -/
theorem Reachable_items {c : Cache} (h : Reachable c) {p : Nat} {e : Entry}
    (he : entryAt c.heap p = some e) : e.flags.length = 4 ∧ e.version < U64 := by
  obtain ⟨n, hn⟩ := h
  apply ReachableIn_items hn
  rw [entryAt_eq_map] at he
  exact List.getElem?_mem he

/-- In a reachable state the entry the map holds for a key is within the
budget. -/
theorem Reachable_entry_le {c : Cache} (h : Reachable c) {k : List Byte} {p : Nat}
    (hk : c.hashmap.lookup k = some p) : sizeAt c.heap p ≤ c.maxBytes := by
  obtain ⟨hr, hle⟩ := Reachable_inv h
  have hp := ((hr.map_iff k p).mp hk).1
  have := sizeAt_le_sum c.heap hp
  rw [← hr.bytes_eq] at this
  omega

/-- A `GET` with extras or a value is answered with `INVALID_ARGUMENT`. -/
theorem handleGet_invalid (client : ClientConn) (req : Header) (extras key value : List Byte)
    (h : extras ≠ [] ∨ value ≠ []) :
    client.handleGet req extras key value =
      some { client with
        output := client.output ++
          encodeHeader (NewResponse req.Opcode STATUS_INVALID_ARGUMENT [] [] [] req.Opaque 0) } := by
  have h1 : extras.length ≠ 0 ∨ value.length ≠ 0 := by
    rcases h with h | h
    · exact Or.inl (fun e => h (List.length_eq_zero.mp e))
    · exact Or.inr (fun e => h (List.length_eq_zero.mp e))
  simp only [ClientConn.handleGet, h1, if_true, respond_eq]

/-- A `GET` of a key the map misses is answered with `KEY_NOT_FOUND`. -/
theorem handleGet_miss (client : ClientConn) (req : Header) (key : List Byte)
    (hk : client.cache.hashmap.lookup key = none) :
    client.handleGet req [] key [] =
      some { client with
        output := client.output ++
          encodeHeader (NewResponse req.Opcode STATUS_KEY_NOT_FOUND [] [] [] req.Opaque 0) } := by
  simp [ClientConn.handleGet, Get_miss client.cache key hk, respond_eq]

/-- A `GET` of a key the map holds is answered with `OK`, the flags, value
and version of its entry. -/
theorem handleGet_hit (client : ClientConn) (req : Header) (key : List Byte)
    (hc : Reachable client.cache) {p : Nat} (hk : client.cache.hashmap.lookup key = some p) :
    ∃ c1 e, client.cache.Get key = some (c1, some p) ∧
      entryAt client.cache.heap p = some e ∧ e.key = key ∧ e.flags.length = 4 ∧
      c1.maxBytes = client.cache.maxBytes ∧
      client.handleGet req [] key [] =
        some { cache := c1, input := client.input,
               output := client.output ++
                 encodeHeader (NewResponse req.Opcode STATUS_OK [] e.value e.flags req.Opaque
                   e.version) ++ e.flags ++ e.value } := by
  obtain ⟨hr, _⟩ := Reachable_inv hc
  obtain ⟨c1, eg, hr1, hd, _, _, hm1, _⟩ := Get_hit hr hk
  obtain ⟨hp, hkey⟩ := (hr.map_iff key p).mp hk
  obtain ⟨e, he⟩ := Rep_entry hr hp
  have he1 : entryAt c1.heap p = some e := by rw [entryAt_congr hd]; exact he
  have hkey' : e.key = key := by simpa [keyAt, he] using hkey
  refine ⟨c1, e, eg, he, hkey', (Reachable_items hc he).1, hm1, ?_⟩
  unfold entryAt at he1
  rcases hit : c1.heap[p]? with _ | it
  · rw [hit] at he1; cases he1
  · rw [hit] at he1
    simp only [Option.map_some', Option.some.injEq] at he1
    subst he1
    simp [ClientConn.handleGet, eg, hit, WriteResponse_eq, Item.entry]

/-- A `SET` without eight bytes of extras or without a value is answered with
`INVALID_ARGUMENT`. -/
theorem handleSet_invalid (client : ClientConn) (req : Header) (extras key value : List Byte)
    (h : extras.length ≠ 8 ∨ value = []) :
    client.handleSet req extras key value =
      some { client with
        output := client.output ++
          encodeHeader (NewResponse req.Opcode STATUS_INVALID_ARGUMENT [] [] [] req.Opaque 0) } := by
  have h1 : extras.length ≠ 8 ∨ value.length = 0 := by
    rcases h with h | h
    · exact Or.inl h
    · exact Or.inr (by rw [h]; rfl)
  simp only [ClientConn.handleSet, h1, if_true, respond_eq]

/-- A `SET` with eight bytes of extras and a value is `Cache.Set` with the
first four bytes of the extras as flags, answered with what it returns. -/
theorem handleSet_valid (client : ClientConn) (req : Header) (extras key value : List Byte)
    (he : extras.length = 8) (hv : value ≠ []) :
    client.handleSet req extras key value =
      (client.cache.Set key value (extras.take 4) req.Cas).map fun r =>
        { cache := r.1, input := client.input,
          output := client.output ++
            encodeHeader (NewResponse req.Opcode r.2.2 [] [] [] req.Opaque r.2.1) } := by
  have h1 : ¬ (extras.length ≠ 8 ∨ value.length = 0) := by
    rintro (h | h)
    · exact h he
    · exact hv (List.length_eq_zero.mp h)
  simp only [ClientConn.handleSet, h1, if_false]
  rcases client.cache.Set key value (extras.take 4) req.Cas with _ | r
  · rfl
  · simp [respond_eq]

/-- A `DELETE` with extras or a value is answered with `INVALID_ARGUMENT`. -/
theorem handleDelete_invalid (client : ClientConn) (req : Header) (extras key value : List Byte)
    (h : extras ≠ [] ∨ value ≠ []) :
    client.handleDelete req extras key value =
      some { client with
        output := client.output ++
          encodeHeader (NewResponse req.Opcode STATUS_INVALID_ARGUMENT [] [] [] req.Opaque 0) } := by
  have h1 : extras.length ≠ 0 ∨ value.length ≠ 0 := by
    rcases h with h | h
    · exact Or.inl (fun e => h (List.length_eq_zero.mp e))
    · exact Or.inr (fun e => h (List.length_eq_zero.mp e))
  simp only [ClientConn.handleDelete, h1, if_true, respond_eq]

/-- A `DELETE` without extras and value is `Cache.Delete`, answered with the
status it returns. -/
theorem handleDelete_valid (client : ClientConn) (req : Header) (key : List Byte) :
    client.handleDelete req [] key [] =
      (client.cache.Delete key req.Cas).map fun r =>
        { cache := r.1, input := client.input,
          output := client.output ++
            encodeHeader (NewResponse req.Opcode r.2 [] [] [] req.Opaque 0) } := by
  rcases h : client.cache.Delete key req.Cas with _ | r
  · simp [ClientConn.handleDelete, h]
  · simp [ClientConn.handleDelete, h, respond_eq]

/-- The header of a response is within the types of its fields when the
opcode, the opaque and the version echoed are. -/
theorem NewResponse_InRange (command : Nat) (status : Status) (key value extras : List Byte)
    (opaq version : Nat) (hc : command < 2 ^ 8) (ho : opaq < 2 ^ 32) (hv : version < 2 ^ 64) :
    (NewResponse command status key value extras opaq version).InRange := by
  refine ⟨?_, hc, Nat.mod_lt _ (by decide), Nat.mod_lt _ (by decide), ?_,
    Nat.mod_lt _ (by decide), Nat.mod_lt _ (by decide), ho, hv⟩
  · show MSG_RESPONSE < 2 ^ 8
    decide
  · show (0 : Nat) < 2 ^ 8
    decide

/-- Whatever the opcode, on a reachable cache the dispatch of a request
returns: it has written one response, built by `NewResponse` from the opcode
and the opaque of the request, has read nothing, and leaves a reachable
cache. -/
theorem dispatch_total (client : ClientConn) (req : Header) (extras key value : List Byte)
    (hc : Reachable client.cache)
    (hfit : extras.length = 8 → client.cache.maxBytes + entrySize key value < U64) :
    ∃ c st kk vv xx ver payload,
      (if req.Opcode = CMD_GET then client.handleGet req extras key value
        else if req.Opcode = CMD_SET then client.handleSet req extras key value
        else if req.Opcode = CMD_DELETE then client.handleDelete req extras key value
        else client.respond req STATUS_UNKNOWN_COMMAND 0) =
        some { cache := c, input := client.input,
               output := client.output ++
                 encodeHeader (NewResponse req.Opcode st kk vv xx req.Opaque ver) ++ payload } ∧
      Reachable c ∧ c.maxBytes = client.cache.maxBytes ∧ ver < U64 := by
  obtain ⟨hr, hle⟩ := Reachable_inv hc
  obtain ⟨n, hn⟩ := hc
  have h0 : (0 : Nat) < U64 := by decide
  split
  · -- GET
    by_cases hshape : extras ≠ [] ∨ value ≠ []
    · exact ⟨client.cache, STATUS_INVALID_ARGUMENT, [], [], [], 0, [],
        by rw [handleGet_invalid client req extras key value hshape, List.append_nil],
        ⟨n, hn⟩, rfl, h0⟩
    · have hx : extras = [] := by
        by_contra hne; exact hshape (Or.inl hne)
      have hv : value = [] := by
        by_contra hne; exact hshape (Or.inr hne)
      subst hx; subst hv
      rcases hk : client.cache.hashmap.lookup key with _ | p
      · exact ⟨client.cache, STATUS_KEY_NOT_FOUND, [], [], [], 0, [],
          by rw [handleGet_miss client req key hk, List.append_nil], ⟨n, hn⟩, rfl, h0⟩
      · obtain ⟨c1, e, eg, he, _, _, hm1, hh⟩ := handleGet_hit client req key ⟨n, hn⟩ hk
        exact ⟨c1, STATUS_OK, [], e.value, e.flags, e.version, e.flags ++ e.value,
          by rw [hh, List.append_assoc (client.output ++ _)],
          ⟨n + 1, ReachableIn.get key hn eg⟩, hm1, (Reachable_items ⟨n, hn⟩ he).2⟩
  · split
    · -- SET
      by_cases hshape : extras.length ≠ 8 ∨ value = []
      · exact ⟨client.cache, STATUS_INVALID_ARGUMENT, [], [], [], 0, [],
          by rw [handleSet_invalid client req extras key value hshape, List.append_nil],
          ⟨n, hn⟩, rfl, h0⟩
      · have hx : extras.length = 8 := by
          by_contra hne; exact hshape (Or.inl hne)
        have hv : value ≠ [] := fun hne => hshape (Or.inr hne)
        have hfits : client.cache.SetFits key value := by
          have := hfit hx
          unfold Cache.SetFits; omega
        obtain ⟨c1, ver, st, es, hcase⟩ :=
          Set_total hr key value (extras.take 4) req.Cas hfits
        have hver : ver < U64 := by
          rcases hcase with ⟨_, hz, _⟩ | ⟨_, hz, _⟩ | ⟨_, hz, _⟩
          · rw [hz]; exact h0
          · rw [hz]; exact h0
          · rw [hz]; exact Nat.mod_lt _ (by decide)
        have hm1 : c1.maxBytes = client.cache.maxBytes := by
          rcases hcase with ⟨_, _, hz, _⟩ | ⟨_, _, hz, _⟩ | ⟨_, _, _, _, _, hz, _⟩
          · rw [hz]
          · rw [hz]
          · exact hz
        exact ⟨c1, st, [], [], [], ver, [],
          by rw [handleSet_valid client req extras key value hx hv, es]; simp,
          ⟨n + 1, ReachableIn.set key value (extras.take 4) req.Cas hn hfits es⟩, hm1, hver⟩
    · split
      · -- DELETE
        by_cases hshape : extras ≠ [] ∨ value ≠ []
        · exact ⟨client.cache, STATUS_INVALID_ARGUMENT, [], [], [], 0, [],
            by rw [handleDelete_invalid client req extras key value hshape, List.append_nil],
            ⟨n, hn⟩, rfl, h0⟩
        · have hx : extras = [] := by
            by_contra hne; exact hshape (Or.inl hne)
          have hv : value = [] := by
            by_contra hne; exact hshape (Or.inr hne)
          subst hx; subst hv
          obtain ⟨c1, st, ed, _, hm1, _⟩ := Delete_total hr key req.Cas
          exact ⟨c1, st, [], [], [], 0, [],
            by rw [handleDelete_valid client req key, ed]; simp,
            ⟨n + 1, ReachableIn.delete key req.Cas hn ed⟩, hm1, h0⟩
      · exact ⟨client.cache, STATUS_UNKNOWN_COMMAND, [], [], [], 0, [],
          by rw [respond_eq, List.append_nil], ⟨n, hn⟩, rfl, h0⟩

/-- On a reachable cache whose budget leaves room for one more body within
`uint64`, a pass of the session loop returns on every input: either it writes
nothing and ends the session, the cache untouched, or it has read a valid
request header and writes one response, built by `NewResponse` from the opcode
and the opaque of that header.  The cache stays reachable, and a pass that
goes on has consumed at least the 24 bytes of a header. -/
theorem iteration_total (client : ClientConn) (req0 : Header) (hc : Reachable client.cache)
    (hmax : client.cache.maxBytes + MAX_VALUE_SIZE < U64) :
    ∃ c1 req1 goes, client.iteration req0 = some (c1, req1, goes) ∧
      Reachable c1.cache ∧ c1.cache.maxBytes = client.cache.maxBytes ∧
      (goes = true → c1.input.length + 24 ≤ client.input.length) ∧
      ((c1.output = client.output ∧ c1.cache = client.cache ∧ goes = false) ∨
        ∃ hb more st kk vv xx ver payload,
          client.input = hb ++ more ∧ decodeHeader hb = some req1 ∧
          req1.CheckValidRequest = none ∧ ver < U64 ∧
          c1.output = client.output ++
            encodeHeader (NewResponse req1.Opcode st kk vv xx req1.Opaque ver) ++ payload) := by
  by_cases hshort : client.input.length < 24
  · -- the stream ends before a header
    have hn : ¬ (HEADER_SIZE ≤ client.input.length) := by unfold HEADER_SIZE; omega
    refine ⟨{ client with input := [] }, req0, false, ?_, hc, rfl, by simp, Or.inl ⟨rfl, rfl, rfl⟩⟩
    by_cases hnil : client.input = []
    · simp [ClientConn.iteration, Header.ReadRequest, ReadFull, hnil, HEADER_SIZE]
    · simp [ClientConn.iteration, Header.ReadRequest, ReadFull, hnil, hn]
  · have hsplit : client.input = client.input.take 24 ++ client.input.drop 24 :=
      (List.take_append_drop 24 client.input).symm
    have hlen : (client.input.take 24).length = 24 := by
      rw [List.length_take]; omega
    obtain ⟨h, hd⟩ := decodeHeader_isSome hlen
    have hread := ReadRequest_eq_decode req0 (client.input.take 24) (client.input.drop 24) hlen
    rw [← hsplit, hd] at hread
    have hdroplen : (client.input.drop 24).length + 24 = client.input.length := by
      rw [List.length_drop]; omega
    rcases hv : h.CheckValidRequest with _ | err
    · by_cases hbig : MAX_VALUE_SIZE < h.TotalLength
      · -- the body is too large
        have hit := iteration_too_large client req0 h _ _ hsplit hd hv hbig
        refine ⟨_, h, false, hit, hc, rfl, by simp, Or.inr ?_⟩
        exact ⟨_, _, STATUS_VALUE_TOO_LARGE, [], [], [], 0, [], hsplit, hd, hv, by decide,
          by simp⟩
      · have hsmall : h.TotalLength ≤ MAX_VALUE_SIZE := by omega
        by_cases hbody : (client.input.drop 24).length < h.TotalLength
        · -- the stream ends before the body does
          have hit := (iteration_reads_body client req0 h _ _ hsplit hd hv hsmall).1 hbody
          exact ⟨_, h, false, hit, hc, rfl, by simp, Or.inl ⟨rfl, rfl, rfl⟩⟩
        · -- the request is dispatched
          have hfull : h.TotalLength ≤ (client.input.drop 24).length := by omega
          have hsplit2 : client.input = client.input.take 24 ++
              ((client.input.drop 24).take h.TotalLength ++
                (client.input.drop 24).drop h.TotalLength) := by
            rw [List.take_append_drop]; exact hsplit
          have hblen : ((client.input.drop 24).take h.TotalLength).length = h.TotalLength := by
            rw [List.length_take]; omega
          have hdisp := iteration_dispatch client req0 h _ _ _ hsplit2 hd hv hsmall hblen
          obtain ⟨_, hsum⟩ := (CheckValidRequest_iff h (decodeHeader_InRange hd)).2.mp hv
          obtain ⟨c, st, kk, vv, xx, ver, payload, hh, hreach, hm, hver⟩ :=
            dispatch_total
              { cache := client.cache, input := (client.input.drop 24).drop h.TotalLength,
                output := client.output } h
              (((client.input.drop 24).take h.TotalLength).take h.ExtrasLength)
              ((((client.input.drop 24).take h.TotalLength).drop h.ExtrasLength).take
                h.KeyLength)
              ((((client.input.drop 24).take h.TotalLength).drop h.ExtrasLength).drop
                h.KeyLength) hc
              (by
                intro h8
                show client.cache.maxBytes + entrySize _ _ < U64
                unfold entrySize
                simp only [List.length_take, List.length_drop] at h8 ⊢
                omega)
          rw [hh] at hdisp
          refine ⟨_, h, true, hdisp, hreach, hm, ?_, Or.inr ?_⟩
          · intro _
            show ((client.input.drop 24).drop h.TotalLength).length + 24 ≤ client.input.length
            rw [List.length_drop]
            omega
          · exact ⟨_, _, st, kk, vv, xx, ver, payload, hsplit, hd, hv, hver, rfl⟩
    · -- the header is not a valid request
      refine ⟨{ client with input := client.input.drop 24 }, h, false, ?_, hc, rfl, by simp,
        Or.inl ⟨rfl, rfl, rfl⟩⟩
      simp [ClientConn.iteration, hread, hv]

/-- The session loop returns when its fuel exceeds the bytes of input: each
pass that goes on consumes a header.  What was written before stays, and the
cache stays reachable. -/
theorem loop_total : ∀ (fuel : Nat) (client : ClientConn) (req0 : Header),
    Reachable client.cache → client.cache.maxBytes + MAX_VALUE_SIZE < U64 →
    client.input.length < fuel →
    ∃ c1, ClientConn.loop fuel client req0 = some c1 ∧ Reachable c1.cache ∧
      client.output <+: c1.output := by
  intro fuel
  induction fuel with
  | zero => intro client req0 _ _ hlt; omega
  | succ n ih =>
    intro client req0 hc hmax hlt
    obtain ⟨c1, req1, goes, hit, hreach, hm, hlen, hout⟩ := iteration_total client req0 hc hmax
    have hpre : client.output <+: c1.output := by
      rcases hout with ⟨ho, _⟩ | ⟨_, _, _, _, _, _, _, payload, _, _, _, _, ho⟩
      · rw [ho]
      · rw [ho, List.append_assoc]; exact List.prefix_append _ _
    cases goes with
    | false => exact ⟨c1, by simp [ClientConn.loop, hit], hreach, hpre⟩
    | true =>
      have hl := hlen rfl
      obtain ⟨c2, e2, hr2, hp2⟩ := ih c1 req1 hreach (by rw [hm]; exact hmax) (by omega)
      exact ⟨c2, by simp [ClientConn.loop, hit, e2], hr2, hpre.trans hp2⟩

/-- On a reachable cache `ClientConn.Run` returns on every input. -/
theorem Run_total (client : ClientConn) (hc : Reachable client.cache)
    (hmax : client.cache.maxBytes + MAX_VALUE_SIZE < U64) :
    ∃ c1, client.Run = some c1 ∧ Reachable c1.cache ∧ client.output <+: c1.output :=
  loop_total _ client Header.zero hc hmax (Nat.lt_succ_self _)

/-- What the `GET` handler answers on a reachable cache: `INVALID_ARGUMENT`
with an empty payload and the cache untouched when the request has extras or a
value, and `OK` or `KEY_NOT_FOUND` otherwise. -/
theorem handleGet_status (client : ClientConn) (req : Header) (extras key value : List Byte)
    (hc : Reachable client.cache) :
    ∃ c1 st kk vv xx ver payload,
      client.handleGet req extras key value =
        some { cache := c1, input := client.input,
               output := client.output ++
                 encodeHeader (NewResponse req.Opcode st kk vv xx req.Opaque ver) ++ payload } ∧
      ver < U64 ∧
      ((extras ≠ [] ∨ value ≠ []) →
        st = STATUS_INVALID_ARGUMENT ∧ kk = [] ∧ vv = [] ∧ xx = [] ∧ ver = 0 ∧ payload = [] ∧
          c1 = client.cache) ∧
      (¬ (extras ≠ [] ∨ value ≠ []) → st = STATUS_OK ∨ st = STATUS_KEY_NOT_FOUND) := by
  by_cases hshape : extras ≠ [] ∨ value ≠ []
  · exact ⟨client.cache, STATUS_INVALID_ARGUMENT, [], [], [], 0, [],
      by rw [handleGet_invalid client req extras key value hshape, List.append_nil],
      by decide, fun _ => ⟨rfl, rfl, rfl, rfl, rfl, rfl, rfl⟩, fun h => absurd hshape h⟩
  · have hx : extras = [] := by
      by_contra hne; exact hshape (Or.inl hne)
    have hv : value = [] := by
      by_contra hne; exact hshape (Or.inr hne)
    subst hx; subst hv
    rcases hk : client.cache.hashmap.lookup key with _ | p
    · exact ⟨client.cache, STATUS_KEY_NOT_FOUND, [], [], [], 0, [],
        by rw [handleGet_miss client req key hk, List.append_nil],
        by decide, fun h => absurd h hshape, fun _ => Or.inr rfl⟩
    · obtain ⟨c1, e, eg, he, _, _, hm1, hh⟩ := handleGet_hit client req key hc hk
      exact ⟨c1, STATUS_OK, [], e.value, e.flags, e.version, e.flags ++ e.value,
        by rw [hh, List.append_assoc (client.output ++ _)],
        (Reachable_items hc he).2, fun h => absurd h hshape, fun _ => Or.inl rfl⟩

/-- What the `SET` handler answers on a reachable cache: `INVALID_ARGUMENT`
with the cache untouched when the extras are not 8 bytes or the value is
empty, and `OK`, `KEY_NOT_FOUND` or `KEY_EXISTS` otherwise; the payload is
empty. -/
theorem handleSet_status (client : ClientConn) (req : Header) (extras key value : List Byte)
    (hc : Reachable client.cache)
    (hfit : extras.length = 8 → client.cache.maxBytes + entrySize key value < U64) :
    ∃ c1 st ver,
      client.handleSet req extras key value =
        some { cache := c1, input := client.input,
               output := client.output ++
                 encodeHeader (NewResponse req.Opcode st [] [] [] req.Opaque ver) } ∧
      ver < U64 ∧
      ((extras.length ≠ 8 ∨ value = []) →
        st = STATUS_INVALID_ARGUMENT ∧ ver = 0 ∧ c1 = client.cache) ∧
      (¬ (extras.length ≠ 8 ∨ value = []) →
        client.cache.Set key value (extras.take 4) req.Cas = some (c1, ver, st) ∧
        (st = STATUS_OK ∨ st = STATUS_KEY_NOT_FOUND ∨ st = STATUS_KEY_EXISTS)) := by
  by_cases hshape : extras.length ≠ 8 ∨ value = []
  · exact ⟨client.cache, STATUS_INVALID_ARGUMENT, 0,
      handleSet_invalid client req extras key value hshape,
      by decide, fun _ => ⟨rfl, rfl, rfl⟩, fun h => absurd hshape h⟩
  · have hx : extras.length = 8 := by
      by_contra hne; exact hshape (Or.inl hne)
    have hv : value ≠ [] := fun hne => hshape (Or.inr hne)
    obtain ⟨hr, hle⟩ := Reachable_inv hc
    have hfits : client.cache.SetFits key value := by
      have := hfit hx
      unfold Cache.SetFits; omega
    obtain ⟨c1, ver, st, es, hcase⟩ := Set_total hr key value (extras.take 4) req.Cas hfits
    have hver : ver < U64 := by
      rcases hcase with ⟨_, hz, _⟩ | ⟨_, hz, _⟩ | ⟨_, hz, _⟩
      · rw [hz]; decide
      · rw [hz]; decide
      · rw [hz]; exact Nat.mod_lt _ (by decide)
    have hst : st = STATUS_OK ∨ st = STATUS_KEY_NOT_FOUND ∨ st = STATUS_KEY_EXISTS := by
      rcases hcase with ⟨hz, _⟩ | ⟨hz, _⟩ | ⟨hz, _⟩
      · exact Or.inr (Or.inl hz)
      · exact Or.inr (Or.inr hz)
      · exact Or.inl hz
    exact ⟨c1, st, ver, by rw [handleSet_valid client req extras key value hx hv, es]; rfl,
      hver, fun h => absurd h hshape, fun _ => ⟨es, hst⟩⟩

/-- What the `DELETE` handler answers on a reachable cache:
`INVALID_ARGUMENT` with the cache untouched when the request has extras or a
value, and `OK`, `KEY_NOT_FOUND` or `KEY_EXISTS` otherwise; the payload is
empty and the CAS 0. -/
theorem handleDelete_status (client : ClientConn) (req : Header) (extras key value : List Byte)
    (hc : Reachable client.cache) :
    ∃ c1 st,
      client.handleDelete req extras key value =
        some { cache := c1, input := client.input,
               output := client.output ++
                 encodeHeader (NewResponse req.Opcode st [] [] [] req.Opaque 0) } ∧
      ((extras ≠ [] ∨ value ≠ []) → st = STATUS_INVALID_ARGUMENT ∧ c1 = client.cache) ∧
      (¬ (extras ≠ [] ∨ value ≠ []) →
        client.cache.Delete key req.Cas = some (c1, st) ∧
        (st = STATUS_OK ∨ st = STATUS_KEY_NOT_FOUND ∨ st = STATUS_KEY_EXISTS)) := by
  by_cases hshape : extras ≠ [] ∨ value ≠ []
  · exact ⟨client.cache, STATUS_INVALID_ARGUMENT,
      handleDelete_invalid client req extras key value hshape,
      fun _ => ⟨rfl, rfl⟩, fun h => absurd hshape h⟩
  · have hx : extras = [] := by
      by_contra hne; exact hshape (Or.inl hne)
    have hv : value = [] := by
      by_contra hne; exact hshape (Or.inr hne)
    subst hx; subst hv
    obtain ⟨hr, _⟩ := Reachable_inv hc
    obtain ⟨c1, st, ed, _, _, _, hcase⟩ := Delete_total hr key req.Cas
    have hst : st = STATUS_OK ∨ st = STATUS_KEY_NOT_FOUND ∨ st = STATUS_KEY_EXISTS := by
      rcases hcase with ⟨hz, _⟩ | ⟨hz, _⟩ | ⟨hz, _⟩
      · exact Or.inr (Or.inl hz)
      · exact Or.inr (Or.inr hz)
      · exact Or.inl hz
    exact ⟨c1, st, by rw [handleDelete_valid client req key, ed]; rfl,
      fun h => absurd h hshape, fun _ => ⟨ed, hst⟩⟩

/-- The header of an error response: all lengths 0. -/
theorem NewResponse_empty (command : Nat) (status : Status) (opaq version : Nat)
    (hs : status < 2 ^ 16) :
    NewResponse command status [] [] [] opaq version =
      { Magic := 0x81, Opcode := command, KeyLength := 0, ExtrasLength := 0, DataType := 0,
        Status := status, TotalLength := 0, Opaque := opaq, Cas := version } := by
  have h1 : status % 2 ^ 16 = status := Nat.mod_eq_of_lt hs
  simp only [NewResponse, MSG_RESPONSE, List.length_nil, Nat.zero_mod, Nat.add_zero, h1]

/-- The status field of a response with a cache status is not
`INVALID_ARGUMENT`. -/
theorem NewResponse_Status_ne (command : Nat) (st : Status) (kk vv xx : List Byte)
    (opaq ver : Nat)
    (h : st = STATUS_OK ∨ st = STATUS_KEY_NOT_FOUND ∨ st = STATUS_KEY_EXISTS) :
    (NewResponse command st kk vv xx opaq ver).Status ≠ 0x04 := by
  show st % 2 ^ 16 ≠ 0x04
  rcases h with e | e | e <;> rw [e] <;> decide

/-- The `GET` handler does not read the CAS of the request. -/
theorem handleGet_cas (client : ClientConn) (req : Header) (cas : Nat)
    (extras key value : List Byte) :
    client.handleGet { req with Cas := cas } extras key value =
      client.handleGet req extras key value := by
  rfl

/-- A pass of the session loop on a stream that starts with the 24 bytes of a
`GET` request header: what the pass does to the connection, in terms of the
header. -/
theorem iteration_get (client : ClientConn) (req0 h : Header) (more : List Byte)
    (hr : h.InRange) (hop : h.Opcode = CMD_GET) :
    (ClientConn.iteration { client with input := encodeHeader h ++ more } req0).map Prod.fst =
      match h.CheckValidRequest with
      | some _ => some { client with input := more }
      | none =>
        if h.TotalLength > MAX_VALUE_SIZE then
          ClientConn.respond { client with input := more } h STATUS_VALUE_TOO_LARGE 0
        else
          match (ReadFull more h.TotalLength).2.2 with
          | some _ => some { client with input := (ReadFull more h.TotalLength).2.1 }
          | none =>
            (sliceTo (ReadFull more h.TotalLength).1 h.ExtrasLength).bind fun extras =>
            ((sliceFrom (ReadFull more h.TotalLength).1 h.ExtrasLength).bind fun t =>
              sliceTo t h.KeyLength).bind fun key =>
            ((sliceFrom (ReadFull more h.TotalLength).1 h.ExtrasLength).bind fun t =>
              sliceFrom t h.KeyLength).bind fun value =>
              ClientConn.handleGet { client with input := (ReadFull more h.TotalLength).2.1 } h
                extras key value := by
  have hread := ReadRequest_eq_decode req0 (encodeHeader h) more (encodeHeader_length h)
  rw [decode_encode h hr] at hread
  simp only [ClientConn.iteration, hread, Option.map_some', Option.some_bind]
  rcases h.CheckValidRequest with _ | err
  · simp only
    by_cases hbig : h.TotalLength > MAX_VALUE_SIZE
    · simp only [hbig, if_true, Option.map_map]
      rcases ClientConn.respond { cache := client.cache, input := more, output := client.output }
        h STATUS_VALUE_TOO_LARGE 0 with _ | c
      · rfl
      · rfl
    · simp only [hbig, if_false]
      rcases (ReadFull more h.TotalLength).2.2 with _ | e
      · simp only [hop, if_true]
        rcases sliceTo (ReadFull more h.TotalLength).1 h.ExtrasLength with _ | extras
        · rfl
        · rcases ((sliceFrom (ReadFull more h.TotalLength).1 h.ExtrasLength).bind fun t =>
            sliceTo t h.KeyLength) with _ | key
          · rfl
          · rcases ((sliceFrom (ReadFull more h.TotalLength).1 h.ExtrasLength).bind fun t =>
              sliceFrom t h.KeyLength) with _ | value
            · rfl
            · simp only [Option.some_bind]
              rcases ClientConn.handleGet
                { cache := client.cache, input := (ReadFull more h.TotalLength).2.1,
                  output := client.output } h extras key value with _ | c
              · rfl
              · rfl
      · rfl
  · rfl

/-- Eviction keeps entries only. -/
theorem evictEntries_subset (max : Nat) (es : List Entry) :
    ∀ e ∈ evictEntries max es, e ∈ es := by
  obtain ⟨n, _, hn, _⟩ := evictEntries_drop max es
  intro e he
  rw [hn] at he
  exact List.mem_of_mem_drop he

/-- A walk from nil visits nothing. -/
theorem walkNext_none (h : List Item) (fuel : Nat) : walkNext h fuel none = [] := by
  cases fuel <;> rfl

/-- Following the `next` links from the `i`-th item of a well-linked queue
visits the items before it, in reverse. -/
theorem walkNext_take {lru : LRU} {h : List Item} {l : List Nat} (hl : Linked lru h l) :
    ∀ i fuel, i < l.length → i < fuel → walkNext h fuel l[i]? = (l.take (i + 1)).reverse := by
  intro i
  induction i with
  | zero =>
    intro fuel hi hf
    obtain ⟨n, rfl⟩ : ∃ n, fuel = n + 1 := ⟨fuel - 1, by omega⟩
    have h0 : l[0]? = some l[0] := List.getElem?_eq_getElem hi
    have hnx := hl.next_eq 0 l[0] h0
    simp only [if_true] at hnx
    rw [h0, walkNext, hnx, walkNext_none]
    cases l with
    | nil => simp at hi
    | cons a r => simp
  | succ j ih =>
    intro fuel hi hf
    obtain ⟨n, rfl⟩ : ∃ n, fuel = n + 1 := ⟨fuel - 1, by omega⟩
    have h0 : l[j + 1]? = some l[j + 1] := List.getElem?_eq_getElem hi
    have hnx := hl.next_eq (j + 1) l[j + 1] h0
    simp only [Nat.add_one_ne_zero, if_false, Nat.add_sub_cancel] at hnx
    have htake : l.take (j + 1 + 1) = l.take (j + 1) ++ [l[j + 1]] := by
      rw [List.take_succ, h0]; rfl
    rw [h0, walkNext, hnx, ih n (by omega) (by omega), htake, List.reverse_append]
    rfl

/-- Read from the most recently used end along the `next` links, a
well-linked queue is the reverse of the queue. -/
theorem Linked_walkNext {lru : LRU} {h : List Item} {l : List Nat} (hl : Linked lru h l) :
    walkNext h h.length lru.tail = l.reverse := by
  rw [hl.tail_eq]
  by_cases hnil : l = []
  · subst hnil
    simp [walkNext_none]
  · have hpos : 0 < l.length := List.length_pos.mpr hnil
    rw [List.getLast?_eq_getElem?,
      walkNext_take hl (l.length - 1) h.length (by omega)
        (by have := Linked_length_le hl; omega)]
    have : l.length - 1 + 1 = l.length := by omega
    rw [this, List.take_length]

/-- In a well-linked queue the item without `next` is the head. -/
theorem Linked_next_none_iff {lru : LRU} {h : List Item} {l : List Nat} (hl : Linked lru h l)
    {p : Nat} (hp : p ∈ l) : nextOf h p = none ↔ lru.head = some p := by
  obtain ⟨j, hj⟩ := List.mem_iff_getElem?.mp hp
  have hjl : j < l.length := getElem?_lt hj
  rw [hl.next_eq j p hj, hl.head_eq, List.head?_eq_getElem?]
  by_cases h0 : j = 0
  · subst h0
    simp [hj]
  · have hj1 : j - 1 < l.length := by omega
    simp only [h0, if_false]
    constructor
    · intro e
      rw [List.getElem?_eq_getElem hj1] at e
      cases e
    · intro e
      have := idx_unique hl.nodup e hj
      omega

/-- In a well-linked queue the item without `prev` is the tail. -/
theorem Linked_prev_none_iff {lru : LRU} {h : List Item} {l : List Nat} (hl : Linked lru h l)
    {p : Nat} (hp : p ∈ l) : prevOf h p = none ↔ lru.tail = some p := by
  obtain ⟨j, hj⟩ := List.mem_iff_getElem?.mp hp
  have hjl : j < l.length := getElem?_lt hj
  rw [hl.prev_eq j p hj, hl.tail_eq, List.getLast?_eq_getElem?]
  constructor
  · intro e
    have : l.length ≤ j + 1 := by
      by_contra hlt
      rw [List.getElem?_eq_getElem (by omega)] at e
      cases e
    have : l.length - 1 = j := by omega
    rw [this]; exact hj
  · intro e
    have := idx_unique hl.nodup e hj
    exact List.getElem?_eq_none (by omega)

/-- In a well-linked queue the neighbours of a queued item are queued and
point back at it. -/
theorem Linked_neighbours {lru : LRU} {h : List Item} {l : List Nat} (hl : Linked lru h l)
    {p : Nat} (hp : p ∈ l) :
    (∀ q, prevOf h p = some q → q ∈ l ∧ nextOf h q = some p) ∧
    (∀ q, nextOf h p = some q → q ∈ l ∧ prevOf h q = some p) := by
  obtain ⟨j, hj⟩ := List.mem_iff_getElem?.mp hp
  constructor
  · intro q hq
    rw [hl.prev_eq j p hj] at hq
    refine ⟨getElem?_mem' hq, ?_⟩
    rw [hl.next_eq (j + 1) q hq]
    simpa using hj
  · intro q hq
    rw [hl.next_eq j p hj] at hq
    by_cases h0 : j = 0
    · simp [h0] at hq
    · simp only [h0, if_false] at hq
      refine ⟨getElem?_mem' hq, ?_⟩
      rw [hl.prev_eq (j - 1) q hq]
      have : j - 1 + 1 = j := by omega
      rw [this]; exact hj

/-- `LRU.Erase` of a queued item: the queue without it, the item unlinked, and
head and tail moved to its neighbour where it stood at that end. -/
theorem Linked_erase_ends {lru : LRU} {h : List Item} {l : List Nat} (hl : Linked lru h l)
    {p : Nat} (hp : p ∈ l) :
    ∃ lru1 h1, lru.Erase h p = some (lru1, h1) ∧ h1.length = h.length ∧
      h1.map Item.entry = h.map Item.entry ∧ Linked lru1 h1 (l.erase p) ∧
      nextOf h1 p = none ∧ prevOf h1 p = none ∧
      lru1.head = (if lru.head = some p then prevOf h p else lru.head) ∧
      lru1.tail = (if lru.tail = some p then nextOf h p else lru.tail) := by
  obtain ⟨j, hj⟩ := List.mem_iff_getElem?.mp hp
  have hnx := hl.next_eq j p hj
  have hpv := hl.prev_eq j p hj
  have hn : ∀ q, nextOf h p = some q → q < h.length ∧ q ≠ p := by
    intro q hq
    rw [hnx] at hq
    by_cases h0 : j = 0
    · simp [h0] at hq
    · simp only [h0, if_false] at hq
      refine ⟨hl.alloc q (getElem?_mem' hq), ?_⟩
      intro e; subst e
      have := idx_unique hl.nodup hq hj
      omega
  have hv : ∀ q, prevOf h p = some q → q < h.length ∧ q ≠ p := by
    intro q hq
    rw [hpv] at hq
    refine ⟨hl.alloc q (getElem?_mem' hq), ?_⟩
    intro e; subst e
    have := idx_unique hl.nodup hq hj
    omega
  obtain ⟨lru1, h1, e1, len1, d1, hl1⟩ := Linked_erase hl hp
  obtain ⟨lru2, h2, e2, _, _, hd2, tl2, n2, p2⟩ := Erase_spec lru h p (hl.alloc p hp) hn hv
  rw [e1] at e2
  have ea : lru1 = lru2 := by injection e2 with e2; injection e2
  have eb : h1 = h2 := by injection e2 with e2; injection e2
  subst ea; subst eb
  refine ⟨lru1, h1, e1, len1, d1, hl1, ?_, ?_, ?_, ?_⟩
  · rw [n2 p]; simp
  · rw [p2 p]; simp
  · rw [hd2]
    by_cases hh : lru.head = some p
    · rw [if_pos hh, if_pos ((Linked_next_none_iff hl hp).mpr hh)]
    · rw [if_neg hh, if_neg (fun e => hh ((Linked_next_none_iff hl hp).mp e))]
  · rw [tl2]
    by_cases hh : lru.tail = some p
    · rw [if_pos hh, if_pos ((Linked_prev_none_iff hl hp).mpr hh)]
    · rw [if_neg hh, if_neg (fun e => hh ((Linked_prev_none_iff hl hp).mp e))]

/-- The eviction loop is its test, then its body, then the loop again. -/
theorem evictLoop_succ (fuel : Nat) (c : Cache) :
    c.evictLoop (fuel + 1) =
      if c.curBytes > c.maxBytes then c.evictBody.bind (Cache.evictLoop fuel) else some c := by
  by_cases hgt : c.curBytes > c.maxBytes
  · simp only [Cache.evictLoop, hgt, if_true, Cache.evictBody]
    rcases c.lru.PopFront c.heap with _ | ⟨lru1, h1, i⟩
    · rfl
    · rcases i with _ | i
      · rfl
      · simp only
        rcases h1[i]? with _ | it
        · rfl
        · rfl
  · simp only [Cache.evictLoop, hgt, if_false]

/-- Lines 91 to 99 of `Cache.Set` are the lines up to the call of
`evictOverflow`, then `evictOverflow`, then the return. -/
theorem store_eq_beforeEvict (c : Cache) (k v f : List Byte) :
    c.store k v f =
      (c.beforeEvict k v f).bind fun s =>
        s.evictOverflow.map fun c1 => (c1, add64 c.version 1, STATUS_OK) := by
  simp only [Cache.store, Cache.beforeEvict]
  rcases c.lru.PushBack (c.heap ++ [NewItem k v f (add64 c.version 1)]) c.heap.length with _ | r
  · rfl
  · rfl

/-- The body of the eviction loop on a represented state over its budget: the
queue is not empty, `PopFront` returns its first item, whose size is positive
and at most `curBytes`, and the body leaves a represented state with the rest
of the queue and strictly fewer bytes. -/
theorem evictBody_spec {s : Cache} {l : List Nat} (hr : s.Rep l)
    (hgt : s.curBytes > s.maxBytes) :
    ∃ p r, l = p :: r ∧ s.lru.head = some p ∧
      ∃ lru1 h1 it, s.lru.PopFront s.heap = some (lru1, h1, some p) ∧ h1[p]? = some it ∧
        0 < it.Size ∧ it.Size ≤ s.curBytes ∧
        ∃ s1, s.evictBody = some s1 ∧ s1.curBytes = s.curBytes - it.Size ∧
          s1.curBytes < s.curBytes ∧ s1.maxBytes = s.maxBytes ∧ s1.Rep r := by
  cases l with
  | nil =>
    have := hr.bytes_eq
    simp [sumSizes] at this
    omega
  | cons p r =>
    have hp : p ∈ p :: r := List.mem_cons_self p r
    have hhead : s.lru.head = some p := by rw [hr.linked.head_eq]; rfl
    obtain ⟨lru1, h1, e1, len1, d1, hl1⟩ := Linked_erase hr.linked hp
    have hpl : p < h1.length := by rw [len1]; exact hr.linked.alloc p hp
    have hit1 : h1[p]? = some h1[p] := List.getElem?_eq_getElem hpl
    have hle : sizeAt s.heap p ≤ s.curBytes := by
      rw [hr.bytes_eq]; exact sizeAt_le_sum s.heap hp
    have hsz : h1[p].Size = sizeAt s.heap p := by
      rw [← sizeAt_congr d1 p]
      apply Item_Size_eq hit1
      rw [sizeAt_congr d1 p]
      exact lt_of_le_of_lt hle hr.bytes_lt
    have hpos : 0 < sizeAt s.heap p := by
      obtain ⟨e, he⟩ := Rep_entry hr hp
      simp [sizeAt, he, Entry.size, entrySize]
    have hsub : sub64 s.curBytes h1[p].Size = s.curBytes - sizeAt s.heap p := by
      rw [hsz]; exact sub64_eq hle hr.bytes_lt
    have hkey : keyAt s.heap p = some h1[p].key := by
      rw [← keyAt_congr d1 p]; exact keyAt_eq hit1
    have hr2 := Rep_remove hr hp hkey hl1 d1
    have herase : (p :: r).erase p = r := by simp
    rw [herase] at hr2
    have hpop : s.lru.PopFront s.heap = some (lru1, h1, some p) := by
      simp [LRU.PopFront, hhead, e1]
    refine ⟨p, r, rfl, hhead, lru1, h1, h1[p], hpop, hit1, by rw [hsz]; exact hpos,
      by rw [hsz]; exact hle, _, ?_, ?_, ?_, ?_, hr2⟩
    · simp only [Cache.evictBody, hpop, hit1, hsub]
    · show s.curBytes - sizeAt s.heap p = s.curBytes - h1[p].Size
      rw [hsz]
    · show s.curBytes - sizeAt s.heap p < s.curBytes
      omega
    · rfl

/-- A `Set` that stores, on a represented state: it is lines 91 to 99 run on
the state `c0` left by the removal of the old item, if any, and the state in
which they enter the eviction loop is represented. -/
theorem Set_enters_loop {c : Cache} {l : List Nat} (hr : c.Rep l) (k v f : List Byte)
    (cas : Nat) (hfits : c.SetFits k v) {c1 : Cache} {ver : Nat}
    (hset : c.Set k v f cas = some (c1, ver, STATUS_OK)) :
    ∃ (c0 s : Cache) (l1 : List Nat), c.Set k v f cas = c0.store k v f ∧ c0.beforeEvict k v f = some s ∧
      s.Rep l1 ∧ s.maxBytes = c.maxBytes ∧ s.evictOverflow = some c1 := by
  have hfinish : ∀ (c0 s : Cache) (l1 : List Nat), c.Set k v f cas = c0.store k v f →
      c0.beforeEvict k v f = some s → s.Rep l1 → s.maxBytes = c.maxBytes →
      ∃ (c0 s : Cache) (l1 : List Nat), c.Set k v f cas = c0.store k v f ∧ c0.beforeEvict k v f = some s ∧
        s.Rep l1 ∧ s.maxBytes = c.maxBytes ∧ s.evictOverflow = some c1 := by
    intro c0 s l1 hst hbe hrs hm
    refine ⟨c0, s, l1, hst, hbe, hrs, hm, ?_⟩
    have := store_eq_beforeEvict c0 k v f
    rw [← hst, hset, hbe, Option.some_bind] at this
    rcases hev : s.evictOverflow with _ | c2
    · rw [hev] at this; cases this
    · rw [hev] at this
      simp only [Option.map_some', Option.some.injEq, Prod.mk.injEq] at this
      rw [this.1]
  rcases hk : c.hashmap.lookup k with _ | p
  · have hnokey : ∀ p ∈ l, keyAt c.heap p ≠ some k := by
      intro p hp hkp
      have := (hr.map_iff k p).mpr ⟨hp, hkp⟩
      rw [hk] at this
      cases this
    have hcas : ¬ cas > 0 := by
      intro hpos
      rw [Set_not_found c k v f cas hk hpos] at hset
      cases hset
    obtain ⟨lru1, h1, e1, hr0⟩ := store_pending_Rep k v f hr.linked
      (fun k' p _ => hr.map_iff k' p) hnokey hr.keys_nodup hr.bytes_eq hfits hr.max_lt
    exact hfinish c _ _ (by simp [Cache.Set, hk, hcas])
      (by simp only [Cache.beforeEvict, e1, Option.map_some']) hr0 rfl
  · have hp : p ∈ l := ((hr.map_iff k p).mp hk).1
    have hkey : keyAt c.heap p = some k := ((hr.map_iff k p).mp hk).2
    have hpl : p < c.heap.length := hr.linked.alloc p hp
    have hit : c.heap[p]? = some c.heap[p] := List.getElem?_eq_getElem hpl
    have hmem : ∀ q, q ∈ l.erase p ↔ q ≠ p ∧ q ∈ l := fun q => hr.linked.nodup.mem_erase_iff
    obtain ⟨lru1, h1, e1, len1, d1, hl1⟩ := Linked_erase hr.linked hp
    have hpl1 : p < h1.length := by rw [len1]; exact hpl
    have hit1 : h1[p]? = some h1[p] := List.getElem?_eq_getElem hpl1
    have hle : sizeAt c.heap p ≤ c.curBytes := by
      rw [hr.bytes_eq]; exact sizeAt_le_sum c.heap hp
    have hsz : h1[p].Size = sizeAt c.heap p := by
      rw [← sizeAt_congr d1 p]
      apply Item_Size_eq hit1
      rw [sizeAt_congr d1 p]
      exact lt_of_le_of_lt hle hr.bytes_lt
    have hsub : sub64 c.curBytes h1[p].Size = c.curBytes - sizeAt c.heap p := by
      rw [hsz]; exact sub64_eq hle hr.bytes_lt
    have hfits' : c.curBytes - sizeAt c.heap p + entrySize k v < U64 := by
      unfold Cache.SetFits at hfits
      omega
    have hbytes : c.curBytes - sizeAt c.heap p = sumSizes h1 (l.erase p) := by
      rw [sumSizes_congr d1, hr.bytes_eq]
      have := sumSizes_erase c.heap hp
      omega
    have hcas : ¬ (cas > 0 ∧ c.heap[p].version ≠ cas) := by
      intro hbad
      rw [Set_mismatch c k v f cas hk hit hbad] at hset
      cases hset
    obtain ⟨lru2, h2, e2, hr0⟩ := @store_pending_Rep
      { c with lru := lru1, heap := h1, curBytes := c.curBytes - sizeAt c.heap p }
      (l.erase p) k v f hl1
      (by
        intro k' q hk'
        show c.hashmap.lookup k' = some q ↔ q ∈ l.erase p ∧ keyAt h1 q = some k'
        rw [hr.map_iff k' q, keyAt_congr d1, hmem]
        constructor
        · rintro ⟨hq, hkq⟩
          refine ⟨⟨?_, hq⟩, hkq⟩
          intro e; subst e
          rw [hkey] at hkq
          exact hk' (Option.some.inj hkq).symm
        · rintro ⟨⟨_, hq⟩, hkq⟩
          exact ⟨hq, hkq⟩)
      (by
        intro q hq hkq
        change keyAt h1 q = some k at hkq
        rw [keyAt_congr d1] at hkq
        obtain ⟨hne, hql⟩ := (hmem q).mp hq
        have h1' := (hr.map_iff k q).mpr ⟨hql, hkq⟩
        exact hne (Option.some.inj (h1'.symm.trans hk)))
      hr.keys_nodup hbytes hfits' hr.max_lt
    exact hfinish
      { c with lru := lru1, heap := h1, curBytes := c.curBytes - sizeAt c.heap p } _ _
      (by simp only [Cache.Set, hk, hit, hcas, if_false, e1, Option.some_bind, hit1, hsub])
      (by simp only [Cache.beforeEvict, e2, Option.map_some']) hr0 rfl

/-- Go's `uint32` subtraction is the exact difference when nothing is taken
below zero. -/
theorem sub32_eq {a b : Nat} (hb : b ≤ a) (ha : a < 2 ^ 32) : sub32 a b = a - b := by
  unfold sub32
  have h1 : b % 2 ^ 32 = b := Nat.mod_eq_of_lt (by omega)
  rw [h1]
  have h2 : a + (2 ^ 32 - b) = (a - b) + 2 ^ 32 := by omega
  rw [h2, Nat.add_mod_right]
  exact Nat.mod_eq_of_lt (by omega)

/-- The entry of a queued item is a resident entry. -/
theorem Rep_mem_entries {c : Cache} {l : List Nat} (hr : c.Rep l) {p : Nat} {e : Entry}
    (hp : p ∈ l) (he : entryAt c.heap p = some e) : e ∈ c.entries := by
  rw [Rep_entries hr]
  exact List.mem_filterMap.mpr ⟨p, hp, he⟩

/-- Whatever the opcode, on a reachable cache whose resident values are
shorter than `2 ^ 32 - 4` bytes the dispatch of a request returns: it has
written one response, the header built by `NewResponse` from the very
segments that follow it, extras, then key, then value, none of them too long
for its length field.  The entries resident afterwards were resident before
or are the entry of the request. -/
theorem dispatch_framed (client : ClientConn) (req : Header) (extras key value : List Byte)
    (hc : Reachable client.cache)
    (hfit : extras.length = 8 → client.cache.maxBytes + entrySize key value < U64)
    (hval : ∀ e ∈ client.cache.entries, e.value.length + 4 < 2 ^ 32) :
    ∃ c st kk vv xx ver,
      (if req.Opcode = CMD_GET then client.handleGet req extras key value
        else if req.Opcode = CMD_SET then client.handleSet req extras key value
        else if req.Opcode = CMD_DELETE then client.handleDelete req extras key value
        else client.respond req STATUS_UNKNOWN_COMMAND 0) =
        some { cache := c, input := client.input,
               output := client.output ++
                 encodeHeader (NewResponse req.Opcode st kk vv xx req.Opaque ver) ++
                 xx ++ kk ++ vv } ∧
      Reachable c ∧ c.maxBytes = client.cache.maxBytes ∧ ver < U64 ∧ st < 2 ^ 16 ∧
      xx.length < 2 ^ 8 ∧ kk.length < 2 ^ 16 ∧ vv.length + xx.length + kk.length < 2 ^ 32 ∧
      (∀ e ∈ c.entries, e ∈ client.cache.entries ∨ (e.key = key ∧ e.value = value)) := by
  obtain ⟨hr, hle⟩ := Reachable_inv hc
  have hsame : ∀ e ∈ client.cache.entries,
      e ∈ client.cache.entries ∨ (e.key = key ∧ e.value = value) := fun e he => Or.inl he
  have hst3 : ∀ st : Status,
      st = STATUS_OK ∨ st = STATUS_KEY_NOT_FOUND ∨ st = STATUS_KEY_EXISTS → st < 2 ^ 16 := by
    intro st h
    rcases h with e | e | e <;> rw [e] <;> decide
  split
  · -- GET
    obtain ⟨n, hn⟩ := hc
    by_cases hshape : extras ≠ [] ∨ value ≠ []
    · exact ⟨client.cache, STATUS_INVALID_ARGUMENT, [], [], [], 0,
        by rw [handleGet_invalid client req extras key value hshape]; simp,
        ⟨n, hn⟩, rfl, by decide, by decide, by decide, by decide, by decide, hsame⟩
    · have hx : extras = [] := by
        by_contra hne; exact hshape (Or.inl hne)
      have hv : value = [] := by
        by_contra hne; exact hshape (Or.inr hne)
      subst hx; subst hv
      rcases hk : client.cache.hashmap.lookup key with _ | p
      · exact ⟨client.cache, STATUS_KEY_NOT_FOUND, [], [], [], 0,
          by rw [handleGet_miss client req key hk]; simp,
          ⟨n, hn⟩, rfl, by decide, by decide, by decide, by decide, by decide, hsame⟩
      · obtain ⟨c1, e, eg, he, _, hfl, hm1, hh⟩ := handleGet_hit client req key ⟨n, hn⟩ hk
        obtain ⟨c2, eg2, hr2, hd2, _⟩ := Get_hit hr hk
        rw [eg] at eg2
        have ec : c1 = c2 := by injection eg2 with eg2; injection eg2
        subst ec
        have hp := ((hr.map_iff key p).mp hk).1
        have hmem : e ∈ client.cache.entries := Rep_mem_entries hr hp he
        obtain ⟨e2, he2, _, hent⟩ := entries_Get_hit hr hk hr2 hd2
        rw [he] at he2
        have ee : e = e2 := Option.some.inj he2
        subst ee
        have hv := hval e hmem
        refine ⟨c1, STATUS_OK, [], e.value, e.flags, e.version,
          by rw [hh]; simp,
          ⟨n + 1, ReachableIn.get key hn eg⟩, hm1, (Reachable_items ⟨n, hn⟩ he).2, by decide,
          by rw [hfl]; decide, by decide, by rw [hfl]; simpa using hv, ?_⟩
        intro e1 he1
        rw [hent] at he1
        rcases List.mem_append.mp he1 with h3 | h3
        · exact Or.inl (List.mem_filter.mp h3).1
        · rw [List.mem_singleton.mp h3]; exact Or.inl hmem
  · split
    · -- SET
      obtain ⟨c1, st, ver, hh, hver, hbad, hgood⟩ :=
        handleSet_status client req extras key value hc hfit
      obtain ⟨n, hn⟩ := hc
      by_cases hshape : extras.length ≠ 8 ∨ value = []
      · obtain ⟨e1, _, e3⟩ := hbad hshape
        refine ⟨c1, st, [], [], [], ver, by rw [hh]; simp, by rw [e3]; exact ⟨n, hn⟩,
          by rw [e3], hver, by rw [e1]; decide, by decide, by decide, by decide, ?_⟩
        rw [e3]; exact hsame
      · obtain ⟨es, hst⟩ := hgood hshape
        have hx : extras.length = 8 := by
          by_contra hne; exact hshape (Or.inl hne)
        have hfits : client.cache.SetFits key value := by
          have := hfit hx
          unfold Cache.SetFits; omega
        obtain ⟨c2, ver2, st2, es2, hcase⟩ :=
          Set_total hr key value (extras.take 4) req.Cas hfits
        rw [es] at es2
        have ea : c1 = c2 := by injection es2 with es2; injection es2
        have eb : st = st2 := by
          injection es2 with es2; injection es2 with _ es2; injection es2
        subst ea; subst eb
        have hm1 : c1.maxBytes = client.cache.maxBytes := by
          rcases hcase with ⟨_, _, hz, _⟩ | ⟨_, _, hz, _⟩ | ⟨_, _, _, _, _, hz, _⟩
          · rw [hz]
          · rw [hz]
          · exact hz
        refine ⟨c1, st, [], [], [], ver, by rw [hh]; simp,
          ⟨n + 1, ReachableIn.set key value (extras.take 4) req.Cas hn hfits es⟩, hm1, hver,
          hst3 st hst, by decide, by decide, by decide, ?_⟩
        rcases hcase with ⟨_, _, hz, _⟩ | ⟨_, _, hz, _⟩ | ⟨_, _, hr1, _, hdm, _⟩
        · rw [hz]; exact hsame
        · rw [hz]; exact hsame
        · intro e1 he1
          rw [entries_Set hr hr1 hdm] at he1
          obtain ⟨m, _, hdrop, _⟩ := evictEntries_drop client.cache.maxBytes
            (dropKey key client.cache.entries ++
              [(NewItem key value (extras.take 4) (add64 client.cache.version 1)).entry])
          rw [hdrop] at he1
          rcases List.mem_append.mp (List.mem_of_mem_drop he1) with h3 | h3
          · exact Or.inl (List.mem_filter.mp h3).1
          · rw [List.mem_singleton.mp h3]; exact Or.inr ⟨rfl, rfl⟩
    · split
      · -- DELETE
        obtain ⟨c1, st, hh, hbad, hgood⟩ := handleDelete_status client req extras key value hc
        obtain ⟨n, hn⟩ := hc
        by_cases hshape : extras ≠ [] ∨ value ≠ []
        · obtain ⟨e1, e3⟩ := hbad hshape
          refine ⟨c1, st, [], [], [], 0, by rw [hh]; simp, by rw [e3]; exact ⟨n, hn⟩,
            by rw [e3], by decide, by rw [e1]; decide, by decide, by decide, by decide, ?_⟩
          rw [e3]; exact hsame
        · obtain ⟨ed, hst⟩ := hgood hshape
          obtain ⟨c2, st2, ed2, _, hm2, _, hcase⟩ := Delete_total hr key req.Cas
          rw [ed] at ed2
          have ea : c1 = c2 := by injection ed2 with ed2; injection ed2
          subst ea
          refine ⟨c1, st, [], [], [], 0, by rw [hh]; simp,
            ⟨n + 1, ReachableIn.delete key req.Cas hn ed⟩, hm2, by decide,
            hst3 st hst, by decide, by decide, by decide, ?_⟩
          rcases hcase with ⟨_, hz, _⟩ | ⟨_, hz, _⟩ | ⟨_, p, it, hk, _, _, _, hr1, _⟩
          · rw [hz]; exact hsame
          · rw [hz]; exact hsame
          · have hd1 : c1.heap.map Item.entry = client.cache.heap.map Item.entry := by
              obtain ⟨c3, st3, ed3, hd3, _⟩ := Delete_total hr key req.Cas
              rw [ed] at ed3
              have ea : c1 = c3 := by injection ed3 with ed3; injection ed3
              rw [ea]; exact hd3
            intro e1 he1
            rw [entries_Delete hr hk hr1 hd1] at he1
            exact Or.inl (List.mem_filter.mp he1).1
      · exact ⟨client.cache, STATUS_UNKNOWN_COMMAND, [], [], [], 0,
          by rw [respond_eq]; simp, hc, rfl, by decide, by decide, by decide, by decide,
          by decide, hsame⟩

/-- On a reachable cache whose resident values are shorter than `2 ^ 32 - 4`
bytes, a pass of the session loop returns on every input: either it writes
nothing, or it has read a request header and writes one response, the header
built by `NewResponse` from the very segments that follow it.  The cache stays
reachable and its resident values stay that short. -/
theorem iteration_framed (client : ClientConn) (req0 : Header) (hc : Reachable client.cache)
    (hmax : client.cache.maxBytes + MAX_VALUE_SIZE < U64)
    (hval : ∀ e ∈ client.cache.entries, e.value.length + 4 < 2 ^ 32) :
    ∃ c1 req1 goes, client.iteration req0 = some (c1, req1, goes) ∧
      Reachable c1.cache ∧ c1.cache.maxBytes = client.cache.maxBytes ∧
      (∀ e ∈ c1.cache.entries, e.value.length + 4 < 2 ^ 32) ∧
      (c1.output = client.output ∨
        ∃ st kk vv xx ver,
          req1.InRange ∧ ver < U64 ∧ st < 2 ^ 16 ∧
          xx.length < 2 ^ 8 ∧ kk.length < 2 ^ 16 ∧ vv.length + xx.length + kk.length < 2 ^ 32 ∧
          c1.output = client.output ++
            encodeHeader (NewResponse req1.Opcode st kk vv xx req1.Opaque ver) ++
            xx ++ kk ++ vv) := by
  by_cases hshort : client.input.length < 24
  · have hn : ¬ (HEADER_SIZE ≤ client.input.length) := by unfold HEADER_SIZE; omega
    refine ⟨{ client with input := [] }, req0, false, ?_, hc, rfl, hval, Or.inl rfl⟩
    by_cases hnil : client.input = []
    · simp [ClientConn.iteration, Header.ReadRequest, ReadFull, hnil, HEADER_SIZE]
    · simp [ClientConn.iteration, Header.ReadRequest, ReadFull, hnil, hn]
  · have hsplit : client.input = client.input.take 24 ++ client.input.drop 24 :=
      (List.take_append_drop 24 client.input).symm
    have hlen : (client.input.take 24).length = 24 := by
      rw [List.length_take]; omega
    obtain ⟨h, hd⟩ := decodeHeader_isSome hlen
    have hrange := decodeHeader_InRange hd
    have hread := ReadRequest_eq_decode req0 (client.input.take 24) (client.input.drop 24) hlen
    rw [← hsplit, hd] at hread
    rcases hv : h.CheckValidRequest with _ | err
    · by_cases hbig : MAX_VALUE_SIZE < h.TotalLength
      · have hit := iteration_too_large client req0 h _ _ hsplit hd hv hbig
        refine ⟨_, h, false, hit, hc, rfl, hval, Or.inr ?_⟩
        exact ⟨STATUS_VALUE_TOO_LARGE, [], [], [], 0, hrange, by decide, by decide, by decide,
          by decide, by decide, by simp⟩
      · have hsmall : h.TotalLength ≤ MAX_VALUE_SIZE := by omega
        by_cases hbody : (client.input.drop 24).length < h.TotalLength
        · have hit := (iteration_reads_body client req0 h _ _ hsplit hd hv hsmall).1 hbody
          exact ⟨_, h, false, hit, hc, rfl, hval, Or.inl rfl⟩
        · have hfull : h.TotalLength ≤ (client.input.drop 24).length := by omega
          have hsplit2 : client.input = client.input.take 24 ++
              ((client.input.drop 24).take h.TotalLength ++
                (client.input.drop 24).drop h.TotalLength) := by
            rw [List.take_append_drop]; exact hsplit
          have hblen : ((client.input.drop 24).take h.TotalLength).length = h.TotalLength := by
            rw [List.length_take]; omega
          have hdisp := iteration_dispatch client req0 h _ _ _ hsplit2 hd hv hsmall hblen
          obtain ⟨_, hsum⟩ := (CheckValidRequest_iff h hrange).2.mp hv
          have hvlen : ((((client.input.drop 24).take h.TotalLength).drop h.ExtrasLength).drop
              h.KeyLength).length ≤ h.TotalLength := by
            simp only [List.length_take, List.length_drop]
            omega
          obtain ⟨c, st, kk, vv, xx, ver, hh, hreach, hm, hver, hst, hx, hk, ht, hent⟩ :=
            dispatch_framed
              { cache := client.cache, input := (client.input.drop 24).drop h.TotalLength,
                output := client.output } h
              (((client.input.drop 24).take h.TotalLength).take h.ExtrasLength)
              ((((client.input.drop 24).take h.TotalLength).drop h.ExtrasLength).take
                h.KeyLength)
              ((((client.input.drop 24).take h.TotalLength).drop h.ExtrasLength).drop
                h.KeyLength) hc
              (by
                intro h8
                show client.cache.maxBytes + entrySize _ _ < U64
                unfold entrySize
                simp only [List.length_take, List.length_drop] at h8 ⊢
                omega)
              hval
          rw [hh] at hdisp
          refine ⟨_, h, true, hdisp, hreach, hm, ?_, Or.inr ?_⟩
          · intro e he
            rcases hent e he with h3 | ⟨_, h3⟩
            · exact hval e h3
            · rw [h3]
              have : MAX_VALUE_SIZE = 1048576 := by decide
              omega
          · exact ⟨st, kk, vv, xx, ver, hrange, hver, hst, hx, hk, ht, rfl⟩
    · refine ⟨{ client with input := client.input.drop 24 }, h, false, ?_, hc, rfl, hval,
        Or.inl rfl⟩
      simp [ClientConn.iteration, hread, hv]

/-- In a reachable cache with a budget below `2 ^ 32` every resident value is
shorter than `2 ^ 32 - 4` bytes. -/
theorem Reachable_values_lt {c : Cache} (hc : Reachable c) (hbudget : c.maxBytes < 2 ^ 32) :
    ∀ e ∈ c.entries, e.value.length + 4 < 2 ^ 32 := by
  obtain ⟨hr, hle⟩ := Reachable_inv hc
  intro e he
  rw [Rep_entries hr] at he
  obtain ⟨p, hp, hpe⟩ := List.mem_filterMap.mp he
  have h1 := sizeAt_le_sum c.heap hp
  rw [← hr.bytes_eq] at h1
  have h2 : sizeAt c.heap p = 4 + e.key.length + e.value.length := by
    simp [sizeAt, hpe, Entry.size, entrySize]
  omega

/-- The branches of a pass of the session loop, by what is on the stream:
fewer than 24 bytes; a header that is not a valid request; a valid header
with a body that is too large; a valid header whose body the stream ends
before; a valid header and its whole body, which is sliced and dispatched on
the opcode. -/
theorem iteration_split (client : ClientConn) (req0 : Header) :
    (client.input.length < 24 ∧
      client.iteration req0 =
        some ({ cache := client.cache, input := [], output := client.output }, req0, false)) ∨
    ∃ hb more h, client.input = hb ++ more ∧ decodeHeader hb = some h ∧
      ((h.CheckValidRequest ≠ none ∧
          client.iteration req0 =
            some ({ cache := client.cache, input := more, output := client.output },
              h, false)) ∨
        (h.CheckValidRequest = none ∧ MAX_VALUE_SIZE < h.TotalLength ∧
          client.iteration req0 =
            some ({ cache := client.cache, input := more,
                    output := client.output ++
                      encodeHeader
                        (NewResponse h.Opcode STATUS_VALUE_TOO_LARGE [] [] [] h.Opaque 0) },
              h, false)) ∨
        (h.CheckValidRequest = none ∧ h.TotalLength ≤ MAX_VALUE_SIZE ∧
          more.length < h.TotalLength ∧
          client.iteration req0 =
            some ({ cache := client.cache, input := [], output := client.output },
              h, false)) ∨
        (h.CheckValidRequest = none ∧ h.TotalLength ≤ MAX_VALUE_SIZE ∧
          h.TotalLength ≤ more.length ∧
          client.iteration req0 =
            (if h.Opcode = CMD_GET then
                ClientConn.handleGet
                  { cache := client.cache, input := more.drop h.TotalLength,
                    output := client.output } h
                  ((more.take h.TotalLength).take h.ExtrasLength)
                  (((more.take h.TotalLength).drop h.ExtrasLength).take h.KeyLength)
                  (((more.take h.TotalLength).drop h.ExtrasLength).drop h.KeyLength)
              else if h.Opcode = CMD_SET then
                ClientConn.handleSet
                  { cache := client.cache, input := more.drop h.TotalLength,
                    output := client.output } h
                  ((more.take h.TotalLength).take h.ExtrasLength)
                  (((more.take h.TotalLength).drop h.ExtrasLength).take h.KeyLength)
                  (((more.take h.TotalLength).drop h.ExtrasLength).drop h.KeyLength)
              else if h.Opcode = CMD_DELETE then
                ClientConn.handleDelete
                  { cache := client.cache, input := more.drop h.TotalLength,
                    output := client.output } h
                  ((more.take h.TotalLength).take h.ExtrasLength)
                  (((more.take h.TotalLength).drop h.ExtrasLength).take h.KeyLength)
                  (((more.take h.TotalLength).drop h.ExtrasLength).drop h.KeyLength)
              else
                ClientConn.respond
                  { cache := client.cache, input := more.drop h.TotalLength,
                    output := client.output } h STATUS_UNKNOWN_COMMAND 0).map
              fun c => (c, h, true))) := by
  by_cases hshort : client.input.length < 24
  · left
    have hn : ¬ (HEADER_SIZE ≤ client.input.length) := by unfold HEADER_SIZE; omega
    refine ⟨hshort, ?_⟩
    by_cases hnil : client.input = []
    · simp [ClientConn.iteration, Header.ReadRequest, ReadFull, hnil, HEADER_SIZE]
    · simp [ClientConn.iteration, Header.ReadRequest, ReadFull, hnil, hn]
  · right
    have hsplit : client.input = client.input.take 24 ++ client.input.drop 24 :=
      (List.take_append_drop 24 client.input).symm
    have hlen : (client.input.take 24).length = 24 := by
      rw [List.length_take]; omega
    obtain ⟨h, hd⟩ := decodeHeader_isSome hlen
    have hread := ReadRequest_eq_decode req0 (client.input.take 24) (client.input.drop 24) hlen
    rw [← hsplit, hd] at hread
    refine ⟨client.input.take 24, client.input.drop 24, h, hsplit, hd, ?_⟩
    rcases hv : h.CheckValidRequest with _ | err
    · right
      by_cases hbig : MAX_VALUE_SIZE < h.TotalLength
      · left
        exact ⟨rfl, hbig, iteration_too_large client req0 h _ _ hsplit hd hv hbig⟩
      · right
        have hsmall : h.TotalLength ≤ MAX_VALUE_SIZE := by omega
        by_cases hbody : (client.input.drop 24).length < h.TotalLength
        · left
          exact ⟨rfl, hsmall, hbody,
            (iteration_reads_body client req0 h _ _ hsplit hd hv hsmall).1 hbody⟩
        · right
          have hfull : h.TotalLength ≤ (client.input.drop 24).length := by omega
          have hsplit2 : client.input = client.input.take 24 ++
              ((client.input.drop 24).take h.TotalLength ++
                (client.input.drop 24).drop h.TotalLength) := by
            rw [List.take_append_drop]; exact hsplit
          have hblen : ((client.input.drop 24).take h.TotalLength).length = h.TotalLength := by
            rw [List.length_take]; omega
          exact ⟨rfl, hsmall, hfull,
            iteration_dispatch client req0 h _ _ _ hsplit2 hd hv hsmall hblen⟩
    · left
      refine ⟨by simp, ?_⟩
      simp [ClientConn.iteration, hread, hv]

/-! ## The claims -/

/-- C1: in every reachable cache state, `Set(k, v, f, 0)` with 4-byte flags `f`
and `4 + len(k) + len(v) <= maxBytes` returns `(cas, STATUS_OK)`, and the
`Get(k)` that follows is a hit whose item has value `v`, flags `f` and version
`cas`. -/
theorem C1_get_after_set (c : Cache) (hc : Reachable c) (k v f : List Byte)
    (hf : f.length = 4) (hsize : entrySize k v ≤ c.maxBytes) :
    ∃ c1 cas, c.Set k v f 0 = some (c1, cas, STATUS_OK) ∧
      ∃ c2 p, c1.Get k = some (c2, some p) ∧
        entryAt c2.heap p = some { flags := f, key := k, value := v, version := cas } := by
  obtain ⟨hr, hle⟩ := Reachable_inv hc
  obtain ⟨c1, e1, c2, p, e2, he⟩ := Set_then_Get hr hle k v f 0 hsize
    (fun _ _ _ _ => Or.inl rfl) (fun _ => rfl)
  refine ⟨c1, _, e1, c2, p, e2, ?_⟩
  rw [he]
  simp [NewItem, Item.entry, copyFlags_four hf]

/-- The test `TestCacheSetGet`: key "key", value "value", flags "flag" in an
empty cache of 100000 bytes. -/
theorem C1_get_after_set_witness :
    ∃ c1 cas, (NewCache 100000).Set [107, 101, 121] [118, 97, 108, 117, 101]
        [102, 108, 97, 103] 0 = some (c1, cas, STATUS_OK) ∧
      ∃ c2 p, c1.Get [107, 101, 121] = some (c2, some p) ∧
        entryAt c2.heap p = some
          { flags := [102, 108, 97, 103], key := [107, 101, 121],
            value := [118, 97, 108, 117, 101], version := cas } :=
  C1_get_after_set (NewCache 100000) ⟨0, ReachableIn.init 100000 (by decide)⟩
    [107, 101, 121] [118, 97, 108, 117, 101] [102, 108, 97, 103] (by decide) (by decide)

/-- C2 (as amended): in every reachable cache state, a `Set(k, v, f, 0)` whose
entry is larger than `maxBytes` (the bytes resident plus the entry staying
below `2 ^ 64`) returns `STATUS_OK` and evicts every entry, the new one
included: afterwards the map and the queue are empty, `curBytes` is 0 and
`Get(k)` misses. -/
theorem C2_oversize_set_empties (c : Cache) (hc : Reachable c) (k v f : List Byte)
    (hbig : c.maxBytes < entrySize k v) (hfits : c.SetFits k v) :
    ∃ c1 cas, c.Set k v f 0 = some (c1, cas, STATUS_OK) ∧
      c1.hashmap = [] ∧ c1.entries = [] ∧ c1.curBytes = 0 ∧ c1.Get k = some (c1, none) := by
  obtain ⟨hr, _⟩ := Reachable_inv hc
  obtain ⟨c1, ver, st, e, hcase⟩ := Set_total hr k v f 0 hfits
  rcases hcase with ⟨_, _, _, _, h0⟩ | ⟨_, _, _, _, _, _, _, h0, _⟩ | ⟨hst, _, hr1, _, hd, _, _, _⟩
  · omega
  · omega
  · subst hst
    obtain ⟨_, hnew⟩ := entryAt_of_append hd
    have hsz : c.maxBytes < sizeAt c1.heap c.heap.length := by
      simp only [sizeAt, hnew]
      exact hbig
    unfold Cache.pending at hr1
    rw [evictList_append_big _ _ _ hsz] at hr1
    have hmap := hashmap_nil_of_Rep_nil hr1
    refine ⟨c1, ver, e, hmap, ?_, ?_, ?_⟩
    · rw [Rep_entries hr1]; rfl
    · rw [hr1.bytes_eq]; rfl
    · exact Get_miss c1 k (by rw [hmap]; rfl)

/-- The state of `TestCacheLRU` after its first `StoreKey`: budget 13 with
"key1" resident; then a `Set` of key "k" with a 9-byte value. -/
theorem C2_oversize_set_empties_witness :
    ∃ c1 cas, (stateAfter 13 [StoreKey key1]).Set [107]
        [118, 118, 118, 118, 118, 118, 118, 118, 118] flag 0 = some (c1, cas, STATUS_OK) ∧
      c1.hashmap = [] ∧ c1.entries = [] ∧ c1.curBytes = 0 ∧
      c1.Get [107] = some (c1, none) :=
  C2_oversize_set_empties (stateAfter 13 [StoreKey key1])
    (reachable_stateAfter 13 [StoreKey key1] (by decide) (by decide))
    [107] [118, 118, 118, 118, 118, 118, 118, 118, 118] flag (by decide) (by decide)

/-- C2 (counterexample): budget 13 with "key1" resident (13 bytes); a `Set` of
key "k" with a 9-byte value (14 bytes) returns version 2 with `STATUS_OK`,
yet afterwards the map is empty and `Get("k")` returns nil: the oversize entry
is not resident. -/
theorem C2_counterexample :
    ((stateAfter 13 [StoreKey key1]).entries.map Entry.key = [key1]) ∧
    (((stateAfter 13 [StoreKey key1]).Set [107]
        [118, 118, 118, 118, 118, 118, 118, 118, 118] flag 0).bind
      fun r => (r.1.Get [107]).map fun g => (r.2, r.1.hashmap, r.1.curBytes, g.2)) =
      some ((2, STATUS_OK), [], 0, none) := by
  decide

/-- C3: in every reachable cache state in which key `k` is present with version
`it.version`, a `Set(k, v, f, cas)` with `cas` neither 0 nor that version
returns `(0, STATUS_KEY_EXISTS)` and the very same state (map, queue,
`curBytes` and version counter unchanged), so the `Get(k)` that follows still
returns the old item with its old value and version. -/
theorem C3_set_cas_mismatch (c : Cache) (hc : Reachable c) (k v f : List Byte) (cas p : Nat)
    (it : Item) (hk : c.hashmap.lookup k = some p) (hit : c.heap[p]? = some it)
    (h0 : cas ≠ 0) (hne : cas ≠ it.version) :
    c.Set k v f cas = some (c, 0, STATUS_KEY_EXISTS) ∧
      ∃ c2, c.Get k = some (c2, some p) ∧ entryAt c2.heap p = some it.entry := by
  obtain ⟨hr, _⟩ := Reachable_inv hc
  refine ⟨Set_mismatch c k v f cas hk hit ⟨by omega, fun e => hne e.symm⟩, ?_⟩
  obtain ⟨c2, e2, _, hd, _⟩ := Get_hit hr hk
  refine ⟨c2, e2, ?_⟩
  rw [entryAt_congr hd]
  simp [entryAt, hit]

/-- After `StoreKey "key1"` the item has version 1; a `Set` with CAS 2 is
refused. -/
theorem C3_set_cas_mismatch_witness :
    (stateAfter 100000 [StoreKey key1]).Set key1 [98, 97, 122] flag 2 =
        some (stateAfter 100000 [StoreKey key1], 0, STATUS_KEY_EXISTS) ∧
      ∃ c2, (stateAfter 100000 [StoreKey key1]).Get key1 = some (c2, some 0) ∧
        entryAt c2.heap 0 = some
          (Item.entry { flags := flag, key := key1, value := value, version := 1,
                        lru := { next := none, prev := none } }) :=
  C3_set_cas_mismatch (stateAfter 100000 [StoreKey key1])
    (reachable_stateAfter 100000 [StoreKey key1] (by decide) (by decide)) key1 [98, 97, 122] flag 2 0
    { flags := flag, key := key1, value := value, version := 1,
      lru := { next := none, prev := none } }
    (by decide) (by decide) (by decide) (by decide)

/-- C4: in every cache state in which key `k` is absent, a `Set(k, v, f, cas)`
with `cas` other than 0 returns `(0, STATUS_KEY_NOT_FOUND)` and the very same
state (map, queue, `curBytes` and version counter unchanged); the key is still
absent afterwards: `Get(k)` returns nil. -/
theorem C4_set_cas_absent (c : Cache) (k v f : List Byte) (cas : Nat)
    (hk : c.hashmap.lookup k = none) (h0 : cas ≠ 0) :
    c.Set k v f cas = some (c, 0, STATUS_KEY_NOT_FOUND) ∧ c.Get k = some (c, none) :=
  ⟨Set_not_found c k v f cas hk (by omega), Get_miss c k hk⟩

/-- The test `TestSet` of `mc_test.go`: a `Set` with CAS 1 on an empty
cache. -/
theorem C4_set_cas_absent_witness :
    (NewCache 100000).Set key1 value flag 1 = some (NewCache 100000, 0, STATUS_KEY_NOT_FOUND) ∧
      (NewCache 100000).Get key1 = some (NewCache 100000, none) :=
  C4_set_cas_absent (NewCache 100000) key1 value flag 1 (by decide) (by decide)

/-- C5: in a cache state reached in fewer than `2 ^ 64 - 1` operations, in
which key `k` is present with version `it.version`, a `Set(k, v, f, cas)` with
`cas` 0 or that version, 4-byte flags and an entry within `maxBytes` returns
`(cas1, STATUS_OK)` with `cas1` strictly greater than the old version, and the
`Get(k)` that follows returns an item with value `v`, flags `f` and version
`cas1`. -/
theorem C5_set_replaces (n : Nat) (c : Cache) (hc : ReachableIn n c) (hn : n + 1 < U64)
    (k v f : List Byte) (cas p : Nat) (it : Item)
    (hk : c.hashmap.lookup k = some p) (hit : c.heap[p]? = some it)
    (hcas : cas = 0 ∨ cas = it.version) (hf : f.length = 4)
    (hsize : entrySize k v ≤ c.maxBytes) :
    ∃ c1 cas1, c.Set k v f cas = some (c1, cas1, STATUS_OK) ∧ it.version < cas1 ∧
      ∃ c2 q, c1.Get k = some (c2, some q) ∧
        entryAt c2.heap q = some { flags := f, key := k, value := v, version := cas1 } := by
  obtain ⟨hr, hle⟩ := Reachable_inv ⟨n, hc⟩
  obtain ⟨hvn, hvers⟩ := ReachableIn_versions hc
  have hp : p ∈ c.recency := ((hr.map_iff k p).mp hk).1
  have hver := (hvers (by omega) p hp it.entry (by simp [entryAt, hit])).2
  have hveq : add64 c.version 1 = c.version + 1 := add64_eq (by omega)
  obtain ⟨c1, e1, c2, q, e2, he⟩ := Set_then_Get hr hle k v f cas hsize
    (by
      intro p' it' hk' hit'
      rw [hk] at hk'
      cases hk'
      rw [hit] at hit'
      cases hit'
      rcases hcas with h | h
      · exact Or.inl h
      · exact Or.inr h.symm)
    (by intro hnone; rw [hk] at hnone; cases hnone)
  refine ⟨c1, _, e1, ?_, c2, q, e2, ?_⟩
  · rw [hveq]
    simp only [Item.entry] at hver
    omega
  · rw [he]
    simp [NewItem, Item.entry, copyFlags_four hf]

/-- The test `TestMCSimple`: after `StoreKey "key1"` (version 1), a `Set` with
the right CAS 1 replaces the value. -/
theorem C5_set_replaces_witness :
    ∃ c1 cas1, (stateAfter 100000 [StoreKey key1]).Set key1 [98, 97, 122] flag 1 =
        some (c1, cas1, STATUS_OK) ∧ 1 < cas1 ∧
      ∃ c2 q, c1.Get key1 = some (c2, some q) ∧
        entryAt c2.heap q = some
          { flags := flag, key := key1, value := [98, 97, 122], version := cas1 } :=
  C5_set_replaces 1 (stateAfter 100000 [StoreKey key1])
    (reachableIn_stateAfter 100000 [StoreKey key1] (by decide) (by decide)) (by decide) key1 [98, 97, 122] flag 1 0
    { flags := flag, key := key1, value := value, version := 1,
      lru := { next := none, prev := none } }
    (by decide) (by decide) (by decide) (by decide) (by decide)

/-- C6: for every sequence of fewer than `2 ^ 64` `Get`/`Set`/`Delete`
operations on a new cache (every `Set` within `uint64` byte accounting), the
run returns and the versions returned by the `Set`s with `STATUS_OK` are
strictly increasing in execution order, so no two are equal. -/
theorem C6_versions_increase (m : Nat) (hm : m < U64) (ops : List Op)
    (hfit : ∀ op ∈ ops, op.Fits m) (hlen : ops.length < U64) :
    ∃ c rs, (NewCache m).run ops = some (c, rs) ∧ (okVersions rs).Pairwise (· < ·) ∧
      (okVersions rs).Nodup := by
  obtain ⟨c, rs, e, hpw, _⟩ := run_versions ops (ReachableIn.init m hm) hfit (by omega)
  exact ⟨c, rs, e, hpw, hpw.imp (fun h => Nat.ne_of_lt h)⟩

/-- Store, delete and store again the same key: the two stores return
different, increasing versions. -/
theorem C6_versions_increase_witness :
    ∃ c rs, (NewCache 100000).run [StoreKey key1, Op.delete key1 0, StoreKey key1] =
        some (c, rs) ∧ (okVersions rs).Pairwise (· < ·) ∧ (okVersions rs).Nodup :=
  C6_versions_increase 100000 (by decide) [StoreKey key1, Op.delete key1 0, StoreKey key1]
    (by decide) (by decide)

/-- C7: in every reachable cache state in which key `k` is present with version
`it.version`, a `Delete(k, cas)` with `cas` 0 or that version returns
`STATUS_OK` and removes exactly the entry for `k`: one entry fewer, the other
entries and their recency order unchanged, every other key of the map
unchanged, `curBytes` lower by that entry's size; afterwards `Get(k)` misses
and `Delete(k, 0)` returns `STATUS_KEY_NOT_FOUND`. -/
theorem C7_delete_removes (c : Cache) (hc : Reachable c) (k : List Byte) (cas p : Nat)
    (it : Item) (hk : c.hashmap.lookup k = some p) (hit : c.heap[p]? = some it)
    (hcas : cas = 0 ∨ cas = it.version) :
    ∃ c1, c.Delete k cas = some (c1, STATUS_OK) ∧
      c1.entries = dropKey k c.entries ∧ c1.entries.length + 1 = c.entries.length ∧
      c1.recency = c.recency.erase p ∧
      (∀ q, entryAt c1.heap q = entryAt c.heap q) ∧
      (∀ k', k' ≠ k → c1.hashmap.lookup k' = c.hashmap.lookup k') ∧
      c1.curBytes + entrySize it.key it.value = c.curBytes ∧
      c1.maxBytes = c.maxBytes ∧ c1.version = c.version ∧
      c1.Get k = some (c1, none) ∧ c1.Delete k 0 = some (c1, STATUS_KEY_NOT_FOUND) := by
  obtain ⟨hr, _⟩ := Reachable_inv hc
  have hcas' : ¬ (cas > 0 ∧ it.version ≠ cas) := by
    rcases hcas with h | h
    · omega
    · exact fun hh => hh.2 h.symm
  obtain ⟨c1, e1, hr1, hd, hmap, hb, hle, hm, hv⟩ := Delete_hit hr cas hk hit hcas'
  have hp : p ∈ c.recency := ((hr.map_iff k p).mp hk).1
  have hnone : c1.hashmap.lookup k = none := by rw [hmap, lookup_mapDelete]; simp
  have hsz : sizeAt c.heap p = entrySize it.key it.value := by
    simp [sizeAt, entryAt, hit, Entry.size, Item.entry]
  refine ⟨c1, e1, entries_Delete hr hk hr1 hd, ?_, Rep_recency hr1, entryAt_congr hd, ?_, ?_,
    hm, hv, Get_miss c1 k hnone, Delete_miss c1 k 0 hnone⟩
  · rw [Rep_entries_length hr1, Rep_entries_length hr, List.length_erase_of_mem hp]
    have : 0 < c.recency.length := List.length_pos_of_mem hp
    omega
  · intro k' hk'
    rw [hmap, lookup_mapDelete]
    simp [hk']
  · rw [hb, ← hsz]
    omega

/-- The test `TestCacheDelete`: store "key1", then delete it with CAS 0. -/
theorem C7_delete_removes_witness :
    ∃ c1, (stateAfter 100000 [StoreKey key1]).Delete key1 0 = some (c1, STATUS_OK) ∧
      c1.entries = dropKey key1 (stateAfter 100000 [StoreKey key1]).entries ∧
      c1.entries.length + 1 = (stateAfter 100000 [StoreKey key1]).entries.length ∧
      c1.recency = (stateAfter 100000 [StoreKey key1]).recency.erase 0 ∧
      (∀ q, entryAt c1.heap q = entryAt (stateAfter 100000 [StoreKey key1]).heap q) ∧
      (∀ k', k' ≠ key1 →
        c1.hashmap.lookup k' = (stateAfter 100000 [StoreKey key1]).hashmap.lookup k') ∧
      c1.curBytes + entrySize key1 value = (stateAfter 100000 [StoreKey key1]).curBytes ∧
      c1.maxBytes = (stateAfter 100000 [StoreKey key1]).maxBytes ∧
      c1.version = (stateAfter 100000 [StoreKey key1]).version ∧
      c1.Get key1 = some (c1, none) ∧ c1.Delete key1 0 = some (c1, STATUS_KEY_NOT_FOUND) :=
  C7_delete_removes (stateAfter 100000 [StoreKey key1])
    (reachable_stateAfter 100000 [StoreKey key1] (by decide) (by decide)) key1 0 0
    { flags := flag, key := key1, value := value, version := 1,
      lru := { next := none, prev := none } }
    (by decide) (by decide) (by decide)

/-- C8: in every reachable cache state `Delete(k, cas)` returns; it returns
`STATUS_KEY_NOT_FOUND` exactly when `k` is absent, and `STATUS_KEY_EXISTS`
exactly when `k` is present with a version `ver` such that `cas` is neither 0
nor `ver`; in both failing cases the state returned is the very same state
(map, queue, `curBytes`, version counter), and after a CAS mismatch `Get(k)`
still returns the old item with its value and version. -/
theorem C8_delete_failures (c : Cache) (hc : Reachable c) (k : List Byte) (cas : Nat) :
    ∃ c1 st, c.Delete k cas = some (c1, st) ∧
      (st = STATUS_KEY_NOT_FOUND ↔ c.hashmap.lookup k = none) ∧
      (st = STATUS_KEY_EXISTS ↔
        ∃ p it, c.hashmap.lookup k = some p ∧ c.heap[p]? = some it ∧
          cas ≠ 0 ∧ cas ≠ it.version) ∧
      (st ≠ STATUS_OK → c1 = c) ∧
      (st = STATUS_KEY_EXISTS →
        ∃ p it c2, c.hashmap.lookup k = some p ∧ c.heap[p]? = some it ∧
          c1.Get k = some (c2, some p) ∧ entryAt c2.heap p = some it.entry) := by
  obtain ⟨hr, _⟩ := Reachable_inv hc
  obtain ⟨c1, st, e, _, _, _, hcase⟩ := Delete_total hr k cas
  refine ⟨c1, st, e, ?_⟩
  rcases hcase with ⟨hst, hc1, hk⟩ | ⟨hst, hc1, p, it, hk, hit, h0, hne⟩ |
    ⟨hst, p, it, hk, hit, hcas, _⟩
  · subst hst
    refine ⟨⟨fun _ => hk, fun _ => rfl⟩, ⟨fun h => ?_, ?_⟩, fun _ => hc1, fun h => ?_⟩
    · simp [STATUS_KEY_NOT_FOUND, STATUS_KEY_EXISTS] at h
    · rintro ⟨p, it, hk', _⟩
      rw [hk] at hk'; cases hk'
    · simp [STATUS_KEY_NOT_FOUND, STATUS_KEY_EXISTS] at h
  · subst hst
    refine ⟨⟨fun h => ?_, fun h => ?_⟩,
      ⟨fun _ => ⟨p, it, hk, hit, by omega, fun e => hne e.symm⟩, fun _ => rfl⟩,
      fun _ => hc1, fun _ => ?_⟩
    · simp [STATUS_KEY_NOT_FOUND, STATUS_KEY_EXISTS] at h
    · rw [hk] at h; cases h
    · subst hc1
      obtain ⟨c2, e2, _, hd, _⟩ := Get_hit hr hk
      refine ⟨p, it, c2, hk, hit, e2, ?_⟩
      rw [entryAt_congr hd]
      simp [entryAt, hit]
  · subst hst
    refine ⟨⟨fun h => ?_, fun h => ?_⟩, ⟨fun h => ?_, ?_⟩, fun h => absurd rfl h, fun h => ?_⟩
    · simp [STATUS_KEY_NOT_FOUND, STATUS_OK] at h
    · rw [hk] at h; cases h
    · simp [STATUS_KEY_EXISTS, STATUS_OK] at h
    · rintro ⟨p', it', hk', hit', h0, hne⟩
      rw [hk] at hk'; cases hk'
      rw [hit] at hit'; cases hit'
      rcases hcas with h | h
      · exact absurd h h0
      · exact absurd h.symm hne
    · simp [STATUS_KEY_EXISTS, STATUS_OK] at h

/-- The test `TestDelete` of `mc_test.go`: after storing "key1" (version 1) a
`Delete` with CAS 2 is refused. -/
theorem C8_delete_failures_witness :
    ∃ c1 st, (stateAfter 100000 [StoreKey key1]).Delete key1 2 = some (c1, st) ∧
      (st = STATUS_KEY_NOT_FOUND ↔ (stateAfter 100000 [StoreKey key1]).hashmap.lookup key1 = none) ∧
      (st = STATUS_KEY_EXISTS ↔
        ∃ p it, (stateAfter 100000 [StoreKey key1]).hashmap.lookup key1 = some p ∧
          (stateAfter 100000 [StoreKey key1]).heap[p]? = some it ∧ 2 ≠ 0 ∧ 2 ≠ it.version) ∧
      (st ≠ STATUS_OK → c1 = stateAfter 100000 [StoreKey key1]) ∧
      (st = STATUS_KEY_EXISTS →
        ∃ p it c2, (stateAfter 100000 [StoreKey key1]).hashmap.lookup key1 = some p ∧
          (stateAfter 100000 [StoreKey key1]).heap[p]? = some it ∧
          c1.Get key1 = some (c2, some p) ∧ entryAt c2.heap p = some it.entry) :=
  C8_delete_failures (stateAfter 100000 [StoreKey key1])
    (reachable_stateAfter 100000 [StoreKey key1] (by decide) (by decide)) key1 2

/-- C9: eviction follows least-recently-used order, where both `Set` and a
`Get` hit count as a use.  In every reachable state: a `Set` that returns
`STATUS_OK` puts its new entry at the most recently used end (removing the old
entry under the key) and then removes exactly the shortest run `n` of least
recently used entries whose removal brings the byte count within `maxBytes`;
and a `Get` hit moves the hit entry to the most recently used end, leaving the
order of the others unchanged. -/
theorem C9_lru_eviction (c : Cache) (hc : Reachable c) :
    (∀ (k v f : List Byte) (cas : Nat) (c1 : Cache) (ver : Nat),
      c.SetFits k v → c.Set k v f cas = some (c1, ver, STATUS_OK) →
      ∃ n, c1.entries =
          (dropKey k c.entries ++
            [(NewItem k v f ver).entry]).drop n ∧
        c1.curBytes = (c1.entries.map Entry.size).sum ∧ c1.curBytes ≤ c.maxBytes ∧
        ∀ j, j < n → c.maxBytes <
          (((dropKey k c.entries ++
            [(NewItem k v f ver).entry]).drop j).map
              Entry.size).sum) ∧
    (∀ (k : List Byte) (c1 : Cache) (p : Nat), c.Get k = some (c1, some p) →
      ∃ e, entryAt c.heap p = some e ∧ e.key = k ∧ c1.entries = dropKey k c.entries ++ [e]) := by
  obtain ⟨hr, _⟩ := Reachable_inv hc
  constructor
  · intro k v f cas c1 ver hfits hset
    obtain ⟨c1', ver', st', e, hcase⟩ := Set_total hr k v f cas hfits
    rw [hset] at e
    cases e
    rcases hcase with ⟨hst, _⟩ | ⟨hst, _⟩ | ⟨_, hver, hr1, hle1, hd, hm, _⟩
    · simp [STATUS_KEY_NOT_FOUND, STATUS_OK] at hst
    · simp [STATUS_KEY_EXISTS, STATUS_OK] at hst
    · have hent := entries_Set hr hr1 hd
      obtain ⟨n, _, h1, h2, h3⟩ := evictEntries_drop c.maxBytes
        (dropKey k c.entries ++ [(NewItem k v f (add64 c.version 1)).entry])
      rw [← hver] at hent h1 h2 h3
      refine ⟨n, hent.trans h1, Rep_bytes_entries hr1, by omega, h3⟩
  · intro k c1 p hget
    obtain ⟨c1', r, e, hrk, hd, _, _, _, _, hcase⟩ := Get_total hr k
    rw [hget] at e
    cases e
    rcases hcase with ⟨hnone, _⟩ | ⟨q, hq, _, hr1⟩
    · cases hnone
    · cases hq
      exact entries_Get_hit hr hrk.symm hr1 hd

/-- The test `TestCacheLRUUpdates` (scenario 6 of the spec): budget 39, `Set`
key1, key2, key3 (13 bytes each), `Get` key1, `Set` key4, then the `Set` of
key5 evicts one entry and leaves exactly key1, key4, key5 resident. -/
theorem C9_lru_eviction_witness :
    (stateAfter 39 [StoreKey key1, StoreKey key2, StoreKey key3, Op.get key1,
        StoreKey key4]).entries.map Entry.key = [key3, key1, key4] ∧
    (stateAfter 39 [StoreKey key1, StoreKey key2, StoreKey key3, Op.get key1,
        StoreKey key4, StoreKey key5]).entries.map Entry.key = [key1, key4, key5] ∧
    ∃ n, (stateAfter 39 [StoreKey key1, StoreKey key2, StoreKey key3, Op.get key1,
        StoreKey key4, StoreKey key5]).entries =
          (dropKey key5 (stateAfter 39 [StoreKey key1, StoreKey key2, StoreKey key3,
            Op.get key1, StoreKey key4]).entries ++
            [(NewItem key5 value flag 5).entry]).drop n ∧
        (stateAfter 39 [StoreKey key1, StoreKey key2, StoreKey key3, Op.get key1,
          StoreKey key4, StoreKey key5]).curBytes =
          ((stateAfter 39 [StoreKey key1, StoreKey key2, StoreKey key3, Op.get key1,
            StoreKey key4, StoreKey key5]).entries.map Entry.size).sum ∧
        (stateAfter 39 [StoreKey key1, StoreKey key2, StoreKey key3, Op.get key1,
          StoreKey key4, StoreKey key5]).curBytes ≤
          (stateAfter 39 [StoreKey key1, StoreKey key2, StoreKey key3, Op.get key1,
            StoreKey key4]).maxBytes ∧
        ∀ j, j < n → (stateAfter 39 [StoreKey key1, StoreKey key2, StoreKey key3, Op.get key1,
            StoreKey key4]).maxBytes <
          (((dropKey key5 (stateAfter 39 [StoreKey key1, StoreKey key2, StoreKey key3,
            Op.get key1, StoreKey key4]).entries ++
            [(NewItem key5 value flag 5).entry]).drop j).map
              Entry.size).sum :=
  ⟨by decide, by decide,
    (C9_lru_eviction
      (stateAfter 39 [StoreKey key1, StoreKey key2, StoreKey key3, Op.get key1, StoreKey key4])
      (reachable_stateAfter 39
        [StoreKey key1, StoreKey key2, StoreKey key3, Op.get key1, StoreKey key4]
        (by decide) (by decide))).1 key5 value flag 0
      (stateAfter 39 [StoreKey key1, StoreKey key2, StoreKey key3, Op.get key1,
        StoreKey key4, StoreKey key5]) 5 (by decide) (by decide)⟩

/-- C10: starting from an empty cache with `maxBytes = m * s` (with
`(m + 1) * s` below `2 ^ 64`), after `Set`s with CAS 0 of `n` distinct keys
whose entries each have size `s`, with no `Get` in between, every `Set` has
returned, the resident keys are exactly the last `min n m` keys set, in the
order set, each of them a `Get` hit, and every earlier key misses. -/
theorem C10_last_keys_resident (m s : Nat) (hs : (m + 1) * s < U64)
    (kvs : List (List Byte × List Byte × List Byte))
    (hkeys : (kvs.map fun kv => kv.1).Nodup)
    (hsize : ∀ kv ∈ kvs, entrySize kv.1 kv.2.1 = s) :
    ∃ c, (NewCache (m * s)).setAll kvs = some c ∧
      c.entries.map Entry.key =
        (kvs.map fun kv => kv.1).drop (kvs.length - min kvs.length m) ∧
      (∀ k ∈ (kvs.map fun kv => kv.1).drop (kvs.length - min kvs.length m),
        ∃ c2 p e, c.Get k = some (c2, some p) ∧ entryAt c2.heap p = some e ∧ e.key = k) ∧
      (∀ k ∈ (kvs.map fun kv => kv.1).take (kvs.length - min kvs.length m),
        c.Get k = some (c, none)) := by
  have hm : m * s < U64 := by rw [Nat.add_mul] at hs; omega
  have hr0 := Rep_NewCache (m * s) hm
  have he0 : (NewCache (m * s)).entries = [] := by rw [Rep_entries hr0]; rfl
  obtain ⟨c, l, e, hr, _, hk⟩ := setAll_spec m s hs kvs (NewCache (m * s)) [] hr0 rfl
    (by rw [he0]; simp) (by rw [he0]; simp) (by rw [he0]; simpa using hkeys) hsize
  have hidx : kvs.length - min kvs.length m = kvs.length - m := by omega
  rw [he0] at hk
  simp only [List.map_nil, List.nil_append, List.length_map] at hk
  rw [hidx]
  refine ⟨c, e, hk, ?_, ?_⟩
  · intro k hkmem
    rw [← hk] at hkmem
    rcases hl : c.hashmap.lookup k with _ | p
    · exact absurd hkmem ((lookup_none_iff_entries hr k).mp hl)
    · obtain ⟨c2, e2, _, hd, _⟩ := Get_hit hr hl
      obtain ⟨hp, hkey⟩ := (hr.map_iff k p).mp hl
      obtain ⟨en, hen⟩ := Rep_entry hr hp
      refine ⟨c2, p, en, e2, by rw [entryAt_congr hd]; exact hen, ?_⟩
      simpa [keyAt, hen] using hkey
  · intro k hkmem
    apply Get_miss
    rw [lookup_none_iff_entries hr k, hk]
    intro hdrop
    have hnd : ((kvs.map fun kv => kv.1).take (kvs.length - m) ++
        (kvs.map fun kv => kv.1).drop (kvs.length - m)).Nodup := by
      rw [List.take_append_drop]; exact hkeys
    rw [List.nodup_append] at hnd
    exact hnd.2.2 hkmem hdrop

/-- The tests `TestCacheLRUMany` (budget `3 * 13`) and the spec's tight budget
(`1 * 13`), each with five keys of 13 bytes: key3, key4, key5 stay in the
first, only key5 in the second. -/
theorem C10_last_keys_resident_witness :
    (∃ c, (NewCache (3 * 13)).setAll
        [(key1, value, flag), (key2, value, flag), (key3, value, flag), (key4, value, flag),
          (key5, value, flag)] = some c ∧
      c.entries.map Entry.key = [key3, key4, key5] ∧
      (∀ k ∈ [key3, key4, key5],
        ∃ c2 p e, c.Get k = some (c2, some p) ∧ entryAt c2.heap p = some e ∧ e.key = k) ∧
      (∀ k ∈ [key1, key2], c.Get k = some (c, none))) ∧
    (∃ c, (NewCache (1 * 13)).setAll
        [(key1, value, flag), (key2, value, flag), (key3, value, flag), (key4, value, flag),
          (key5, value, flag)] = some c ∧
      c.entries.map Entry.key = [key5] ∧
      (∀ k ∈ [key5],
        ∃ c2 p e, c.Get k = some (c2, some p) ∧ entryAt c2.heap p = some e ∧ e.key = k) ∧
      (∀ k ∈ [key1, key2, key3, key4], c.Get k = some (c, none))) :=
  ⟨C10_last_keys_resident 3 13 (by decide)
      [(key1, value, flag), (key2, value, flag), (key3, value, flag), (key4, value, flag),
        (key5, value, flag)] (by decide) (by decide),
    C10_last_keys_resident 1 13 (by decide)
      [(key1, value, flag), (key2, value, flag), (key3, value, flag), (key4, value, flag),
        (key5, value, flag)] (by decide) (by decide)⟩

/-- C11: in every cache state reachable from `NewCache` by `Get`, `Set` and
`Delete`, `curBytes` equals the sum over the entries of the map of
`4 + len(key) + len(value)` (every map entry points to an allocated item), and
no subtraction of the next operation goes below zero: `Delete` and `Set`
return, and return the same as their variants in which a wrapping
`curBytes -= i.Size()` is a fault. -/
theorem C11_curBytes_is_map_sum (c : Cache) (hc : Reachable c) :
    c.curBytes = c.mapBytes ∧
    (∀ e ∈ c.hashmap, ∃ it, c.heap[e.2]? = some it ∧ it.key = e.1) ∧
    (∀ k cas, (c.Delete k cas).isSome ∧ c.DeleteExact k cas = c.Delete k cas) ∧
    (∀ k v f cas, c.SetFits k v →
      (c.Set k v f cas).isSome ∧ c.SetExact k v f cas = c.Set k v f cas) := by
  obtain ⟨hr, _⟩ := Reachable_inv hc
  refine ⟨Rep_mapBytes hr, ?_, ?_, ?_⟩
  · rintro ⟨k, p⟩ he
    have hl := (lookup_eq_some_iff_mem _ hr.keys_nodup k p).mpr he
    obtain ⟨hp, hkey⟩ := (hr.map_iff k p).mp hl
    have hpl : p < c.heap.length := hr.linked.alloc p hp
    refine ⟨c.heap[p], List.getElem?_eq_getElem hpl, ?_⟩
    simpa [keyAt, entryAt, List.getElem?_eq_getElem hpl, Item.entry] using hkey
  · intro k cas
    obtain ⟨c1, st, e, _⟩ := Delete_total hr k cas
    exact ⟨by simp [e], DeleteExact_eq hr k cas⟩
  · intro k v f cas hfits
    obtain ⟨c1, ver, st, e, _⟩ := Set_total hr k v f cas hfits
    exact ⟨by simp [e], SetExact_eq hr k v f cas hfits⟩

/-- The state of `TestCacheLRUUpdates` before its last `StoreKey`: budget 39
with key3, key1, key4 resident, 39 bytes. -/
theorem C11_curBytes_is_map_sum_witness :
    (stateAfter 39 [StoreKey key1, StoreKey key2, StoreKey key3, Op.get key1,
        StoreKey key4]).curBytes = 39 ∧
    (stateAfter 39 [StoreKey key1, StoreKey key2, StoreKey key3, Op.get key1,
        StoreKey key4]).curBytes =
      (stateAfter 39 [StoreKey key1, StoreKey key2, StoreKey key3, Op.get key1,
        StoreKey key4]).mapBytes :=
  ⟨by decide,
    (C11_curBytes_is_map_sum
      (stateAfter 39 [StoreKey key1, StoreKey key2, StoreKey key3, Op.get key1, StoreKey key4])
      (reachable_stateAfter 39
        [StoreKey key1, StoreKey key2, StoreKey key3, Op.get key1, StoreKey key4]
        (by decide) (by decide))).1⟩

/-- C12: in every cache state reachable from `NewCache` by `Get`, `Set` and
`Delete`, the map and the LRU list hold the same items: the list has no
duplicates, every item the map points to is on the list exactly once, every
item on the list is allocated and is what the map holds for the item's own key,
and the items of the map (whose keys are distinct) are a rearrangement of the
list. -/
theorem C12_map_lru_agree (c : Cache) (hc : Reachable c) :
    c.recency.Nodup ∧
    (∀ k p, c.hashmap.lookup k = some p → c.recency.count p = 1) ∧
    (∀ p ∈ c.recency, ∃ it, c.heap[p]? = some it ∧ c.hashmap.lookup it.key = some p) ∧
    (c.hashmap.map Prod.snd).Perm c.recency ∧ (c.hashmap.map Prod.fst).Nodup := by
  obtain ⟨hr, _⟩ := Reachable_inv hc
  refine ⟨hr.linked.nodup, ?_, ?_, Rep_map_perm hr, hr.keys_nodup⟩
  · intro k p hk
    exact List.count_eq_one_of_mem hr.linked.nodup ((hr.map_iff k p).mp hk).1
  · intro p hp
    have hpl : p < c.heap.length := hr.linked.alloc p hp
    refine ⟨c.heap[p], List.getElem?_eq_getElem hpl, ?_⟩
    rw [hr.map_iff]
    exact ⟨hp, by simp [keyAt, entryAt, List.getElem?_eq_getElem hpl, Item.entry]⟩

/-- The state of `TestCacheLRUUpdates` before its last `StoreKey`: the list is
items 2, 0, 3 (key3, key1, key4). -/
theorem C12_map_lru_agree_witness :
    (stateAfter 39 [StoreKey key1, StoreKey key2, StoreKey key3, Op.get key1,
        StoreKey key4]).recency = [2, 0, 3] ∧
    (stateAfter 39 [StoreKey key1, StoreKey key2, StoreKey key3, Op.get key1,
        StoreKey key4]).hashmap = [(key4, 3), (key3, 2), (key1, 0)] ∧
    ((stateAfter 39 [StoreKey key1, StoreKey key2, StoreKey key3, Op.get key1,
        StoreKey key4]).hashmap.map Prod.snd).Perm
      (stateAfter 39 [StoreKey key1, StoreKey key2, StoreKey key3, Op.get key1,
        StoreKey key4]).recency :=
  ⟨by decide, by decide,
    (C12_map_lru_agree
      (stateAfter 39 [StoreKey key1, StoreKey key2, StoreKey key3, Op.get key1, StoreKey key4])
      (reachable_stateAfter 39
        [StoreKey key1, StoreKey key2, StoreKey key3, Op.get key1, StoreKey key4]
        (by decide) (by decide))).2.2.2.1⟩

/-- C13: in every cache state reachable from `NewCache` by `Get`, `Set` and
`Delete`, either `curBytes <= maxBytes` or the map contains exactly one entry
(the first of the two holds in every such state). -/
theorem C13_within_budget_or_single (c : Cache) (hc : Reachable c) :
    c.curBytes ≤ c.maxBytes ∨ c.hashmap.length = 1 :=
  Or.inl (Reachable_inv hc).2

/-- After an oversize `Set` into a cache of budget 13 that holds "key1": the
cache is within budget, with no entry left. -/
theorem C13_within_budget_or_single_witness :
    (stateAfter 13 [StoreKey key1, Op.set [107] [118, 118, 118, 118, 118, 118, 118, 118, 118]
        flag 0]).hashmap = [] ∧
    ((stateAfter 13 [StoreKey key1, Op.set [107] [118, 118, 118, 118, 118, 118, 118, 118, 118]
        flag 0]).curBytes ≤
      (stateAfter 13 [StoreKey key1, Op.set [107] [118, 118, 118, 118, 118, 118, 118, 118, 118]
        flag 0]).maxBytes ∨
    (stateAfter 13 [StoreKey key1, Op.set [107] [118, 118, 118, 118, 118, 118, 118, 118, 118]
        flag 0]).hashmap.length = 1) :=
  ⟨by decide,
    C13_within_budget_or_single
      (stateAfter 13 [StoreKey key1, Op.set [107] [118, 118, 118, 118, 118, 118, 118, 118, 118]
        flag 0])
      (reachable_stateAfter 13
        [StoreKey key1, Op.set [107] [118, 118, 118, 118, 118, 118, 118, 118, 118] flag 0]
        (by decide) (by decide))⟩

/-- C14: `Get` never creates or destroys entries.  In every reachable cache
state `Get(k)` returns what the map holds for `k`, and leaves the map, every
item's key, value, flags and version, `curBytes`, `maxBytes` and the version
counter unchanged, the resident entries being rearranged at most; on a miss it
returns nil and the very same state; on a hit the only change is that the hit
item moves to the most recently used end of the LRU list, the order of the
others unchanged. -/
theorem C14_get_only_promotes (c : Cache) (hc : Reachable c) (k : List Byte) :
    ∃ c1 r, c.Get k = some (c1, r) ∧ r = c.hashmap.lookup k ∧
      c1.hashmap = c.hashmap ∧ (∀ q, entryAt c1.heap q = entryAt c.heap q) ∧
      c1.curBytes = c.curBytes ∧ c1.maxBytes = c.maxBytes ∧ c1.version = c.version ∧
      c1.entries.Perm c.entries ∧
      (r = none → c1 = c) ∧
      (∀ p, r = some p →
        c1.recency = c.recency.erase p ++ [p] ∧
        ∃ e, entryAt c.heap p = some e ∧ e.key = k ∧ c1.entries = dropKey k c.entries ++ [e] ∧
          c.entries.Perm (e :: dropKey k c.entries)) := by
  obtain ⟨hr, _⟩ := Reachable_inv hc
  obtain ⟨c1, r, e, hrk, hd, hmap, hb, hm, hv, hcase⟩ := Get_total hr k
  have hperm : ∀ p, r = some p → c1.recency = c.recency.erase p ++ [p] ∧
      ∃ e, entryAt c.heap p = some e ∧ e.key = k ∧ c1.entries = dropKey k c.entries ++ [e] ∧
        c.entries.Perm (e :: dropKey k c.entries) := by
    intro p hp
    rcases hcase with ⟨hnone, _⟩ | ⟨q, hq, hql, hr1⟩
    · rw [hnone] at hp; cases hp
    · rw [hq] at hp; cases hp
      have hk : c.hashmap.lookup k = some p := by rw [← hrk, hq]
      obtain ⟨en, hen, hkey, hent⟩ := entries_Get_hit hr hk hr1 hd
      refine ⟨Rep_recency hr1, en, hen, hkey, hent, ?_⟩
      rw [Rep_entries hr]
      have h1 : (c.recency.filterMap (entryAt c.heap)).Perm
          ((p :: c.recency.erase p).filterMap (entryAt c.heap)) :=
        (List.perm_cons_erase hql).filterMap _
      rw [List.filterMap_cons, hen, ← filter_key_present hr hk, filterMap_dropKey] at h1
      exact h1
  refine ⟨c1, r, e, hrk, hmap, entryAt_congr hd, hb, hm, hv, ?_, ?_, hperm⟩
  · rcases hr' : r with _ | p
    · rcases hcase with ⟨_, hc1⟩ | ⟨q, hq, _, _⟩
      · rw [hc1]
      · rw [hr'] at hq; cases hq
    · obtain ⟨_, en, _, _, hent, hp2⟩ := hperm p hr'
      rw [hent]
      exact (List.perm_append_comm.trans hp2.symm)
  · intro hnone
    rcases hcase with ⟨_, hc1⟩ | ⟨q, hq, _, _⟩
    · exact hc1
    · rw [hnone] at hq; cases hq

/-- The tests `TestCacheGetMiss` and `TestCacheLRUUpdates`: with key1, key2,
key3 resident a `Get` of key1 moves item 0 behind items 1 and 2. -/
theorem C14_get_only_promotes_witness :
    (stateAfter 39 [StoreKey key1, StoreKey key2, StoreKey key3]).recency = [0, 1, 2] ∧
    ∃ c1 r, (stateAfter 39 [StoreKey key1, StoreKey key2, StoreKey key3]).Get key1 =
        some (c1, r) ∧
      r = (stateAfter 39 [StoreKey key1, StoreKey key2, StoreKey key3]).hashmap.lookup key1 ∧
      c1.hashmap = (stateAfter 39 [StoreKey key1, StoreKey key2, StoreKey key3]).hashmap ∧
      (∀ q, entryAt c1.heap q =
        entryAt (stateAfter 39 [StoreKey key1, StoreKey key2, StoreKey key3]).heap q) ∧
      c1.curBytes = (stateAfter 39 [StoreKey key1, StoreKey key2, StoreKey key3]).curBytes ∧
      c1.maxBytes = (stateAfter 39 [StoreKey key1, StoreKey key2, StoreKey key3]).maxBytes ∧
      c1.version = (stateAfter 39 [StoreKey key1, StoreKey key2, StoreKey key3]).version ∧
      c1.entries.Perm (stateAfter 39 [StoreKey key1, StoreKey key2, StoreKey key3]).entries ∧
      (r = none → c1 = stateAfter 39 [StoreKey key1, StoreKey key2, StoreKey key3]) ∧
      (∀ p, r = some p →
        c1.recency =
          (stateAfter 39 [StoreKey key1, StoreKey key2, StoreKey key3]).recency.erase p ++ [p] ∧
        ∃ e, entryAt (stateAfter 39 [StoreKey key1, StoreKey key2, StoreKey key3]).heap p =
            some e ∧ e.key = key1 ∧
          c1.entries =
            dropKey key1 (stateAfter 39 [StoreKey key1, StoreKey key2, StoreKey key3]).entries ++
              [e] ∧
          (stateAfter 39 [StoreKey key1, StoreKey key2, StoreKey key3]).entries.Perm
            (e :: dropKey key1
              (stateAfter 39 [StoreKey key1, StoreKey key2, StoreKey key3]).entries)) :=
  ⟨by decide,
    C14_get_only_promotes (stateAfter 39 [StoreKey key1, StoreKey key2, StoreKey key3])
      (reachable_stateAfter 39 [StoreKey key1, StoreKey key2, StoreKey key3]
        (by decide) (by decide)) key1⟩

/-- C15: for every 24-byte header `b`, parsing `b` with `ReadRequest` (into any
receiving header) consumes the 24 bytes and sets the header to the fields of
`b`, returning no error when `b` is a valid request; serializing the resulting
header with `Serialize` into any 24-byte buffer reproduces `b` byte for
byte. -/
theorem C15_serialize_after_parse (hdr : Header) (b buf : List Byte)
    (hb : b.length = 24) (hbuf : buf.length = 24) :
    ∃ h, hdr.ReadRequest b = some (h, [], h.CheckValidRequest) ∧
      h.Serialize buf = some b := by
  obtain ⟨h, hd⟩ := decodeHeader_isSome hb
  refine ⟨h, ?_, ?_⟩
  · have := ReadRequest_eq_decode hdr b [] hb
    rw [List.append_nil, hd] at this
    exact this
  · rw [Serialize_eq_encode h buf hbuf, encode_decode hd]

/-- The request header of a `GET` of a 4-byte key with opaque 7. -/
theorem C15_serialize_after_parse_witness :
    ∃ h, Header.zero.ReadRequest
        [128, 0, 0, 4, 0, 0, 0, 0, 0, 0, 0, 4, 0, 0, 0, 7, 0, 0, 0, 0, 0, 0, 0, 0] =
        some (h, [], h.CheckValidRequest) ∧
      h.Serialize (List.replicate 24 0) =
        some [128, 0, 0, 4, 0, 0, 0, 0, 0, 0, 0, 4, 0, 0, 0, 7, 0, 0, 0, 0, 0, 0, 0, 0] :=
  C15_serialize_after_parse Header.zero
    [128, 0, 0, 4, 0, 0, 0, 0, 0, 0, 0, 4, 0, 0, 0, 7, 0, 0, 0, 0, 0, 0, 0, 0]
    (List.replicate 24 0) (by decide) (by decide)

/-- C16: for every header `h` with fields within their Go types, `Serialize`
overwrites a 24-byte buffer with exactly the big-endian layout: magic at
offset 0, opcode at 1, key length at 2-3, extras length at 4, data type at 5,
status at 6-7, total body length at 8-11, opaque at 12-15, CAS at 16-23, each
multi-byte field most significant byte first; reading those 24 bytes field by
field in big-endian order gives back `h`. -/
theorem C16_serialize_layout (h : Header) (buf : List Byte) (hbuf : buf.length = 24)
    (hr : h.InRange) :
    ∃ out, h.Serialize buf = some out ∧ out.length = 24 ∧
      out =
        [toByte h.Magic, toByte h.Opcode,
          toByte (h.KeyLength / 256), toByte h.KeyLength,
          toByte h.ExtrasLength, toByte h.DataType,
          toByte (h.Status / 256), toByte h.Status,
          toByte (h.TotalLength / 256 ^ 3), toByte (h.TotalLength / 256 ^ 2),
          toByte (h.TotalLength / 256), toByte h.TotalLength,
          toByte (h.Opaque / 256 ^ 3), toByte (h.Opaque / 256 ^ 2),
          toByte (h.Opaque / 256), toByte h.Opaque,
          toByte (h.Cas / 256 ^ 7), toByte (h.Cas / 256 ^ 6), toByte (h.Cas / 256 ^ 5),
          toByte (h.Cas / 256 ^ 4), toByte (h.Cas / 256 ^ 3), toByte (h.Cas / 256 ^ 2),
          toByte (h.Cas / 256), toByte h.Cas] ∧
      out = encodeHeader h ∧ decodeHeader out = some h := by
  refine ⟨encodeHeader h, Serialize_eq_encode h buf hbuf, encodeHeader_length h, ?_, rfl,
    decode_encode h hr⟩
  simp [encodeHeader, beBytes]

/-- The test `TestHeaderSerialize`. -/
theorem C16_serialize_layout_witness :
    ∃ out, Header.Serialize
        { Magic := 0x81, Opcode := 0, KeyLength := 16, ExtrasLength := 4, DataType := 3,
          Status := 0x4, TotalLength := 1024, Opaque := 1334, Cas := 8839298347234234 }
        (List.replicate 24 0) = some out ∧ out.length = 24 ∧
      out =
        [129, 0, 0, 16, 4, 3, 0, 4, 0, 0, 4, 0, 0, 0, 5, 54, 0, 31, 103, 75, 134, 12, 243, 186] ∧
      out = encodeHeader
        { Magic := 0x81, Opcode := 0, KeyLength := 16, ExtrasLength := 4, DataType := 3,
          Status := 0x4, TotalLength := 1024, Opaque := 1334, Cas := 8839298347234234 } ∧
      decodeHeader out = some
        { Magic := 0x81, Opcode := 0, KeyLength := 16, ExtrasLength := 4, DataType := 3,
          Status := 0x4, TotalLength := 1024, Opaque := 1334, Cas := 8839298347234234 } :=
  C16_serialize_layout
    { Magic := 0x81, Opcode := 0, KeyLength := 16, ExtrasLength := 4, DataType := 3,
      Status := 0x4, TotalLength := 1024, Opaque := 1334, Cas := 8839298347234234 }
    (List.replicate 24 0) (by decide) (by decide)

/-- C17: for every header `h` with fields within their Go types, whatever its
magic, `ReadRequest` applied to the 24-byte big-endian encoding of `h` (then
any further bytes) sets all nine fields of the receiving header to those of
`h` and leaves the further bytes on the stream, whether or not it then reports
the header as an invalid request. -/
theorem C17_parse_reads_all_fields (hdr h : Header) (rest : List Byte) (hr : h.InRange) :
    hdr.ReadRequest (encodeHeader h ++ rest) = some (h, rest, h.CheckValidRequest) := by
  rw [ReadRequest_eq_decode hdr _ rest (encodeHeader_length h), decode_encode h hr]
  rfl

/-- The test `TestHeaderParse`: a header with the response magic 0x81 is read
field for field, and reported as an invalid request. -/
theorem C17_parse_reads_all_fields_witness :
    Header.zero.ReadRequest
        [129, 0, 0, 16, 4, 3, 0, 4, 0, 0, 4, 0, 0, 0, 5, 54, 0, 31, 103, 75, 134, 12, 243, 186] =
      some
        ({ Magic := 0x81, Opcode := 0, KeyLength := 16, ExtrasLength := 4, DataType := 3,
           Status := 0x4, TotalLength := 1024, Opaque := 1334, Cas := 8839298347234234 },
          [], some GoError.HeaderParseError) :=
  C17_parse_reads_all_fields Header.zero
    { Magic := 0x81, Opcode := 0, KeyLength := 16, ExtrasLength := 4, DataType := 3,
      Status := 0x4, TotalLength := 1024, Opaque := 1334, Cas := 8839298347234234 }
    [] (by decide)

/-- C18: for every 24-byte input, `ReadRequest` (through `CheckValidRequest`)
returns the header-parse error if and only if the magic byte is not 0x80 or
`key_length + extras_length > total_length`, the `uint32` sum being the exact
sum; otherwise it returns no error. -/
theorem C18_parse_error_iff (hdr : Header) (b : List Byte) (hb : b.length = 24) :
    ∃ h err, hdr.ReadRequest b = some (h, [], err) ∧ decodeHeader b = some h ∧
      (h.KeyLength % 2 ^ 32 + h.ExtrasLength % 2 ^ 32) % 2 ^ 32 =
        h.KeyLength + h.ExtrasLength ∧
      (err = some GoError.HeaderParseError ↔
        (h.Magic ≠ 0x80 ∨ h.KeyLength + h.ExtrasLength > h.TotalLength)) ∧
      (err = none ↔ (h.Magic = 0x80 ∧ h.KeyLength + h.ExtrasLength ≤ h.TotalLength)) ∧
      (err = some GoError.HeaderParseError ∨ err = none) := by
  obtain ⟨h, hd⟩ := decodeHeader_isSome hb
  have hr := decodeHeader_InRange hd
  obtain ⟨h1, h2⟩ := CheckValidRequest_iff h hr
  refine ⟨h, h.CheckValidRequest, ?_, hd, ?_, h1, h2, ?_⟩
  · have := ReadRequest_eq_decode hdr b [] hb
    rw [List.append_nil, hd] at this
    exact this
  · obtain ⟨_, _, h3, h4, _, _, _, _, _⟩ := hr
    omega
  · unfold Header.CheckValidRequest
    split
    · exact Or.inl rfl
    · split
      · exact Or.inl rfl
      · exact Or.inr rfl

/-- A request header whose key length 4 and extras length 8 add up to more than
its total length 11. -/
theorem C18_parse_error_iff_witness :
    ∃ h err, Header.zero.ReadRequest
        [128, 1, 0, 4, 8, 0, 0, 0, 0, 0, 0, 11, 0, 0, 0, 7, 0, 0, 0, 0, 0, 0, 0, 0] =
        some (h, [], err) ∧
      decodeHeader [128, 1, 0, 4, 8, 0, 0, 0, 0, 0, 0, 11, 0, 0, 0, 7, 0, 0, 0, 0, 0, 0, 0, 0] =
        some h ∧
      (h.KeyLength % 2 ^ 32 + h.ExtrasLength % 2 ^ 32) % 2 ^ 32 =
        h.KeyLength + h.ExtrasLength ∧
      (err = some GoError.HeaderParseError ↔
        (h.Magic ≠ 0x80 ∨ h.KeyLength + h.ExtrasLength > h.TotalLength)) ∧
      (err = none ↔ (h.Magic = 0x80 ∧ h.KeyLength + h.ExtrasLength ≤ h.TotalLength)) ∧
      (err = some GoError.HeaderParseError ∨ err = none) :=
  C18_parse_error_iff Header.zero
    [128, 1, 0, 4, 8, 0, 0, 0, 0, 0, 0, 11, 0, 0, 0, 7, 0, 0, 0, 0, 0, 0, 0, 0] (by decide)

/-- C19 (as amended): for every input stream that ends before 24 bytes are
available, `ReadRequest` fails with the error of `io.ReadFull`: `io.EOF` for
the empty stream and `io.ErrUnexpectedEOF` for a stream of 1 to 23 bytes,
never `HeaderParseError`; the receiving header is left as it was. -/
theorem C19_short_read_error (hdr : Header) (conn : List Byte) (hlen : conn.length < 24) :
    ∃ rest err, hdr.ReadRequest conn = some (hdr, rest, some err) ∧
      (conn = [] → err = GoError.EOF) ∧ (conn ≠ [] → err = GoError.ErrUnexpectedEOF) ∧
      err ≠ GoError.HeaderParseError := by
  have hn : ¬ (HEADER_SIZE ≤ conn.length) := by unfold HEADER_SIZE; omega
  by_cases hc : conn = []
  · refine ⟨[], GoError.EOF, ?_, fun _ => rfl, fun h => absurd hc h, by decide⟩
    simp [Header.ReadRequest, ReadFull, hc, HEADER_SIZE]
  · refine ⟨[], GoError.ErrUnexpectedEOF, ?_, fun h => absurd h hc, fun _ => rfl, by decide⟩
    simp [Header.ReadRequest, ReadFull, hc, hn]

/-- A stream that ends after three bytes. -/
theorem C19_short_read_error_witness :
    ∃ rest err, Header.zero.ReadRequest [128, 0, 0] = some (Header.zero, rest, some err) ∧
      (([128, 0, 0] : List Byte) = [] → err = GoError.EOF) ∧
      (([128, 0, 0] : List Byte) ≠ [] → err = GoError.ErrUnexpectedEOF) ∧
      err ≠ GoError.HeaderParseError :=
  C19_short_read_error Header.zero [128, 0, 0] (by decide)

/-- C19 (counterexample): on the empty stream `ReadRequest` returns `io.EOF`,
and on a stream of three bytes `io.ErrUnexpectedEOF`; neither is the
`HeaderParseError`. -/
theorem C19_counterexample :
    Header.zero.ReadRequest [] = some (Header.zero, [], some GoError.EOF) ∧
    Header.zero.ReadRequest [128, 0, 0] =
      some (Header.zero, [], some GoError.ErrUnexpectedEOF) ∧
    GoError.EOF ≠ GoError.HeaderParseError ∧
    GoError.ErrUnexpectedEOF ≠ GoError.HeaderParseError := by
  decide

/-- C20: for every request header that passes header validation, at any point
of a session: if `total_length > 1048576` the session writes exactly one
response, of 24 bytes, with the response magic, status `VALUE_TOO_LARGE`
(0x03), the request's opcode and opaque, an empty payload and CAS 0, reads no
body byte, leaves the cache unchanged and terminates; if `total_length` is at
most 1048576, as when it is exactly 1048576, the header is not rejected this
way: the session goes on to read the body. -/
theorem C20_value_too_large (client : ClientConn) (req0 h : Header) (b rest : List Byte)
    (hin : client.input = b ++ rest) (hd : decodeHeader b = some h)
    (hvalid : h.CheckValidRequest = none) :
    (1048576 < h.TotalLength →
      ∃ resp, resp.length = 24 ∧
        decodeHeader resp = some
          { Magic := 0x81, Opcode := h.Opcode, KeyLength := 0, ExtrasLength := 0, DataType := 0,
            Status := 0x03, TotalLength := 0, Opaque := h.Opaque, Cas := 0 } ∧
        client.iteration req0 =
          some ({ cache := client.cache, input := rest, output := client.output ++ resp },
            h, false) ∧
        ∀ fuel, ClientConn.loop (fuel + 1) client req0 =
          some { cache := client.cache, input := rest, output := client.output ++ resp }) ∧
    (h.TotalLength ≤ 1048576 →
      (rest.length < h.TotalLength →
        client.iteration req0 =
          some ({ cache := client.cache, input := [], output := client.output }, h, false)) ∧
      (h.TotalLength ≤ rest.length →
        ∀ c1 req1 goes, client.iteration req0 = some (c1, req1, goes) →
          goes = true ∧ req1 = h ∧ c1.input = rest.drop h.TotalLength)) := by
  constructor
  · intro hbig
    have hit := iteration_too_large client req0 h b rest hin hd hvalid hbig
    have hr := decodeHeader_InRange hd
    refine ⟨encodeHeader (NewResponse h.Opcode STATUS_VALUE_TOO_LARGE [] [] [] h.Opaque 0),
      encodeHeader_length _, ?_, hit, ?_⟩
    · have : NewResponse h.Opcode STATUS_VALUE_TOO_LARGE [] [] [] h.Opaque 0 =
          { Magic := 0x81, Opcode := h.Opcode, KeyLength := 0, ExtrasLength := 0, DataType := 0,
            Status := 0x03, TotalLength := 0, Opaque := h.Opaque, Cas := 0 } := by
        simp [NewResponse, MSG_RESPONSE, STATUS_VALUE_TOO_LARGE]
      rw [this]
      apply decode_encode
      obtain ⟨_, h2, _, _, _, _, _, h8, _⟩ := hr
      exact ⟨by norm_num, h2, by norm_num, by norm_num, by norm_num, by norm_num, by norm_num,
        h8, by norm_num⟩
    · intro fuel
      simp [ClientConn.loop, hit]
  · intro hsmall
    exact iteration_reads_body client req0 h b rest hin hd hvalid hsmall

/-- Scenario 7 of the spec: a `SET` header with `total_length = 1<<20 + 1`
(then a first body byte) is answered with `VALUE_TOO_LARGE` and the session
ends with the body unread; with `total_length = 1<<20` and the same stream the
session ends on the short body with nothing written. -/
theorem C20_value_too_large_witness :
    (∃ resp, resp.length = 24 ∧
      decodeHeader resp = some
        { Magic := 0x81, Opcode := 1, KeyLength := 0, ExtrasLength := 0, DataType := 0,
          Status := 0x03, TotalLength := 0, Opaque := 7, Cas := 0 } ∧
      ClientConn.iteration
        { cache := NewCache 100000,
          input := [128, 1, 0, 4, 8, 0, 0, 0, 0, 16, 0, 1, 0, 0, 0, 7, 0, 0, 0, 0, 0, 0, 0, 0] ++
            [9],
          output := [] } Header.zero =
        some ({ cache := NewCache 100000, input := [9], output := [] ++ resp },
          { Magic := 0x80, Opcode := 1, KeyLength := 4, ExtrasLength := 8, DataType := 0,
            Status := 0, TotalLength := 1048577, Opaque := 7, Cas := 0 }, false) ∧
      ∀ fuel, ClientConn.loop (fuel + 1)
        { cache := NewCache 100000,
          input := [128, 1, 0, 4, 8, 0, 0, 0, 0, 16, 0, 1, 0, 0, 0, 7, 0, 0, 0, 0, 0, 0, 0, 0] ++
            [9],
          output := [] } Header.zero =
        some { cache := NewCache 100000, input := [9], output := [] ++ resp }) ∧
    ClientConn.iteration
        { cache := NewCache 100000,
          input := [128, 1, 0, 4, 8, 0, 0, 0, 0, 16, 0, 0, 0, 0, 0, 7, 0, 0, 0, 0, 0, 0, 0, 0] ++
            [9],
          output := [] } Header.zero =
      some ({ cache := NewCache 100000, input := [], output := [] },
        { Magic := 0x80, Opcode := 1, KeyLength := 4, ExtrasLength := 8, DataType := 0,
          Status := 0, TotalLength := 1048576, Opaque := 7, Cas := 0 }, false) :=
  ⟨(C20_value_too_large
      { cache := NewCache 100000,
        input := [128, 1, 0, 4, 8, 0, 0, 0, 0, 16, 0, 1, 0, 0, 0, 7, 0, 0, 0, 0, 0, 0, 0, 0] ++ [9],
        output := [] } Header.zero
      { Magic := 0x80, Opcode := 1, KeyLength := 4, ExtrasLength := 8, DataType := 0,
        Status := 0, TotalLength := 1048577, Opaque := 7, Cas := 0 }
      [128, 1, 0, 4, 8, 0, 0, 0, 0, 16, 0, 1, 0, 0, 0, 7, 0, 0, 0, 0, 0, 0, 0, 0] [9]
      rfl (by decide) (by decide)).1 (by decide),
    ((C20_value_too_large
      { cache := NewCache 100000,
        input := [128, 1, 0, 4, 8, 0, 0, 0, 0, 16, 0, 0, 0, 0, 0, 7, 0, 0, 0, 0, 0, 0, 0, 0] ++ [9],
        output := [] } Header.zero
      { Magic := 0x80, Opcode := 1, KeyLength := 4, ExtrasLength := 8, DataType := 0,
        Status := 0, TotalLength := 1048576, Opaque := 7, Cas := 0 }
      [128, 1, 0, 4, 8, 0, 0, 0, 0, 16, 0, 0, 0, 0, 0, 7, 0, 0, 0, 0, 0, 0, 0, 0] [9]
      rfl (by decide) (by decide)).2 (by decide)).1 (by decide)⟩

/-- C21: for every valid request (a header that passes header validation, a
body of at most 1048576 bytes, all of it on the stream) whose opcode is none
of 0x00 (`GET`), 0x01 (`SET`) and 0x04 (`DELETE`), the pass of the session
loop writes one response of 24 bytes with the response magic, status
`UNKNOWN_COMMAND` (0x81), the request's opcode and opaque, an empty payload
and CAS 0, consumes header and body, leaves the cache unchanged, and the loop
goes on with the next request on the same connection. -/
theorem C21_unknown_command (client : ClientConn) (req0 h : Header) (hb body rest : List Byte)
    (hin : client.input = hb ++ (body ++ rest)) (hd : decodeHeader hb = some h)
    (hvalid : h.CheckValidRequest = none) (hsmall : h.TotalLength ≤ 1048576)
    (hbody : body.length = h.TotalLength)
    (hop : h.Opcode ≠ 0x00 ∧ h.Opcode ≠ 0x01 ∧ h.Opcode ≠ 0x04) :
    ∃ resp, resp.length = 24 ∧
      decodeHeader resp = some
        { Magic := 0x81, Opcode := h.Opcode, KeyLength := 0, ExtrasLength := 0, DataType := 0,
          Status := 0x81, TotalLength := 0, Opaque := h.Opaque, Cas := 0 } ∧
      client.iteration req0 =
        some ({ cache := client.cache, input := rest, output := client.output ++ resp },
          h, true) ∧
      ∀ fuel, ClientConn.loop (fuel + 1) client req0 =
        ClientConn.loop fuel
          { cache := client.cache, input := rest, output := client.output ++ resp } h := by
  obtain ⟨h0, h1, h4⟩ := hop
  have hit := iteration_dispatch client req0 h hb body rest hin hd hvalid hsmall hbody
  have g0 : ¬ h.Opcode = CMD_GET := h0
  have g1 : ¬ h.Opcode = CMD_SET := h1
  have g4 : ¬ h.Opcode = CMD_DELETE := h4
  simp only [g0, g1, g4, if_false, respond_eq, Option.map_some'] at hit
  have hr := decodeHeader_InRange hd
  refine ⟨encodeHeader (NewResponse h.Opcode STATUS_UNKNOWN_COMMAND [] [] [] h.Opaque 0),
    encodeHeader_length _, ?_, hit, ?_⟩
  · exact decode_encode _
      (NewResponse_InRange h.Opcode STATUS_UNKNOWN_COMMAND [] [] [] h.Opaque 0 hr.2.1
        hr.2.2.2.2.2.2.2.1 (by decide))
  · intro fuel
    simp [ClientConn.loop, hit]

/-- Scenario 8 of the spec: a `NOOP` (opcode 0x0a) is answered with
`UNKNOWN_COMMAND`; the session goes on and accepts the `SET` of `foo=bar` that
follows, which it answers with `OK` and the version 1. -/
theorem C21_unknown_command_witness :
    (∃ resp, resp.length = 24 ∧
      decodeHeader resp = some
        { Magic := 0x81, Opcode := 0x0a, KeyLength := 0, ExtrasLength := 0, DataType := 0,
          Status := 0x81, TotalLength := 0, Opaque := 9, Cas := 0 } ∧
      ClientConn.iteration
        { cache := NewCache 100,
          input := [128, 10, 0, 0, 0, 0, 0, 0, 0, 0, 0, 0, 0, 0, 0, 9, 0, 0, 0, 0, 0, 0, 0, 0] ++
            ([] ++
              [128, 1, 0, 3, 8, 0, 0, 0, 0, 0, 0, 14, 0, 0, 0, 10, 0, 0, 0, 0, 0, 0, 0, 0,
                0, 0, 0, 0, 0, 0, 0, 0, 102, 111, 111, 98, 97, 114]),
          output := [] } Header.zero =
        some ({ cache := NewCache 100,
                input := [128, 1, 0, 3, 8, 0, 0, 0, 0, 0, 0, 14, 0, 0, 0, 10, 0, 0, 0, 0, 0, 0, 0, 0,
                  0, 0, 0, 0, 0, 0, 0, 0, 102, 111, 111, 98, 97, 114],
                output := [] ++ resp },
          { Magic := 0x80, Opcode := 0x0a, KeyLength := 0, ExtrasLength := 0, DataType := 0,
            Status := 0, TotalLength := 0, Opaque := 9, Cas := 0 }, true) ∧
      ∀ fuel, ClientConn.loop (fuel + 1)
          { cache := NewCache 100,
            input := [128, 10, 0, 0, 0, 0, 0, 0, 0, 0, 0, 0, 0, 0, 0, 9, 0, 0, 0, 0, 0, 0, 0, 0] ++
              ([] ++
                [128, 1, 0, 3, 8, 0, 0, 0, 0, 0, 0, 14, 0, 0, 0, 10, 0, 0, 0, 0, 0, 0, 0, 0,
                  0, 0, 0, 0, 0, 0, 0, 0, 102, 111, 111, 98, 97, 114]),
            output := [] } Header.zero =
        ClientConn.loop fuel
          { cache := NewCache 100,
            input := [128, 1, 0, 3, 8, 0, 0, 0, 0, 0, 0, 14, 0, 0, 0, 10, 0, 0, 0, 0, 0, 0, 0, 0,
              0, 0, 0, 0, 0, 0, 0, 0, 102, 111, 111, 98, 97, 114],
            output := [] ++ resp }
          { Magic := 0x80, Opcode := 0x0a, KeyLength := 0, ExtrasLength := 0, DataType := 0,
            Status := 0, TotalLength := 0, Opaque := 9, Cas := 0 }) ∧
    (ClientConn.Run
        { cache := NewCache 100,
          input := [128, 10, 0, 0, 0, 0, 0, 0, 0, 0, 0, 0, 0, 0, 0, 9, 0, 0, 0, 0, 0, 0, 0, 0] ++
            ([] ++
              [128, 1, 0, 3, 8, 0, 0, 0, 0, 0, 0, 14, 0, 0, 0, 10, 0, 0, 0, 0, 0, 0, 0, 0,
                0, 0, 0, 0, 0, 0, 0, 0, 102, 111, 111, 98, 97, 114]),
          output := [] }).map (fun c => (c.output, c.cache.entries)) =
      some
        ([129, 10, 0, 0, 0, 0, 0, 129, 0, 0, 0, 0, 0, 0, 0, 9, 0, 0, 0, 0, 0, 0, 0, 0,
          129, 1, 0, 0, 0, 0, 0, 0, 0, 0, 0, 0, 0, 0, 0, 10, 0, 0, 0, 0, 0, 0, 0, 1],
          [{ flags := [0, 0, 0, 0], key := [102, 111, 111], value := [98, 97, 114],
             version := 1 }]) :=
  ⟨C21_unknown_command
      { cache := NewCache 100,
        input := [128, 10, 0, 0, 0, 0, 0, 0, 0, 0, 0, 0, 0, 0, 0, 9, 0, 0, 0, 0, 0, 0, 0, 0] ++
          ([] ++
            [128, 1, 0, 3, 8, 0, 0, 0, 0, 0, 0, 14, 0, 0, 0, 10, 0, 0, 0, 0, 0, 0, 0, 0,
              0, 0, 0, 0, 0, 0, 0, 0, 102, 111, 111, 98, 97, 114]),
        output := [] } Header.zero
      { Magic := 0x80, Opcode := 0x0a, KeyLength := 0, ExtrasLength := 0, DataType := 0,
        Status := 0, TotalLength := 0, Opaque := 9, Cas := 0 }
      [128, 10, 0, 0, 0, 0, 0, 0, 0, 0, 0, 0, 0, 0, 0, 9, 0, 0, 0, 0, 0, 0, 0, 0] []
      [128, 1, 0, 3, 8, 0, 0, 0, 0, 0, 0, 14, 0, 0, 0, 10, 0, 0, 0, 0, 0, 0, 0, 0,
        0, 0, 0, 0, 0, 0, 0, 0, 102, 111, 111, 98, 97, 114]
      rfl (by decide) (by decide) (by decide) (by decide) (by decide),
    by decide⟩

/-- C22: for every `GET` request with empty extras and empty value, on a
reachable cache with a budget below `2 ^ 32` bytes: if the map holds the key,
the handler returns and the response is the header with status `OK`, extras
length 4, key length 0, total length `4 + len(value)` and CAS the entry's
version, then the entry's 4 flag bytes, then the entry's value; if the key is
absent, the response is the header with status `KEY_NOT_FOUND`, all lengths 0
and CAS 0, and nothing else.  Both headers are within the types of their
fields, and the handler reads nothing. -/
theorem C22_get_response (client : ClientConn) (req : Header) (key : List Byte)
    (hc : Reachable client.cache) (hbudget : client.cache.maxBytes < 2 ^ 32)
    (hreq : req.InRange) :
    (∀ p, client.cache.hashmap.lookup key = some p →
      ∃ c1 e, client.cache.Get key = some (c1, some p) ∧
        entryAt client.cache.heap p = some e ∧ e.key = key ∧ e.flags.length = 4 ∧
        Header.InRange
          { Magic := 0x81, Opcode := req.Opcode, KeyLength := 0, ExtrasLength := 4,
            DataType := 0, Status := 0x00, TotalLength := 4 + e.value.length,
            Opaque := req.Opaque, Cas := e.version } ∧
        client.handleGet req [] key [] =
          some { cache := c1, input := client.input,
                 output := client.output ++
                   encodeHeader
                     { Magic := 0x81, Opcode := req.Opcode, KeyLength := 0, ExtrasLength := 4,
                       DataType := 0, Status := 0x00, TotalLength := 4 + e.value.length,
                       Opaque := req.Opaque, Cas := e.version } ++
                   e.flags ++ e.value }) ∧
    (client.cache.hashmap.lookup key = none →
      Header.InRange
        { Magic := 0x81, Opcode := req.Opcode, KeyLength := 0, ExtrasLength := 0,
          DataType := 0, Status := 0x01, TotalLength := 0, Opaque := req.Opaque, Cas := 0 } ∧
      client.handleGet req [] key [] =
        some { cache := client.cache, input := client.input,
               output := client.output ++
                 encodeHeader
                   { Magic := 0x81, Opcode := req.Opcode, KeyLength := 0, ExtrasLength := 0,
                     DataType := 0, Status := 0x01, TotalLength := 0, Opaque := req.Opaque,
                     Cas := 0 } }) := by
  have hop : req.Opcode < 2 ^ 8 := hreq.2.1
  have hopq : req.Opaque < 2 ^ 32 := hreq.2.2.2.2.2.2.2.1
  constructor
  · intro p hk
    obtain ⟨c1, e, eg, he, hkey, hfl, _, hh⟩ := handleGet_hit client req key hc hk
    have hsz := Reachable_entry_le hc hk
    have hsize : sizeAt client.cache.heap p = 4 + e.key.length + e.value.length := by
      simp [sizeAt, he, Entry.size, entrySize]
    have hver := (Reachable_items hc he).2
    have hresp : NewResponse req.Opcode STATUS_OK [] e.value e.flags req.Opaque e.version =
        { Magic := 0x81, Opcode := req.Opcode, KeyLength := 0, ExtrasLength := 4,
          DataType := 0, Status := 0x00, TotalLength := 4 + e.value.length,
          Opaque := req.Opaque, Cas := e.version } := by
      have h1 : (e.value.length + 4) % 4294967296 = 4 + e.value.length := by
        rw [Nat.mod_eq_of_lt (by omega)]; omega
      simp [NewResponse, MSG_RESPONSE, STATUS_OK, hfl, h1]
    refine ⟨c1, e, eg, he, hkey, hfl, ?_, ?_⟩
    · rw [← hresp]
      exact NewResponse_InRange _ _ _ _ _ _ _ hop hopq hver
    · rw [hh, hresp]
  · intro hk
    have hresp : NewResponse req.Opcode STATUS_KEY_NOT_FOUND [] [] [] req.Opaque 0 =
        { Magic := 0x81, Opcode := req.Opcode, KeyLength := 0, ExtrasLength := 0,
          DataType := 0, Status := 0x01, TotalLength := 0, Opaque := req.Opaque, Cas := 0 } := by
      simp [NewResponse, MSG_RESPONSE, STATUS_KEY_NOT_FOUND]
    refine ⟨?_, ?_⟩
    · rw [← hresp]
      exact NewResponse_InRange _ _ _ _ _ _ _ hop hopq (by decide)
    · rw [handleGet_miss client req key hk, hresp]

/-- Scenario 1 of the spec: after `foo=bar` was set with flags 0, a `GET` of
`foo` with opaque 7 is answered with `OK`, the flags, `bar` and the CAS 1; a
`GET` of `fox` is answered with `KEY_NOT_FOUND`. -/
theorem C22_get_response_witness :
    (stateAfter 100 [Op.set [102, 111, 111] [98, 97, 114] [0, 0, 0, 0] 0]).hashmap.lookup
        [102, 111, 111] = some 0 ∧
    (∃ c1 e, (stateAfter 100 [Op.set [102, 111, 111] [98, 97, 114] [0, 0, 0, 0] 0]).Get
          [102, 111, 111] = some (c1, some 0) ∧
        entryAt (stateAfter 100 [Op.set [102, 111, 111] [98, 97, 114] [0, 0, 0, 0] 0]).heap 0 =
          some e ∧ e.key = [102, 111, 111] ∧ e.flags.length = 4 ∧
        Header.InRange
          { Magic := 0x81, Opcode := 0, KeyLength := 0, ExtrasLength := 4,
            DataType := 0, Status := 0x00, TotalLength := 4 + e.value.length,
            Opaque := 7, Cas := e.version } ∧
        ClientConn.handleGet
            { cache := stateAfter 100 [Op.set [102, 111, 111] [98, 97, 114] [0, 0, 0, 0] 0],
              input := [], output := [] }
            { Magic := 0x80, Opcode := 0, KeyLength := 3, ExtrasLength := 0, DataType := 0,
              Status := 0, TotalLength := 3, Opaque := 7, Cas := 0 } [] [102, 111, 111] [] =
          some { cache := c1, input := [],
                 output := [] ++
                   encodeHeader
                     { Magic := 0x81, Opcode := 0, KeyLength := 0, ExtrasLength := 4,
                       DataType := 0, Status := 0x00, TotalLength := 4 + e.value.length,
                       Opaque := 7, Cas := e.version } ++
                   e.flags ++ e.value }) ∧
    (ClientConn.handleGet
        { cache := stateAfter 100 [Op.set [102, 111, 111] [98, 97, 114] [0, 0, 0, 0] 0],
          input := [], output := [] }
        { Magic := 0x80, Opcode := 0, KeyLength := 3, ExtrasLength := 0, DataType := 0,
          Status := 0, TotalLength := 3, Opaque := 7, Cas := 0 } [] [102, 111, 111] []).map
        (fun c => c.output) =
      some [129, 0, 0, 0, 4, 0, 0, 0, 0, 0, 0, 7, 0, 0, 0, 7, 0, 0, 0, 0, 0, 0, 0, 1,
        0, 0, 0, 0, 98, 97, 114] ∧
    (ClientConn.handleGet
        { cache := stateAfter 100 [Op.set [102, 111, 111] [98, 97, 114] [0, 0, 0, 0] 0],
          input := [], output := [] }
        { Magic := 0x80, Opcode := 0, KeyLength := 3, ExtrasLength := 0, DataType := 0,
          Status := 0, TotalLength := 3, Opaque := 7, Cas := 0 } [] [102, 111, 120] []).map
        (fun c => c.output) =
      some [129, 0, 0, 0, 0, 0, 0, 1, 0, 0, 0, 0, 0, 0, 0, 7, 0, 0, 0, 0, 0, 0, 0, 0] :=
  ⟨by decide,
    (C22_get_response
      { cache := stateAfter 100 [Op.set [102, 111, 111] [98, 97, 114] [0, 0, 0, 0] 0],
        input := [], output := [] }
      { Magic := 0x80, Opcode := 0, KeyLength := 3, ExtrasLength := 0, DataType := 0,
        Status := 0, TotalLength := 3, Opaque := 7, Cas := 0 } [102, 111, 111]
      (reachable_stateAfter 100 [Op.set [102, 111, 111] [98, 97, 114] [0, 0, 0, 0] 0]
        (by decide) (by decide))
      (by decide) (by decide)).1 0 (by decide),
    by decide, by decide⟩

/-- C23: payload-shape validation.  For every valid `GET`, `SET` or `DELETE`
request on the stream (header valid, body of at most 1048576 bytes, all of it
there), on a reachable cache, the pass of the session loop returns, writes one
response and goes on.  The status of the response is `INVALID_ARGUMENT` (0x04)
if and only if, for a `SET`, the extras are not exactly 8 bytes or the value
is empty, and, for a `GET` or a `DELETE`, the extras or the value are not
empty.  In every such case the response has all lengths 0, no payload and CAS
0, and the cache is unchanged. -/
theorem C23_invalid_argument (client : ClientConn) (req0 h : Header) (hb body rest : List Byte)
    (hin : client.input = hb ++ (body ++ rest)) (hd : decodeHeader hb = some h)
    (hvalid : h.CheckValidRequest = none) (hsmall : h.TotalLength ≤ 1048576)
    (hbody : body.length = h.TotalLength)
    (hc : Reachable client.cache) (hmax : client.cache.maxBytes + 1048576 < 2 ^ 64)
    (hop : h.Opcode = 0x00 ∨ h.Opcode = 0x01 ∨ h.Opcode = 0x04) :
    ∃ c1 R payload,
      client.iteration req0 =
        some ({ cache := c1, input := rest,
                output := client.output ++ encodeHeader R ++ payload }, h, true) ∧
      R.InRange ∧
      (R.Status = 0x04 ↔
        if h.Opcode = 0x01 then
          (body.take h.ExtrasLength).length ≠ 8 ∨
            (body.drop h.ExtrasLength).drop h.KeyLength = []
        else
          body.take h.ExtrasLength ≠ [] ∨ (body.drop h.ExtrasLength).drop h.KeyLength ≠ []) ∧
      (R.Status = 0x04 →
        R = { Magic := 0x81, Opcode := h.Opcode, KeyLength := 0, ExtrasLength := 0,
              DataType := 0, Status := 0x04, TotalLength := 0, Opaque := h.Opaque, Cas := 0 } ∧
        payload = [] ∧ c1 = client.cache) := by
  have hit := iteration_dispatch client req0 h hb body rest hin hd hvalid hsmall hbody
  have hr := decodeHeader_InRange hd
  have hopc : h.Opcode < 2 ^ 8 := hr.2.1
  have hopq : h.Opaque < 2 ^ 32 := hr.2.2.2.2.2.2.2.1
  obtain ⟨_, hsum⟩ := (CheckValidRequest_iff h hr).2.mp hvalid
  have hcl : Reachable (ClientConn.cache
      { cache := client.cache, input := rest, output := client.output }) := hc
  rcases hop with hop | hop | hop
  · -- GET
    have g0 : h.Opcode = CMD_GET := hop
    have n1 : ¬ h.Opcode = 0x01 := by rw [hop]; decide
    obtain ⟨c1, st, kk, vv, xx, ver, payload, hh, hver, hbad, hgood⟩ :=
      handleGet_status { cache := client.cache, input := rest, output := client.output } h
        (body.take h.ExtrasLength) ((body.drop h.ExtrasLength).take h.KeyLength)
        ((body.drop h.ExtrasLength).drop h.KeyLength) hcl
    simp only [g0, if_true] at hit
    rw [hh] at hit
    refine ⟨c1, NewResponse h.Opcode st kk vv xx h.Opaque ver, payload, hit,
      NewResponse_InRange _ _ _ _ _ _ _ hopc hopq hver, ?_, ?_⟩
    · rw [if_neg n1]
      constructor
      · intro hs
        by_contra hshape
        exact NewResponse_Status_ne _ _ _ _ _ _ _
          ((hgood hshape).elim Or.inl (fun e => Or.inr (Or.inl e))) hs
      · intro hshape
        rw [(hbad hshape).1]; rfl
    · intro hs
      have hshape : body.take h.ExtrasLength ≠ [] ∨
          (body.drop h.ExtrasLength).drop h.KeyLength ≠ [] := by
        by_contra hshape
        exact NewResponse_Status_ne _ _ _ _ _ _ _
          ((hgood hshape).elim Or.inl (fun e => Or.inr (Or.inl e))) hs
      obtain ⟨e1, e2, e3, e4, e5, e6, e7⟩ := hbad hshape
      rw [e1, e2, e3, e4, e5]
      exact ⟨NewResponse_empty _ _ _ _ (by decide), e6, e7⟩
  · -- SET
    have g0 : ¬ h.Opcode = CMD_GET := by rw [hop]; decide
    have g1 : h.Opcode = CMD_SET := hop
    obtain ⟨c1, st, ver, hh, hver, hbad, hgood⟩ :=
      handleSet_status { cache := client.cache, input := rest, output := client.output } h
        (body.take h.ExtrasLength) ((body.drop h.ExtrasLength).take h.KeyLength)
        ((body.drop h.ExtrasLength).drop h.KeyLength) hcl
        (by
          intro h8
          show client.cache.maxBytes + entrySize _ _ < U64
          unfold entrySize U64
          simp only [List.length_take, List.length_drop] at h8 ⊢
          omega)
    simp only [g0, if_false, g1, if_true] at hit
    rw [hh] at hit
    refine ⟨c1, NewResponse h.Opcode st [] [] [] h.Opaque ver, [],
      by rw [List.append_nil]; exact hit,
      NewResponse_InRange _ _ _ _ _ _ _ hopc hopq hver, ?_, ?_⟩
    · rw [if_pos hop]
      constructor
      · intro hs
        by_contra hshape
        exact NewResponse_Status_ne _ _ _ _ _ _ _ (hgood hshape).2 hs
      · intro hshape
        rw [(hbad hshape).1]; rfl
    · intro hs
      have hshape : (body.take h.ExtrasLength).length ≠ 8 ∨
          (body.drop h.ExtrasLength).drop h.KeyLength = [] := by
        by_contra hshape
        exact NewResponse_Status_ne _ _ _ _ _ _ _ (hgood hshape).2 hs
      obtain ⟨e1, e2, e3⟩ := hbad hshape
      rw [e1, e2]
      exact ⟨NewResponse_empty _ _ _ _ (by decide), rfl, e3⟩
  · -- DELETE
    have g0 : ¬ h.Opcode = CMD_GET := by rw [hop]; decide
    have g1 : ¬ h.Opcode = CMD_SET := by rw [hop]; decide
    have g4 : h.Opcode = CMD_DELETE := hop
    have n1 : ¬ h.Opcode = 0x01 := by rw [hop]; decide
    obtain ⟨c1, st, hh, hbad, hgood⟩ :=
      handleDelete_status { cache := client.cache, input := rest, output := client.output } h
        (body.take h.ExtrasLength) ((body.drop h.ExtrasLength).take h.KeyLength)
        ((body.drop h.ExtrasLength).drop h.KeyLength) hcl
    simp only [g0, g1, if_false, g4, if_true] at hit
    rw [hh] at hit
    refine ⟨c1, NewResponse h.Opcode st [] [] [] h.Opaque 0, [],
      by rw [List.append_nil]; exact hit,
      NewResponse_InRange _ _ _ _ _ _ _ hopc hopq (by decide), ?_, ?_⟩
    · rw [if_neg n1]
      constructor
      · intro hs
        by_contra hshape
        exact NewResponse_Status_ne _ _ _ _ _ _ _ (hgood hshape).2 hs
      · intro hshape
        rw [(hbad hshape).1]; rfl
    · intro hs
      have hshape : body.take h.ExtrasLength ≠ [] ∨
          (body.drop h.ExtrasLength).drop h.KeyLength ≠ [] := by
        by_contra hshape
        exact NewResponse_Status_ne _ _ _ _ _ _ _ (hgood hshape).2 hs
      obtain ⟨e1, e2⟩ := hbad hshape
      rw [e1]
      exact ⟨NewResponse_empty _ _ _ _ (by decide), rfl, e2⟩

/-- A `GET` of `foo` that carries the value byte `x`: answered with
`INVALID_ARGUMENT`, the session goes on. -/
theorem C23_invalid_argument_witness :
    (∃ c1 R payload,
      ClientConn.iteration
        { cache := NewCache 100,
          input := [128, 0, 0, 3, 0, 0, 0, 0, 0, 0, 0, 4, 0, 0, 0, 7, 0, 0, 0, 0, 0, 0, 0, 0] ++
            ([102, 111, 111, 120] ++ []),
          output := [] } Header.zero =
        some ({ cache := c1, input := [], output := [] ++ encodeHeader R ++ payload },
          { Magic := 0x80, Opcode := 0, KeyLength := 3, ExtrasLength := 0, DataType := 0,
            Status := 0, TotalLength := 4, Opaque := 7, Cas := 0 }, true) ∧
      R.InRange ∧
      (R.Status = 0x04 ↔
        if (0 : Nat) = 0x01 then
          (([102, 111, 111, 120] : List Byte).take 0).length ≠ 8 ∨
            (([102, 111, 111, 120] : List Byte).drop 0).drop 3 = []
        else
          ([102, 111, 111, 120] : List Byte).take 0 ≠ [] ∨
            (([102, 111, 111, 120] : List Byte).drop 0).drop 3 ≠ []) ∧
      (R.Status = 0x04 →
        R = { Magic := 0x81, Opcode := 0, KeyLength := 0, ExtrasLength := 0,
              DataType := 0, Status := 0x04, TotalLength := 0, Opaque := 7, Cas := 0 } ∧
        payload = [] ∧ c1 = NewCache 100)) ∧
    (ClientConn.iteration
        { cache := NewCache 100,
          input := [128, 0, 0, 3, 0, 0, 0, 0, 0, 0, 0, 4, 0, 0, 0, 7, 0, 0, 0, 0, 0, 0, 0, 0] ++
            ([102, 111, 111, 120] ++ []),
          output := [] } Header.zero).map (fun r => (r.1.output, r.2.2)) =
      some ([129, 0, 0, 0, 0, 0, 0, 4, 0, 0, 0, 0, 0, 0, 0, 7, 0, 0, 0, 0, 0, 0, 0, 0], true) :=
  ⟨C23_invalid_argument
      { cache := NewCache 100,
        input := [128, 0, 0, 3, 0, 0, 0, 0, 0, 0, 0, 4, 0, 0, 0, 7, 0, 0, 0, 0, 0, 0, 0, 0] ++
          ([102, 111, 111, 120] ++ []),
        output := [] } Header.zero
      { Magic := 0x80, Opcode := 0, KeyLength := 3, ExtrasLength := 0, DataType := 0,
            Status := 0, TotalLength := 4, Opaque := 7, Cas := 0 }
      [128, 0, 0, 3, 0, 0, 0, 0, 0, 0, 0, 4, 0, 0, 0, 7, 0, 0, 0, 0, 0, 0, 0, 0]
      [102, 111, 111, 120] []
      rfl (by decide) (by decide) (by decide) (by decide)
      ⟨0, ReachableIn.init 100 (by decide)⟩ (by decide) (Or.inl rfl),
    by decide⟩

/-- C24: for every `SET` request with 8-byte extras and a non-empty value, on
a reachable cache (the bytes resident plus the new entry below `2 ^ 64`),
`handleSet` does to the cache exactly what
`Cache.Set(key, value, extras[0:4], header.cas)` does, which returns, and
answers with the status returned, the version returned as CAS (0 unless the
status is `OK`, when the cache is also unchanged) and an empty payload: the
response is the 24 bytes of a header with all lengths 0.  The expiration bytes
`extras[4:8]` influence neither the resulting connection state nor the
response; for that the cache need not be reachable. -/
theorem C24_set_handler (client : ClientConn) (req : Header) (extras key value : List Byte)
    (he : extras.length = 8) (hv : value ≠ []) :
    (Reachable client.cache → client.cache.SetFits key value → req.InRange →
      ∃ c1 ver st,
        client.cache.Set key value (extras.take 4) req.Cas = some (c1, ver, st) ∧
        client.handleSet req extras key value =
          some { cache := c1, input := client.input,
                 output := client.output ++
                   encodeHeader
                     { Magic := 0x81, Opcode := req.Opcode, KeyLength := 0, ExtrasLength := 0,
                       DataType := 0, Status := st, TotalLength := 0, Opaque := req.Opaque,
                       Cas := ver } } ∧
        Header.InRange
          { Magic := 0x81, Opcode := req.Opcode, KeyLength := 0, ExtrasLength := 0,
            DataType := 0, Status := st, TotalLength := 0, Opaque := req.Opaque, Cas := ver } ∧
        (st = STATUS_OK ∨ st = STATUS_KEY_NOT_FOUND ∨ st = STATUS_KEY_EXISTS) ∧
        (st ≠ STATUS_OK → ver = 0 ∧ c1 = client.cache)) ∧
    (∀ c1 ver st, client.cache.Set key value (extras.take 4) req.Cas = some (c1, ver, st) →
      client.handleSet req extras key value =
        some { cache := c1, input := client.input,
               output := client.output ++
                 encodeHeader (NewResponse req.Opcode st [] [] [] req.Opaque ver) }) ∧
    (∀ expiration : List Byte, expiration.length = 4 →
      client.handleSet req (extras.take 4 ++ expiration) key value =
        client.handleSet req extras key value) := by
  refine ⟨?_, ?_, ?_⟩
  · intro hc hfits hreq
    obtain ⟨hr, _⟩ := Reachable_inv hc
    obtain ⟨c1, ver, st, es, hcase⟩ := Set_total hr key value (extras.take 4) req.Cas hfits
    have hst : st = STATUS_OK ∨ st = STATUS_KEY_NOT_FOUND ∨ st = STATUS_KEY_EXISTS := by
      rcases hcase with ⟨hz, _⟩ | ⟨hz, _⟩ | ⟨hz, _⟩
      · exact Or.inr (Or.inl hz)
      · exact Or.inr (Or.inr hz)
      · exact Or.inl hz
    have hst16 : st < 2 ^ 16 := by
      rcases hst with e | e | e <;> rw [e] <;> decide
    have hver : ver < U64 := by
      rcases hcase with ⟨_, hz, _⟩ | ⟨_, hz, _⟩ | ⟨_, hz, _⟩
      · rw [hz]; decide
      · rw [hz]; decide
      · rw [hz]; exact Nat.mod_lt _ (by decide)
    have hfail : st ≠ STATUS_OK → ver = 0 ∧ c1 = client.cache := by
      intro hne
      rcases hcase with ⟨_, hz, hc1, _⟩ | ⟨_, hz, hc1, _⟩ | ⟨hz, _⟩
      · exact ⟨hz, hc1⟩
      · exact ⟨hz, hc1⟩
      · exact absurd hz hne
    have hresp := NewResponse_empty req.Opcode st req.Opaque ver hst16
    refine ⟨c1, ver, st, es, ?_, ?_, hst, hfail⟩
    · rw [handleSet_valid client req extras key value he hv, es, ← hresp]
      rfl
    · rw [← hresp]
      exact NewResponse_InRange _ _ _ _ _ _ _ hreq.2.1 hreq.2.2.2.2.2.2.2.1 hver
  · intro c1 ver st es
    rw [handleSet_valid client req extras key value he hv, es]
    rfl
  · intro expiration hexp
    have hlen : (extras.take 4 ++ expiration).length = 8 := by
      rw [List.length_append, List.length_take, hexp]; omega
    have htake : (extras.take 4 ++ expiration).take 4 = extras.take 4 := by
      apply List.take_left'
      rw [List.length_take]; omega
    rw [handleSet_valid client req _ key value hlen hv,
      handleSet_valid client req extras key value he hv, htake]

/-- Scenario 1 of the spec: the `SET` of `foo=bar` with flags 0 and CAS 0 on a
new cache is answered with `OK` and CAS 1, whether the expiration is 0 or
`[0, 0, 14, 16]`. -/
theorem C24_set_handler_witness :
    (∃ c1 ver st,
      (NewCache 100).Set [102, 111, 111] [98, 97, 114]
          (([0, 0, 0, 0, 0, 0, 0, 0] : List Byte).take 4) 0 = some (c1, ver, st) ∧
      ClientConn.handleSet { cache := NewCache 100, input := [], output := [] }
          { Magic := 0x80, Opcode := 1, KeyLength := 3, ExtrasLength := 8, DataType := 0,
            Status := 0, TotalLength := 14, Opaque := 10, Cas := 0 }
          [0, 0, 0, 0, 0, 0, 0, 0] [102, 111, 111] [98, 97, 114] =
        some { cache := c1, input := [],
               output := [] ++
                 encodeHeader
                   { Magic := 0x81, Opcode := 1, KeyLength := 0, ExtrasLength := 0,
                     DataType := 0, Status := st, TotalLength := 0, Opaque := 10,
                     Cas := ver } } ∧
      Header.InRange
        { Magic := 0x81, Opcode := 1, KeyLength := 0, ExtrasLength := 0,
          DataType := 0, Status := st, TotalLength := 0, Opaque := 10, Cas := ver } ∧
      (st = STATUS_OK ∨ st = STATUS_KEY_NOT_FOUND ∨ st = STATUS_KEY_EXISTS) ∧
      (st ≠ STATUS_OK → ver = 0 ∧ c1 = NewCache 100)) ∧
    (ClientConn.handleSet { cache := NewCache 100, input := [], output := [] }
        { Magic := 0x80, Opcode := 1, KeyLength := 3, ExtrasLength := 8, DataType := 0,
          Status := 0, TotalLength := 14, Opaque := 10, Cas := 0 }
        [0, 0, 0, 0, 0, 0, 14, 16] [102, 111, 111] [98, 97, 114]).map
        (fun c => (c.output, c.cache.entries)) =
      some ([129, 1, 0, 0, 0, 0, 0, 0, 0, 0, 0, 0, 0, 0, 0, 10, 0, 0, 0, 0, 0, 0, 0, 1],
        [{ flags := [0, 0, 0, 0], key := [102, 111, 111], value := [98, 97, 114],
           version := 1 }]) :=
  ⟨(C24_set_handler { cache := NewCache 100, input := [], output := [] }
      { Magic := 0x80, Opcode := 1, KeyLength := 3, ExtrasLength := 8, DataType := 0,
        Status := 0, TotalLength := 14, Opaque := 10, Cas := 0 }
      [0, 0, 0, 0, 0, 0, 0, 0] [102, 111, 111] [98, 97, 114] (by decide) (by decide)).1
      ⟨0, ReachableIn.init 100 (by decide)⟩ (by decide) (by decide),
    by decide⟩

/-- C25: `GET` ignores the CAS of the request.  For every cache state, two
`GET` requests that are identical except for the CAS of the header (bytes 16
to 23 on the stream) are handled alike: the handler and the pass of the
session loop leave the same connection state, that is the same cache, the
same bytes unread and the same bytes written, so the same response with the
same status, flags, value and version. -/
theorem C25_get_ignores_cas (client : ClientConn) (req0 h : Header) (cas : Nat)
    (more : List Byte) (hr : h.InRange) (hcas : cas < 2 ^ 64) (hop : h.Opcode = 0x00) :
    (∀ extras key value,
      client.handleGet { h with Cas := cas } extras key value =
        client.handleGet h extras key value) ∧
    (encodeHeader { h with Cas := cas }).take 16 = (encodeHeader h).take 16 ∧
    (ClientConn.iteration
        { client with input := encodeHeader { h with Cas := cas } ++ more } req0).map Prod.fst =
      (ClientConn.iteration { client with input := encodeHeader h ++ more } req0).map Prod.fst := by
  have hr' : Header.InRange { h with Cas := cas } := by
    obtain ⟨h1, h2, h3, h4, h5, h6, h7, h8, _⟩ := hr
    exact ⟨h1, h2, h3, h4, h5, h6, h7, h8, hcas⟩
  refine ⟨fun extras key value => handleGet_cas client h cas extras key value, ?_, ?_⟩
  · simp [encodeHeader, beBytes]
  · rw [iteration_get client req0 h more hr hop,
      iteration_get client req0 { h with Cas := cas } more hr' hop]
    rfl

/-- The test `TestGet`: after `fab=faz` was set, a `GET` of `fab` with CAS 0
and one with the bad CAS 992313129 are both answered with `OK`, `faz` and the
version 1. -/
theorem C25_get_ignores_cas_witness :
    ((∀ extras key value,
        ClientConn.handleGet
            { cache := stateAfter 100 [Op.set [102, 97, 98] [102, 97, 122] [0, 0, 0, 0] 0],
              input := [], output := [] }
            { Magic := 0x80, Opcode := 0, KeyLength := 3, ExtrasLength := 0, DataType := 0,
              Status := 0, TotalLength := 3, Opaque := 0, Cas := 992313129 } extras key value =
          ClientConn.handleGet
            { cache := stateAfter 100 [Op.set [102, 97, 98] [102, 97, 122] [0, 0, 0, 0] 0],
              input := [], output := [] }
            { Magic := 0x80, Opcode := 0, KeyLength := 3, ExtrasLength := 0, DataType := 0,
              Status := 0, TotalLength := 3, Opaque := 0, Cas := 0 } extras key value) ∧
      (encodeHeader
          { Magic := 0x80, Opcode := 0, KeyLength := 3, ExtrasLength := 0, DataType := 0,
            Status := 0, TotalLength := 3, Opaque := 0, Cas := 992313129 }).take 16 =
        (encodeHeader
          { Magic := 0x80, Opcode := 0, KeyLength := 3, ExtrasLength := 0, DataType := 0,
            Status := 0, TotalLength := 3, Opaque := 0, Cas := 0 }).take 16 ∧
      (ClientConn.iteration
          { cache := stateAfter 100 [Op.set [102, 97, 98] [102, 97, 122] [0, 0, 0, 0] 0],
            input := encodeHeader
              { Magic := 0x80, Opcode := 0, KeyLength := 3, ExtrasLength := 0, DataType := 0,
                Status := 0, TotalLength := 3, Opaque := 0, Cas := 992313129 } ++
              [102, 97, 98],
            output := [] } Header.zero).map Prod.fst =
        (ClientConn.iteration
          { cache := stateAfter 100 [Op.set [102, 97, 98] [102, 97, 122] [0, 0, 0, 0] 0],
            input := encodeHeader
              { Magic := 0x80, Opcode := 0, KeyLength := 3, ExtrasLength := 0, DataType := 0,
                Status := 0, TotalLength := 3, Opaque := 0, Cas := 0 } ++ [102, 97, 98],
            output := [] } Header.zero).map Prod.fst) ∧
    (ClientConn.iteration
        { cache := stateAfter 100 [Op.set [102, 97, 98] [102, 97, 122] [0, 0, 0, 0] 0],
          input := [128, 0, 0, 3, 0, 0, 0, 0, 0, 0, 0, 3, 0, 0, 0, 0,
            0, 0, 0, 0, 59, 37, 127, 41, 102, 97, 98],
          output := [] } Header.zero).map (fun r => r.1.output) =
      some [129, 0, 0, 0, 4, 0, 0, 0, 0, 0, 0, 7, 0, 0, 0, 0, 0, 0, 0, 0, 0, 0, 0, 1,
        0, 0, 0, 0, 102, 97, 122] :=
  ⟨C25_get_ignores_cas
      { cache := stateAfter 100 [Op.set [102, 97, 98] [102, 97, 122] [0, 0, 0, 0] 0],
        input := [], output := [] } Header.zero
      { Magic := 0x80, Opcode := 0, KeyLength := 3, ExtrasLength := 0, DataType := 0,
        Status := 0, TotalLength := 3, Opaque := 0, Cas := 0 } 992313129 [102, 97, 98]
      (by decide) (by decide) rfl,
    by decide⟩

/-- C26: every response the session writes echoes its request, and every
branch that answers does write.  On a reachable cache (budget plus 1048576
below `2 ^ 64`) a pass of the session loop returns on every input, in a
reachable cache.  It writes nothing, leaves the cache alone and ends the
session exactly in three cases: the stream has fewer than 24 bytes, the 24
bytes are not a valid request header, or the header is valid, its body is at
most 1048576 bytes and the stream ends before the body does.  In every other
case, a valid header `req1` with a body that is too large (the session ends)
or with its whole body on the stream (the session goes on, whatever the
opcode and the shape of the payload: unknown opcode, invalid argument, `GET`
hit and miss, `SET`, `DELETE`), it writes exactly one response: the 24 bytes
of a header `R`, which decode to `R`, then a payload, where `R` has magic
0x81, data type 0, and the opcode and the opaque of `req1`. -/
theorem C26_response_echo (client : ClientConn) (req0 : Header) (hc : Reachable client.cache)
    (hmax : client.cache.maxBytes + 1048576 < 2 ^ 64) :
    ∃ c1 req1 goes, client.iteration req0 = some (c1, req1, goes) ∧ Reachable c1.cache ∧
      ((c1.output = client.output ∧ c1.cache = client.cache ∧ goes = false ∧
          (client.input.length < 24 ∨
            ∃ hb more, client.input = hb ++ more ∧ decodeHeader hb = some req1 ∧
              (req1.CheckValidRequest ≠ none ∨
                (req1.TotalLength ≤ 1048576 ∧ more.length < req1.TotalLength)))) ∨
        ∃ hb more, client.input = hb ++ more ∧ decodeHeader hb = some req1 ∧
          req1.CheckValidRequest = none ∧
          ((1048576 < req1.TotalLength ∧ goes = false) ∨
            (req1.TotalLength ≤ 1048576 ∧ req1.TotalLength ≤ more.length ∧ goes = true)) ∧
          ∃ R payload,
            c1.output = client.output ++ encodeHeader R ++ payload ∧
            decodeHeader (encodeHeader R) = some R ∧
            R.Magic = 0x81 ∧ R.DataType = 0 ∧ R.Opcode = req1.Opcode ∧
            R.Opaque = req1.Opaque) := by
  rcases iteration_split client req0 with ⟨hshort, hit⟩ |
    ⟨hb, more, h, hin, hd, hcases⟩
  · exact ⟨_, req0, false, hit, hc, Or.inl ⟨rfl, rfl, rfl, Or.inl hshort⟩⟩
  · have hr := decodeHeader_InRange hd
    rcases hcases with ⟨hv, hit⟩ | ⟨hv, hbig, hit⟩ | ⟨hv, hsmall, hbody, hit⟩ |
      ⟨hv, hsmall, hfull, hit⟩
    · exact ⟨_, h, false, hit, hc,
        Or.inl ⟨rfl, rfl, rfl, Or.inr ⟨hb, more, hin, hd, Or.inl hv⟩⟩⟩
    · refine ⟨_, h, false, hit, hc, Or.inr ⟨hb, more, hin, hd, hv, Or.inl ⟨hbig, rfl⟩,
        NewResponse h.Opcode STATUS_VALUE_TOO_LARGE [] [] [] h.Opaque 0, [], by simp,
        decode_encode _ (NewResponse_InRange _ _ _ _ _ _ _ hr.2.1 hr.2.2.2.2.2.2.2.1
          (by decide)), rfl, rfl, rfl, rfl⟩⟩
    · exact ⟨_, h, false, hit, hc,
        Or.inl ⟨rfl, rfl, rfl, Or.inr ⟨hb, more, hin, hd, Or.inr ⟨hsmall, hbody⟩⟩⟩⟩
    · obtain ⟨_, hsum⟩ := (CheckValidRequest_iff h hr).2.mp hv
      obtain ⟨c, st, kk, vv, xx, ver, payload, hh, hreach, _, hver⟩ :=
        dispatch_total
          { cache := client.cache, input := more.drop h.TotalLength, output := client.output }
          h ((more.take h.TotalLength).take h.ExtrasLength)
          (((more.take h.TotalLength).drop h.ExtrasLength).take h.KeyLength)
          (((more.take h.TotalLength).drop h.ExtrasLength).drop h.KeyLength) hc
          (by
            intro h8
            show client.cache.maxBytes + entrySize _ _ < U64
            have hm : MAX_VALUE_SIZE = 1048576 := by decide
            unfold entrySize U64
            simp only [List.length_take, List.length_drop] at h8 ⊢
            omega)
      rw [hh] at hit
      exact ⟨_, h, true, hit, hreach, Or.inr ⟨hb, more, hin, hd, hv,
        Or.inr ⟨hsmall, hfull, rfl⟩,
        NewResponse h.Opcode st kk vv xx h.Opaque ver, payload, rfl,
        decode_encode _ (NewResponse_InRange _ _ _ _ _ _ _ hr.2.1 hr.2.2.2.2.2.2.2.1 hver),
        rfl, rfl, rfl, rfl⟩⟩

/-- A `DELETE` of `foo` with opaque 305419896 (0x12345678) on a cache that
holds `foo`: the response carries opcode 4 and the opaque, and the session
goes on. -/
theorem C26_response_echo_witness :
    (∃ c1 req1 goes,
      ClientConn.iteration
        { cache := stateAfter 100 [Op.set [102, 111, 111] [98, 97, 114] [0, 0, 0, 0] 0],
          input := [128, 4, 0, 3, 0, 0, 0, 0, 0, 0, 0, 3, 18, 52, 86, 120,
            0, 0, 0, 0, 0, 0, 0, 0, 102, 111, 111],
          output := [] } Header.zero = some (c1, req1, goes) ∧
      Reachable c1.cache ∧
      ((c1.output = [] ∧
          c1.cache = stateAfter 100 [Op.set [102, 111, 111] [98, 97, 114] [0, 0, 0, 0] 0] ∧
          goes = false ∧
          (([128, 4, 0, 3, 0, 0, 0, 0, 0, 0, 0, 3, 18, 52, 86, 120,
              0, 0, 0, 0, 0, 0, 0, 0, 102, 111, 111] : List Byte).length < 24 ∨
            ∃ hb more,
              ([128, 4, 0, 3, 0, 0, 0, 0, 0, 0, 0, 3, 18, 52, 86, 120,
                0, 0, 0, 0, 0, 0, 0, 0, 102, 111, 111] : List Byte) = hb ++ more ∧
              decodeHeader hb = some req1 ∧
              (req1.CheckValidRequest ≠ none ∨
                (req1.TotalLength ≤ 1048576 ∧ more.length < req1.TotalLength)))) ∨
        ∃ hb more,
          ([128, 4, 0, 3, 0, 0, 0, 0, 0, 0, 0, 3, 18, 52, 86, 120,
            0, 0, 0, 0, 0, 0, 0, 0, 102, 111, 111] : List Byte) = hb ++ more ∧
          decodeHeader hb = some req1 ∧
          req1.CheckValidRequest = none ∧
          ((1048576 < req1.TotalLength ∧ goes = false) ∨
            (req1.TotalLength ≤ 1048576 ∧ req1.TotalLength ≤ more.length ∧ goes = true)) ∧
          ∃ R payload,
            c1.output = [] ++ encodeHeader R ++ payload ∧
            decodeHeader (encodeHeader R) = some R ∧
            R.Magic = 0x81 ∧ R.DataType = 0 ∧ R.Opcode = req1.Opcode ∧
            R.Opaque = req1.Opaque)) ∧
    (ClientConn.iteration
        { cache := stateAfter 100 [Op.set [102, 111, 111] [98, 97, 114] [0, 0, 0, 0] 0],
          input := [128, 4, 0, 3, 0, 0, 0, 0, 0, 0, 0, 3, 18, 52, 86, 120,
            0, 0, 0, 0, 0, 0, 0, 0, 102, 111, 111],
          output := [] } Header.zero).map (fun r => (r.1.output, r.1.cache.entries, r.2.2)) =
      some ([129, 4, 0, 0, 0, 0, 0, 0, 0, 0, 0, 0, 18, 52, 86, 120, 0, 0, 0, 0, 0, 0, 0, 0],
        [], true) :=
  ⟨C26_response_echo
      { cache := stateAfter 100 [Op.set [102, 111, 111] [98, 97, 114] [0, 0, 0, 0] 0],
        input := [128, 4, 0, 3, 0, 0, 0, 0, 0, 0, 0, 3, 18, 52, 86, 120,
          0, 0, 0, 0, 0, 0, 0, 0, 102, 111, 111],
        output := [] } Header.zero
      (reachable_stateAfter 100 [Op.set [102, 111, 111] [98, 97, 114] [0, 0, 0, 0] 0]
        (by decide) (by decide))
      (by decide),
    by decide⟩

/-- C27 (as amended): every entry stored in the cache through the session's
`SET` handler has a key of at most 65535 bytes.  For every valid `SET` request
on the stream (header valid, body of at most 1048576 bytes, all of it there),
on a reachable cache, the pass of the session loop returns, goes on and writes
one response without payload: the 24 bytes of a header `R` within the types
of its fields, with the opcode and opaque of the request.  Unless the status
of `R` is `OK` (0x00) the cache is unchanged.  When it is `OK`, `Cache.Set` of
the request's key, value and flags has returned `OK` with the CAS of `R` as
version, and the pass has allocated exactly one item, whose key is the key
bytes of the body, of the length the header gives, at most 65535; every entry
resident afterwards was resident before or is the new one, so a bound of
65535 on the keys of the resident entries is kept. -/
theorem C27_stored_key_length (client : ClientConn) (req0 h : Header)
    (hb body rest : List Byte)
    (hin : client.input = hb ++ (body ++ rest)) (hd : decodeHeader hb = some h)
    (hvalid : h.CheckValidRequest = none) (hsmall : h.TotalLength ≤ 1048576)
    (hbody : body.length = h.TotalLength) (hop : h.Opcode = 0x01)
    (hc : Reachable client.cache) (hmax : client.cache.maxBytes + 1048576 < 2 ^ 64) :
    ∃ c1 R,
      client.iteration req0 =
        some ({ cache := c1, input := rest, output := client.output ++ encodeHeader R },
          h, true) ∧
      R.InRange ∧ R.Magic = 0x81 ∧ R.Opcode = h.Opcode ∧ R.Opaque = h.Opaque ∧
      R.KeyLength = 0 ∧ R.ExtrasLength = 0 ∧ R.TotalLength = 0 ∧
      (R.Status ≠ 0x00 → c1 = client.cache) ∧
      (R.Status = 0x00 →
        client.cache.Set ((body.drop h.ExtrasLength).take h.KeyLength)
          ((body.drop h.ExtrasLength).drop h.KeyLength) ((body.take h.ExtrasLength).take 4)
          h.Cas = some (c1, R.Cas, STATUS_OK) ∧
        ∃ e, c1.heap.length = client.cache.heap.length + 1 ∧
          entryAt c1.heap client.cache.heap.length = some e ∧
          e.key = (body.drop h.ExtrasLength).take h.KeyLength ∧
          e.key.length = h.KeyLength ∧ e.key.length ≤ 65535 ∧
          (∀ e1 ∈ c1.entries, e1 ∈ client.cache.entries ∨ e1 = e) ∧
          ((∀ e0 ∈ client.cache.entries, e0.key.length ≤ 65535) →
            ∀ e1 ∈ c1.entries, e1.key.length ≤ 65535)) := by
  have hit := iteration_dispatch client req0 h hb body rest hin hd hvalid hsmall hbody
  have hr := decodeHeader_InRange hd
  have hkl : h.KeyLength < 2 ^ 16 := hr.2.2.1
  obtain ⟨_, hsum⟩ := (CheckValidRequest_iff h hr).2.mp hvalid
  have g0 : ¬ h.Opcode = CMD_GET := by rw [hop]; decide
  have g1 : h.Opcode = CMD_SET := hop
  have hcl : Reachable (ClientConn.cache
      { cache := client.cache, input := rest, output := client.output }) := hc
  have hfit : (body.take h.ExtrasLength).length = 8 →
      client.cache.maxBytes + entrySize ((body.drop h.ExtrasLength).take h.KeyLength)
        ((body.drop h.ExtrasLength).drop h.KeyLength) < U64 := by
    intro h8
    unfold entrySize U64
    simp only [List.length_take, List.length_drop] at h8 ⊢
    omega
  obtain ⟨c1, st, ver, hh, hver, hbad, hgood⟩ :=
    handleSet_status { cache := client.cache, input := rest, output := client.output } h
      (body.take h.ExtrasLength) ((body.drop h.ExtrasLength).take h.KeyLength)
      ((body.drop h.ExtrasLength).drop h.KeyLength) hcl hfit
  simp only [g0, if_false, g1, if_true] at hit
  rw [hh] at hit
  have hst16 : st < 2 ^ 16 := by
    by_cases hshape : (body.take h.ExtrasLength).length ≠ 8 ∨
        (body.drop h.ExtrasLength).drop h.KeyLength = []
    · rw [(hbad hshape).1]; decide
    · rcases (hgood hshape).2 with e | e | e <;> rw [e] <;> decide
  have hresp := NewResponse_empty h.Opcode st h.Opaque ver hst16
  rw [hresp] at hit
  have hrange : Header.InRange
      { Magic := 0x81, Opcode := h.Opcode, KeyLength := 0, ExtrasLength := 0, DataType := 0,
        Status := st, TotalLength := 0, Opaque := h.Opaque, Cas := ver } := by
    rw [← hresp]
    exact NewResponse_InRange _ _ _ _ _ _ _ hr.2.1 hr.2.2.2.2.2.2.2.1 hver
  refine ⟨c1, _, hit, hrange, rfl, rfl, rfl, rfl, rfl, rfl, ?_, ?_⟩
  · intro hne
    have hne' : st ≠ STATUS_OK := hne
    by_cases hshape : (body.take h.ExtrasLength).length ≠ 8 ∨
        (body.drop h.ExtrasLength).drop h.KeyLength = []
    · exact (hbad hshape).2.2
    · obtain ⟨es, _⟩ := hgood hshape
      have h8 : (body.take h.ExtrasLength).length = 8 := by
        by_contra hne2; exact hshape (Or.inl hne2)
      obtain ⟨hrep, _⟩ := Reachable_inv hc
      have hfits : client.cache.SetFits ((body.drop h.ExtrasLength).take h.KeyLength)
          ((body.drop h.ExtrasLength).drop h.KeyLength) := by
        have := hfit h8
        unfold Cache.SetFits; omega
      obtain ⟨c2, ver2, st2, es2, hcase⟩ := Set_total hrep _ _
        ((body.take h.ExtrasLength).take 4) h.Cas hfits
      have es' : client.cache.Set ((body.drop h.ExtrasLength).take h.KeyLength)
          ((body.drop h.ExtrasLength).drop h.KeyLength) ((body.take h.ExtrasLength).take 4)
          h.Cas = some (c1, ver, st) := es
      rw [es'] at es2
      have e1 : c1 = c2 := by injection es2 with es2; injection es2
      have e3 : st = st2 := by
        injection es2 with es2; injection es2 with _ es2; injection es2
      subst e1; subst e3
      rcases hcase with ⟨_, _, hz, _⟩ | ⟨_, _, hz, _⟩ | ⟨hz, _⟩
      · exact hz
      · exact hz
      · exact absurd hz hne'
  · intro hok
    have hok' : st = STATUS_OK := hok
    have hshape : ¬ ((body.take h.ExtrasLength).length ≠ 8 ∨
        (body.drop h.ExtrasLength).drop h.KeyLength = []) := by
      intro hs
      rw [(hbad hs).1] at hok'
      exact absurd hok' (by decide)
    have h8 : (body.take h.ExtrasLength).length = 8 := by
      by_contra hne; exact hshape (Or.inl hne)
    obtain ⟨es, _⟩ := hgood hshape
    have es' : client.cache.Set ((body.drop h.ExtrasLength).take h.KeyLength)
        ((body.drop h.ExtrasLength).drop h.KeyLength) ((body.take h.ExtrasLength).take 4)
        h.Cas = some (c1, ver, st) := es
    obtain ⟨hrep, hle⟩ := Reachable_inv hc
    have hfits : client.cache.SetFits ((body.drop h.ExtrasLength).take h.KeyLength)
        ((body.drop h.ExtrasLength).drop h.KeyLength) := by
      have := hfit h8
      unfold Cache.SetFits; omega
    obtain ⟨c2, ver2, st2, es2, hcase⟩ := Set_total hrep _ _ ((body.take h.ExtrasLength).take 4)
      h.Cas hfits
    rw [es'] at es2
    have e1 : c1 = c2 := by injection es2 with es2; injection es2
    have e3 : st = st2 := by
      injection es2 with es2; injection es2 with _ es2; injection es2
    subst e1; subst e3
    refine ⟨by rw [← hok']; exact es', ?_⟩
    rcases hcase with ⟨hz, _⟩ | ⟨hz, _⟩ | ⟨_, _, hr1, _, hdm, _⟩
    · rw [hz] at hok'; exact absurd hok' (by decide)
    · rw [hz] at hok'; exact absurd hok' (by decide)
    · obtain ⟨_, hnew⟩ := entryAt_of_append hdm
      have hlen : c1.heap.length = client.cache.heap.length + 1 := by
        have := congrArg List.length hdm
        simpa using this
      have hkeylen : ((body.drop h.ExtrasLength).take h.KeyLength).length = h.KeyLength := by
        rw [List.length_take, List.length_drop]; omega
      have hent := entries_Set hrep hr1 hdm
      have hsub : ∀ e1 ∈ c1.entries, e1 ∈ client.cache.entries ∨
          e1 = (NewItem ((body.drop h.ExtrasLength).take h.KeyLength)
            ((body.drop h.ExtrasLength).drop h.KeyLength) ((body.take h.ExtrasLength).take 4)
            (add64 client.cache.version 1)).entry := by
        intro e1 he1
        rw [hent] at he1
        have h2 := evictEntries_subset _ _ e1 he1
        rcases List.mem_append.mp h2 with h3 | h3
        · exact Or.inl (List.mem_filter.mp h3).1
        · exact Or.inr (List.mem_singleton.mp h3)
      refine ⟨_, hlen, hnew, rfl, hkeylen, ?_, hsub, ?_⟩
      · show ((body.drop h.ExtrasLength).take h.KeyLength).length ≤ 65535
        rw [hkeylen]; omega
      · intro hall e1 he1
        rcases hsub e1 he1 with h3 | h3
        · exact hall e1 h3
        · rw [h3]
          show ((body.drop h.ExtrasLength).take h.KeyLength).length ≤ 65535
          rw [hkeylen]; omega

/-- Scenario 1 of the spec: the `SET` of `foo=bar` on a new cache is answered
with `OK` and allocates one item with the key `foo` of length 3. -/
theorem C27_stored_key_length_witness :
    (∃ c1 R,
      ClientConn.iteration
        { cache := NewCache 100,
          input := [128, 1, 0, 3, 8, 0, 0, 0, 0, 0, 0, 14, 0, 0, 0, 10, 0, 0, 0, 0, 0, 0, 0, 0] ++
            ([0, 0, 0, 0, 0, 0, 0, 0, 102, 111, 111, 98, 97, 114] ++ []),
          output := [] } Header.zero =
        some ({ cache := c1, input := [], output := [] ++ encodeHeader R },
          { Magic := 0x80, Opcode := 1, KeyLength := 3, ExtrasLength := 8, DataType := 0,
            Status := 0, TotalLength := 14, Opaque := 10, Cas := 0 }, true) ∧
      R.InRange ∧ R.Magic = 0x81 ∧ R.Opcode = 1 ∧ R.Opaque = 10 ∧
      R.KeyLength = 0 ∧ R.ExtrasLength = 0 ∧ R.TotalLength = 0 ∧
      (R.Status ≠ 0x00 → c1 = NewCache 100) ∧
      (R.Status = 0x00 →
        (NewCache 100).Set
          ((([0, 0, 0, 0, 0, 0, 0, 0, 102, 111, 111, 98, 97, 114] : List Byte).drop 8).take 3)
          ((([0, 0, 0, 0, 0, 0, 0, 0, 102, 111, 111, 98, 97, 114] : List Byte).drop 8).drop 3)
          ((([0, 0, 0, 0, 0, 0, 0, 0, 102, 111, 111, 98, 97, 114] : List Byte).take 8).take 4)
          0 = some (c1, R.Cas, STATUS_OK) ∧
        ∃ e, c1.heap.length = (NewCache 100).heap.length + 1 ∧
          entryAt c1.heap (NewCache 100).heap.length = some e ∧
          e.key = (([0, 0, 0, 0, 0, 0, 0, 0, 102, 111, 111, 98, 97, 114] : List Byte).drop
            8).take 3 ∧
          e.key.length = 3 ∧ e.key.length ≤ 65535 ∧
          (∀ e1 ∈ c1.entries, e1 ∈ (NewCache 100).entries ∨ e1 = e) ∧
          ((∀ e0 ∈ (NewCache 100).entries, e0.key.length ≤ 65535) →
            ∀ e1 ∈ c1.entries, e1.key.length ≤ 65535))) ∧
    (ClientConn.iteration
        { cache := NewCache 100,
          input := [128, 1, 0, 3, 8, 0, 0, 0, 0, 0, 0, 14, 0, 0, 0, 10, 0, 0, 0, 0, 0, 0, 0, 0] ++
            ([0, 0, 0, 0, 0, 0, 0, 0, 102, 111, 111, 98, 97, 114] ++ []),
          output := [] } Header.zero).map (fun r => (r.1.output, r.1.cache.entries)) =
      some ([129, 1, 0, 0, 0, 0, 0, 0, 0, 0, 0, 0, 0, 0, 0, 10, 0, 0, 0, 0, 0, 0, 0, 1],
        [{ flags := [0, 0, 0, 0], key := [102, 111, 111], value := [98, 97, 114],
           version := 1 }]) :=
  ⟨C27_stored_key_length
      { cache := NewCache 100,
        input := [128, 1, 0, 3, 8, 0, 0, 0, 0, 0, 0, 14, 0, 0, 0, 10, 0, 0, 0, 0, 0, 0, 0, 0] ++
          ([0, 0, 0, 0, 0, 0, 0, 0, 102, 111, 111, 98, 97, 114] ++ []),
        output := [] } Header.zero
      { Magic := 0x80, Opcode := 1, KeyLength := 3, ExtrasLength := 8, DataType := 0,
        Status := 0, TotalLength := 14, Opaque := 10, Cas := 0 }
      [128, 1, 0, 3, 8, 0, 0, 0, 0, 0, 0, 14, 0, 0, 0, 10, 0, 0, 0, 0, 0, 0, 0, 0]
      [0, 0, 0, 0, 0, 0, 0, 0, 102, 111, 111, 98, 97, 114] []
      rfl (by decide) (by decide) (by decide) (by decide) rfl
      ⟨0, ReachableIn.init 100 (by decide)⟩ (by decide),
    by decide⟩

/-- C27 (counterexample): a valid `SET` request with key length 0, 8 bytes of
extras and the one value byte `v` is answered with `OK` and the version 1, and
stores an entry whose key has length 0; the `GET` of the empty key that
follows is answered with `OK` and the value. -/
theorem C27_counterexample :
    (ClientConn.iteration
        { cache := NewCache 100,
          input := [128, 1, 0, 0, 8, 0, 0, 0, 0, 0, 0, 9, 0, 0, 0, 0, 0, 0, 0, 0, 0, 0, 0, 0,
            0, 0, 0, 0, 0, 0, 0, 0, 118],
          output := [] } Header.zero).map
        (fun r => (r.1.output, r.1.cache.entries, r.1.cache.entries.map fun e => e.key.length)) =
      some ([129, 1, 0, 0, 0, 0, 0, 0, 0, 0, 0, 0, 0, 0, 0, 0, 0, 0, 0, 0, 0, 0, 0, 1],
        [{ flags := [0, 0, 0, 0], key := [], value := [118], version := 1 }], [0]) ∧
    (ClientConn.Run
        { cache := NewCache 100,
          input := [128, 1, 0, 0, 8, 0, 0, 0, 0, 0, 0, 9, 0, 0, 0, 0, 0, 0, 0, 0, 0, 0, 0, 0,
            0, 0, 0, 0, 0, 0, 0, 0, 118,
            128, 0, 0, 0, 0, 0, 0, 0, 0, 0, 0, 0, 0, 0, 0, 0, 0, 0, 0, 0, 0, 0, 0, 0],
          output := [] }).map (fun c => c.output) =
      some [129, 1, 0, 0, 0, 0, 0, 0, 0, 0, 0, 0, 0, 0, 0, 0, 0, 0, 0, 0, 0, 0, 0, 1,
        129, 0, 0, 0, 4, 0, 0, 0, 0, 0, 0, 5, 0, 0, 0, 0, 0, 0, 0, 0, 0, 0, 0, 1,
        0, 0, 0, 0, 118] := by
  decide

/-- C28: in every cache state reachable from `NewCache` by `Get`, `Set` and
`Delete` the LRU list is internally consistent.  For every linked item `p`:
if `p.prev` is `q` then `q` is linked and `q.next` is `p`, and if `p.next` is
`q` then `q` is linked and `q.prev` is `p`.  The most recently used end
(`lru.tail`) is the last item of the list and has no `prev`; the least
recently used end (`lru.head`) is the first and has no `next`.  `head` is nil
exactly when the list is empty, and so is `tail`; the list is empty exactly
when the map is.  Read from `tail` along `next`, the list is the reverse of
the list read from `head` along `prev`: both traversals visit the same
items. -/
theorem C28_lru_consistent (c : Cache) (hc : Reachable c) :
    (∀ p ∈ c.recency,
      (∀ q, prevOf c.heap p = some q → q ∈ c.recency ∧ nextOf c.heap q = some p) ∧
      (∀ q, nextOf c.heap p = some q → q ∈ c.recency ∧ prevOf c.heap q = some p)) ∧
    (∀ t, c.lru.tail = some t →
      t ∈ c.recency ∧ c.recency.getLast? = some t ∧ prevOf c.heap t = none) ∧
    (∀ f, c.lru.head = some f →
      f ∈ c.recency ∧ c.recency.head? = some f ∧ nextOf c.heap f = none) ∧
    (c.lru.head = none ↔ c.recency = []) ∧ (c.lru.tail = none ↔ c.recency = []) ∧
    (c.recency = [] ↔ c.hashmap = []) ∧
    c.recencyFromTail = c.recency.reverse ∧
    (∀ p, p ∈ c.recencyFromTail ↔ p ∈ c.recency) := by
  obtain ⟨hr, _⟩ := Reachable_inv hc
  have hl := hr.linked
  have hrev : c.recencyFromTail = c.recency.reverse := Linked_walkNext hl
  refine ⟨fun p hp => Linked_neighbours hl hp, ?_, ?_, ?_, ?_, ?_, hrev, ?_⟩
  · intro t ht
    have hlast : c.recency.getLast? = some t := by rw [← hl.tail_eq]; exact ht
    have hmem : t ∈ c.recency := by
      rw [List.getLast?_eq_getElem?] at hlast
      exact getElem?_mem' hlast
    exact ⟨hmem, hlast, (Linked_prev_none_iff hl hmem).mpr ht⟩
  · intro f hf
    have hfirst : c.recency.head? = some f := by rw [← hl.head_eq]; exact hf
    have hmem : f ∈ c.recency := List.mem_of_mem_head? hfirst
    exact ⟨hmem, hfirst, (Linked_next_none_iff hl hmem).mpr hf⟩
  · rw [hl.head_eq]; exact List.head?_eq_none_iff
  · rw [hl.tail_eq]; exact List.getLast?_eq_none_iff
  · have hperm := Rep_map_perm hr
    constructor
    · intro e
      rw [e] at hperm
      have := List.Perm.eq_nil hperm
      exact List.map_eq_nil_iff.mp this
    · intro e
      rw [e] at hperm
      exact List.Perm.eq_nil hperm.symm
  · intro p
    rw [hrev, List.mem_reverse]

/-- The state of `TestCacheLRUUpdates` before its last `StoreKey`: read from
the head the list is items 2, 0, 3 (key3, key1, key4), read from the tail 3,
0, 2. -/
theorem C28_lru_consistent_witness :
    (stateAfter 39 [StoreKey key1, StoreKey key2, StoreKey key3, Op.get key1,
        StoreKey key4]).recency = [2, 0, 3] ∧
    (stateAfter 39 [StoreKey key1, StoreKey key2, StoreKey key3, Op.get key1,
        StoreKey key4]).lru = { head := some 2, tail := some 3 } ∧
    (stateAfter 39 [StoreKey key1, StoreKey key2, StoreKey key3, Op.get key1,
        StoreKey key4]).recencyFromTail =
      (stateAfter 39 [StoreKey key1, StoreKey key2, StoreKey key3, Op.get key1,
        StoreKey key4]).recency.reverse :=
  ⟨by decide, by decide,
    (C28_lru_consistent
      (stateAfter 39 [StoreKey key1, StoreKey key2, StoreKey key3, Op.get key1, StoreKey key4])
      (reachable_stateAfter 39
        [StoreKey key1, StoreKey key2, StoreKey key3, Op.get key1, StoreKey key4]
        (by decide) (by decide))).2.2.2.2.2.2.1⟩

/-- C29: for every consistent LRU list `l` (least recently used first) in a
heap.  `Erase` of an item `p` of the list returns the consistent list that is
`l` with `p` removed, the others in their order, changes no key, value, flags
or version, sets `p.next = p.prev = nil`, moves `head` to `p.prev` (or `tail`
to `p.next`) when `p` was at that end and leaves the other end alone, and
leaves `head = tail = nil` when `p` was the only item.  `PopFront` on the
empty list returns nil and changes nothing; otherwise it returns the first
item of the list and leaves the rest, consistent.  `PushBack` of an item that
is not on the list puts it last, so the first item is the least recently
pushed one. -/
theorem C29_erase_pop (lru : LRU) (h : List Item) (l : List Nat) (hl : Linked lru h l) :
    (∀ p ∈ l, ∃ lru1 h1, lru.Erase h p = some (lru1, h1) ∧ Linked lru1 h1 (l.erase p) ∧
      (∀ q, q ∈ l.erase p ↔ q ∈ l ∧ q ≠ p) ∧ (l.erase p).Sublist l ∧
      h1.length = h.length ∧ h1.map Item.entry = h.map Item.entry ∧
      nextOf h1 p = none ∧ prevOf h1 p = none ∧
      lru1.head = (if lru.head = some p then prevOf h p else lru.head) ∧
      lru1.tail = (if lru.tail = some p then nextOf h p else lru.tail) ∧
      (l = [p] → lru1.head = none ∧ lru1.tail = none)) ∧
    (l = [] → lru.PopFront h = some (lru, h, none)) ∧
    (∀ p r, l = p :: r →
      ∃ lru1 h1, lru.PopFront h = some (lru1, h1, some p) ∧ Linked lru1 h1 r ∧
        h1.length = h.length ∧ h1.map Item.entry = h.map Item.entry ∧
        nextOf h1 p = none ∧ prevOf h1 p = none) ∧
    (∀ q, q ∉ l → q < h.length →
      ∃ lru1 h1, lru.PushBack h q = some (lru1, h1) ∧ Linked lru1 h1 (l ++ [q])) := by
  refine ⟨?_, ?_, ?_, ?_⟩
  · intro p hp
    obtain ⟨lru1, h1, e1, len1, d1, hl1, hn, hv, hh, ht⟩ := Linked_erase_ends hl hp
    refine ⟨lru1, h1, e1, hl1, ?_, List.erase_sublist p l, len1, d1, hn, hv, hh, ht, ?_⟩
    · intro q
      rw [hl.nodup.mem_erase_iff]
      exact ⟨fun ⟨a, b⟩ => ⟨b, a⟩, fun ⟨a, b⟩ => ⟨b, a⟩⟩
    · intro e
      rw [e] at hl1
      simp only [List.erase_cons_head] at hl1
      exact ⟨by rw [hl1.head_eq]; rfl, by rw [hl1.tail_eq]; rfl⟩
  · intro e
    have hh : lru.head = none := by rw [hl.head_eq, e]; rfl
    simp [LRU.PopFront, hh]
  · intro p r e
    have hp : p ∈ l := by rw [e]; exact List.mem_cons_self p r
    have hh : lru.head = some p := by rw [hl.head_eq, e]; rfl
    obtain ⟨lru1, h1, e1, len1, d1, hl1, hn, hv, _, _⟩ := Linked_erase_ends hl hp
    have her : l.erase p = r := by rw [e]; simp
    rw [her] at hl1
    exact ⟨lru1, h1, by simp [LRU.PopFront, hh, e1], hl1, len1, d1, hn, hv⟩
  · intro q hq hqh
    obtain ⟨lru1, h1, e1, _, _, hl1⟩ := Linked_pushBack hl hq hqh
    exact ⟨lru1, h1, e1, hl1⟩

/-- The queue of `TestCacheLRUUpdates` before its last `StoreKey`, items 2, 0,
3: `PopFront` returns item 2 and leaves 0, 3; `Erase` of the middle item 0
leaves 2, 3 with head and tail as they were. -/
theorem C29_erase_pop_witness :
    (stateAfter 39 [StoreKey key1, StoreKey key2, StoreKey key3, Op.get key1,
        StoreKey key4]).recency = [2, 0, 3] ∧
    (∃ lru1 h1,
      (stateAfter 39 [StoreKey key1, StoreKey key2, StoreKey key3, Op.get key1,
          StoreKey key4]).lru.PopFront
        (stateAfter 39 [StoreKey key1, StoreKey key2, StoreKey key3, Op.get key1,
          StoreKey key4]).heap = some (lru1, h1, some 2) ∧
      Linked lru1 h1 [0, 3] ∧
      h1.length =
        (stateAfter 39 [StoreKey key1, StoreKey key2, StoreKey key3, Op.get key1,
          StoreKey key4]).heap.length ∧
      h1.map Item.entry =
        (stateAfter 39 [StoreKey key1, StoreKey key2, StoreKey key3, Op.get key1,
          StoreKey key4]).heap.map Item.entry ∧
      nextOf h1 2 = none ∧ prevOf h1 2 = none) ∧
    ((stateAfter 39 [StoreKey key1, StoreKey key2, StoreKey key3, Op.get key1,
        StoreKey key4]).lru.Erase
      (stateAfter 39 [StoreKey key1, StoreKey key2, StoreKey key3, Op.get key1,
        StoreKey key4]).heap 0).map (fun r => (r.1, walk r.2 4 r.1.head)) =
      some ({ head := some 2, tail := some 3 }, [2, 3]) :=
  ⟨by decide,
    (C29_erase_pop
      (stateAfter 39 [StoreKey key1, StoreKey key2, StoreKey key3, Op.get key1,
        StoreKey key4]).lru
      (stateAfter 39 [StoreKey key1, StoreKey key2, StoreKey key3, Op.get key1,
        StoreKey key4]).heap
      [2, 0, 3]
      (Reachable_inv (reachable_stateAfter 39
        [StoreKey key1, StoreKey key2, StoreKey key3, Op.get key1, StoreKey key4]
        (by decide) (by decide))).1.linked).2.2.1 2 [0, 3] rfl,
    by decide⟩

/-- C30: in every cache state reachable from `NewCache` by `Get`, `Set` and
`Delete`, a `Set` (the bytes resident plus the new entry below `2 ^ 64`)
returns, so its eviction loop has terminated within its fuel without a nil
dereference, and the state it returns is within the budget; a `Set` that
stores enters the loop in a represented state.  On every represented state
`s` with queue `l`: if `curBytes > maxBytes` the queue is not empty, `head`
is not nil, `PopFront` returns the first item, not nil, the item's size is
positive and at most `curBytes`, one pass of the loop body leaves a
represented state with strictly fewer bytes, and the loop goes on from there;
if `curBytes <= maxBytes` the loop exits with `s`; and `evictOverflow`
returns with `curBytes <= maxBytes`. -/
theorem C30_eviction_terminates (c : Cache) (hc : Reachable c) (k v f : List Byte) (cas : Nat)
    (hfits : c.SetFits k v) :
    (∃ c1 ver st, c.Set k v f cas = some (c1, ver, st) ∧ c1.curBytes ≤ c1.maxBytes ∧
      (st ≠ STATUS_OK → c1 = c) ∧
      (st = STATUS_OK →
        ∃ (c0 s : Cache) (l1 : List Nat), c.Set k v f cas = c0.store k v f ∧
          c0.beforeEvict k v f = some s ∧ s.Rep l1 ∧ s.evictOverflow = some c1)) ∧
    (∀ (s : Cache) (l : List Nat), s.Rep l →
      (s.curBytes > s.maxBytes →
        l ≠ [] ∧ s.lru.head = l.head? ∧ s.lru.head ≠ none ∧
        ∃ p lru1 h1 it s1,
          s.lru.PopFront s.heap = some (lru1, h1, some p) ∧ h1[p]? = some it ∧
          0 < it.Size ∧ it.Size ≤ s.curBytes ∧
          s.evictBody = some s1 ∧ s1.curBytes = s.curBytes - it.Size ∧
          s1.curBytes < s.curBytes ∧ s1.Rep l.tail ∧
          ∀ fuel, s.evictLoop (fuel + 1) = s1.evictLoop fuel) ∧
      (s.curBytes ≤ s.maxBytes → ∀ fuel, s.evictLoop (fuel + 1) = some s) ∧
      ∃ s2, s.evictOverflow = some s2 ∧ s2.curBytes ≤ s2.maxBytes ∧
        s2.Rep (evictList (sizeAt s.heap) s.maxBytes l)) := by
  obtain ⟨hr, hle⟩ := Reachable_inv hc
  constructor
  · obtain ⟨c1, ver, st, es, hcase⟩ := Set_total hr k v f cas hfits
    refine ⟨c1, ver, st, es, ?_, ?_, ?_⟩
    · rcases hcase with ⟨_, _, hz, _⟩ | ⟨_, _, hz, _⟩ | ⟨_, _, _, hle1, _⟩
      · rw [hz]; exact hle
      · rw [hz]; exact hle
      · exact hle1
    · intro hne
      rcases hcase with ⟨_, _, hz, _⟩ | ⟨_, _, hz, _⟩ | ⟨hz, _⟩
      · exact hz
      · exact hz
      · exact absurd hz hne
    · intro hok
      rw [hok] at es
      obtain ⟨c0, s, l1, h1, h2, h3, _, h5⟩ := Set_enters_loop hr k v f cas hfits es
      exact ⟨c0, s, l1, h1, h2, h3, h5⟩
  · intro s l hrs
    refine ⟨?_, ?_, ?_⟩
    · intro hgt
      obtain ⟨p, r, hl, hhead, lru1, h1, it, hpop, hit, hpos, hsz, s1, hbody, hcur, hlt, _, hr1⟩ :=
        evictBody_spec hrs hgt
      refine ⟨by rw [hl]; simp, hrs.linked.head_eq, by rw [hhead]; simp,
        p, lru1, h1, it, s1, hpop, hit, hpos, hsz, hbody, hcur, hlt, by rw [hl]; exact hr1, ?_⟩
      intro fuel
      rw [evictLoop_succ, if_pos hgt, hbody, Option.some_bind]
    · intro hle2 fuel
      rw [evictLoop_succ, if_neg (by omega)]
    · have hfuel : l.length < s.heap.length + 1 := by
        have := Linked_length_le hrs.linked
        omega
      obtain ⟨s2, e2, hr2, hle2, _⟩ := evictLoop_spec _ s l hrs hfuel
      exact ⟨s2, e2, hle2, hr2⟩

/-- The step of `TestCacheLRUUpdates` that evicts: with key1, key2, key3
resident in a budget of 39 bytes, the `Set` of key4 returns within the
budget. -/
theorem C30_eviction_terminates_witness :
    (∃ c1 ver st,
      (stateAfter 39 [StoreKey key1, StoreKey key2, StoreKey key3]).Set key4 value flag 0 =
        some (c1, ver, st) ∧
      c1.curBytes ≤ c1.maxBytes ∧
      (st ≠ STATUS_OK → c1 = stateAfter 39 [StoreKey key1, StoreKey key2, StoreKey key3]) ∧
      (st = STATUS_OK →
        ∃ (c0 s : Cache) (l1 : List Nat),
          (stateAfter 39 [StoreKey key1, StoreKey key2, StoreKey key3]).Set key4 value flag 0 =
            c0.store key4 value flag ∧
          c0.beforeEvict key4 value flag = some s ∧ s.Rep l1 ∧ s.evictOverflow = some c1)) ∧
    ((stateAfter 39 [StoreKey key1, StoreKey key2, StoreKey key3]).beforeEvict key4 value
        flag).map (fun s => (s.curBytes, s.maxBytes, s.recency)) = some (52, 39, [0, 1, 2, 3]) ∧
    ((stateAfter 39 [StoreKey key1, StoreKey key2, StoreKey key3]).Set key4 value flag 0).map
        (fun r => (r.1.curBytes, r.1.recency)) = some (39, [1, 2, 3]) :=
  ⟨(C30_eviction_terminates (stateAfter 39 [StoreKey key1, StoreKey key2, StoreKey key3])
      (reachable_stateAfter 39 [StoreKey key1, StoreKey key2, StoreKey key3]
        (by decide) (by decide)) key4 value flag 0 (by decide)).1,
    by decide, by decide⟩

/-- C31: for every header accepted by `CheckValidRequest` (fields within their
Go types) and every body of exactly `TotalLength` bytes, the three slicings of
the session loop are in bounds, so none panics, and partition the body:
`extras` is the first `ExtrasLength` bytes, `key` the next `KeyLength` bytes,
`value` the remaining bytes, `extras ++ key ++ value = body`, and `len(value)`
is `BodyLength()`, which is `TotalLength - ExtrasLength - KeyLength` with
neither `uint32` subtraction going below zero.  When the body is on the
stream and is at most 1048576 bytes, these slices are what the pass of the
session loop hands to the handler of the opcode. -/
theorem C31_body_slicing (h : Header) (body : List Byte) (hr : h.InRange)
    (hvalid : h.CheckValidRequest = none) (hbody : body.length = h.TotalLength) :
    sliceTo body h.ExtrasLength = some (body.take h.ExtrasLength) ∧
    ((sliceFrom body h.ExtrasLength).bind fun t => sliceTo t h.KeyLength) =
      some ((body.drop h.ExtrasLength).take h.KeyLength) ∧
    ((sliceFrom body h.ExtrasLength).bind fun t => sliceFrom t h.KeyLength) =
      some ((body.drop h.ExtrasLength).drop h.KeyLength) ∧
    (body.take h.ExtrasLength).length = h.ExtrasLength ∧
    ((body.drop h.ExtrasLength).take h.KeyLength).length = h.KeyLength ∧
    ((body.drop h.ExtrasLength).drop h.KeyLength).length = h.BodyLength ∧
    body.take h.ExtrasLength ++ (body.drop h.ExtrasLength).take h.KeyLength ++
      (body.drop h.ExtrasLength).drop h.KeyLength = body ∧
    h.ExtrasLength ≤ h.TotalLength ∧ h.KeyLength ≤ h.TotalLength - h.ExtrasLength ∧
    h.BodyLength = h.TotalLength - h.ExtrasLength - h.KeyLength ∧
    h.ExtrasLength + h.KeyLength + h.BodyLength = h.TotalLength ∧
    (∀ (client : ClientConn) (req0 : Header) (hb rest : List Byte),
      client.input = hb ++ (body ++ rest) → decodeHeader hb = some h →
      h.TotalLength ≤ 1048576 →
      client.iteration req0 =
        (if h.Opcode = CMD_GET then
            ClientConn.handleGet { cache := client.cache, input := rest, output := client.output }
              h (body.take h.ExtrasLength) ((body.drop h.ExtrasLength).take h.KeyLength)
              ((body.drop h.ExtrasLength).drop h.KeyLength)
          else if h.Opcode = CMD_SET then
            ClientConn.handleSet { cache := client.cache, input := rest, output := client.output }
              h (body.take h.ExtrasLength) ((body.drop h.ExtrasLength).take h.KeyLength)
              ((body.drop h.ExtrasLength).drop h.KeyLength)
          else if h.Opcode = CMD_DELETE then
            ClientConn.handleDelete
              { cache := client.cache, input := rest, output := client.output }
              h (body.take h.ExtrasLength) ((body.drop h.ExtrasLength).take h.KeyLength)
              ((body.drop h.ExtrasLength).drop h.KeyLength)
          else
            ClientConn.respond { cache := client.cache, input := rest, output := client.output }
              h STATUS_UNKNOWN_COMMAND 0).map fun c => (c, h, true)) := by
  obtain ⟨_, hsum⟩ := (CheckValidRequest_iff h hr).2.mp hvalid
  obtain ⟨_, _, hkl, hel, _, _, htl, _, _⟩ := hr
  obtain ⟨s1, s2, s3⟩ := slices_eq body h.ExtrasLength h.KeyLength (by omega)
  have hbl : h.BodyLength = h.TotalLength - h.ExtrasLength - h.KeyLength := by
    unfold Header.BodyLength
    rw [Nat.mod_eq_of_lt (by omega : h.ExtrasLength < 2 ^ 32),
      Nat.mod_eq_of_lt (by omega : h.KeyLength < 2 ^ 32),
      sub32_eq (by omega) htl, sub32_eq (by omega) (by omega)]
  refine ⟨s1, s2, s3, ?_, ?_, ?_, ?_, by omega, by omega, hbl, by omega, ?_⟩
  · rw [List.length_take]; omega
  · rw [List.length_take, List.length_drop]; omega
  · rw [List.length_drop, List.length_drop, hbl]; omega
  · rw [List.append_assoc, List.take_append_drop, List.take_append_drop]
  · intro client req0 hb rest hin hd hsmall
    exact iteration_dispatch client req0 h hb body rest hin hd hvalid hsmall hbody

/-- The `SET` of `foo=bar`: 8 bytes of extras, the key `foo`, the value
`bar`, 14 bytes in all. -/
theorem C31_body_slicing_witness :
    sliceTo ([0, 0, 0, 0, 0, 0, 0, 0, 102, 111, 111, 98, 97, 114] : List Byte) 8 =
      some [0, 0, 0, 0, 0, 0, 0, 0] ∧
    ((sliceFrom ([0, 0, 0, 0, 0, 0, 0, 0, 102, 111, 111, 98, 97, 114] : List Byte) 8).bind
      fun t => sliceTo t 3) = some [102, 111, 111] ∧
    ((sliceFrom ([0, 0, 0, 0, 0, 0, 0, 0, 102, 111, 111, 98, 97, 114] : List Byte) 8).bind
      fun t => sliceFrom t 3) = some [98, 97, 114] ∧
    Header.BodyLength
      { Magic := 0x80, Opcode := 1, KeyLength := 3, ExtrasLength := 8, DataType := 0,
        Status := 0, TotalLength := 14, Opaque := 10, Cas := 0 } = 3 ∧
    (([0, 0, 0, 0, 0, 0, 0, 0, 102, 111, 111, 98, 97, 114] : List Byte).drop 8).drop 3 =
      [98, 97, 114] ∧
    ((([0, 0, 0, 0, 0, 0, 0, 0, 102, 111, 111, 98, 97, 114] : List Byte).drop 8).drop
        3).length =
      Header.BodyLength
        { Magic := 0x80, Opcode := 1, KeyLength := 3, ExtrasLength := 8, DataType := 0,
          Status := 0, TotalLength := 14, Opaque := 10, Cas := 0 } :=
  ⟨by decide, by decide, by decide, by decide, by decide,
    (C31_body_slicing
      { Magic := 0x80, Opcode := 1, KeyLength := 3, ExtrasLength := 8, DataType := 0,
        Status := 0, TotalLength := 14, Opaque := 10, Cas := 0 }
      [0, 0, 0, 0, 0, 0, 0, 0, 102, 111, 111, 98, 97, 114]
      (by decide) (by decide) (by decide)).2.2.2.2.2.1⟩

/-- C32: every response the server writes is a well-framed message, and every
branch that answers does write.  `WriteResponse` writes the 24 bytes
`Serialize` gives for the header, then the extras, the key and the value.  On
a reachable cache (budget plus 1048576 below `2 ^ 64`) whose budget is below
`2 ^ 32` or whose resident values are all shorter than `2 ^ 32 - 4` bytes, as
in a new cache, a pass of the session loop returns on every input and keeps
the cache so.  It writes nothing, leaves the cache alone and ends the session
exactly when the stream has fewer than 24 bytes, the 24 bytes are not a valid
request header, or the stream ends before a body of at most 1048576 bytes
does.  In every other case (body too large, or the whole body on the stream)
it writes exactly the 24 bytes of a header `R`, which decode to `R`, then
extras, key and value, where `R` is what `NewResponse` builds from these
segments and the opcode and opaque of the request, and its `ExtrasLength`,
`KeyLength` and `TotalLength` are their actual lengths: no conversion to
`uint8`, `uint16` or `uint32` truncates, and the pass writes
`24 + TotalLength` bytes. -/
theorem C32_well_framed (client : ClientConn) (req0 : Header) (hc : Reachable client.cache)
    (hmax : client.cache.maxBytes + 1048576 < 2 ^ 64)
    (hval : client.cache.maxBytes < 2 ^ 32 ∨
      ∀ e ∈ client.cache.entries, e.value.length + 4 < 2 ^ 32) :
    (∀ (conn : List Byte) (hdr : Header) (extras key value : List Byte),
      WriteResponse conn hdr extras key value =
        some (conn ++ encodeHeader hdr ++ extras ++ key ++ value) ∧
      hdr.Serialize (List.replicate 24 0) = some (encodeHeader hdr) ∧
      (encodeHeader hdr).length = 24) ∧
    ∃ c1 req1 goes, client.iteration req0 = some (c1, req1, goes) ∧ Reachable c1.cache ∧
      c1.cache.maxBytes = client.cache.maxBytes ∧
      (∀ e ∈ c1.cache.entries, e.value.length + 4 < 2 ^ 32) ∧
      ((c1.output = client.output ∧ c1.cache = client.cache ∧ goes = false ∧
          (client.input.length < 24 ∨
            ∃ hb more, client.input = hb ++ more ∧ decodeHeader hb = some req1 ∧
              (req1.CheckValidRequest ≠ none ∨
                (req1.TotalLength ≤ 1048576 ∧ more.length < req1.TotalLength)))) ∨
        ∃ hb more, client.input = hb ++ more ∧ decodeHeader hb = some req1 ∧
          req1.CheckValidRequest = none ∧
          ((1048576 < req1.TotalLength ∧ goes = false) ∨
            (req1.TotalLength ≤ 1048576 ∧ req1.TotalLength ≤ more.length ∧ goes = true)) ∧
          ∃ R extras key value,
            c1.output = client.output ++ encodeHeader R ++ extras ++ key ++ value ∧
            decodeHeader (encodeHeader R) = some R ∧
            R.ExtrasLength = extras.length ∧ R.KeyLength = key.length ∧
            R.TotalLength = extras.length + key.length + value.length ∧
            c1.output.length = client.output.length + 24 + R.TotalLength ∧
            extras.length < 2 ^ 8 ∧ key.length < 2 ^ 16 ∧
            value.length + extras.length + key.length < 2 ^ 32 ∧
            ∃ st ver, st < 2 ^ 16 ∧ R.Status = st ∧
              R = NewResponse req1.Opcode st key value extras req1.Opaque ver) := by
  have hval2 : ∀ e ∈ client.cache.entries, e.value.length + 4 < 2 ^ 32 := by
    rcases hval with hb | hv
    · exact Reachable_values_lt hc hb
    · exact hv
  have hframe : ∀ (h : Header) (st : Status) (kk vv xx : List Byte) (ver : Nat) (out : List Byte),
      h.InRange → ver < U64 → st < 2 ^ 16 → xx.length < 2 ^ 8 → kk.length < 2 ^ 16 →
      vv.length + xx.length + kk.length < 2 ^ 32 →
      out = client.output ++ encodeHeader (NewResponse h.Opcode st kk vv xx h.Opaque ver) ++
        xx ++ kk ++ vv →
      ∃ R extras key value,
        out = client.output ++ encodeHeader R ++ extras ++ key ++ value ∧
        decodeHeader (encodeHeader R) = some R ∧
        R.ExtrasLength = extras.length ∧ R.KeyLength = key.length ∧
        R.TotalLength = extras.length + key.length + value.length ∧
        out.length = client.output.length + 24 + R.TotalLength ∧
        extras.length < 2 ^ 8 ∧ key.length < 2 ^ 16 ∧
        value.length + extras.length + key.length < 2 ^ 32 ∧
        ∃ st ver, st < 2 ^ 16 ∧ R.Status = st ∧
          R = NewResponse h.Opcode st key value extras h.Opaque ver := by
    intro h st kk vv xx ver out hrange hver hst hx hk ht ho
    have e1 : (NewResponse h.Opcode st kk vv xx h.Opaque ver).ExtrasLength = xx.length :=
      Nat.mod_eq_of_lt hx
    have e2 : (NewResponse h.Opcode st kk vv xx h.Opaque ver).KeyLength = kk.length :=
      Nat.mod_eq_of_lt hk
    have e3 : (NewResponse h.Opcode st kk vv xx h.Opaque ver).TotalLength =
        xx.length + kk.length + vv.length := by
      show (vv.length + xx.length + kk.length) % 2 ^ 32 = _
      rw [Nat.mod_eq_of_lt ht]; omega
    have e4 : (NewResponse h.Opcode st kk vv xx h.Opaque ver).Status = st :=
      Nat.mod_eq_of_lt hst
    refine ⟨NewResponse h.Opcode st kk vv xx h.Opaque ver, xx, kk, vv, ho,
      decode_encode _ (NewResponse_InRange _ _ _ _ _ _ _ hrange.2.1
        hrange.2.2.2.2.2.2.2.1 hver),
      e1, e2, e3, ?_, hx, hk, ht, st, ver, hst, e4, rfl⟩
    rw [ho, e3]
    simp only [List.length_append, encodeHeader_length]
    omega
  constructor
  · intro conn hdr extras key value
    exact ⟨WriteResponse_eq conn hdr extras key value,
      Serialize_eq_encode hdr _ (by simp), encodeHeader_length hdr⟩
  · rcases iteration_split client req0 with ⟨hshort, hit⟩ |
      ⟨hb, more, h, hin, hd, hcases⟩
    · exact ⟨_, req0, false, hit, hc, rfl, hval2, Or.inl ⟨rfl, rfl, rfl, Or.inl hshort⟩⟩
    · have hr := decodeHeader_InRange hd
      rcases hcases with ⟨hv, hit⟩ | ⟨hv, hbig, hit⟩ | ⟨hv, hsmall, hbody, hit⟩ |
        ⟨hv, hsmall, hfull, hit⟩
      · exact ⟨_, h, false, hit, hc, rfl, hval2,
          Or.inl ⟨rfl, rfl, rfl, Or.inr ⟨hb, more, hin, hd, Or.inl hv⟩⟩⟩
      · exact ⟨_, h, false, hit, hc, rfl, hval2, Or.inr ⟨hb, more, hin, hd, hv,
          Or.inl ⟨hbig, rfl⟩,
          hframe h STATUS_VALUE_TOO_LARGE [] [] [] 0 _ hr (by decide) (by decide) (by decide)
            (by decide) (by decide) (by simp)⟩⟩
      · exact ⟨_, h, false, hit, hc, rfl, hval2,
          Or.inl ⟨rfl, rfl, rfl, Or.inr ⟨hb, more, hin, hd, Or.inr ⟨hsmall, hbody⟩⟩⟩⟩
      · obtain ⟨_, hsum⟩ := (CheckValidRequest_iff h hr).2.mp hv
        have hm : MAX_VALUE_SIZE = 1048576 := by decide
        obtain ⟨c, st, kk, vv, xx, ver, hh, hreach, hmb, hver, hst, hx, hk, ht, hent⟩ :=
          dispatch_framed
            { cache := client.cache, input := more.drop h.TotalLength,
              output := client.output }
            h ((more.take h.TotalLength).take h.ExtrasLength)
            (((more.take h.TotalLength).drop h.ExtrasLength).take h.KeyLength)
            (((more.take h.TotalLength).drop h.ExtrasLength).drop h.KeyLength) hc
            (by
              intro h8
              show client.cache.maxBytes + entrySize _ _ < U64
              unfold entrySize U64
              simp only [List.length_take, List.length_drop] at h8 ⊢
              omega)
            hval2
        rw [hh] at hit
        refine ⟨_, h, true, hit, hreach, hmb, ?_, Or.inr ⟨hb, more, hin, hd, hv,
          Or.inr ⟨hsmall, hfull, rfl⟩, hframe h st kk vv xx ver _ hr hver hst hx hk ht rfl⟩⟩
        intro e he
        rcases hent e he with h3 | ⟨_, h3⟩
        · exact hval2 e h3
        · rw [h3]
          simp only [List.length_take, List.length_drop]
          omega

/-- Scenario 1 of the spec: after `foo=bar` was set, the `GET` of `foo` is
answered with 24 header bytes, the 4 flag bytes and `bar`: extras length 4,
key length 0, total length 7, 31 bytes in all. -/
theorem C32_well_framed_witness :
    ((∀ (conn : List Byte) (hdr : Header) (extras key value : List Byte),
      WriteResponse conn hdr extras key value =
        some (conn ++ encodeHeader hdr ++ extras ++ key ++ value) ∧
      hdr.Serialize (List.replicate 24 0) = some (encodeHeader hdr) ∧
      (encodeHeader hdr).length = 24) ∧
    ∃ c1 req1 goes,
      ClientConn.iteration
        { cache := stateAfter 100 [Op.set [102, 111, 111] [98, 97, 114] [0, 0, 0, 0] 0],
          input := [128, 0, 0, 3, 0, 0, 0, 0, 0, 0, 0, 3, 0, 0, 0, 7, 0, 0, 0, 0, 0, 0, 0, 0,
            102, 111, 111],
          output := [] } Header.zero = some (c1, req1, goes) ∧
      Reachable c1.cache ∧
      c1.cache.maxBytes =
        (stateAfter 100 [Op.set [102, 111, 111] [98, 97, 114] [0, 0, 0, 0] 0]).maxBytes ∧
      (∀ e ∈ c1.cache.entries, e.value.length + 4 < 2 ^ 32) ∧
      ((c1.output = [] ∧
          c1.cache = stateAfter 100 [Op.set [102, 111, 111] [98, 97, 114] [0, 0, 0, 0] 0] ∧
          goes = false ∧
          (([128, 0, 0, 3, 0, 0, 0, 0, 0, 0, 0, 3, 0, 0, 0, 7, 0, 0, 0, 0, 0, 0, 0, 0,
              102, 111, 111] : List Byte).length < 24 ∨
            ∃ hb more,
              ([128, 0, 0, 3, 0, 0, 0, 0, 0, 0, 0, 3, 0, 0, 0, 7, 0, 0, 0, 0, 0, 0, 0, 0,
                102, 111, 111] : List Byte) = hb ++ more ∧
              decodeHeader hb = some req1 ∧
              (req1.CheckValidRequest ≠ none ∨
                (req1.TotalLength ≤ 1048576 ∧ more.length < req1.TotalLength)))) ∨
        ∃ hb more,
          ([128, 0, 0, 3, 0, 0, 0, 0, 0, 0, 0, 3, 0, 0, 0, 7, 0, 0, 0, 0, 0, 0, 0, 0,
            102, 111, 111] : List Byte) = hb ++ more ∧
          decodeHeader hb = some req1 ∧
          req1.CheckValidRequest = none ∧
          ((1048576 < req1.TotalLength ∧ goes = false) ∨
            (req1.TotalLength ≤ 1048576 ∧ req1.TotalLength ≤ more.length ∧ goes = true)) ∧
          ∃ R extras key value,
            c1.output = [] ++ encodeHeader R ++ extras ++ key ++ value ∧
            decodeHeader (encodeHeader R) = some R ∧
            R.ExtrasLength = extras.length ∧ R.KeyLength = key.length ∧
            R.TotalLength = extras.length + key.length + value.length ∧
            c1.output.length = ([] : List Byte).length + 24 + R.TotalLength ∧
            extras.length < 2 ^ 8 ∧ key.length < 2 ^ 16 ∧
            value.length + extras.length + key.length < 2 ^ 32 ∧
            ∃ st ver, st < 2 ^ 16 ∧ R.Status = st ∧
              R = NewResponse req1.Opcode st key value extras req1.Opaque ver)) ∧
    (ClientConn.iteration
        { cache := stateAfter 100 [Op.set [102, 111, 111] [98, 97, 114] [0, 0, 0, 0] 0],
          input := [128, 0, 0, 3, 0, 0, 0, 0, 0, 0, 0, 3, 0, 0, 0, 7, 0, 0, 0, 0, 0, 0, 0, 0,
            102, 111, 111],
          output := [] } Header.zero).map (fun r => (r.1.output, r.1.output.length)) =
      some ([129, 0, 0, 0, 4, 0, 0, 0, 0, 0, 0, 7, 0, 0, 0, 7, 0, 0, 0, 0, 0, 0, 0, 1,
        0, 0, 0, 0, 98, 97, 114], 31) :=
  ⟨C32_well_framed
      { cache := stateAfter 100 [Op.set [102, 111, 111] [98, 97, 114] [0, 0, 0, 0] 0],
        input := [128, 0, 0, 3, 0, 0, 0, 0, 0, 0, 0, 3, 0, 0, 0, 7, 0, 0, 0, 0, 0, 0, 0, 0,
          102, 111, 111],
        output := [] } Header.zero
      (reachable_stateAfter 100 [Op.set [102, 111, 111] [98, 97, 114] [0, 0, 0, 0] 0]
        (by decide) (by decide))
      (by decide) (Or.inl (by decide)),
    by decide⟩

end Memcached
